import Mathlib


/-!
# quick_floyd_warshall: blocked recursive Floyd–Warshall

A shallow embedding of `quick_floyd_warshall/qfw.h` and of the scalar and lane-wise
`vector_t` of `internal/vectorize.h`, followed by the properties of the solver.

Conventions of the embedding

* An element of type `T` (`int16_t`, `int32_t`, `int64_t`) is an `Int`; the bit width `w`
  is a parameter and every `T` addition and negation is reduced by `wrapT w`.
* Memory is a function from element offsets to elements.  A pointer is a `Nat` offset
  into the buffer it points into; the null pointer of the block table is `none`.
* `int` expressions whose value can leave the 32-bit range are checked with `intOK`;
  signed overflow, a failed `assert` and a null dereference give `none`.
-/

namespace QFW

/-! ## Machine arithmetic -/

/-- Block size, `static constexpr int B = 64`. -/
def B : Nat := 64

/-- Value of the `w`-bit two's complement pattern of `x`. -/
def wrapT (w : Nat) (x : Int) : Int := (x + 2 ^ (w - 1)) % 2 ^ w - 2 ^ (w - 1)

/-- Largest value of `T`, `std::numeric_limits<T>::max()`. -/
def maxT (w : Nat) : Int := 2 ^ (w - 1) - 1

/-- Sentinel `INF = std::numeric_limits<T>::max() / 2`. -/
def INF (w : Nat) : Int := maxT w / 2

/-- Largest value of `int`. -/
def INT_MAX : Nat := 2147483647

/-- A non-negative `int` expression is evaluated without signed overflow. -/
def intOK (x : Nat) : Prop := x ≤ INT_MAX

instance (x : Nat) : Decidable (intOK x) := by unfold intOK; infer_instance

/-- Value of the 32-bit two's complement pattern of `x`: what an `int` holds after an
operation on a machine that wraps. -/
def wrapInt (x : Int) : Int := (x + 2 ^ 31) % 2 ^ 32 - 2 ^ 31

/-- The `int` product `(B * n_blocks) * (B * n_blocks)` of `run`, which is then converted
to `size_t` and multiplied by `sizeof(T)`, as a wrapping machine evaluates it. -/
def reordered_needed_elems (src_n : Nat) : Int :=
  let n_blocks : Int := wrapInt ((src_n + B - 1 : Nat) / B)
  wrapInt (wrapInt (B * n_blocks) * wrapInt (B * n_blocks))

/-! ## Memory and loops -/

/-- Memory: element offset to element. -/
abbrev Mem := Nat → Int

/-- Block pointer table: entry index to block pointer, `none` for `nullptr`. -/
abbrev Table := Nat → Option Nat

/-- Single element write `m[p] = v`. -/
def store (m : Mem) (p : Nat) (v : Int) : Mem := fun a => if a = p then v else m a

/-- Body `f 0`, then `f 1`, ..., then `f (cnt - 1)`: `for (t = 0; t < cnt; t++)`. -/
def loop {σ : Type} : Nat → (Nat → σ → σ) → σ → σ
  | 0, _, s => s
  | c + 1, f, s => f c (loop c f s)

/-- Counting loop with a stride: `for (t = 0; t < n; t += step)`. -/
def forStep {σ : Type} (n step : Nat) (f : Nat → σ → σ) (s : σ) : σ :=
  loop ((n + step - 1) / step) (fun t => f (t * step)) s

/-- Counting loop from `lo` up to `hi`: `for (t = lo; t < hi; t++)`. -/
def loopRange {σ : Type} (lo hi : Nat) (f : Nat → σ → σ) (s : σ) : σ :=
  loop (hi - lo) (fun t => f (lo + t)) s

/-- Counting loop whose body can fail. -/
def loopM {σ : Type} : Nat → (Nat → σ → Option σ) → σ → Option σ
  | 0, _, s => some s
  | c + 1, f, s => (loopM c f s).bind (f c)

/-- Failing counting loop from `lo` up to `hi`. -/
def loopRangeM {σ : Type} (lo hi : Nat) (f : Nat → σ → Option σ) (s : σ) : Option σ :=
  loopM (hi - lo) (fun t => f (lo + t)) s

/-! ## `vector_t`: `L` lanes of `T`

`L = SIZE / sizeof(T)`; `L = 1` is `InstSet::DEFAULT`. -/

/-- Register contents: lane to element. -/
abbrev Vec := Nat → Int

namespace vector_t

/-- Constructor `vector_t(void *ptr)`: lane `l` is `ptr[l]`. -/
def load (m : Mem) (p : Nat) : Vec := fun l => m (p + l)

/-- Constructor `vector_t(T val)`: every lane is `val`. -/
def broadcast (x : Int) : Vec := fun _ => x

/-- Lane-wise `operator +`, wrapping in `T`. -/
def add (w : Nat) (v u : Vec) : Vec := fun l => wrapT w (v l + u l)

/-- Lane-wise `max` of two registers (the friend function `max`). -/
def vmax (v u : Vec) : Vec := fun l => max (v l) (u l)

/-- Method `chmax_store(ptr)`: `ptr[l] = v[l]` in the lanes `l < L` where `ptr[l] < v[l]`.
The scalar form tests and stores; the SSE form stores `max(v, load(ptr))` and the
AVX2/AVX512 forms store under the mask `v > load(ptr)`, which write the same values. -/
def chmax_store (L : Nat) (v : Vec) (m : Mem) (p : Nat) : Mem :=
  fun a => if p ≤ a ∧ a < p + L then (if m a < v (a - p) then v (a - p) else m a) else m a

end vector_t

open vector_t in
/-- Kernel `MaxPlusMul0`: tiles of 2 rows `i` and 2 pivots `k`. -/
def MaxPlusMul0 (w L : Nat) (m : Mem) (a b c : Nat) : Mem :=
  let n := B
  forStep n 2 (fun k => forStep n 2 (fun i m =>
    let coef00 := broadcast (m (b + ((i + 0) * n + (k + 0))))
    let coef01 := broadcast (m (b + ((i + 0) * n + (k + 1))))
    let coef10 := broadcast (m (b + ((i + 1) * n + (k + 0))))
    let coef11 := broadcast (m (b + ((i + 1) * n + (k + 1))))
    let aa := a + i * n
    let bb := c + k * n
    forStep n L (fun j m =>
      let t0 := load m (bb + j)
      let t1 := load m (bb + n + j)
      let m := chmax_store L (vmax (add w t0 coef00) (add w t1 coef01)) m (aa + j)
      chmax_store L (vmax (add w t0 coef10) (add w t1 coef11)) m (aa + n + j)) m)) m

open vector_t in
/-- Kernel `MaxPlusMul1`: tiles of 2 rows `i` and 4 pivots `k`. -/
def MaxPlusMul1 (w L : Nat) (m : Mem) (a b c : Nat) : Mem :=
  let n := B
  forStep n 4 (fun k => forStep n 2 (fun i m =>
    let coef00 := broadcast (m (b + ((i + 0) * n + (k + 0))))
    let coef01 := broadcast (m (b + ((i + 0) * n + (k + 1))))
    let coef02 := broadcast (m (b + ((i + 0) * n + (k + 2))))
    let coef03 := broadcast (m (b + ((i + 0) * n + (k + 3))))
    let coef10 := broadcast (m (b + ((i + 1) * n + (k + 0))))
    let coef11 := broadcast (m (b + ((i + 1) * n + (k + 1))))
    let coef12 := broadcast (m (b + ((i + 1) * n + (k + 2))))
    let coef13 := broadcast (m (b + ((i + 1) * n + (k + 3))))
    let aa := a + i * n
    let bb := c + k * n
    forStep n L (fun j m =>
      let t0 := load m (bb + j)
      let t1 := load m (bb + n + j)
      let t2 := load m (bb + n + n + j)
      let t3 := load m (bb + n + n + n + j)
      let m := chmax_store L
        (vmax (vmax (add w t0 coef00) (add w t1 coef01)) (vmax (add w t2 coef02) (add w t3 coef03)))
        m (aa + j)
      chmax_store L
        (vmax (vmax (add w t0 coef10) (add w t1 coef11)) (vmax (add w t2 coef12) (add w t3 coef13)))
        m (aa + n + j)) m)) m

open vector_t in
/-- Kernel `MaxPlusMul2`: tiles of 4 rows `i` and 2 pivots `k`. -/
def MaxPlusMul2 (w L : Nat) (m : Mem) (a b c : Nat) : Mem :=
  let n := B
  forStep n 2 (fun k => forStep n 4 (fun i m =>
    let coef00 := broadcast (m (b + ((i + 0) * n + (k + 0))))
    let coef01 := broadcast (m (b + ((i + 0) * n + (k + 1))))
    let coef10 := broadcast (m (b + ((i + 1) * n + (k + 0))))
    let coef11 := broadcast (m (b + ((i + 1) * n + (k + 1))))
    let coef20 := broadcast (m (b + ((i + 2) * n + (k + 0))))
    let coef21 := broadcast (m (b + ((i + 2) * n + (k + 1))))
    let coef30 := broadcast (m (b + ((i + 3) * n + (k + 0))))
    let coef31 := broadcast (m (b + ((i + 3) * n + (k + 1))))
    let aa := a + i * n
    let bb := c + k * n
    forStep n L (fun j m =>
      let t0 := load m (bb + j)
      let t1 := load m (bb + n + j)
      let m := chmax_store L (vmax (add w t0 coef00) (add w t1 coef01)) m (aa + j)
      let m := chmax_store L (vmax (add w t0 coef10) (add w t1 coef11)) m (aa + n + j)
      let m := chmax_store L (vmax (add w t0 coef20) (add w t1 coef21)) m (aa + n + n + j)
      chmax_store L (vmax (add w t0 coef30) (add w t1 coef31)) m (aa + n + n + n + j)) m)) m

open vector_t in
/-- Kernel `MaxPlusMul3`: tiles of 4 rows `i` and 4 pivots `k`. -/
def MaxPlusMul3 (w L : Nat) (m : Mem) (a b c : Nat) : Mem :=
  let n := B
  forStep n 4 (fun k => forStep n 4 (fun i m =>
    let coef00 := broadcast (m (b + ((i + 0) * n + (k + 0))))
    let coef01 := broadcast (m (b + ((i + 0) * n + (k + 1))))
    let coef02 := broadcast (m (b + ((i + 0) * n + (k + 2))))
    let coef03 := broadcast (m (b + ((i + 0) * n + (k + 3))))
    let coef10 := broadcast (m (b + ((i + 1) * n + (k + 0))))
    let coef11 := broadcast (m (b + ((i + 1) * n + (k + 1))))
    let coef12 := broadcast (m (b + ((i + 1) * n + (k + 2))))
    let coef13 := broadcast (m (b + ((i + 1) * n + (k + 3))))
    let coef20 := broadcast (m (b + ((i + 2) * n + (k + 0))))
    let coef21 := broadcast (m (b + ((i + 2) * n + (k + 1))))
    let coef22 := broadcast (m (b + ((i + 2) * n + (k + 2))))
    let coef23 := broadcast (m (b + ((i + 2) * n + (k + 3))))
    let coef30 := broadcast (m (b + ((i + 3) * n + (k + 0))))
    let coef31 := broadcast (m (b + ((i + 3) * n + (k + 1))))
    let coef32 := broadcast (m (b + ((i + 3) * n + (k + 2))))
    let coef33 := broadcast (m (b + ((i + 3) * n + (k + 3))))
    let aa := a + i * n
    let bb := c + k * n
    forStep n L (fun j m =>
      let t0 := load m (bb + j)
      let t1 := load m (bb + n + j)
      let t2 := load m (bb + n + n + j)
      let t3 := load m (bb + n + n + n + j)
      let m := chmax_store L
        (vmax (vmax (add w t0 coef00) (add w t1 coef01)) (vmax (add w t2 coef02) (add w t3 coef03)))
        m (aa + j)
      let m := chmax_store L
        (vmax (vmax (add w t0 coef10) (add w t1 coef11)) (vmax (add w t2 coef12) (add w t3 coef13)))
        m (aa + n + j)
      let m := chmax_store L
        (vmax (vmax (add w t0 coef20) (add w t1 coef21)) (vmax (add w t2 coef22) (add w t3 coef23)))
        m (aa + n + n + j)
      chmax_store L
        (vmax (vmax (add w t0 coef30) (add w t1 coef31)) (vmax (add w t2 coef32) (add w t3 coef33)))
        m (aa + n + n + n + j)) m)) m

open vector_t in
/-- Block update `FWI(a, b, c)` for `unroll_type = u`: the kernel when the three block
pointers are pairwise different, the serial in-place loop otherwise. -/
def FWI (w L u : Nat) (m : Mem) (a b c : Nat) : Mem :=
  if a ≠ b ∧ a ≠ c ∧ b ≠ c then
    let m := if u = 0 then MaxPlusMul0 w L m a b c else m
    let m := if u = 1 then MaxPlusMul1 w L m a b c else m
    let m := if u = 2 then MaxPlusMul2 w L m a b c else m
    let m := if u = 3 then MaxPlusMul3 w L m a b c else m
    m
  else
    let n := B
    loop n (fun k => loop n (fun i m =>
      let coef := broadcast (m (b + (i * n + k)))
      let aa := a + i * n
      let bb := c + k * n
      forStep n L (fun j m => chmax_store L (add w (load m (bb + j)) coef) m (aa + j)) m)) m

/-! ## Recursive driver -/

/-- The element loop of `transpose_copy` for one block pair:
`dst[x * B + y] = src[y * B + x]`. -/
def transposeBlock (m : Mem) (src dst : Nat) : Mem :=
  loop B (fun y => loop B (fun x m => store m (dst + (x * B + y)) (m (src + (y * B + x))))) m

/-- Function `transpose_copy(n, n_blocks, block_row_offset, block_column_offset, block_start)`.
A null block pointer is dereferenced when a table entry is `none`. -/
def transpose_copy (n n_blocks block_row_offset block_column_offset : Nat)
    (block_start : Table) (m : Mem) : Option Mem :=
  loopRangeM block_row_offset (min (block_row_offset + n) n_blocks) (fun i =>
    loopRangeM block_column_offset (min (block_column_offset + n) n_blocks) (fun j m =>
      match block_start (i * n_blocks + j), block_start (j * n_blocks + i) with
      | some src, some dst => some (transposeBlock m src dst)
      | _, _ => none)) m

/-- Function `FWR(n_blocks_power2, n_blocks, block_index0, block_index1, block_index2,
block_start, symmetric)` on the scratch memory `m`.  With `n_blocks_power2 = 0` the
source recurses without end, which is `none` here. -/
def FWR (w L u : Nat) (n_blocks_power2 n_blocks block_index0 block_index1 block_index2 : Nat)
    (block_start : Table) (symmetric : Bool) (m : Mem) : Option Mem :=
  if block_index0 ≥ n_blocks ∨ block_index1 ≥ n_blocks ∨ block_index2 ≥ n_blocks then some m
  else if n_blocks_power2 = 1 then
    match block_start (block_index0 * n_blocks + block_index2),
          block_start (block_index0 * n_blocks + block_index1),
          block_start (block_index1 * n_blocks + block_index2) with
    | some a, some b, some c => some (FWI w L u m a b c)
    | _, _, _ => none
  else if n_blocks_power2 = 0 then none
  else
    let half := n_blocks_power2 / 2
    if !symmetric then do
      let m ← FWR w L u half n_blocks block_index0 block_index1 block_index2 block_start false m
      let m ← FWR w L u half n_blocks block_index0 block_index1 (block_index2 + half) block_start false m
      let m ← FWR w L u half n_blocks (block_index0 + half) block_index1 block_index2 block_start false m
      let m ← FWR w L u half n_blocks (block_index0 + half) block_index1 (block_index2 + half) block_start false m
      let m ← FWR w L u half n_blocks (block_index0 + half) (block_index1 + half) (block_index2 + half) block_start false m
      let m ← FWR w L u half n_blocks (block_index0 + half) (block_index1 + half) block_index2 block_start false m
      let m ← FWR w L u half n_blocks block_index0 (block_index1 + half) (block_index2 + half) block_start false m
      FWR w L u half n_blocks block_index0 (block_index1 + half) block_index2 block_start false m
    else do
      let m ← FWR w L u half n_blocks block_index0 block_index1 block_index2 block_start true m
      let m ← FWR w L u half n_blocks block_index0 block_index1 (block_index2 + half) block_start false m
      let m ← transpose_copy half n_blocks block_index0 (block_index0 + half) block_start m
      let m ← FWR w L u half n_blocks (block_index0 + half) block_index1 (block_index2 + half) block_start false m
      let m ← FWR w L u half n_blocks (block_index0 + half) (block_index1 + half) (block_index2 + half) block_start true m
      let m ← FWR w L u half n_blocks (block_index0 + half) (block_index1 + half) block_index2 block_start false m
      let m ← transpose_copy half n_blocks (block_index0 + half) block_index0 block_start m
      FWR w L u half n_blocks block_index0 (block_index1 + half) block_index2 block_start false m
termination_by n_blocks_power2
decreasing_by all_goals (simp_wf; omega)

/-! ## Reorder -/

/-- The three memories `reorder` works on: the scratch `S` that `dst_head` points into,
the user matrix `M` that `src` points to, and the block pointer table. -/
structure RState where
  /-- Scratch buffer, offsets relative to the aligned pointer `reordered`. -/
  S : Mem
  /-- User matrix behind `src`. -/
  M : Mem
  /-- Block pointer table `block_start`. -/
  BP : Table

/-- Row `i` of the base case of `reorder` for the block at `dst_head`, with
`src_base = src + src_off`. -/
def reorderRow (w src_n dst_head src_off block_row block_column : Nat) (rev : Bool)
    (i : Nat) (st : RState) : RState :=
  if block_row * B + i < src_n then
    let length := min B (src_n - block_column * B)
    if !rev then
      let S := loop length (fun j S =>
        store S (dst_head + (i * B + j)) (wrapT w (-(st.M (src_off + (i * src_n + j)))))) st.S
      let S := loopRange length B (fun j S =>
        store S (dst_head + (i * B + j)) (wrapT w (-(INF w)))) S
      { st with S := S }
    else
      { st with M := loop length (fun j M =>
          store M (src_off + (i * src_n + j)) (wrapT w (-(st.S (dst_head + (i * B + j)))))) st.M }
  else
    if !rev then
      { st with S := loopRange (i * B) ((i + 1) * B) (fun t S =>
          store S (dst_head + t) (wrapT w (-(INF w)))) st.S }
    else st

/-- The `int` expressions of the base case of `reorder` stay in range: the source offset
`block_row * B * src_n + block_column * B` and every evaluated `i * src_n + j`.  (The
remaining `int` expressions of `reorder` are bounded by these and by `src_n + B - 1`.) -/
def reorderIntOK (src_n block_row block_column : Nat) : Prop :=
  intOK (block_row * B * src_n + block_column * B) ∧
  ∀ i, i < B → block_row * B + i < src_n →
    ∀ j, j < min B (src_n - block_column * B) → intOK (i * src_n + j)

instance (src_n block_row block_column : Nat) :
    Decidable (reorderIntOK src_n block_row block_column) := by
  unfold reorderIntOK; infer_instance

/-- Function `reorder(src_n, n_blocks_power2, dst_head, src, block_start, block_row,
block_column, rev)`: returns the advanced `dst_head` and the memories.  Signed overflow
of an `int` expression and the endless recursion of `n_blocks_power2 = 0` are `none`. -/
def reorder (w src_n : Nat) (n_blocks_power2 dst_head : Nat) (st : RState)
    (block_row block_column : Nat) (rev : Bool) : Option (Nat × RState) :=
  if ¬ intOK (src_n + B - 1) then none
  else
    let n_blocks := (src_n + B - 1) / B
    if block_row ≥ n_blocks ∨ block_column ≥ n_blocks then some (dst_head, st)
    else if n_blocks_power2 = 1 then
      if ¬ reorderIntOK src_n block_row block_column then none
      else
        let src_off := block_row * B * src_n + block_column * B
        let st := loop B (reorderRow w src_n dst_head src_off block_row block_column rev) st
        some (dst_head + B * B,
          { st with BP := fun t =>
              if t = block_row * n_blocks + block_column then some dst_head else st.BP t })
    else if n_blocks_power2 = 0 then none
    else
      let n_blocks_p2_half := n_blocks_power2 / 2
      do
        let r ← reorder w src_n n_blocks_p2_half dst_head st
          (block_row + 0 * n_blocks_p2_half) (block_column + 0 * n_blocks_p2_half) rev
        let r ← reorder w src_n n_blocks_p2_half r.1 r.2
          (block_row + 0 * n_blocks_p2_half) (block_column + 1 * n_blocks_p2_half) rev
        let r ← reorder w src_n n_blocks_p2_half r.1 r.2
          (block_row + 1 * n_blocks_p2_half) (block_column + 0 * n_blocks_p2_half) rev
        reorder w src_n n_blocks_p2_half r.1 r.2
          (block_row + 1 * n_blocks_p2_half) (block_column + 1 * n_blocks_p2_half) rev
termination_by n_blocks_power2
decreasing_by all_goals (simp_wf; omega)

/-! ## Entry points -/

/-- The loop `while (n_blocks_power2 * B < src_n) n_blocks_power2 *= 2;` with a bound on
the number of iterations. -/
def n_blocks_power2_loop (src_n : Nat) : Nat → Nat → Nat
  | 0, p => p
  | fuel + 1, p => if p * B < src_n then n_blocks_power2_loop src_n fuel (p * 2) else p

/-- Function `floyd_warshall<inst_set, T, unroll_type>::run(src_n, input_matrix,
output_matrix, symmetric)`.  `heap` is the content of the scratch buffer as `malloc`
hands it over; the result is the content of the output buffer at return. -/
def run (w L u : Nat) (src_n : Nat) (input_matrix output_matrix : Mem) (symmetric : Bool)
    (heap : Mem) : Option Mem :=
  if ¬ (src_n < 65536) then none
  else if src_n = 0 then some output_matrix
  else
    let n_blocks := (src_n + B - 1) / B
    let n_blocks_power2 := n_blocks_power2_loop src_n src_n 1
    if ¬ intOK ((B * n_blocks) * (B * n_blocks)) then none
    else do
      let r ← reorder w src_n n_blocks_power2 0 ⟨heap, input_matrix, fun _ => none⟩ 0 0 false
      let S ← FWR w L u n_blocks_power2 n_blocks 0 0 0 r.2.BP symmetric r.2.S
      let r ← reorder w src_n n_blocks_power2 0 ⟨S, output_matrix, r.2.BP⟩ 0 0 true
      some r.2.M

/-- Function `floyd_warshall_naive<T>::run(n, input_matrix, output_matrix, symmetric)`;
the flag `symmetric` is ignored by the source. -/
def floyd_warshall_naive.run (w : Nat) (n : Nat) (input_matrix output_matrix : Mem) : Option Mem :=
  if ¬ intOK (n * n) then none
  else
    let buf : Mem := input_matrix
    let buf := loop n (fun k => loop n (fun i => loop n (fun j buf =>
      store buf (i * n + j) (min (buf (i * n + j)) (wrapT w (buf (i * n + k) + buf (k * n + j))))))) buf
    some (fun t => if t < n * n then buf t else output_matrix t)

end QFW

namespace QFW

/-! ## Auxiliary definitions of the verification

None of the definitions below is part of the program; they state its properties and give
the four kernels and the serial loop of `FWI` one common shape. -/

/-- Largest of `f 0, ..., f n`. -/
def maxUpTo : Nat → (Nat → Int) → Int
  | 0, f => f 0
  | n + 1, f => max (maxUpTo n f) (f (n + 1))

/-- One stride `j` of a kernel with `ti` rows and `tk` pivots per tile: the rows
`i, ..., i + ti - 1` are updated from registers loaded before the first store. -/
def genJ (w L ti tk : Nat) (a c i k : Nat) (coef : Nat → Nat → Int) (j : Nat) (m : Mem) : Mem :=
  loop ti (fun r m2 =>
    vector_t.chmax_store L
      (fun l => maxUpTo (tk - 1) (fun s => wrapT w (m (c + ((k + s) * B + j) + l) + coef r s)))
      m2 (a + ((i + r) * B + j))) m

/-- One row tile of a kernel: broadcast the coefficients, then stream along `j`. -/
def genI (w L ti tk : Nat) (a b c k i : Nat) (m : Mem) : Mem :=
  forStep B L (genJ w L ti tk a c i k (fun r s => m (b + ((i + r) * B + (k + s))))) m

/-- One pivot tile of a kernel. -/
def genK (w L ti tk : Nat) (a b c k : Nat) (m : Mem) : Mem :=
  forStep B ti (genI w L ti tk a b c k) m

/-- Common shape of `MaxPlusMul0..3` (`ti, tk` in `{2, 4}`) and of the serial loop of
`FWI` (`ti = tk = 1`). -/
def genKernel (w L ti tk : Nat) (m : Mem) (a b c : Nat) : Mem :=
  forStep B tk (genK w L ti tk a b c) m

/-- Every element of memory satisfies the address-indexed predicate `Ok`. -/
def MemOk (Ok : Nat → Int → Prop) (m : Mem) : Prop := ∀ addr, Ok addr (m addr)

/-- What a block update `a := max(a, b ⊗ c)` needs of an invariant `Ok`: operands are in
`[-INF, 0]`, and a sum that beats the stored element is again admissible. -/
structure KernelHyp (w : Nat) (Ok : Nat → Int → Prop) (a b c : Nat) : Prop where
  rb : ∀ t, t < B * B → ∀ v, Ok (b + t) v → -(INF w) ≤ v ∧ v ≤ 0
  rc : ∀ t, t < B * B → ∀ v, Ok (c + t) v → -(INF w) ≤ v ∧ v ≤ 0
  clos : ∀ i k j, i < B → k < B → j < B → ∀ x y z, Ok (b + (i * B + k)) x →
    Ok (c + (k * B + j)) y → Ok (a + (i * B + j)) z → z < x + y → Ok (a + (i * B + j)) (x + y)

/-- Weight of the walk `i → p₀ → p₁ → ... → j` under the edge weights `D`; the list `p`
holds the intermediate vertices, so the walk has `p.length + 1` edges. -/
def walkW (D : Nat → Nat → Int) : Nat → List Nat → Nat → Int
  | i, [], j => D i j
  | i, v :: p, j => D i v + walkW D v p j

/-- Address of the element `(i, j)` of the padded matrix when the block `(r, c)` starts
at `blk r c`. -/
def cell (blk : Nat → Nat → Nat) (i j : Nat) : Nat :=
  blk (i / B) (j / B) + ((i % B) * B + j % B)

/-- The padded matrix held by the scratch memory, in the max-form of the kernels. -/
def view (blk : Nat → Nat → Nat) (m : Mem) (i j : Nat) : Int := m (cell blk i j)

/-- The block pointer table holds the block `(r, c)` of the `G × G` grid at `blk r c`. -/
def TableOk (BP : Table) (G : Nat) (blk : Nat → Nat → Nat) : Prop :=
  ∀ r c, r < G → c < G → BP (r * G + c) = some (blk r c)

/-- The invariant `Ok` is admissible for every block triple of the grid. -/
def BlocksHyp (w : Nat) (Ok : Nat → Int → Prop) (blk : Nat → Nat → Nat) (G : Nat) : Prop :=
  ∀ r1 r2 r3, r1 < G → r2 < G → r3 < G → KernelHyp w Ok (blk r1 r3) (blk r1 r2) (blk r2 r3)

/-- Vertex `i` lies in the block range `[i0, i0 + P)` and inside the grid. -/
def Rows (G i0 P i : Nat) : Prop := i0 * B ≤ i ∧ i < (i0 + P) * B ∧ i < G * B

/-- From `m` to `m2` the invariant is kept, elements only grew, and every triple of `T`
has been relaxed against `m`. -/
def Relaxed (Ok : Nat → Int → Prop) (blk : Nat → Nat → Nat) (m m2 : Mem)
    (T : Nat → Nat → Nat → Prop) : Prop :=
  MemOk Ok m2 ∧ (∀ addr, m addr ≤ m2 addr) ∧
    ∀ i k j, T i k j → view blk m i k + view blk m k j ≤ view blk m2 i j

/-- The matrix `D` is above every `X`-walk from `I` to `J` whose intermediate vertices
lie in `S` (max-form: larger is shorter). -/
def Above (D X : Nat → Nat → Int) (S I J : Nat → Prop) : Prop :=
  ∀ i j, I i → J j → ∀ p : List Nat, (∀ v, v ∈ p → S v) → walkW X i p j ≤ D i j

/-- Block `(r, c)` lies in the square of side `2 ^ e` at `(r0, c0)` and inside the grid. -/
def InSq (G e r0 c0 r c : Nat) : Prop :=
  r0 ≤ r ∧ r < r0 + 2 ^ e ∧ c0 ≤ c ∧ c < c0 + 2 ^ e ∧ r < G ∧ c < G

/-- Number of blocks of the grid inside the square of side `2 ^ e` at `(r0, c0)`. -/
def cnt (G : Nat) : Nat → Nat → Nat → Nat
  | 0, r0, c0 => if r0 < G ∧ c0 < G then 1 else 0
  | e + 1, r0, c0 =>
    cnt G e r0 c0 + cnt G e r0 (c0 + 2 ^ e) + cnt G e (r0 + 2 ^ e) c0 +
      cnt G e (r0 + 2 ^ e) (c0 + 2 ^ e)

/-- Position of the block `(r, c)` in the order in which `reorder` visits the blocks of
the square of side `2 ^ e` at `(r0, c0)`. -/
def rank (G : Nat) : Nat → Nat → Nat → Nat → Nat → Nat
  | 0, _, _, _, _ => 0
  | e + 1, r0, c0, r, c =>
    if r < r0 + 2 ^ e then
      if c < c0 + 2 ^ e then rank G e r0 c0 r c
      else cnt G e r0 c0 + rank G e r0 (c0 + 2 ^ e) r c
    else
      if c < c0 + 2 ^ e then cnt G e r0 c0 + cnt G e r0 (c0 + 2 ^ e) + rank G e (r0 + 2 ^ e) c0 r c
      else cnt G e r0 c0 + cnt G e r0 (c0 + 2 ^ e) + cnt G e (r0 + 2 ^ e) c0 +
        rank G e (r0 + 2 ^ e) (c0 + 2 ^ e) r c

/-- Element `(x, y)` of the block `(r, c)` as the forward `reorder` stores it: the
negated source element, or `-INF` in the padding. -/
def padded (w src_n : Nat) (src : Mem) (r c x y : Nat) : Int :=
  if r * B + x < src_n ∧ c * B + y < src_n then
    wrapT w (-(src ((r * B + x) * src_n + (c * B + y))))
  else wrapT w (-(INF w))

/-- Effect of a forward `reorder` that starts at `dst` and visits the blocks `Sg` in the
order `rk`: the table entries, the block contents, and what is left alone. -/
structure FwdG (w n G : Nat) (Sg : Nat → Nat → Prop) (rk : Nat → Nat → Nat) (N dst : Nat)
    (st st2 : RState) : Prop where
  hM : st2.M = st.M
  hBP : ∀ r c, Sg r c → st2.BP (r * G + c) = some (dst + B * B * rk r c)
  hBPf : ∀ r c, r < G → c < G → ¬ Sg r c → st2.BP (r * G + c) = st.BP (r * G + c)
  hS : ∀ r c, Sg r c → ∀ x y, x < B → y < B →
    st2.S (dst + B * B * rk r c + (x * B + y)) = padded w n st.M r c x y
  hSf : ∀ a, (a < dst ∨ dst + B * B * N ≤ a) → st2.S a = st.S a

/-- Effect of a reverse `reorder` that starts at `dst` and visits the blocks `Sg` in the
order `rk`: the elements written back, and what is left alone. -/
structure RevG (w n : Nat) (Sg : Nat → Nat → Prop) (rk : Nat → Nat → Nat) (dst : Nat)
    (st st2 : RState) : Prop where
  hS : st2.S = st.S
  hM : ∀ r c, Sg r c → ∀ x y, x < B → y < B → r * B + x < n → c * B + y < n →
    st2.M ((r * B + x) * n + (c * B + y)) = wrapT w (-(st.S (dst + B * B * rk r c + (x * B + y))))
  hMf : ∀ a, (∀ r c x y, Sg r c → x < B → y < B → r * B + x < n → c * B + y < n →
    a ≠ (r * B + x) * n + (c * B + y)) → st2.M a = st.M a

/-- The row-major `n × n` matrix `W` as edge weights. -/
def Wf (n : Nat) (W : Mem) (u v : Nat) : Int := W (u * n + v)

/-- The invariant `Gd` on the elements of the padded matrix, as a predicate on the
addresses of the scratch memory. -/
def OkAt (G : Nat) (blk : Nat → Nat → Nat) (Gd : Nat → Nat → Int → Prop) (addr : Nat)
    (v : Int) : Prop :=
  ∀ r c x y, r < G → c < G → x < B → y < B → addr = blk r c + (x * B + y) →
    Gd (r * B + x) (c * B + y) v

/-- Element `(i, j)` of the scratch is admissible: in `[-INF, 0]`, the negated weight of
a walk of the input between real vertices, and `-INF` in the padding. -/
def Good (w n : Nat) (W : Mem) (i j : Nat) (v : Int) : Prop :=
  -(INF w) ≤ v ∧ v ≤ 0 ∧
  ((i < n ∧ j < n) → ∃ p : List Nat, (∀ u, u ∈ p → u < n) ∧ v = -(walkW (Wf n W) i p j)) ∧
  (¬ (i < n ∧ j < n) → v = -(INF w))

/-- The value `d` is the least weight of a walk from `i` to `j` with at least one edge,
over the vertices `0, ..., n - 1` of the matrix `W`. -/
def IsShortest (n : Nat) (W : Mem) (i j : Nat) (d : Int) : Prop :=
  (∃ p : List Nat, (∀ u, u ∈ p → u < n) ∧ d = walkW (Wf n W) i p j) ∧
  ∀ p : List Nat, (∀ u, u ∈ p → u < n) → d ≤ walkW (Wf n W) i p j

/-- Every element of the `n × n` matrix lies in `[0, INF]`. -/
def ValidInput (w n : Nat) (W : Mem) : Prop :=
  ∀ t, t < n * n → 0 ≤ W t ∧ W t ≤ INF w

/-- Invariant of the naive loop: every element is in `[0, INF]` and is the weight of a
walk of the input. -/
def NInv (w n : Nat) (W buf : Mem) : Prop :=
  ∀ i j, i < n → j < n → 0 ≤ buf (i * n + j) ∧ buf (i * n + j) ≤ INF w ∧
    ∃ p : List Nat, (∀ u, u ∈ p → u < n) ∧ buf (i * n + j) = walkW (Wf n W) i p j

/-- The body of the `k` loop of the naive reference: one sweep over all pairs `(i, j)`. -/
def naiveSweep (w n k : Nat) (buf : Mem) : Mem :=
  loop n (fun i => loop n (fun j buf =>
    store buf (i * n + j) (min (buf (i * n + j)) (wrapT w (buf (i * n + k) + buf (k * n + j)))))) buf

/-- Blocks of the grid do not overlap: an address determines block and element. -/
def LayoutInj (G : Nat) (blk : Nat → Nat → Nat) : Prop :=
  ∀ r c x y r2 c2 x2 y2, r < G → c < G → r2 < G → c2 < G → x < B → y < B → x2 < B → y2 < B →
    blk r c + (x * B + y) = blk r2 c2 + (x2 * B + y2) → r = r2 ∧ c = c2 ∧ x = x2 ∧ y = y2

/-- Address `a` lies in a destination block of `transpose_copy(h, G, r0, c0, ...)`. -/
def DstAddr (G : Nat) (blk : Nat → Nat → Nat) (h r0 c0 a : Nat) : Prop :=
  ∃ i j x y, r0 ≤ i ∧ i < min (r0 + h) G ∧ c0 ≤ j ∧ j < min (c0 + h) G ∧ x < B ∧ y < B ∧
    a = blk j i + (x * B + y)

/-- The pure form of `transpose_copy` when every table entry is set. -/
def transposeAll (G : Nat) (blk : Nat → Nat → Nat) (h r0 c0 : Nat) (m : Mem) : Mem :=
  loopRange r0 (min (r0 + h) G) (fun i =>
    loopRange c0 (min (c0 + h) G) (fun j m => transposeBlock m (blk i j) (blk j i))) m

end QFW

namespace QFW

/-! ## Further notions of the specification -/

/-- The row-major `n × n` matrix `W` is symmetric. -/
def SymmetricInput (n : Nat) (W : Mem) : Prop :=
  ∀ i j, i < n → j < n → W (i * n + j) = W (j * n + i)

/-- Every edge of the walk `i → p₀ → ... → j` over the matrix `W` is below `INF`. -/
def finiteWalk (w n : Nat) (W : Mem) : Nat → List Nat → Nat → Prop
  | i, [], j => W (i * n + j) < INF w
  | i, v :: p, j => W (i * n + v) < INF w ∧ finiteWalk w n W v p j

/-- The `3 × 3` matrix `0 1 INF / INF 0 INF / INF INF 0`: the only edge is `0 → 1`, of
weight `1`. -/
def oneEdge (w : Nat) : Mem :=
  fun t => if t = 0 ∨ t = 4 ∨ t = 8 then 0 else if t = 1 then 1 else INF w

end QFW

namespace QFW

/-! ## Test matrices -/

/-- The row-major matrix with the elements of `l`. -/
def ofList (l : List Int) : Mem := fun t => l.getD t 0

/-- Scenario A, input: `3 × 3`, directed. -/
def scenarioA_in (w : Nat) : Mem :=
  ofList [0, 5, INF w, INF w, 0, 3, 2, INF w, 0]

/-- Scenario A, expected output. -/
def scenarioA_out : Mem := ofList [0, 5, 8, 5, 0, 3, 2, 7, 0]

/-- Scenario B, input: `4 × 4`, symmetric. -/
def scenarioB_in (w : Nat) : Mem :=
  ofList [0, 1, INF w, INF w, 1, 0, 2, INF w, INF w, 2, 0, 4, INF w, INF w, 4, 0]

/-- Scenario B, expected output. -/
def scenarioB_out : Mem := ofList [0, 1, 3, 7, 1, 0, 2, 6, 3, 2, 0, 4, 7, 6, 4, 0]

/-- Scenario D, input: the matrix of scenario B with the diagonal `d0, d1, d2, d3`. -/
def scenarioD_in (w : Nat) (d0 d1 d2 d3 : Int) : Mem :=
  ofList [d0, 1, INF w, INF w, 1, d1, 2, INF w, INF w, 2, d2, 4, INF w, INF w, 4, d3]

/-- Least walk weights of scenario D: the elements of scenario B off the diagonal; on the
diagonal the lighter of the self-loop and the lightest closed walk over a neighbour. -/
def scenarioD_out (d0 d1 d2 d3 : Int) : Mem :=
  ofList [min d0 2, 1, 3, 7, 1, min d1 2, 2, 6, 3, 2, min d2 4, 4, 7, 6, 4, min d3 8]

/-- The path matrix of `test_positive.cpp` (`RANDOM_PATH`) with unit weights: every
element is `INF` but `perm[i] * n + perm[i + 1]`, `i + 1 < n`, which is `1`. -/
def pathInput (w n : Nat) (perm : Nat → Nat) : Mem :=
  loop (n - 1) (fun i m => store m (perm i * n + perm (i + 1)) 1) (fun _ => INF w)

/-- The vertices `perm (s + 1), ..., perm (s + m)`. -/
def pathList (perm : Nat → Nat) : Nat → Nat → List Nat
  | _, 0 => []
  | s, m + 1 => perm (s + 1) :: pathList perm (s + 1) m

/-! ## The max-plus product of two blocks -/

/-- Element `(i, j)` of `max(A, B ⊗ C)` for the blocks at `a`, `b`, `c` of the memory `m`:
`max(a[i, j], max_k (b[i, k] + c[k, j]))`, in exact integers. -/
def prodT (m : Mem) (a b c i j : Nat) : Int :=
  max (m (a + (i * B + j))) (maxUpTo (B - 1) (fun k => m (b + (i * B + k)) + m (c + (k * B + j))))

/-- Invariant of a block update that starts from `m`: an element of the block at `a`
satisfies `P` and is at most the product element, every other element is untouched. -/
def TargetOk (m : Mem) (a b c : Nat) (P : Int → Prop) (addr : Nat) (v : Int) : Prop :=
  (∀ i j, i < B → j < B → addr = a + (i * B + j) → P v ∧ v ≤ prodT m a b c i j) ∧
  ((addr < a ∨ a + B * B ≤ addr) → v = m addr)

end QFW

namespace QFW

/-! ## Z-order -/

/-- The Z-order code of the block `(r, c)` over `e` bits: bit `b` of `r` goes to bit
`2 * b + 1` and bit `b` of `c` to bit `2 * b`. -/
def zcode : Nat → Nat → Nat → Nat
  | 0, _, _ => 0
  | e + 1, r, c => zcode e r c + 4 ^ e * (2 * (r / 2 ^ e % 2) + c / 2 ^ e % 2)

/-- The blocks of the `4 × 4` grid in the order of the doc comment of `reorder`. -/
def zorder4 : List (Nat × Nat) :=
  [(0, 0), (0, 1), (1, 0), (1, 1), (0, 2), (0, 3), (1, 2), (1, 3),
   (2, 0), (2, 1), (3, 0), (3, 1), (2, 2), (2, 3), (3, 2), (3, 3)]

/-! ## Checked execution

The definitions below run the same code and fail (`none`) as soon as an operand of a sum
or an element of a scratch block is outside `[-INF, 0]`. -/

/-- The value `v` lies in `[-INF, 0]`. -/
def inRange (w : Nat) (v : Int) : Prop := -(INF w) ≤ v ∧ v ≤ 0

instance (w : Nat) (v : Int) : Decidable (inRange w v) := by
  unfold inRange; infer_instance

/-- Every element of the block behind a table entry lies in `[-INF, 0]`. -/
def blockInRange (w : Nat) (m : Mem) : Option Nat → Prop
  | some p => ∀ x, x < B * B → inRange w (m (p + x))
  | none => True

instance (w : Nat) (m : Mem) (o : Option Nat) : Decidable (blockInRange w m o) := by
  cases o <;> unfold blockInRange <;> infer_instance

/-- Every element of every block of the `G × G` table lies in `[-INF, 0]`. -/
def blocksInRange (w G : Nat) (BP : Table) (m : Mem) : Prop :=
  ∀ t, t < G * G → blockInRange w m (BP t)

instance (w G : Nat) (BP : Table) (m : Mem) : Decidable (blocksInRange w G BP m) := by
  unfold blocksInRange; infer_instance

/-- Failing counting loop with a stride. -/
def forStepM {σ : Type} (n step : Nat) (f : Nat → σ → Option σ) (s : σ) : Option σ :=
  loopM ((n + step - 1) / step) (fun t => f (t * step)) s

/-- One stride of a kernel, checked: both operands of every sum
`c[k + s, j + l] + coef r s` that the stride forms lie in `[-INF, 0]`. -/
def genJC (w L ti tk : Nat) (a c i k : Nat) (coef : Nat → Nat → Int) (j : Nat) (m : Mem) :
    Option Mem :=
  if ∀ r, r < ti → ∀ s, s < tk →
      inRange w (coef r s) ∧ ∀ l, l < L → inRange w (m (c + ((k + s) * B + j) + l)) then
    some (genJ w L ti tk a c i k coef j m)
  else none

/-- One row tile of a kernel, checked. -/
def genIC (w L ti tk : Nat) (a b c k i : Nat) (m : Mem) : Option Mem :=
  forStepM B L (genJC w L ti tk a c i k (fun r s => m (b + ((i + r) * B + (k + s))))) m

/-- One pivot tile of a kernel, checked. -/
def genKC (w L ti tk : Nat) (a b c k : Nat) (m : Mem) : Option Mem :=
  forStepM B ti (genIC w L ti tk a b c k) m

/-- The common kernel shape, checked. -/
def genKernelC (w L ti tk : Nat) (m : Mem) (a b c : Nat) : Option Mem :=
  forStepM B tk (genKC w L ti tk a b c) m

/-- Function `FWI`, checked: the kernel of `unroll_type = u` in its common shape when the three
pointers differ, the serial loop otherwise. -/
def FWIC (w L u : Nat) (m : Mem) (a b c : Nat) : Option Mem :=
  if a ≠ b ∧ a ≠ c ∧ b ≠ c then
    if u = 0 then genKernelC w L 2 2 m a b c
    else if u = 1 then genKernelC w L 2 4 m a b c
    else if u = 2 then genKernelC w L 4 2 m a b c
    else if u = 3 then genKernelC w L 4 4 m a b c
    else some m
  else genKernelC w L 1 1 m a b c

/-- Function `FWR`, checked: every call starts on scratch blocks in `[-INF, 0]` and every block
update is the checked one. -/
def FWRC (w L u : Nat) (n_blocks_power2 n_blocks block_index0 block_index1 block_index2 : Nat)
    (block_start : Table) (symmetric : Bool) (m : Mem) : Option Mem :=
  if ¬ blocksInRange w n_blocks block_start m then none
  else if block_index0 ≥ n_blocks ∨ block_index1 ≥ n_blocks ∨ block_index2 ≥ n_blocks then some m
  else if n_blocks_power2 = 1 then
    match block_start (block_index0 * n_blocks + block_index2),
          block_start (block_index0 * n_blocks + block_index1),
          block_start (block_index1 * n_blocks + block_index2) with
    | some a, some b, some c => FWIC w L u m a b c
    | _, _, _ => none
  else if n_blocks_power2 = 0 then none
  else
    let half := n_blocks_power2 / 2
    if !symmetric then do
      let m ← FWRC w L u half n_blocks block_index0 block_index1 block_index2 block_start false m
      let m ← FWRC w L u half n_blocks block_index0 block_index1 (block_index2 + half) block_start false m
      let m ← FWRC w L u half n_blocks (block_index0 + half) block_index1 block_index2 block_start false m
      let m ← FWRC w L u half n_blocks (block_index0 + half) block_index1 (block_index2 + half) block_start false m
      let m ← FWRC w L u half n_blocks (block_index0 + half) (block_index1 + half) (block_index2 + half) block_start false m
      let m ← FWRC w L u half n_blocks (block_index0 + half) (block_index1 + half) block_index2 block_start false m
      let m ← FWRC w L u half n_blocks block_index0 (block_index1 + half) (block_index2 + half) block_start false m
      FWRC w L u half n_blocks block_index0 (block_index1 + half) block_index2 block_start false m
    else do
      let m ← FWRC w L u half n_blocks block_index0 block_index1 block_index2 block_start true m
      let m ← FWRC w L u half n_blocks block_index0 block_index1 (block_index2 + half) block_start false m
      let m ← transpose_copy half n_blocks block_index0 (block_index0 + half) block_start m
      let m ← FWRC w L u half n_blocks (block_index0 + half) block_index1 (block_index2 + half) block_start false m
      let m ← FWRC w L u half n_blocks (block_index0 + half) (block_index1 + half) (block_index2 + half) block_start true m
      let m ← FWRC w L u half n_blocks (block_index0 + half) (block_index1 + half) block_index2 block_start false m
      let m ← transpose_copy half n_blocks (block_index0 + half) block_index0 block_start m
      FWRC w L u half n_blocks block_index0 (block_index1 + half) block_index2 block_start false m
termination_by n_blocks_power2
decreasing_by all_goals (simp_wf; omega)

/-- Function `run`, checked: `FWR` is the checked one, and the scratch blocks lie in `[-INF, 0]`
when it returns. -/
def runC (w L u : Nat) (src_n : Nat) (input_matrix output_matrix : Mem) (symmetric : Bool)
    (heap : Mem) : Option Mem :=
  if ¬ (src_n < 65536) then none
  else if src_n = 0 then some output_matrix
  else
    let n_blocks := (src_n + B - 1) / B
    let n_blocks_power2 := n_blocks_power2_loop src_n src_n 1
    if ¬ intOK ((B * n_blocks) * (B * n_blocks)) then none
    else do
      let r ← reorder w src_n n_blocks_power2 0 ⟨heap, input_matrix, fun _ => none⟩ 0 0 false
      let S ← FWRC w L u n_blocks_power2 n_blocks 0 0 0 r.2.BP symmetric r.2.S
      if ¬ blocksInRange w n_blocks r.2.BP S then none
      else do
        let r ← reorder w src_n n_blocks_power2 0 ⟨S, output_matrix, r.2.BP⟩ 0 0 true
        some r.2.M

/-! ## A scratch block with a chain of three edges -/

/-- One scratch block in max-form: the edges `0 → 1`, `1 → 2` and `2 → 3` have weight `1`
(stored as `-1`), every other element is `-INF`. -/
def chainScratch (w : Nat) : Mem :=
  fun t => if t = 0 * B + 1 ∨ t = 1 * B + 2 ∨ t = 2 * B + 3 then -1 else -(INF w)

/-! ## A scratch of four blocks -/

/-- Four scratch blocks in max-form, one after the other: every element of the first block
is `-3`, every other element is `-1`. -/
def gapScratch : Mem := fun t => if t < B * B then -3 else -1

/-! ## An input that is not symmetric -/

/-- The `65 × 65` matrix with zero diagonal, `input[0 * 65 + 64] = 1`,
`input[64 * 65 + 0] = 5` and `INF` elsewhere. -/
def asymInput (w : Nat) : Mem :=
  fun t => if t / 65 = t % 65 then 0 else if t = 64 then 1 else if t = 64 * 65 then 5 else INF w

/-- The symmetric `65 × 65` matrix with zero diagonal, `1` at `(0, 64)` and `(64, 0)` and
`INF` elsewhere. -/
def symInput (w : Nat) : Mem :=
  fun t => if t / 65 = t % 65 then 0 else if t = 64 ∨ t = 64 * 65 then 1 else INF w

end QFW

namespace QFW

/-! ## Arithmetic of `T` -/

theorem two_pow_pred_pos (w : Nat) : (0 : Int) < 2 ^ (w - 1) := by positivity

theorem two_pow_split (w : Nat) (hw : 1 ≤ w) : (2 : Int) ^ w = 2 * 2 ^ (w - 1) := by
  obtain ⟨k, rfl⟩ : ∃ k, w = k + 1 := ⟨w - 1, by omega⟩
  simp [pow_succ, mul_comm]

theorem wrapT_eq_self (w : Nat) (hw : 1 ≤ w) (x : Int)
    (h1 : -(2 ^ (w - 1)) ≤ x) (h2 : x < 2 ^ (w - 1)) : wrapT w x = x := by
  unfold wrapT
  have h := two_pow_split w hw
  rw [Int.emod_eq_of_lt (by linarith) (by linarith)]
  ring

theorem INF_nonneg (w : Nat) : 0 ≤ INF w := by
  unfold INF maxT
  have := two_pow_pred_pos w
  apply Int.ediv_nonneg <;> omega

theorem two_INF_lt (w : Nat) : 2 * INF w < 2 ^ (w - 1) := by
  unfold INF maxT
  have := two_pow_pred_pos w
  omega

theorem wrapT_add (w : Nat) (hw : 1 ≤ w) (x y : Int)
    (hx1 : -(INF w) ≤ x) (hx2 : x ≤ 0) (hy1 : -(INF w) ≤ y) (hy2 : y ≤ 0) :
    wrapT w (x + y) = x + y := by
  have := two_INF_lt w
  apply wrapT_eq_self w hw <;> linarith

theorem wrapT_add_nonneg (w : Nat) (hw : 1 ≤ w) (x y : Int)
    (hx1 : 0 ≤ x) (hx2 : x ≤ INF w) (hy1 : 0 ≤ y) (hy2 : y ≤ INF w) :
    wrapT w (x + y) = x + y := by
  have := two_INF_lt w
  apply wrapT_eq_self w hw <;> linarith

theorem wrapT_neg (w : Nat) (hw : 1 ≤ w) (x : Int)
    (hx1 : -(INF w) ≤ x) (hx2 : x ≤ INF w) : wrapT w (-x) = -x := by
  have := two_INF_lt w
  have := INF_nonneg w
  apply wrapT_eq_self w hw <;> linarith

/-! ## Loops -/

theorem loop_inv {σ : Type} (P : σ → Prop) (n : Nat) (f : Nat → σ → σ)
    (hf : ∀ t, t < n → ∀ s, P s → P (f t s)) (s : σ) (hs : P s) : P (loop n f s) := by
  induction n with
  | zero => exact hs
  | succ c ih =>
    exact hf c (Nat.lt_succ_self c) _ (ih (fun t ht => hf t (Nat.lt_succ_of_lt ht)))

/-- Every iteration establishes its own goal `Q t`, and goals survive later iterations. -/
theorem loop_cover {σ : Type} (P : σ → Prop) (Q : Nat → σ → Prop) (n : Nat) (f : Nat → σ → σ)
    (hf : ∀ t, t < n → ∀ s, P s → P (f t s) ∧ Q t (f t s))
    (hstab : ∀ t t2, t < n → t2 < n → ∀ s, P s → Q t s → Q t (f t2 s))
    (s : σ) (hs : P s) : P (loop n f s) ∧ ∀ t, t < n → Q t (loop n f s) := by
  induction n with
  | zero => exact ⟨hs, fun t ht => absurd ht (Nat.not_lt_zero t)⟩
  | succ c ih =>
    have ih2 := ih (fun t ht => hf t (Nat.lt_succ_of_lt ht))
      (fun t t2 ht ht2 => hstab t t2 (Nat.lt_succ_of_lt ht) (Nat.lt_succ_of_lt ht2))
    obtain ⟨hP, hQ⟩ := ih2
    have hb := hf c (Nat.lt_succ_self c) _ hP
    refine ⟨hb.1, fun t ht => ?_⟩
    rcases Nat.lt_succ_iff_lt_or_eq.mp ht with h | h
    · exact hstab t c (Nat.lt_succ_of_lt h) (Nat.lt_succ_self c) _ hP (hQ t h)
    · subst h; exact hb.2

theorem forStep_inv {σ : Type} (P : σ → Prop) (n step : Nat) (f : Nat → σ → σ)
    (hstep : 0 < step) (hdvd : step ∣ n)
    (hf : ∀ t, t * step < n → ∀ s, P s → P (f (t * step) s)) (s : σ) (hs : P s) :
    P (forStep n step f s) := by
  unfold forStep
  apply loop_inv P _ _ _ s hs
  intro t ht s hs
  apply hf t _ s hs
  obtain ⟨q, rfl⟩ := hdvd
  have : (step * q + step - 1) / step = q := by
    rw [Nat.add_sub_assoc hstep, Nat.add_comm, Nat.add_mul_div_left _ _ hstep,
      Nat.div_eq_of_lt (by omega)]
    simp
  rw [this] at ht
  calc t * step < q * step := Nat.mul_lt_mul_of_pos_right ht hstep
    _ = step * q := Nat.mul_comm _ _

theorem forStep_count (n step : Nat) (hstep : 0 < step) (hdvd : step ∣ n) :
    (n + step - 1) / step = n / step := by
  obtain ⟨q, rfl⟩ := hdvd
  rw [Nat.add_sub_assoc hstep, Nat.add_comm, Nat.add_mul_div_left _ _ hstep,
    Nat.div_eq_of_lt (by omega), Nat.mul_div_cancel_left _ hstep]
  simp

theorem forStep_cover {σ : Type} (P : σ → Prop) (Q : Nat → σ → Prop) (n step : Nat)
    (f : Nat → σ → σ) (hstep : 0 < step) (hdvd : step ∣ n)
    (hf : ∀ t, t * step < n → ∀ s, P s → P (f (t * step) s) ∧ Q t (f (t * step) s))
    (hstab : ∀ t t2, t * step < n → t2 * step < n → ∀ s, P s → Q t s → Q t (f (t2 * step) s))
    (s : σ) (hs : P s) :
    P (forStep n step f s) ∧ ∀ t, t * step < n → Q t (forStep n step f s) := by
  unfold forStep
  rw [forStep_count n step hstep hdvd]
  have hlt : ∀ t, t < n / step → t * step < n := by
    intro t ht
    obtain ⟨q, rfl⟩ := hdvd
    rw [Nat.mul_div_cancel_left _ hstep] at ht
    calc t * step < q * step := Nat.mul_lt_mul_of_pos_right ht hstep
      _ = step * q := Nat.mul_comm _ _
  have hlt2 : ∀ t, t * step < n → t < n / step := by
    intro t ht
    exact (Nat.lt_div_iff_mul_lt hdvd t).mpr (by rwa [Nat.mul_comm] at ht)
  have := loop_cover P Q (n / step) (fun t => f (t * step))
    (fun t ht s hs => hf t (hlt t ht) s hs)
    (fun t t2 ht ht2 s hs hq => hstab t t2 (hlt t ht) (hlt t2 ht2) s hs hq) s hs
  exact ⟨this.1, fun t ht => this.2 t (hlt2 t ht)⟩

end QFW

namespace QFW
open vector_t

theorem loop_congr {σ : Type} (n : Nat) (f g : Nat → σ → σ) (h : ∀ t s, f t s = g t s) (s : σ) :
    loop n f s = loop n g s := by
  induction n with
  | zero => rfl
  | succ c ih => simp only [loop, ih, h]

theorem forStep_congr {σ : Type} (n step : Nat) (f g : Nat → σ → σ) (h : ∀ t s, f t s = g t s)
    (s : σ) : forStep n step f s = forStep n step g s := by
  unfold forStep
  exact loop_congr _ _ _ (fun t s => h _ s) s

theorem forStep_one {σ : Type} (n : Nat) (f : Nat → σ → σ) (s : σ) :
    forStep n 1 f s = loop n f s := by
  unfold forStep
  simp only [Nat.add_sub_cancel, Nat.div_one, Nat.mul_one]

/-! ## The conditional store -/

theorem chmax_store_eq (L : Nat) (v : Vec) (m : Mem) (p addr : Nat) :
    chmax_store L v m p addr =
      if p ≤ addr ∧ addr < p + L then max (m addr) (v (addr - p)) else m addr := by
  unfold chmax_store
  by_cases h : p ≤ addr ∧ addr < p + L
  · simp only [h, and_self, if_true]
    by_cases h2 : m addr < v (addr - p)
    · simp only [h2, if_true]; exact (max_eq_right (le_of_lt h2)).symm
    · simp only [h2, if_false]; exact (max_eq_left (not_lt.mp h2)).symm
  · simp only [h, if_false]

theorem chmax_store_lane (L : Nat) (v : Vec) (m : Mem) (p l : Nat) (hl : l < L) :
    chmax_store L v m p (p + l) = max (m (p + l)) (v l) := by
  rw [chmax_store_eq, if_pos ⟨Nat.le_add_right _ _, by omega⟩, Nat.add_sub_cancel_left]

theorem chmax_store_other (L : Nat) (v : Vec) (m : Mem) (p addr : Nat)
    (h : addr < p ∨ p + L ≤ addr) : chmax_store L v m p addr = m addr := by
  rw [chmax_store_eq, if_neg (by omega)]

theorem chmax_store_mono (L : Nat) (v : Vec) (m : Mem) (p addr : Nat) :
    m addr ≤ chmax_store L v m p addr := by
  rw [chmax_store_eq]
  split
  · exact le_max_left _ _
  · exact le_refl _

theorem le_maxUpTo (n : Nat) (f : Nat → Int) (s : Nat) (hs : s ≤ n) : f s ≤ maxUpTo n f := by
  induction n with
  | zero => rw [Nat.le_zero.mp hs]; exact le_refl _
  | succ c ih =>
    rcases Nat.lt_or_ge s (c + 1) with h | h
    · exact le_trans (ih (Nat.lt_succ_iff.mp h)) (le_max_left _ _)
    · rw [Nat.le_antisymm hs h]; exact le_max_right _ _

theorem maxUpTo_mem (n : Nat) (f : Nat → Int) : ∃ s, s ≤ n ∧ maxUpTo n f = f s := by
  induction n with
  | zero => exact ⟨0, le_refl _, rfl⟩
  | succ c ih =>
    obtain ⟨s, hs, he⟩ := ih
    rcases le_total (maxUpTo c f) (f (c + 1)) with h | h
    · exact ⟨c + 1, le_refl _, max_eq_right h⟩
    · exact ⟨s, Nat.le_succ_of_le hs, by rw [← he]; exact max_eq_left h⟩

/-- One store of a kernel: the invariant survives and every term of the register is
reached by the stored element. -/
theorem chmax_store_ok (w L : Nat) (hw : 1 ≤ w) (Ok : Nat → Int → Prop) (a b c : Nat)
    (H : KernelHyp w Ok a b c) (m2 : Mem) (hm2 : MemOk Ok m2)
    (i k j n : Nat) (hi : i < B) (hj : j + L ≤ B) (hk : k + n < B)
    (x : Nat → Nat → Int) (y : Nat → Int)
    (hx : ∀ s, s ≤ n → ∀ l, l < L → Ok (c + ((k + s) * B + (j + l))) (x s l))
    (hy : ∀ s, s ≤ n → Ok (b + (i * B + (k + s))) (y s)) :
    MemOk Ok (chmax_store L (fun l => maxUpTo n (fun s => wrapT w (x s l + y s))) m2
        (a + (i * B + j))) ∧
      ∀ s, s ≤ n → ∀ l, l < L → x s l + y s ≤
        chmax_store L (fun l => maxUpTo n (fun s => wrapT w (x s l + y s))) m2
          (a + (i * B + j)) (a + (i * B + j) + l) := by
  have hterm : ∀ s, s ≤ n → ∀ l, l < L → wrapT w (x s l + y s) = x s l + y s := by
    intro s hs l hl
    have h1 := H.rc ((k + s) * B + (j + l)) (by simp only [B] at *; omega) _ (hx s hs l hl)
    have h2 := H.rb (i * B + (k + s)) (by simp only [B] at *; omega) _ (hy s hs)
    exact wrapT_add w hw _ _ h1.1 h1.2 h2.1 h2.2
  constructor
  · intro addr
    by_cases h : a + (i * B + j) ≤ addr ∧ addr < a + (i * B + j) + L
    · obtain ⟨l, rfl⟩ : ∃ l, addr = a + (i * B + j) + l := ⟨addr - (a + (i * B + j)), by omega⟩
      have hl : l < L := by omega
      rw [chmax_store_lane _ _ _ _ _ hl]
      obtain ⟨s, hs, he⟩ := maxUpTo_mem n (fun s => wrapT w (x s l + y s))
      rcases le_total (maxUpTo n (fun s => wrapT w (x s l + y s))) (m2 (a + (i * B + j) + l))
        with h3 | h3
      · rw [max_eq_left h3]; exact hm2 _
      · rcases eq_or_lt_of_le h3 with h4 | h4
        · rw [max_eq_left (le_of_eq h4.symm)]; exact hm2 _
        · rw [max_eq_right h3, he]
          simp only [hterm s hs l hl]
          rw [he] at h4
          simp only [hterm s hs l hl] at h4
          have e : a + (i * B + (j + l)) = a + (i * B + j) + l := by ring
          have hz : Ok (a + (i * B + (j + l))) (m2 (a + (i * B + j) + l)) := by
            rw [e]; exact hm2 _
          have := H.clos i (k + s) (j + l) hi (by omega) (by omega) _ _ _ (hy s hs) (hx s hs l hl)
            hz (by linarith)
          rw [e, add_comm (y s)] at this
          exact this
    · rw [chmax_store_other _ _ _ _ _ (by omega)]; exact hm2 _
  · intro s hs l hl
    rw [chmax_store_lane _ _ _ _ _ hl]
    refine le_trans ?_ (le_max_right _ _)
    rw [← hterm s hs l hl]
    exact le_maxUpTo n (fun s => wrapT w (x s l + y s)) s hs

/-! ## Loops with a growth relation -/

theorem loop_coverR {σ : Type} (R : σ → σ → Prop) (hR0 : ∀ s, R s s)
    (hRt : ∀ s1 s2 s3, R s1 s2 → R s2 s3 → R s1 s3)
    (P : σ → Prop) (Q : Nat → σ → Prop) (n : Nat) (f : Nat → σ → σ)
    (hf : ∀ t, t < n → ∀ s, P s → P (f t s) ∧ R s (f t s) ∧ Q t (f t s))
    (hstab : ∀ t, t < n → ∀ s s2, R s s2 → Q t s → Q t s2)
    (s : σ) (hs : P s) :
    P (loop n f s) ∧ R s (loop n f s) ∧ ∀ t, t < n → Q t (loop n f s) := by
  induction n with
  | zero => exact ⟨hs, hR0 s, fun t ht => absurd ht (Nat.not_lt_zero t)⟩
  | succ c ih =>
    obtain ⟨hP, hR, hQ⟩ := ih (fun t ht => hf t (Nat.lt_succ_of_lt ht))
      (fun t ht => hstab t (Nat.lt_succ_of_lt ht))
    obtain ⟨hb1, hb2, hb3⟩ := hf c (Nat.lt_succ_self c) _ hP
    refine ⟨hb1, hRt _ _ _ hR hb2, fun t ht => ?_⟩
    rcases Nat.lt_succ_iff_lt_or_eq.mp ht with h | h
    · exact hstab t ht _ _ hb2 (hQ t h)
    · subst h; exact hb3

theorem forStep_coverR {σ : Type} (R : σ → σ → Prop) (hR0 : ∀ s, R s s)
    (hRt : ∀ s1 s2 s3, R s1 s2 → R s2 s3 → R s1 s3)
    (P : σ → Prop) (Q : Nat → σ → Prop) (n step : Nat) (f : Nat → σ → σ)
    (hstep : 0 < step) (hdvd : step ∣ n)
    (hf : ∀ t, t * step < n → ∀ s, P s →
      P (f (t * step) s) ∧ R s (f (t * step) s) ∧ Q t (f (t * step) s))
    (hstab : ∀ t, t * step < n → ∀ s s2, R s s2 → Q t s → Q t s2)
    (s : σ) (hs : P s) :
    P (forStep n step f s) ∧ R s (forStep n step f s) ∧
      ∀ t, t * step < n → Q t (forStep n step f s) := by
  unfold forStep
  rw [forStep_count n step hstep hdvd]
  have hlt : ∀ t, t < n / step → t * step < n := by
    intro t ht
    obtain ⟨q, rfl⟩ := hdvd
    rw [Nat.mul_div_cancel_left _ hstep] at ht
    calc t * step < q * step := Nat.mul_lt_mul_of_pos_right ht hstep
      _ = step * q := Nat.mul_comm _ _
  have hlt2 : ∀ t, t * step < n → t < n / step := by
    intro t ht
    exact (Nat.lt_div_iff_mul_lt hdvd t).mpr (by rwa [Nat.mul_comm] at ht)
  obtain ⟨h1, h2, h3⟩ := loop_coverR R hR0 hRt P Q (n / step) (fun t => f (t * step))
    (fun t ht s hs => hf t (hlt t ht) s hs)
    (fun t ht s s2 hr hq => hstab t (hlt t ht) s s2 hr hq) s hs
  exact ⟨h1, h2, fun t ht => h3 t (hlt2 t ht)⟩

/-- Elements of a tile lie inside the loop range. -/
theorem tile_bound (n step t r : Nat) (hdvd : step ∣ n) (ht : t * step < n) (hr : r < step) :
    t * step + r < n := by
  obtain ⟨q, rfl⟩ := hdvd
  have h1 : t < q := by
    by_contra h
    have h2 : q ≤ t := Nat.le_of_not_lt h
    have h3 : q * step ≤ t * step := Nat.mul_le_mul_right step h2
    rw [Nat.mul_comm q step] at h3
    omega
  calc t * step + r < t * step + step := by omega
    _ = (t + 1) * step := by ring
    _ ≤ q * step := Nat.mul_le_mul_right step h1
    _ = step * q := Nat.mul_comm _ _

theorem tile_split (n step i : Nat) (hstep : 0 < step) (hi : i < n) :
    (i / step) * step < n ∧ i % step < step ∧ (i / step) * step + i % step = i := by
  have h1 := Nat.div_add_mod i step
  have h2 := Nat.mod_lt i hstep
  have h3 : i / step * step = step * (i / step) := Nat.mul_comm _ _
  omega

end QFW

namespace QFW
open vector_t

theorem genJ_spec (w L ti tk : Nat) (hw : 1 ≤ w) (htk : 0 < tk) (Ok : Nat → Int → Prop)
    (a b c : Nat) (H : KernelHyp w Ok a b c) (i k j : Nat) (hi : i + ti ≤ B) (hk : k + tk ≤ B)
    (hj : j + L ≤ B) (coef : Nat → Nat → Int) (m : Mem) (hm : MemOk Ok m)
    (hcoef : ∀ r, r < ti → ∀ s, s < tk → Ok (b + ((i + r) * B + (k + s))) (coef r s)) :
    MemOk Ok (genJ w L ti tk a c i k coef j m) ∧
    (∀ addr, m addr ≤ genJ w L ti tk a c i k coef j m addr) ∧
    ∀ r, r < ti → ∀ s, s < tk → ∀ l, l < L →
      m (c + ((k + s) * B + (j + l))) + coef r s ≤
        genJ w L ti tk a c i k coef j m (a + ((i + r) * B + (j + l))) := by
  unfold genJ
  apply loop_coverR (fun m1 m2 : Mem => ∀ addr, m1 addr ≤ m2 addr)
    (fun _ _ => le_refl _) (fun _ _ _ h1 h2 addr => le_trans (h1 addr) (h2 addr))
    (MemOk Ok)
    (fun r m3 => ∀ s, s < tk → ∀ l, l < L →
      m (c + ((k + s) * B + (j + l))) + coef r s ≤ m3 (a + ((i + r) * B + (j + l))))
  · intro r hr m2 hm2
    have hx : ∀ s, s ≤ tk - 1 → ∀ l, l < L →
        Ok (c + ((k + s) * B + (j + l))) (m (c + ((k + s) * B + j) + l)) := by
      intro s _ l _
      have e : c + ((k + s) * B + (j + l)) = c + ((k + s) * B + j) + l := by ring
      rw [e]; exact hm _
    have hy : ∀ s, s ≤ tk - 1 → Ok (b + ((i + r) * B + (k + s))) (coef r s) :=
      fun s hs => hcoef r hr s (by omega)
    obtain ⟨h1, h2⟩ := chmax_store_ok w L hw Ok a b c H m2 hm2 (i + r) k j (tk - 1)
      (by omega) hj (by omega) (fun s l => m (c + ((k + s) * B + j) + l)) (fun s => coef r s) hx hy
    refine ⟨h1, fun addr => chmax_store_mono _ _ _ _ _, fun s hs l hl => ?_⟩
    have e1 : c + ((k + s) * B + (j + l)) = c + ((k + s) * B + j) + l := by ring
    have e2 : a + ((i + r) * B + (j + l)) = a + ((i + r) * B + j) + l := by ring
    rw [e1, e2]
    exact h2 s (by omega) l hl
  · intro r _ s s2 hR hQ t ht l hl
    exact le_trans (hQ t ht l hl) (hR _)
  · exact hm

theorem genI_spec (w L ti tk : Nat) (hw : 1 ≤ w) (hL : 0 < L) (hLB : L ∣ B) (htk : 0 < tk)
    (Ok : Nat → Int → Prop) (a b c : Nat) (H : KernelHyp w Ok a b c) (i k : Nat)
    (hi : i + ti ≤ B) (hk : k + tk ≤ B) (m : Mem) (hm : MemOk Ok m) :
    MemOk Ok (genI w L ti tk a b c k i m) ∧
    (∀ addr, m addr ≤ genI w L ti tk a b c k i m addr) ∧
    ∀ r, r < ti → ∀ s, s < tk → ∀ j, j < B →
      m (b + ((i + r) * B + (k + s))) + m (c + ((k + s) * B + j)) ≤
        genI w L ti tk a b c k i m (a + ((i + r) * B + j)) := by
  unfold genI
  have key := forStep_coverR (fun m1 m2 : Mem => ∀ addr, m1 addr ≤ m2 addr)
    (fun _ _ => le_refl _) (fun _ _ _ h1 h2 addr => le_trans (h1 addr) (h2 addr))
    (fun m2 => MemOk Ok m2 ∧ ∀ addr, m addr ≤ m2 addr)
    (fun t m3 => ∀ r, r < ti → ∀ s, s < tk → ∀ l, l < L →
      m (b + ((i + r) * B + (k + s))) + m (c + ((k + s) * B + (t * L + l))) ≤
        m3 (a + ((i + r) * B + (t * L + l))))
    B L (genJ w L ti tk a c i k (fun r s => m (b + ((i + r) * B + (k + s))))) hL hLB
    (by
      intro t ht m2 hm2
      have hjL : t * L + L ≤ B := by
        have := tile_bound B L t (L - 1) hLB ht (by omega)
        omega
      obtain ⟨h1, h2, h3⟩ := genJ_spec w L ti tk hw htk Ok a b c H i k (t * L) hi hk hjL
        (fun r s => m (b + ((i + r) * B + (k + s)))) m2 hm2.1 (fun r _ s _ => hm _)
      refine ⟨⟨h1, fun addr => le_trans (hm2.2 addr) (h2 addr)⟩, h2, fun r hr s hs l hl => ?_⟩
      have := h3 r hr s hs l hl
      have := hm2.2 (c + ((k + s) * B + (t * L + l)))
      linarith)
    (by
      intro t _ s s2 hR hQ r hr s3 hs3 l hl
      exact le_trans (hQ r hr s3 hs3 l hl) (hR _))
    m ⟨hm, fun _ => le_refl _⟩
  obtain ⟨k1, k2, k3⟩ := key
  refine ⟨k1.1, k2, fun r hr s hs j hj => ?_⟩
  obtain ⟨t1, t2, t3⟩ := tile_split B L j hL hj
  have := k3 (j / L) t1 r hr s hs (j % L) t2
  rw [t3] at this
  exact this

theorem genK_spec (w L ti tk : Nat) (hw : 1 ≤ w) (hL : 0 < L) (hLB : L ∣ B) (hti : 0 < ti)
    (htiB : ti ∣ B) (htk : 0 < tk) (Ok : Nat → Int → Prop) (a b c : Nat)
    (H : KernelHyp w Ok a b c) (k : Nat) (hk : k + tk ≤ B) (m : Mem) (hm : MemOk Ok m) :
    MemOk Ok (genK w L ti tk a b c k m) ∧
    (∀ addr, m addr ≤ genK w L ti tk a b c k m addr) ∧
    ∀ i, i < B → ∀ s, s < tk → ∀ j, j < B →
      m (b + (i * B + (k + s))) + m (c + ((k + s) * B + j)) ≤
        genK w L ti tk a b c k m (a + (i * B + j)) := by
  unfold genK
  have key := forStep_coverR (fun m1 m2 : Mem => ∀ addr, m1 addr ≤ m2 addr)
    (fun _ _ => le_refl _) (fun _ _ _ h1 h2 addr => le_trans (h1 addr) (h2 addr))
    (fun m2 => MemOk Ok m2 ∧ ∀ addr, m addr ≤ m2 addr)
    (fun t m3 => ∀ r, r < ti → ∀ s, s < tk → ∀ j, j < B →
      m (b + ((t * ti + r) * B + (k + s))) + m (c + ((k + s) * B + j)) ≤
        m3 (a + ((t * ti + r) * B + j)))
    B ti (genI w L ti tk a b c k) hti htiB
    (by
      intro t ht m2 hm2
      have hiB : t * ti + ti ≤ B := by
        have := tile_bound B ti t (ti - 1) htiB ht (by omega)
        omega
      obtain ⟨h1, h2, h3⟩ := genI_spec w L ti tk hw hL hLB htk Ok a b c H (t * ti) k hiB hk
        m2 hm2.1
      refine ⟨⟨h1, fun addr => le_trans (hm2.2 addr) (h2 addr)⟩, h2, fun r hr s hs j hj => ?_⟩
      have := h3 r hr s hs j hj
      have := hm2.2 (c + ((k + s) * B + j))
      have := hm2.2 (b + ((t * ti + r) * B + (k + s)))
      linarith)
    (by
      intro t _ s s2 hR hQ r hr s3 hs3 j hj
      exact le_trans (hQ r hr s3 hs3 j hj) (hR _))
    m ⟨hm, fun _ => le_refl _⟩
  obtain ⟨k1, k2, k3⟩ := key
  refine ⟨k1.1, k2, fun i hi s hs j hj => ?_⟩
  obtain ⟨t1, t2, t3⟩ := tile_split B ti i hti hi
  have := k3 (i / ti) t1 (i % ti) t2 s hs j hj
  rw [t3] at this
  exact this

theorem genKernel_spec (w L ti tk : Nat) (hw : 1 ≤ w) (hL : 0 < L) (hLB : L ∣ B) (hti : 0 < ti)
    (htiB : ti ∣ B) (htk : 0 < tk) (htkB : tk ∣ B) (Ok : Nat → Int → Prop) (a b c : Nat)
    (H : KernelHyp w Ok a b c) (m : Mem) (hm : MemOk Ok m) :
    MemOk Ok (genKernel w L ti tk m a b c) ∧
    (∀ addr, m addr ≤ genKernel w L ti tk m a b c addr) ∧
    ∀ i, i < B → ∀ k, k < B → ∀ j, j < B →
      m (b + (i * B + k)) + m (c + (k * B + j)) ≤ genKernel w L ti tk m a b c (a + (i * B + j)) := by
  unfold genKernel
  have key := forStep_coverR (fun m1 m2 : Mem => ∀ addr, m1 addr ≤ m2 addr)
    (fun _ _ => le_refl _) (fun _ _ _ h1 h2 addr => le_trans (h1 addr) (h2 addr))
    (fun m2 => MemOk Ok m2 ∧ ∀ addr, m addr ≤ m2 addr)
    (fun t m3 => ∀ i, i < B → ∀ s, s < tk → ∀ j, j < B →
      m (b + (i * B + (t * tk + s))) + m (c + ((t * tk + s) * B + j)) ≤ m3 (a + (i * B + j)))
    B tk (genK w L ti tk a b c) htk htkB
    (by
      intro t ht m2 hm2
      have hkB : t * tk + tk ≤ B := by
        have := tile_bound B tk t (tk - 1) htkB ht (by omega)
        omega
      obtain ⟨h1, h2, h3⟩ := genK_spec w L ti tk hw hL hLB hti htiB htk Ok a b c H (t * tk) hkB
        m2 hm2.1
      refine ⟨⟨h1, fun addr => le_trans (hm2.2 addr) (h2 addr)⟩, h2, fun i hi s hs j hj => ?_⟩
      have := h3 i hi s hs j hj
      have := hm2.2 (c + ((t * tk + s) * B + j))
      have := hm2.2 (b + (i * B + (t * tk + s)))
      linarith)
    (by
      intro t _ s s2 hR hQ i hi s3 hs3 j hj
      exact le_trans (hQ i hi s3 hs3 j hj) (hR _))
    m ⟨hm, fun _ => le_refl _⟩
  obtain ⟨k1, k2, k3⟩ := key
  refine ⟨k1.1, k2, fun i hi k hk j hj => ?_⟩
  obtain ⟨t1, t2, t3⟩ := tile_split B tk k htk hk
  have := k3 (k / tk) t1 i hi (k % tk) t2 j hj
  rw [t3] at this
  exact this

/-! ### Frame: only the block `a` is written -/

theorem genJ_frame (w L ti tk : Nat) (a c i k j : Nat) (hi : i + ti ≤ B) (hj : j + L ≤ B)
    (coef : Nat → Nat → Int) (m : Mem) (addr : Nat) (h : addr < a ∨ a + B * B ≤ addr) :
    genJ w L ti tk a c i k coef j m addr = m addr := by
  unfold genJ
  apply loop_inv (fun m2 : Mem => m2 addr = m addr) _ _ _ m rfl
  intro r hr m2 hm2
  show chmax_store L _ m2 _ addr = m addr
  rw [chmax_store_other, hm2]
  have h1 : (i + r) * B + j + L ≤ B * B := by
    have : (i + r) * B ≤ (B - 1) * B := Nat.mul_le_mul_right B (by omega)
    have e : (B - 1) * B + B = B * B := by simp only [B]
    omega
  omega

theorem genKernel_frame (w L ti tk : Nat) (hL : 0 < L) (hLB : L ∣ B) (hti : 0 < ti)
    (htiB : ti ∣ B) (htk : 0 < tk) (htkB : tk ∣ B) (m : Mem) (a b c : Nat) (addr : Nat)
    (h : addr < a ∨ a + B * B ≤ addr) : genKernel w L ti tk m a b c addr = m addr := by
  unfold genKernel
  apply forStep_inv (fun m2 : Mem => m2 addr = m addr) _ _ _ htk htkB _ m rfl
  intro t _ m2 hm2
  unfold genK
  apply forStep_inv (fun m3 : Mem => m3 addr = m addr) _ _ _ hti htiB _ m2 hm2
  intro t2 ht2 m3 hm3
  unfold genI
  apply forStep_inv (fun m4 : Mem => m4 addr = m addr) _ _ _ hL hLB _ m3 hm3
  intro t3 ht3 m4 hm4
  have hiB : t2 * ti + ti ≤ B := by
    have := tile_bound B ti t2 (ti - 1) htiB ht2 (by omega)
    omega
  have hjL : t3 * L + L ≤ B := by
    have := tile_bound B L t3 (L - 1) hLB ht3 (by omega)
    omega
  show genJ w L ti tk a c (t2 * ti) (t * tk) _ (t3 * L) m4 addr = m addr
  rw [genJ_frame w L ti tk a c (t2 * ti) (t * tk) (t3 * L) hiB hjL _ m4 addr h, hm4]

end QFW

namespace QFW
open vector_t

theorem vmax_def (v u : Vec) : vector_t.vmax v u = fun l => max (v l) (u l) := rfl
theorem add_def (w : Nat) (v u : Vec) : vector_t.add w v u = fun l => wrapT w (v l + u l) := rfl
theorem load_def (m : Mem) (p : Nat) : vector_t.load m p = fun l => m (p + l) := rfl
theorem broadcast_def (x : Int) : vector_t.broadcast x = fun _ => x := rfl

theorem two_mul_B : 2 * B = B + B := by ring
theorem three_mul_B : 3 * B = B + (B + B) := by ring

theorem MaxPlusMul0_eq (w L : Nat) (m : Mem) (a b c : Nat) :
    MaxPlusMul0 w L m a b c = genKernel w L 2 2 m a b c := by
  unfold MaxPlusMul0 genKernel genK genI genJ
  apply forStep_congr; intro k m
  apply forStep_congr; intro i m
  apply forStep_congr; intro j m
  simp only [loop, maxUpTo, vmax_def, add_def, load_def, broadcast_def, Nat.reduceAdd,
    Nat.reduceSub, Nat.add_zero, Nat.zero_add, Nat.add_assoc, Nat.add_mul, Nat.one_mul, two_mul_B,
    three_mul_B, max_assoc]

theorem MaxPlusMul1_eq (w L : Nat) (m : Mem) (a b c : Nat) :
    MaxPlusMul1 w L m a b c = genKernel w L 2 4 m a b c := by
  unfold MaxPlusMul1 genKernel genK genI genJ
  apply forStep_congr; intro k m
  apply forStep_congr; intro i m
  apply forStep_congr; intro j m
  simp only [loop, maxUpTo, vmax_def, add_def, load_def, broadcast_def, Nat.reduceAdd,
    Nat.reduceSub, Nat.add_zero, Nat.zero_add, Nat.add_assoc, Nat.add_mul, Nat.one_mul, two_mul_B,
    three_mul_B, max_assoc]

theorem MaxPlusMul2_eq (w L : Nat) (m : Mem) (a b c : Nat) :
    MaxPlusMul2 w L m a b c = genKernel w L 4 2 m a b c := by
  unfold MaxPlusMul2 genKernel genK genI genJ
  apply forStep_congr; intro k m
  apply forStep_congr; intro i m
  apply forStep_congr; intro j m
  simp only [loop, maxUpTo, vmax_def, add_def, load_def, broadcast_def, Nat.reduceAdd,
    Nat.reduceSub, Nat.add_zero, Nat.zero_add, Nat.add_assoc, Nat.add_mul, Nat.one_mul, two_mul_B,
    three_mul_B, max_assoc]

theorem MaxPlusMul3_eq (w L : Nat) (m : Mem) (a b c : Nat) :
    MaxPlusMul3 w L m a b c = genKernel w L 4 4 m a b c := by
  unfold MaxPlusMul3 genKernel genK genI genJ
  apply forStep_congr; intro k m
  apply forStep_congr; intro i m
  apply forStep_congr; intro j m
  simp only [loop, maxUpTo, vmax_def, add_def, load_def, broadcast_def, Nat.reduceAdd,
    Nat.reduceSub, Nat.add_zero, Nat.zero_add, Nat.add_assoc, Nat.add_mul, Nat.one_mul, two_mul_B,
    three_mul_B, max_assoc]

/-- The serial loop of `FWI` is the kernel shape with one row and one pivot per tile. -/
theorem serial_eq (w L : Nat) (m : Mem) (a b c : Nat) :
    loop B (fun k => loop B (fun i m =>
      let coef := broadcast (m (b + (i * B + k)))
      let aa := a + i * B
      let bb := c + k * B
      forStep B L (fun j m => chmax_store L (add w (load m (bb + j)) coef) m (aa + j)) m)) m
      = genKernel w L 1 1 m a b c := by
  unfold genKernel genK genI genJ
  rw [forStep_one]
  apply loop_congr; intro k m
  rw [forStep_one]
  apply loop_congr; intro i m
  apply forStep_congr; intro j m
  simp only [loop, maxUpTo, add_def, load_def, broadcast_def, Nat.reduceAdd,
    Nat.reduceSub, Nat.add_zero, Nat.zero_add, Nat.add_assoc, Nat.add_mul, Nat.one_mul]

/-- Whatever branch is taken, `FWI` is a kernel of the common shape. -/
theorem FWI_eq (w L u : Nat) (hu : u ≤ 3) (m : Mem) (a b c : Nat) :
    ∃ ti tk, 0 < ti ∧ ti ∣ B ∧ 0 < tk ∧ tk ∣ B ∧
      FWI w L u m a b c = genKernel w L ti tk m a b c ∧ ((a = b ∧ a = c) → ti = 1 ∧ tk = 1) := by
  have d2 : 2 ∣ B := ⟨32, rfl⟩
  have d4 : 4 ∣ B := ⟨16, rfl⟩
  by_cases h : a ≠ b ∧ a ≠ c ∧ b ≠ c
  · have hne : ¬ (a = b ∧ a = c) := fun h2 => h.1 h2.1
    have hu4 : u = 0 ∨ u = 1 ∨ u = 2 ∨ u = 3 := by omega
    rcases hu4 with rfl | rfl | rfl | rfl
    · exact ⟨2, 2, by omega, d2, by omega, d2, by simp [FWI, h, MaxPlusMul0_eq], fun h2 => absurd h2 hne⟩
    · exact ⟨2, 4, by omega, d2, by omega, d4, by simp [FWI, h, MaxPlusMul1_eq], fun h2 => absurd h2 hne⟩
    · exact ⟨4, 2, by omega, d4, by omega, d2, by simp [FWI, h, MaxPlusMul2_eq], fun h2 => absurd h2 hne⟩
    · exact ⟨4, 4, by omega, d4, by omega, d4, by simp [FWI, h, MaxPlusMul3_eq], fun h2 => absurd h2 hne⟩
  · refine ⟨1, 1, by omega, one_dvd _, by omega, one_dvd _, ?_, fun _ => ⟨rfl, rfl⟩⟩
    unfold FWI
    rw [if_neg h]
    exact serial_eq w L m a b c

end QFW

namespace QFW

/-! ## Walks -/

theorem walkW_append (D : Nat → Nat → Int) (p1 : List Nat) (k : Nat) (p2 : List Nat)
    (i j : Nat) : walkW D i (p1 ++ k :: p2) j = walkW D i p1 k + walkW D k p2 j := by
  induction p1 generalizing i with
  | nil => rfl
  | cons v p ih =>
    show D i v + walkW D v (p ++ k :: p2) j = D i v + walkW D v p k + walkW D k p2 j
    rw [ih, add_assoc]

theorem walkW_snoc (D : Nat → Nat → Int) (p : List Nat) (k i j : Nat) :
    walkW D i (p ++ [k]) j = walkW D i p k + D k j := walkW_append D p k [] i j

/-- Walks over non-positive weights have non-positive weight. -/
theorem walkW_nonpos (D : Nat → Nat → Int) (V : Nat → Prop)
    (hD : ∀ u v, V u → V v → D u v ≤ 0) (p : List Nat) (i j : Nat) (hi : V i) (hj : V j)
    (hp : ∀ v, v ∈ p → V v) : walkW D i p j ≤ 0 := by
  induction p generalizing i with
  | nil => exact hD i j hi hj
  | cons v p ih =>
    have h1 := hD i v hi (hp v (List.mem_cons_self _ _))
    have h2 := ih v (hp v (List.mem_cons_self _ _)) (fun u hu => hp u (List.mem_cons_of_mem _ hu))
    simp only [walkW]; linarith

/-- Walks grow with the weights. -/
theorem walkW_mono (D E : Nat → Nat → Int) (V : Nat → Prop)
    (hDE : ∀ u v, V u → V v → D u v ≤ E u v) (p : List Nat) (i j : Nat) (hi : V i) (hj : V j)
    (hp : ∀ v, v ∈ p → V v) : walkW D i p j ≤ walkW E i p j := by
  induction p generalizing i with
  | nil => exact hDE i j hi hj
  | cons v p ih =>
    have h1 := hDE i v hi (hp v (List.mem_cons_self _ _))
    have h2 := ih v (hp v (List.mem_cons_self _ _)) (fun u hu => hp u (List.mem_cons_of_mem _ hu))
    simp only [walkW]; linarith

theorem list_split_first (Q : Nat → Prop) (p : List Nat) :
    (∀ v, v ∈ p → ¬ Q v) ∨
      ∃ p1 k p2, p = p1 ++ k :: p2 ∧ Q k ∧ ∀ v, v ∈ p1 → ¬ Q v := by
  induction p with
  | nil => exact Or.inl (fun v hv => absurd hv (List.not_mem_nil v))
  | cons u p ih =>
    by_cases hu : Q u
    · exact Or.inr ⟨[], u, p, rfl, hu, fun v hv => absurd hv (List.not_mem_nil v)⟩
    · rcases ih with h | ⟨p1, k, p2, he, hk, h1⟩
      · left
        intro v hv
        rcases List.mem_cons.mp hv with h2 | h2
        · rw [h2]; exact hu
        · exact h v h2
      · right
        refine ⟨u :: p1, k, p2, by rw [he]; rfl, hk, fun v hv => ?_⟩
        rcases List.mem_cons.mp hv with h2 | h2
        · rw [h2]; exact hu
        · exact h1 v h2

theorem list_split_last (Q : Nat → Prop) (p : List Nat) :
    (∀ v, v ∈ p → ¬ Q v) ∨
      ∃ p1 k p2, p = p1 ++ k :: p2 ∧ Q k ∧ ∀ v, v ∈ p2 → ¬ Q v := by
  induction p with
  | nil => exact Or.inl (fun v hv => absurd hv (List.not_mem_nil v))
  | cons u p ih =>
    rcases ih with h | ⟨p1, k, p2, he, hk, h1⟩
    · by_cases hu : Q u
      · exact Or.inr ⟨[], u, p, rfl, hu, h⟩
      · left
        intro v hv
        rcases List.mem_cons.mp hv with h2 | h2
        · rw [h2]; exact hu
        · exact h v h2
    · exact Or.inr ⟨u :: p1, k, p2, by rw [he]; rfl, hk, h1⟩

/-- A walk through `k` is beaten by a walk to `k` and a walk from `k` that avoid `k`. -/
theorem walk_split (D : Nat → Nat → Int) (V : Nat → Prop)
    (hD : ∀ u v, V u → V v → D u v ≤ 0) (k : Nat) (p : List Nat) (i j : Nat)
    (hi : V i) (hj : V j) (hp : ∀ v, v ∈ p → V v) (hk : k ∈ p) :
    ∃ q1 q2, (∀ v, v ∈ q1 → v ∈ p ∧ v ≠ k) ∧ (∀ v, v ∈ q2 → v ∈ p ∧ v ≠ k) ∧
      walkW D i p j ≤ walkW D i q1 k + walkW D k q2 j := by
  have hVk : V k := hp k hk
  rcases list_split_first (fun v => v = k) p with h | ⟨p1, k1, p2, he, hk1, h1⟩
  · exact absurd rfl (h k hk)
  · have hk1b : k1 = k := hk1
    subst hk1b
    have hp2 : ∀ v, v ∈ p2 → v ∈ p := fun v hv => by
      rw [he]; exact List.mem_append_right _ (List.mem_cons_of_mem _ hv)
    have hp1 : ∀ v, v ∈ p1 → v ∈ p := fun v hv => by
      rw [he]; exact List.mem_append_left _ hv
    rcases list_split_last (fun v => v = k1) p2 with h | ⟨p3, k2, p4, he2, hk2, h2⟩
    · refine ⟨p1, p2, fun v hv => ⟨hp1 v hv, h1 v hv⟩, fun v hv => ⟨hp2 v hv, h v hv⟩, ?_⟩
      rw [he, walkW_append]
    · have hk2b : k2 = k1 := hk2
      subst hk2b
      have hp4 : ∀ v, v ∈ p4 → v ∈ p2 := fun v hv => by
        rw [he2]; exact List.mem_append_right _ (List.mem_cons_of_mem _ hv)
      have hp3 : ∀ v, v ∈ p3 → v ∈ p2 := fun v hv => by
        rw [he2]; exact List.mem_append_left _ hv
      refine ⟨p1, p4, fun v hv => ⟨hp1 v hv, h1 v hv⟩,
        fun v hv => ⟨hp2 v (hp4 v hv), h2 v hv⟩, ?_⟩
      rw [he, walkW_append, he2, walkW_append]
      have := walkW_nonpos D V hD p3 k2 k2 hVk hVk (fun v hv => hp v (hp2 v (hp3 v hv)))
      linarith

/-- Floyd–Warshall in max-form: if sweep `k` relaxes every pair through the pivot `k` and
elements only grow, then after `k` sweeps every pair beats every walk whose intermediate
vertices are below `k`. -/
theorem fw_closure (n : Nat) (s : Nat → Nat → Nat → Int)
    (hneg : ∀ i j, i < n → j < n → s 0 i j ≤ 0)
    (hmono : ∀ k, k < n → ∀ i j, i < n → j < n → s k i j ≤ s (k + 1) i j)
    (hstep : ∀ k, k < n → ∀ i j, i < n → j < n → s k i k + s k k j ≤ s (k + 1) i j) :
    ∀ k, k ≤ n → ∀ i j, i < n → j < n → ∀ p : List Nat, (∀ v, v ∈ p → v < k) →
      walkW (s 0) i p j ≤ s k i j := by
  intro k
  induction k with
  | zero =>
    intro _ i j _ _ p hp
    cases p with
    | nil => exact le_refl _
    | cons v p => exact absurd (hp v (List.mem_cons_self _ _)) (Nat.not_lt_zero v)
  | succ k ih =>
    intro hk i j hi hj p hp
    have hk2 : k < n := hk
    by_cases hmem : k ∈ p
    · obtain ⟨q1, q2, h1, h2, h3⟩ := walk_split (s 0) (fun v => v < n) hneg k p i j hi hj
        (fun v hv => Nat.lt_of_lt_of_le (hp v hv) hk) hmem
      have hq : ∀ (q : List Nat), (∀ v, v ∈ q → v ∈ p ∧ v ≠ k) → ∀ v, v ∈ q → v < k := by
        intro q hq v hv
        have := hp v (hq v hv).1
        have := (hq v hv).2
        omega
      have a1 := ih (le_of_lt hk2) i k hi hk2 q1 (hq q1 h1)
      have a2 := ih (le_of_lt hk2) k j hk2 hj q2 (hq q2 h2)
      have a3 := hstep k hk2 i j hi hj
      linarith
    · have hq : ∀ v, v ∈ p → v < k := by
        intro v hv
        have := hp v hv
        have : v ≠ k := fun h => hmem (h ▸ hv)
        omega
      exact le_trans (ih (le_of_lt hk2) i j hi hj p hq) (hmono k hk2 i j hi hj)

end QFW

namespace QFW

/-! ## Specification of the block update `FWI` -/

/-- `FWI` keeps an admissible invariant, only grows elements, relaxes every triple
`(i, k, j)` against the entry state, and writes the block `a` only. -/
theorem FWI_spec (w L u : Nat) (hw : 1 ≤ w) (hL : 0 < L) (hLB : L ∣ B) (hu : u ≤ 3)
    (Ok : Nat → Int → Prop) (a b c : Nat) (H : KernelHyp w Ok a b c) (m : Mem)
    (hm : MemOk Ok m) :
    MemOk Ok (FWI w L u m a b c) ∧
    (∀ addr, m addr ≤ FWI w L u m a b c addr) ∧
    (∀ i, i < B → ∀ k, k < B → ∀ j, j < B →
      m (b + (i * B + k)) + m (c + (k * B + j)) ≤ FWI w L u m a b c (a + (i * B + j))) ∧
    ∀ addr, (addr < a ∨ a + B * B ≤ addr) → FWI w L u m a b c addr = m addr := by
  obtain ⟨ti, tk, h1, h2, h3, h4, he, _⟩ := FWI_eq w L u hu m a b c
  rw [he]
  obtain ⟨k1, k2, k3⟩ := genKernel_spec w L ti tk hw hL hLB h1 h2 h3 h4 Ok a b c H m hm
  exact ⟨k1, k2, k3, fun addr h => genKernel_frame w L ti tk hL hLB h1 h2 h3 h4 m a b c addr h⟩

/-- On the pivot block `FWI(a, a, a)` is a full Floyd–Warshall: every pair beats every
walk inside the block. -/
theorem FWI_closure (w L u : Nat) (hw : 1 ≤ w) (hL : 0 < L) (hLB : L ∣ B) (hu : u ≤ 3)
    (Ok : Nat → Int → Prop) (a : Nat) (H : KernelHyp w Ok a a a) (m : Mem)
    (hm : MemOk Ok m) (i j : Nat) (hi : i < B) (hj : j < B) (p : List Nat)
    (hp : ∀ v, v ∈ p → v < B) :
    walkW (fun u v => m (a + (u * B + v))) i p j ≤ FWI w L u m a a a (a + (i * B + j)) := by
  obtain ⟨ti, tk, _, _, _, _, he, h1⟩ := FWI_eq w L u hu m a a a
  obtain ⟨rfl, rfl⟩ := h1 ⟨rfl, rfl⟩
  rw [he]
  unfold genKernel
  rw [forStep_one]
  have hOk : ∀ k, k ≤ B → MemOk Ok (loop k (genK w L 1 1 a a a) m) := by
    intro k
    induction k with
    | zero => exact fun _ => hm
    | succ k ih =>
      intro hk
      exact (genK_spec w L 1 1 hw hL hLB (by omega) (one_dvd _) (by omega) Ok a a a H k
        (by omega) _ (ih (by omega))).1
  have key := fw_closure B (fun k u v => loop k (genK w L 1 1 a a a) m (a + (u * B + v)))
    (fun u v hu hv => (H.rb (u * B + v)
      (by simp only [B] at *; omega) _ (hm _)).2)
    (fun k hk u v _ _ =>
      (genK_spec w L 1 1 hw hL hLB (by omega) (one_dvd _) (by omega) Ok a a a H k
        (by omega) _ (hOk k (by omega))).2.1 _)
    (fun k hk u v hu hv => by
      have := (genK_spec w L 1 1 hw hL hLB (by omega) (one_dvd _) (by omega) Ok a a a H k
        (by omega) _ (hOk k (by omega))).2.2 u hu 0 (by omega) v hv
      simpa only [Nat.add_zero] using this)
  exact key B (le_refl _) i j hi hj p hp

end QFW

namespace QFW

/-! ## The recursive driver, general flag-free part -/

theorem Relaxed_refl (Ok : Nat → Int → Prop) (blk : Nat → Nat → Nat) (m : Mem)
    (hm : MemOk Ok m) : Relaxed Ok blk m m (fun _ _ _ => False) :=
  ⟨hm, fun _ => le_refl _, fun _ _ _ h => absurd h id⟩

theorem Relaxed_trans (Ok : Nat → Int → Prop) (blk : Nat → Nat → Nat) (m m1 m2 : Mem)
    (T1 T2 : Nat → Nat → Nat → Prop) (h1 : Relaxed Ok blk m m1 T1)
    (h2 : Relaxed Ok blk m1 m2 T2) :
    Relaxed Ok blk m m2 (fun i k j => T1 i k j ∨ T2 i k j) := by
  refine ⟨h2.1, fun addr => le_trans (h1.2.1 addr) (h2.2.1 addr), fun i k j h => ?_⟩
  rcases h with h | h
  · exact le_trans (h1.2.2 i k j h) (h2.2.1 _)
  · have a1 := h2.2.2 i k j h
    have a2 : view blk m i k ≤ view blk m1 i k := h1.2.1 _
    have a3 : view blk m k j ≤ view blk m1 k j := h1.2.1 _
    linarith

theorem Relaxed_weaken (Ok : Nat → Int → Prop) (blk : Nat → Nat → Nat) (m m2 : Mem)
    (T T2 : Nat → Nat → Nat → Prop) (h : Relaxed Ok blk m m2 T)
    (hT : ∀ i k j, T2 i k j → T i k j) : Relaxed Ok blk m m2 T2 :=
  ⟨h.1, h.2.1, fun i k j h2 => h.2.2 i k j (hT i k j h2)⟩

theorem FWR_pruned (w L u P G i0 i1 i2 : Nat) (BP : Table) (sym : Bool) (m : Mem)
    (h : i0 ≥ G ∨ i1 ≥ G ∨ i2 ≥ G) : FWR w L u P G i0 i1 i2 BP sym m = some m := by
  rw [FWR, if_pos h]

theorem FWR_base (w L u G i0 i1 i2 : Nat) (BP : Table) (sym : Bool) (m : Mem)
    (blk : Nat → Nat → Nat) (hBP : TableOk BP G blk) (h0 : i0 < G) (h1 : i1 < G) (h2 : i2 < G) :
    FWR w L u 1 G i0 i1 i2 BP sym m = some (FWI w L u m (blk i0 i2) (blk i0 i1) (blk i1 i2)) := by
  rw [FWR, if_neg (by omega), if_pos rfl, hBP i0 i2 h0 h2, hBP i0 i1 h0 h1, hBP i1 i2 h1 h2]

theorem FWR_rec_false (w L u P G i0 i1 i2 : Nat) (BP : Table) (m : Mem)
    (h0 : i0 < G) (h1 : i1 < G) (h2 : i2 < G) (hP : 2 ≤ P) :
    FWR w L u P G i0 i1 i2 BP false m =
      ((((((((FWR w L u (P / 2) G i0 i1 i2 BP false m).bind
        (FWR w L u (P / 2) G i0 i1 (i2 + P / 2) BP false)).bind
        (FWR w L u (P / 2) G (i0 + P / 2) i1 i2 BP false)).bind
        (FWR w L u (P / 2) G (i0 + P / 2) i1 (i2 + P / 2) BP false)).bind
        (FWR w L u (P / 2) G (i0 + P / 2) (i1 + P / 2) (i2 + P / 2) BP false)).bind
        (FWR w L u (P / 2) G (i0 + P / 2) (i1 + P / 2) i2 BP false)).bind
        (FWR w L u (P / 2) G i0 (i1 + P / 2) (i2 + P / 2) BP false)).bind
        (FWR w L u (P / 2) G i0 (i1 + P / 2) i2 BP false)) := by
  rw [FWR, if_neg (by omega), if_neg (by omega), if_neg (by omega)]
  simp only [Bool.not_false, if_true, bind, Option.bind_assoc]

theorem Relaxed_chain (Ok : Nat → Int → Prop) (blk : Nat → Nat → Nat) (m : Mem)
    (x : Option Mem) (f : Mem → Option Mem) (T1 T2 : Nat → Nat → Nat → Prop)
    (h1 : ∃ m1, x = some m1 ∧ Relaxed Ok blk m m1 T1)
    (h2 : ∀ m1, MemOk Ok m1 → ∃ m2, f m1 = some m2 ∧ Relaxed Ok blk m1 m2 T2) :
    ∃ m2, x.bind f = some m2 ∧ Relaxed Ok blk m m2 (fun i k j => T1 i k j ∨ T2 i k j) := by
  obtain ⟨m1, e1, r1⟩ := h1
  obtain ⟨m2, e2, r2⟩ := h2 m1 r1.1
  exact ⟨m2, by rw [e1]; exact e2, Relaxed_trans Ok blk m m1 m2 T1 T2 r1 r2⟩

theorem Rows_one (G i0 i : Nat) (h : Rows G i0 1 i) : i / B = i0 ∧ i % B < B ∧ i0 < G := by
  simp only [Rows, B] at *
  omega

theorem Rows_half (G i0 h i : Nat) (hr : Rows G i0 (2 * h) i) :
    Rows G i0 h i ∨ Rows G (i0 + h) h i := by
  simp only [Rows] at *
  have e1 : (i0 + 2 * h) * B = (i0 + h) * B + h * B := by ring
  have e2 : (i0 + h + h) * B = (i0 + h) * B + h * B := by ring
  rcases Nat.lt_or_ge i ((i0 + h) * B) with h1 | h1
  · exact Or.inl ⟨hr.1, h1, hr.2.2⟩
  · exact Or.inr ⟨h1, by omega, hr.2.2⟩

theorem Rows_lt (G i0 P i : Nat) (h : Rows G i0 P i) : i0 < G := by
  simp only [Rows, B] at *
  omega

/-- Every call of `FWR` without the symmetric flag returns, keeps the invariant, only
grows elements and relaxes every triple of its three block ranges; the invariant has to
be admissible for the block triples of the call only. -/
theorem FWR_relaxed_on (w L u : Nat) (hw : 1 ≤ w) (hL : 0 < L) (hLB : L ∣ B) (hu : u ≤ 3)
    (Ok : Nat → Int → Prop) (blk : Nat → Nat → Nat) (G : Nat) (BP : Table)
    (hBP : TableOk BP G blk) :
    ∀ e i0 i1 i2 m,
      (∀ r1 r2 r3, r1 < G → r2 < G → r3 < G → (i0 ≤ r1 ∧ r1 < i0 + 2 ^ e) →
        (i1 ≤ r2 ∧ r2 < i1 + 2 ^ e) → (i2 ≤ r3 ∧ r3 < i2 + 2 ^ e) →
        KernelHyp w Ok (blk r1 r3) (blk r1 r2) (blk r2 r3)) →
      MemOk Ok m →
      ∃ m2, FWR w L u (2 ^ e) G i0 i1 i2 BP false m = some m2 ∧
        Relaxed Ok blk m m2
          (fun i k j => Rows G i0 (2 ^ e) i ∧ Rows G i1 (2 ^ e) k ∧ Rows G i2 (2 ^ e) j) := by
  intro e
  induction e with
  | zero =>
    intro i0 i1 i2 m hH hm
    by_cases hpr : i0 ≥ G ∨ i1 ≥ G ∨ i2 ≥ G
    · refine ⟨m, FWR_pruned _ _ _ _ _ _ _ _ _ _ _ hpr, hm, fun _ => le_refl _, ?_⟩
      intro i k j ⟨a1, a2, a3⟩
      have := Rows_lt _ _ _ _ a1
      have := Rows_lt _ _ _ _ a2
      have := Rows_lt _ _ _ _ a3
      omega
    · have h0 : i0 < G := by omega
      have h1 : i1 < G := by omega
      have h2 : i2 < G := by omega
      rw [pow_zero, FWR_base w L u G i0 i1 i2 BP false m blk hBP h0 h1 h2]
      obtain ⟨k1, k2, k3, _⟩ := FWI_spec w L u hw hL hLB hu Ok _ _ _
        (hH i0 i1 i2 h0 h1 h2 (by simp) (by simp) (by simp)) m hm
      refine ⟨_, rfl, k1, k2, ?_⟩
      intro i k j ⟨a1, a2, a3⟩
      obtain ⟨b1, b2, _⟩ := Rows_one _ _ _ a1
      obtain ⟨c1, c2, _⟩ := Rows_one _ _ _ a2
      obtain ⟨d1, d2, _⟩ := Rows_one _ _ _ a3
      simp only [view, cell, b1, c1, d1]
      exact k3 (i % B) b2 (k % B) c2 (j % B) d2
  | succ e ih =>
    intro i0 i1 i2 m hH hm
    by_cases hpr : i0 ≥ G ∨ i1 ≥ G ∨ i2 ≥ G
    · refine ⟨m, FWR_pruned _ _ _ _ _ _ _ _ _ _ _ hpr, hm, fun _ => le_refl _, ?_⟩
      intro i k j ⟨a1, a2, a3⟩
      have := Rows_lt _ _ _ _ a1
      have := Rows_lt _ _ _ _ a2
      have := Rows_lt _ _ _ _ a3
      omega
    · have h0 : i0 < G := by omega
      have h1 : i1 < G := by omega
      have h2 : i2 < G := by omega
      have hpos : 0 < 2 ^ e := Nat.two_pow_pos e
      have hP : 2 ≤ 2 ^ (e + 1) := by rw [pow_succ]; omega
      have hhalf : 2 ^ (e + 1) / 2 = 2 ^ e := by rw [pow_succ]; omega
      have hpw : 2 ^ (e + 1) = 2 ^ e + 2 ^ e := by rw [pow_succ]; omega
      rw [FWR_rec_false w L u _ G i0 i1 i2 BP m h0 h1 h2 hP, hhalf]
      have sub : ∀ j0 j1 j2, (j0 = i0 ∨ j0 = i0 + 2 ^ e) → (j1 = i1 ∨ j1 = i1 + 2 ^ e) →
          (j2 = i2 ∨ j2 = i2 + 2 ^ e) → ∀ m1, MemOk Ok m1 →
          ∃ m2, FWR w L u (2 ^ e) G j0 j1 j2 BP false m1 = some m2 ∧
            Relaxed Ok blk m1 m2
              (fun i k j => Rows G j0 (2 ^ e) i ∧ Rows G j1 (2 ^ e) k ∧ Rows G j2 (2 ^ e) j) := by
        intro j0 j1 j2 g0 g1 g2 m1 hm1
        apply ih j0 j1 j2 m1 _ hm1
        intro r1 r2 r3 a1 a2 a3 b1 b2 b3
        exact hH r1 r2 r3 a1 a2 a3 (by omega) (by omega) (by omega)
      have c1 := sub i0 i1 i2 (Or.inl rfl) (Or.inl rfl) (Or.inl rfl) m hm
      have c2 := Relaxed_chain Ok blk m _ _ _ _ c1
        (sub i0 i1 (i2 + 2 ^ e) (Or.inl rfl) (Or.inl rfl) (Or.inr rfl))
      have c3 := Relaxed_chain Ok blk m _ _ _ _ c2
        (sub (i0 + 2 ^ e) i1 i2 (Or.inr rfl) (Or.inl rfl) (Or.inl rfl))
      have c4 := Relaxed_chain Ok blk m _ _ _ _ c3
        (sub (i0 + 2 ^ e) i1 (i2 + 2 ^ e) (Or.inr rfl) (Or.inl rfl) (Or.inr rfl))
      have c5 := Relaxed_chain Ok blk m _ _ _ _ c4
        (sub (i0 + 2 ^ e) (i1 + 2 ^ e) (i2 + 2 ^ e) (Or.inr rfl) (Or.inr rfl) (Or.inr rfl))
      have c6 := Relaxed_chain Ok blk m _ _ _ _ c5
        (sub (i0 + 2 ^ e) (i1 + 2 ^ e) i2 (Or.inr rfl) (Or.inr rfl) (Or.inl rfl))
      have c7 := Relaxed_chain Ok blk m _ _ _ _ c6
        (sub i0 (i1 + 2 ^ e) (i2 + 2 ^ e) (Or.inl rfl) (Or.inr rfl) (Or.inr rfl))
      have c8 := Relaxed_chain Ok blk m _ _ _ _ c7
        (sub i0 (i1 + 2 ^ e) i2 (Or.inl rfl) (Or.inr rfl) (Or.inl rfl))
      obtain ⟨m2, e2, r2⟩ := c8
      refine ⟨m2, e2, Relaxed_weaken Ok blk m m2 _ _ r2 ?_⟩
      intro i k j ⟨a1, a2, a3⟩
      rw [pow_succ, Nat.mul_comm] at a1 a2 a3
      rcases Rows_half _ _ _ _ a1 with b1 | b1 <;> rcases Rows_half _ _ _ _ a2 with b2 | b2 <;>
        rcases Rows_half _ _ _ _ a3 with b3 | b3 <;> simp only [b1, b2, b3, and_self, true_or, or_true]

/-- The same with an invariant that is admissible for every block triple of the grid. -/
theorem FWR_relaxed (w L u : Nat) (hw : 1 ≤ w) (hL : 0 < L) (hLB : L ∣ B) (hu : u ≤ 3)
    (Ok : Nat → Int → Prop) (blk : Nat → Nat → Nat) (G : Nat) (BP : Table)
    (hBP : TableOk BP G blk) (hH : BlocksHyp w Ok blk G) :
    ∀ e i0 i1 i2 m, MemOk Ok m →
      ∃ m2, FWR w L u (2 ^ e) G i0 i1 i2 BP false m = some m2 ∧
        Relaxed Ok blk m m2
          (fun i k j => Rows G i0 (2 ^ e) i ∧ Rows G i1 (2 ^ e) k ∧ Rows G i2 (2 ^ e) j) :=
  fun e i0 i1 i2 m hm => FWR_relaxed_on w L u hw hL hLB hu Ok blk G BP hBP e i0 i1 i2 m
    (fun r1 r2 r3 a1 a2 a3 _ _ _ => hH r1 r2 r3 a1 a2 a3) hm

end QFW

namespace QFW

/-! ## Walk bounds across a two-way split of the vertices -/

theorem Above_mono (D D2 X : Nat → Nat → Int) (S I J : Nat → Prop)
    (h : Above D X S I J) (hD : ∀ i j, I i → J j → D i j ≤ D2 i j) : Above D2 X S I J :=
  fun i j hi hj p hp => le_trans (h i j hi hj p hp) (hD i j hi hj)

theorem Above_weaken (D X : Nat → Nat → Int) (S I J S2 I2 J2 : Nat → Prop)
    (h : Above D X S I J) (hS : ∀ v, S2 v → S v) (hI : ∀ v, I2 v → I v)
    (hJ : ∀ v, J2 v → J v) : Above D X S2 I2 J2 :=
  fun i j hi hj p hp => h i j (hI i hi) (hJ j hj) p (fun v hv => hS v (hp v hv))

/-- Split every walk at its last vertex in `K`. -/
theorem Above_last (X E D : Nat → Nat → Int) (S T K I J : Nat → Prop)
    (hT : ∀ v, S v → ¬ K v → T v)
    (hno : Above D X T I J) (h1 : Above E X S I (fun k => S k ∧ K k))
    (h2 : Above E X T (fun k => S k ∧ K k) J)
    (hs : ∀ i k j, I i → (S k ∧ K k) → J j → E i k + E k j ≤ D i j) : Above D X S I J := by
  intro i j hi hj p hp
  rcases list_split_last K p with h | ⟨p1, k, p2, he, hk, hp2⟩
  · exact hno i j hi hj p (fun v hv => hT v (hp v hv) (h v hv))
  · have hSk : S k := hp k (by rw [he]; exact List.mem_append_right _ (List.mem_cons_self _ _))
    have a1 := h1 i k hi ⟨hSk, hk⟩ p1
      (fun v hv => hp v (by rw [he]; exact List.mem_append_left _ hv))
    have a2 := h2 k j ⟨hSk, hk⟩ hj p2 (fun v hv => hT v
      (hp v (by rw [he]; exact List.mem_append_right _ (List.mem_cons_of_mem _ hv))) (hp2 v hv))
    have a3 := hs i k j hi ⟨hSk, hk⟩ hj
    rw [he, walkW_append]
    linarith

/-- Split every walk at its first vertex in `K`. -/
theorem Above_first (X E D : Nat → Nat → Int) (S T K I J : Nat → Prop)
    (hT : ∀ v, S v → ¬ K v → T v)
    (hno : Above D X T I J) (h1 : Above E X T I (fun k => S k ∧ K k))
    (h2 : Above E X S (fun k => S k ∧ K k) J)
    (hs : ∀ i k j, I i → (S k ∧ K k) → J j → E i k + E k j ≤ D i j) : Above D X S I J := by
  intro i j hi hj p hp
  rcases list_split_first K p with h | ⟨p1, k, p2, he, hk, hp1⟩
  · exact hno i j hi hj p (fun v hv => hT v (hp v hv) (h v hv))
  · have hSk : S k := hp k (by rw [he]; exact List.mem_append_right _ (List.mem_cons_self _ _))
    have a1 := h1 i k hi ⟨hSk, hk⟩ p1 (fun v hv => hT v
      (hp v (by rw [he]; exact List.mem_append_left _ hv)) (hp1 v hv))
    have a2 := h2 k j ⟨hSk, hk⟩ hj p2
      (fun v hv => hp v (by rw [he]; exact List.mem_append_right _ (List.mem_cons_of_mem _ hv)))
    have a3 := hs i k j hi ⟨hSk, hk⟩ hj
    rw [he, walkW_append]
    linarith

/-- Contract the stretches of a walk that run through `I0`. -/
theorem walk_contract (X Y : Nat → Nat → Int) (I0 I1 : Nat → Prop)
    (hY : Above Y X I0 I1 I1) (j : Nat) (hj : I1 j) :
    ∀ (p : List Nat), (∀ v, v ∈ p → I0 v ∨ I1 v) → ∀ (i : Nat), I1 i →
      ∀ (q : List Nat), (∀ v, v ∈ q → I0 v) →
      ∃ p2 : List Nat, (∀ v, v ∈ p2 → I1 v) ∧ walkW X i (q ++ p) j ≤ walkW Y i p2 j := by
  intro p
  induction p with
  | nil =>
    intro _ i hi q hq
    exact ⟨[], fun v hv => absurd hv (List.not_mem_nil v), by
      rw [List.append_nil]; exact hY i j hi hj q hq⟩
  | cons v p ih =>
    intro hp i hi q hq
    have hp2 : ∀ u, u ∈ p → I0 u ∨ I1 u := fun u hu => hp u (List.mem_cons_of_mem _ hu)
    by_cases hv1 : I1 v
    · obtain ⟨p2, h1, h2⟩ := ih hp2 v hv1 [] (fun u hu => absurd hu (List.not_mem_nil u))
      refine ⟨v :: p2, fun u hu => ?_, ?_⟩
      · rcases List.mem_cons.mp hu with h | h
        · rw [h]; exact hv1
        · exact h1 u h
      · rw [walkW_append]
        have a1 := hY i v hi hv1 q hq
        simp only [List.nil_append] at h2
        simp only [walkW]
        linarith
    · have hv0 : I0 v := (hp v (List.mem_cons_self _ _)).resolve_right hv1
      obtain ⟨p2, h1, h2⟩ := ih hp2 i hi (q ++ [v]) (fun u hu => by
        rcases List.mem_append.mp hu with h | h
        · exact hq u h
        · rw [List.mem_singleton.mp h]; exact hv0)
      refine ⟨p2, h1, ?_⟩
      rw [List.append_assoc] at h2
      exact h2

theorem Above_contract (X Y D : Nat → Nat → Int) (I0 I1 : Nat → Prop)
    (hY : Above Y X I0 I1 I1) (hD : Above D Y I1 I1 I1) :
    Above D X (fun v => I0 v ∨ I1 v) I1 I1 := by
  intro i j hi hj p hp
  obtain ⟨p2, h1, h2⟩ := walk_contract X Y I0 I1 hY j hj p hp i hi []
    (fun u hu => absurd hu (List.not_mem_nil u))
  simp only [List.nil_append] at h2
  exact le_trans h2 (hD i j hi hj p2 h1)

theorem Above_nil (D X : Nat → Nat → Int) (I J : Nat → Prop)
    (h : ∀ i j, I i → J j → X i j ≤ D i j) : Above D X (fun _ => False) I J := by
  intro i j hi hj p hp
  cases p with
  | nil => exact h i j hi hj
  | cons v p => exact absurd (hp v (List.mem_cons_self _ _)) id

theorem Above_assemble (D X : Nat → Nat → Int) (I0 I1 : Nat → Prop)
    (h00 : Above D X (fun v => I0 v ∨ I1 v) I0 I0) (h01 : Above D X (fun v => I0 v ∨ I1 v) I0 I1)
    (h10 : Above D X (fun v => I0 v ∨ I1 v) I1 I0) (h11 : Above D X (fun v => I0 v ∨ I1 v) I1 I1) :
    Above D X (fun v => I0 v ∨ I1 v) (fun v => I0 v ∨ I1 v) (fun v => I0 v ∨ I1 v) := by
  intro i j hi hj p hp
  rcases hi with hi | hi <;> rcases hj with hj | hj
  · exact h00 i j hi hj p hp
  · exact h01 i j hi hj p hp
  · exact h10 i j hi hj p hp
  · exact h11 i j hi hj p hp

/-- The walk bounds at the end of the eight steps of a pivot-aligned call, from what the
steps establish.  The bounds of steps 2, 3 and 7 are hypotheses because the symmetric
recursion obtains two of them by transposition. -/
theorem closure_of_steps (X D1 D2 D3 D4 D5 D6 D7 D8 : Nat → Nat → Int) (I0 I1 : Nat → Prop)
    (m01 : ∀ i j, (I0 i ∨ I1 i) → (I0 j ∨ I1 j) → X i j ≤ D1 i j)
    (m12 : ∀ i j, (I0 i ∨ I1 i) → (I0 j ∨ I1 j) → D1 i j ≤ D2 i j)
    (m23 : ∀ i j, (I0 i ∨ I1 i) → (I0 j ∨ I1 j) → D2 i j ≤ D3 i j)
    (m34 : ∀ i j, (I0 i ∨ I1 i) → (I0 j ∨ I1 j) → D3 i j ≤ D4 i j)
    (m45 : ∀ i j, (I0 i ∨ I1 i) → (I0 j ∨ I1 j) → D4 i j ≤ D5 i j)
    (m56 : ∀ i j, (I0 i ∨ I1 i) → (I0 j ∨ I1 j) → D5 i j ≤ D6 i j)
    (m67 : ∀ i j, (I0 i ∨ I1 i) → (I0 j ∨ I1 j) → D6 i j ≤ D7 i j)
    (m78 : ∀ i j, (I0 i ∨ I1 i) → (I0 j ∨ I1 j) → D7 i j ≤ D8 i j)
    (A1 : Above D1 X I0 I0 I0) (A2 : Above D2 X I0 I0 I1) (A3 : Above D3 X I0 I1 I0)
    (s4 : ∀ i k j, I1 i → I0 k → I1 j → D3 i k + D3 k j ≤ D4 i j)
    (A5 : Above D5 D4 I1 I1 I1)
    (s6 : ∀ i k j, I1 i → I1 k → I0 j → D5 i k + D5 k j ≤ D6 i j)
    (hA7 : Above D5 X (fun v => I0 v ∨ I1 v) I1 I1 → Above D6 X (fun v => I0 v ∨ I1 v) I1 I0 →
      Above D7 X (fun v => I0 v ∨ I1 v) I0 I1)
    (s8 : ∀ i k j, I0 i → I1 k → I0 j → D7 i k + D7 k j ≤ D8 i j) :
    Above D8 X (fun v => I0 v ∨ I1 v) (fun v => I0 v ∨ I1 v) (fun v => I0 v ∨ I1 v) := by
  have l0 : ∀ v, I0 v → I0 v ∨ I1 v := fun v h => Or.inl h
  have l1 : ∀ v, I1 v → I0 v ∨ I1 v := fun v h => Or.inr h
  have hT : ∀ v, (I0 v ∨ I1 v) → ¬ I1 v → I0 v := fun v h h2 => h.resolve_right h2
  have hT0 : ∀ v, I0 v → ¬ I0 v → False := fun v h h2 => h2 h
  -- step 4
  have A4 : Above D4 X I0 I1 I1 := by
    apply Above_first X D3 D4 I0 (fun _ => False) I0 I1 I1 hT0
    · exact Above_nil _ _ _ _ (fun i j hi hj =>
        le_trans (m01 i j (l1 i hi) (l1 j hj)) (le_trans (m12 i j (l1 i hi) (l1 j hj))
          (le_trans (m23 i j (l1 i hi) (l1 j hj)) (m34 i j (l1 i hi) (l1 j hj)))))
    · exact Above_nil _ _ _ _ (fun i j hi hj =>
        le_trans (m01 i j (l1 i hi) (l0 j hj.1)) (le_trans (m12 i j (l1 i hi) (l0 j hj.1))
          (m23 i j (l1 i hi) (l0 j hj.1))))
    · exact Above_weaken _ _ _ _ _ _ _ _
        (Above_mono _ _ _ _ _ _ A2 (fun i j hi hj => m23 i j (l0 i hi) (l1 j hj)))
        (fun _ h => h) (fun _ h => h.1) (fun _ h => h)
    · exact fun i k j hi hk hj => s4 i k j hi hk.1 hj
  -- step 5
  have B5 : Above D5 X (fun v => I0 v ∨ I1 v) I1 I1 := Above_contract X D4 D5 I0 I1 A4 A5
  -- bounds carried forward
  have A3at5 : Above D5 X I0 I1 I0 := Above_mono _ _ _ _ _ _ A3 (fun i j hi hj =>
    le_trans (m34 i j (l1 i hi) (l0 j hj)) (m45 i j (l1 i hi) (l0 j hj)))
  have A6 : Above D6 X (fun v => I0 v ∨ I1 v) I1 I0 := by
    apply Above_last X D5 D6 (fun v => I0 v ∨ I1 v) I0 I1 I1 I0 hT
    · exact Above_mono _ _ _ _ _ _ A3at5 (fun i j hi hj => m56 i j (l1 i hi) (l0 j hj))
    · exact Above_weaken _ _ _ _ _ _ _ _ B5 (fun _ h => h) (fun _ h => h) (fun _ h => h.2)
    · exact Above_weaken _ _ _ _ _ _ _ _ A3at5 (fun _ h => h) (fun _ h => h.2) (fun _ h => h)
    · exact fun i k j hi hk hj => s6 i k j hi hk.2 hj
  have A7 := hA7 B5 A6
  have A1at7 : Above D7 X I0 I0 I0 := Above_mono _ _ _ _ _ _ A1 (fun i j hi hj =>
    le_trans (m12 i j (l0 i hi) (l0 j hj)) (le_trans (m23 i j (l0 i hi) (l0 j hj))
      (le_trans (m34 i j (l0 i hi) (l0 j hj)) (le_trans (m45 i j (l0 i hi) (l0 j hj))
        (le_trans (m56 i j (l0 i hi) (l0 j hj)) (m67 i j (l0 i hi) (l0 j hj)))))))
  have A6at7 : Above D7 X (fun v => I0 v ∨ I1 v) I1 I0 :=
    Above_mono _ _ _ _ _ _ A6 (fun i j hi hj => m67 i j (l1 i hi) (l0 j hj))
  have A8 : Above D8 X (fun v => I0 v ∨ I1 v) I0 I0 := by
    apply Above_first X D7 D8 (fun v => I0 v ∨ I1 v) I0 I1 I0 I0 hT
    · exact Above_mono _ _ _ _ _ _ A1at7 (fun i j hi hj => m78 i j (l0 i hi) (l0 j hj))
    · exact Above_weaken _ _ _ _ _ _ _ _ A7 l0 (fun _ h => h) (fun _ h => h.2)
    · exact Above_weaken _ _ _ _ _ _ _ _ A6at7 (fun _ h => h) (fun _ h => h.2) (fun _ h => h)
    · exact fun i k j hi hk hj => s8 i k j hi hk.2 hj
  apply Above_assemble D8 X I0 I1 A8
  · exact Above_mono _ _ _ _ _ _ A7 (fun i j hi hj => m78 i j (l0 i hi) (l1 j hj))
  · exact Above_mono _ _ _ _ _ _ A6at7 (fun i j hi hj => m78 i j (l1 i hi) (l0 j hj))
  · exact Above_mono _ _ _ _ _ _ B5 (fun i j hi hj =>
      le_trans (m56 i j (l1 i hi) (l1 j hj)) (le_trans (m67 i j (l1 i hi) (l1 j hj))
        (m78 i j (l1 i hi) (l1 j hj))))

end QFW

namespace QFW

theorem Above_last_hop (X E D : Nat → Nat → Int) (S I J : Nat → Prop)
    (h1 : Above E X S I S) (hD : ∀ i j, I i → J j → X i j ≤ D i j)
    (hE : ∀ k j, S k → J j → X k j ≤ E k j)
    (hs : ∀ i k j, I i → S k → J j → E i k + E k j ≤ D i j) : Above D X S I J := by
  apply Above_last X E D S (fun _ => False) S I J (fun v h h2 => h2 h)
  · exact Above_nil _ _ _ _ hD
  · exact Above_weaken _ _ _ _ _ _ _ _ h1 (fun _ h => h) (fun _ h => h) (fun _ h => h.1)
  · exact Above_nil _ _ _ _ (fun k j hk hj => hE k j hk.1 hj)
  · exact fun i k j hi hk hj => hs i k j hi hk.1 hj

theorem Above_first_hop (X E D : Nat → Nat → Int) (S I J : Nat → Prop)
    (h2 : Above E X S S J) (hD : ∀ i j, I i → J j → X i j ≤ D i j)
    (hE : ∀ i k, I i → S k → X i k ≤ E i k)
    (hs : ∀ i k j, I i → S k → J j → E i k + E k j ≤ D i j) : Above D X S I J := by
  apply Above_first X E D S (fun _ => False) S I J (fun v h h2 => h2 h)
  · exact Above_nil _ _ _ _ hD
  · exact Above_nil _ _ _ _ (fun i k hi hk => hE i k hi hk.1)
  · exact Above_weaken _ _ _ _ _ _ _ _ h2 (fun _ h => h) (fun _ h => h.1) (fun _ h => h)
  · exact fun i k j hi hk hj => hs i k j hi hk.1 hj

theorem walkW_local (blk : Nat → Nat → Nat) (m : Mem) (i0 j : Nat) (hj : j / B = i0) :
    ∀ (p : List Nat) (i : Nat), i / B = i0 → (∀ v, v ∈ p → v / B = i0) →
      walkW (view blk m) i p j =
        walkW (fun u v => m (blk i0 i0 + (u * B + v))) (i % B) (p.map (fun v => v % B)) (j % B) := by
  intro p
  induction p with
  | nil =>
    intro i hi _
    simp only [walkW, view, cell, hi, hj, List.map_nil]
  | cons v p ih =>
    intro i hi hp
    have hv := hp v (List.mem_cons_self _ _)
    simp only [walkW, List.map_cons]
    rw [ih v hv (fun u hu => hp u (List.mem_cons_of_mem _ hu))]
    simp only [view, cell, hi, hv]

theorem Rows_or (G i0 h : Nat) (v : Nat) (hv : Rows G i0 h v ∨ Rows G (i0 + h) h v) :
    Rows G i0 (2 * h) v := by
  simp only [Rows] at *
  have e1 : (i0 + 2 * h) * B = (i0 + h) * B + h * B := by ring
  have e2 : (i0 + h + h) * B = (i0 + h) * B + h * B := by ring
  have e3 : (i0 + h) * B = i0 * B + h * B := by ring
  rcases hv with hv | hv <;> omega

theorem Rows_disjoint (G i0 h : Nat) (v : Nat) (h0 : Rows G i0 h v) :
    ¬ Rows G (i0 + h) h v := by
  simp only [Rows] at *
  omega

/-- A pivot-aligned call of `FWR` without the symmetric flag returns, keeps the invariant,
only grows elements, and leaves every pair of its range above every walk through the
range. -/
theorem FWR_closure (w L u : Nat) (hw : 1 ≤ w) (hL : 0 < L) (hLB : L ∣ B) (hu : u ≤ 3)
    (Ok : Nat → Int → Prop) (blk : Nat → Nat → Nat) (G : Nat) (BP : Table)
    (hBP : TableOk BP G blk) (hH : BlocksHyp w Ok blk G) :
    ∀ e i0 m, MemOk Ok m →
      ∃ m2, FWR w L u (2 ^ e) G i0 i0 i0 BP false m = some m2 ∧ MemOk Ok m2 ∧
        (∀ addr, m addr ≤ m2 addr) ∧
        Above (view blk m2) (view blk m) (Rows G i0 (2 ^ e)) (Rows G i0 (2 ^ e))
          (Rows G i0 (2 ^ e)) := by
  intro e
  induction e with
  | zero =>
    intro i0 m hm
    by_cases hpr : i0 ≥ G
    · refine ⟨m, FWR_pruned _ _ _ _ _ _ _ _ _ _ _ (Or.inl hpr), hm, fun _ => le_refl _, ?_⟩
      intro i j hi _ _ _
      have := Rows_lt _ _ _ _ hi
      omega
    · have h0 : i0 < G := by omega
      rw [pow_zero, FWR_base w L u G i0 i0 i0 BP false m blk hBP h0 h0 h0]
      obtain ⟨k1, k2, _, _⟩ := FWI_spec w L u hw hL hLB hu Ok _ _ _ (hH i0 i0 i0 h0 h0 h0) m hm
      refine ⟨_, rfl, k1, k2, ?_⟩
      intro i j hi hj p hp
      obtain ⟨b1, b2, _⟩ := Rows_one _ _ _ hi
      obtain ⟨d1, d2, _⟩ := Rows_one _ _ _ hj
      rw [walkW_local blk m i0 j d1 p i b1 (fun v hv => (Rows_one _ _ _ (hp v hv)).1)]
      have := FWI_closure w L u hw hL hLB hu Ok (blk i0 i0) (hH i0 i0 i0 h0 h0 h0) m hm
        (i % B) (j % B) b2 d2 (p.map (fun v => v % B)) (by
          intro v hv
          obtain ⟨x, _, rfl⟩ := List.mem_map.mp hv
          exact Nat.mod_lt _ (by simp only [B]; omega))
      simp only [view, cell, b1, d1]
      exact this
  | succ e ih =>
    intro i0 m hm
    by_cases hpr : i0 ≥ G
    · refine ⟨m, FWR_pruned _ _ _ _ _ _ _ _ _ _ _ (Or.inl hpr), hm, fun _ => le_refl _, ?_⟩
      intro i j hi _ _ _
      have := Rows_lt _ _ _ _ hi
      omega
    · have h0 : i0 < G := by omega
      have hP : 2 ≤ 2 ^ (e + 1) := by
        have := Nat.two_pow_pos e
        rw [pow_succ]; omega
      have hhalf : 2 ^ (e + 1) / 2 = 2 ^ e := by rw [pow_succ]; omega
      obtain ⟨m1, e1, ok1, le1, A1⟩ := ih i0 m hm
      obtain ⟨m2, e2, ok2, le2, s2⟩ :=
        FWR_relaxed w L u hw hL hLB hu Ok blk G BP hBP hH e i0 i0 (i0 + 2 ^ e) m1 ok1
      obtain ⟨m3, e3, ok3, le3, s3⟩ :=
        FWR_relaxed w L u hw hL hLB hu Ok blk G BP hBP hH e (i0 + 2 ^ e) i0 i0 m2 ok2
      obtain ⟨m4, e4, ok4, le4, s4⟩ :=
        FWR_relaxed w L u hw hL hLB hu Ok blk G BP hBP hH e (i0 + 2 ^ e) i0 (i0 + 2 ^ e) m3 ok3
      obtain ⟨m5, e5, ok5, le5, A5⟩ := ih (i0 + 2 ^ e) m4 ok4
      obtain ⟨m6, e6, ok6, le6, s6⟩ :=
        FWR_relaxed w L u hw hL hLB hu Ok blk G BP hBP hH e (i0 + 2 ^ e) (i0 + 2 ^ e) i0 m5 ok5
      obtain ⟨m7, e7, ok7, le7, s7⟩ :=
        FWR_relaxed w L u hw hL hLB hu Ok blk G BP hBP hH e i0 (i0 + 2 ^ e) (i0 + 2 ^ e) m6 ok6
      obtain ⟨m8, e8, ok8, le8, s8⟩ :=
        FWR_relaxed w L u hw hL hLB hu Ok blk G BP hBP hH e i0 (i0 + 2 ^ e) i0 m7 ok7
      refine ⟨m8, ?_, ok8, fun addr => ?_, ?_⟩
      · rw [FWR_rec_false w L u _ G i0 i0 i0 BP m h0 h0 h0 hP, hhalf]
        simp only [e1, e2, e3, e4, e5, e6, e7, e8, Option.some_bind]
      · exact le_trans (le1 addr) (le_trans (le2 addr) (le_trans (le3 addr) (le_trans (le4 addr)
          (le_trans (le5 addr) (le_trans (le6 addr) (le_trans (le7 addr) (le8 addr)))))))
      · have A2 : Above (view blk m2) (view blk m) (Rows G i0 (2 ^ e)) (Rows G i0 (2 ^ e))
            (Rows G (i0 + 2 ^ e) (2 ^ e)) :=
          Above_last_hop _ (view blk m1) _ _ _ _ A1
            (fun i j _ _ => le_trans (le1 _) (le2 _)) (fun k j _ _ => le1 _)
            (fun i k j hi hk hj => s2 i k j ⟨hi, hk, hj⟩)
        have A3 : Above (view blk m3) (view blk m) (Rows G i0 (2 ^ e))
            (Rows G (i0 + 2 ^ e) (2 ^ e)) (Rows G i0 (2 ^ e)) :=
          Above_first_hop _ (view blk m2) _ _ _ _
            (Above_mono _ _ _ _ _ _ A1 (fun i j _ _ => le2 _))
            (fun i j _ _ => le_trans (le1 _) (le_trans (le2 _) (le3 _)))
            (fun i k _ _ => le_trans (le1 _) (le2 _))
            (fun i k j hi hk hj => s3 i k j ⟨hi, hk, hj⟩)
        have key := closure_of_steps (view blk m) (view blk m1) (view blk m2) (view blk m3)
          (view blk m4) (view blk m5) (view blk m6) (view blk m7) (view blk m8)
          (Rows G i0 (2 ^ e)) (Rows G (i0 + 2 ^ e) (2 ^ e))
          (fun _ _ _ _ => le1 _) (fun _ _ _ _ => le2 _) (fun _ _ _ _ => le3 _)
          (fun _ _ _ _ => le4 _) (fun _ _ _ _ => le5 _) (fun _ _ _ _ => le6 _)
          (fun _ _ _ _ => le7 _) (fun _ _ _ _ => le8 _) A1 A2 A3
          (fun i k j hi hk hj => s4 i k j ⟨hi, hk, hj⟩) A5
          (fun i k j hi hk hj => s6 i k j ⟨hi, hk, hj⟩)
          (fun B5 _ => by
            apply Above_first (view blk m) (view blk m6) (view blk m7)
              (fun v => Rows G i0 (2 ^ e) v ∨ Rows G (i0 + 2 ^ e) (2 ^ e) v) (Rows G i0 (2 ^ e))
              (Rows G (i0 + 2 ^ e) (2 ^ e)) (Rows G i0 (2 ^ e)) (Rows G (i0 + 2 ^ e) (2 ^ e))
              (fun v h h2 => h.resolve_right h2)
            · exact Above_mono _ _ _ _ _ _ A2 (fun i j _ _ => le_trans (le3 _) (le_trans (le4 _)
                (le_trans (le5 _) (le_trans (le6 _) (le7 _)))))
            · exact Above_weaken _ _ _ _ _ _ _ _
                (Above_mono _ _ _ _ _ _ A2 (fun i j _ _ => le_trans (le3 _) (le_trans (le4 _)
                  (le_trans (le5 _) (le6 _)))))
                (fun _ h => h) (fun _ h => h) (fun _ h => h.2)
            · exact Above_weaken _ _ _ _ _ _ _ _
                (Above_mono _ _ _ _ _ _ B5 (fun i j _ _ => le6 _))
                (fun _ h => h) (fun _ h => h.2) (fun _ h => h)
            · exact fun i k j hi hk hj => s7 i k j ⟨hi, hk.2, hj⟩)
          (fun i k j hi hk hj => s8 i k j ⟨hi, hk, hj⟩)
        have hsplit : ∀ v, Rows G i0 (2 ^ (e + 1)) v →
            Rows G i0 (2 ^ e) v ∨ Rows G (i0 + 2 ^ e) (2 ^ e) v := by
          intro v hv
          rw [pow_succ, Nat.mul_comm] at hv
          exact Rows_half _ _ _ _ hv
        exact Above_weaken _ _ _ _ _ _ _ _ key hsplit hsplit hsplit

end QFW

namespace QFW

/-! ## Reorder: one block -/

theorem store_same (m : Mem) (p : Nat) (v : Int) : store m p v p = v := by
  simp only [store, if_true]

theorem store_other (m : Mem) (p : Nat) (v : Int) (a : Nat) (h : a ≠ p) : store m p v a = m a := by
  simp only [store, if_neg h]

/-- A loop of stores to pairwise different addresses. -/
theorem loop_store (n : Nat) (f : Nat → Nat) (g : Nat → Int) (m : Mem)
    (hinj : ∀ j1 j2, j1 < n → j2 < n → f j1 = f j2 → j1 = j2) :
    (∀ j, j < n → loop n (fun j S => store S (f j) (g j)) m (f j) = g j) ∧
    (∀ a, (∀ j, j < n → f j ≠ a) → loop n (fun j S => store S (f j) (g j)) m a = m a) := by
  induction n with
  | zero => exact ⟨fun j hj => absurd hj (Nat.not_lt_zero j), fun a _ => rfl⟩
  | succ k ih =>
    obtain ⟨h1, h2⟩ := ih (fun j1 j2 a1 a2 => hinj j1 j2 (Nat.lt_succ_of_lt a1) (Nat.lt_succ_of_lt a2))
    constructor
    · intro j hj
      show store _ (f k) (g k) (f j) = g j
      rcases Nat.lt_succ_iff_lt_or_eq.mp hj with h | h
      · have hne : f j ≠ f k := fun he => by
          have := hinj j k hj (Nat.lt_succ_self k) he
          omega
        rw [store_other _ _ _ _ hne]; exact h1 j h
      · rw [h, store_same]
    · intro a ha
      show store _ (f k) (g k) a = m a
      rw [store_other _ _ _ _ (fun he => ha k (Nat.lt_succ_self k) he.symm)]
      exact h2 a (fun j hj => ha j (Nat.lt_succ_of_lt hj))

theorem loopRange_store (lo hi : Nat) (f : Nat → Nat) (g : Nat → Int) (m : Mem)
    (hinj : ∀ j1 j2, f j1 = f j2 → j1 = j2) :
    (∀ j, lo ≤ j → j < hi → loopRange lo hi (fun j S => store S (f j) (g j)) m (f j) = g j) ∧
    (∀ a, (∀ j, lo ≤ j → j < hi → f j ≠ a) →
      loopRange lo hi (fun j S => store S (f j) (g j)) m a = m a) := by
  unfold loopRange
  obtain ⟨h1, h2⟩ := loop_store (hi - lo) (fun t => f (lo + t)) (fun t => g (lo + t)) m
    (fun j1 j2 _ _ he => by have := hinj _ _ he; omega)
  constructor
  · intro j hlo hhi
    have := h1 (j - lo) (by omega)
    simp only [show lo + (j - lo) = j by omega] at this
    exact this
  · intro a ha
    exact h2 a (fun t ht => ha (lo + t) (by omega) (by omega))

theorem idx_inj (n X Y X2 Y2 : Nat) (hY : Y < n) (hY2 : Y2 < n)
    (h : X * n + Y = X2 * n + Y2) : X = X2 ∧ Y = Y2 := by
  have hn : 0 < n := by omega
  have h1 : (X * n + Y) / n = X := by
    rw [Nat.add_comm, Nat.add_mul_div_right _ _ hn, Nat.div_eq_of_lt hY, Nat.zero_add]
  have h2 : (X2 * n + Y2) / n = X2 := by
    rw [Nat.add_comm, Nat.add_mul_div_right _ _ hn, Nat.div_eq_of_lt hY2, Nat.zero_add]
  have h3 : X = X2 := by rw [← h1, ← h2, h]
  subst h3
  exact ⟨rfl, by omega⟩

/-- Forward `reorder`, one row of one block. -/
theorem reorderRow_fwd (w n dst off r c i : Nat) (hi : i < B) (hc : c * B < n)
    (hoff : off = r * B * n + c * B) (st : RState) :
    (reorderRow w n dst off r c false i st).M = st.M ∧
    (reorderRow w n dst off r c false i st).BP = st.BP ∧
    (∀ y, y < B → (reorderRow w n dst off r c false i st).S (dst + (i * B + y)) =
      padded w n st.M r c i y) ∧
    (∀ a, (a < dst + i * B ∨ dst + (i + 1) * B ≤ a) →
      (reorderRow w n dst off r c false i st).S a = st.S a) := by
  unfold reorderRow
  by_cases hrow : r * B + i < n
  · simp only [hrow, if_true, Bool.not_false]
    have hinj : ∀ j1 j2 : Nat, dst + (i * B + j1) = dst + (i * B + j2) → j1 = j2 := by
      intro j1 j2 h; omega
    obtain ⟨a1, a2⟩ := loop_store (min B (n - c * B)) (fun j => dst + (i * B + j))
      (fun j => wrapT w (-(st.M (off + (i * n + j))))) st.S (fun j1 j2 _ _ h => hinj j1 j2 h)
    obtain ⟨b1, b2⟩ := loopRange_store (min B (n - c * B)) B (fun j => dst + (i * B + j))
      (fun _ => wrapT w (-(INF w)))
      (loop (min B (n - c * B)) (fun j S => store S (dst + (i * B + j))
        (wrapT w (-(st.M (off + (i * n + j)))))) st.S) hinj
    refine ⟨trivial, trivial, fun y hy => ?_, fun a ha => ?_⟩
    · unfold padded
      by_cases hy2 : y < min B (n - c * B)
      · rw [b2 _ (fun j hj1 _ => by omega), a1 y hy2]
        have hcy : c * B + y < n := by omega
        rw [if_pos ⟨hrow, hcy⟩, hoff]
        congr 3
        ring
      · rw [b1 y (by omega) hy]
        have hcy : ¬ (c * B + y < n) := by omega
        rw [if_neg (fun h => hcy h.2)]
    · have e : (i + 1) * B = i * B + B := by ring
      rw [b2 _ (fun j _ hj2 => by omega), a2 _ (fun j hj => by omega)]
  · simp only [hrow, if_false, Bool.not_false, if_true]
    have e : (i + 1) * B = i * B + B := by ring
    obtain ⟨b1, b2⟩ := loopRange_store (i * B) ((i + 1) * B) (fun t => dst + t)
      (fun _ => wrapT w (-(INF w))) st.S (fun j1 j2 h => Nat.add_left_cancel h)
    refine ⟨trivial, trivial, fun y hy => ?_, fun a ha => ?_⟩
    · unfold padded
      rw [if_neg (fun h => hrow h.1)]
      exact b1 (i * B + y) (by omega) (by omega)
    · exact b2 a (fun j _ _ => by omega)

/-- Forward `reorder`, the rows of one block. -/
theorem reorderBlock_fwd (w n dst off r c : Nat) (hc : c * B < n)
    (hoff : off = r * B * n + c * B) (st : RState) :
    ∀ k, k ≤ B →
    (loop k (reorderRow w n dst off r c false) st).M = st.M ∧
    (loop k (reorderRow w n dst off r c false) st).BP = st.BP ∧
    (∀ x y, x < k → y < B → (loop k (reorderRow w n dst off r c false) st).S
      (dst + (x * B + y)) = padded w n st.M r c x y) ∧
    (∀ a, (a < dst ∨ dst + k * B ≤ a) →
      (loop k (reorderRow w n dst off r c false) st).S a = st.S a) := by
  intro k
  induction k with
  | zero =>
    intro _
    exact ⟨rfl, rfl, fun x y hx _ => absurd hx (Nat.not_lt_zero x), fun a _ => rfl⟩
  | succ k ih =>
    intro hk
    obtain ⟨i1, i2, i3, i4⟩ := ih (by omega)
    obtain ⟨r1, r2, r3, r4⟩ := reorderRow_fwd w n dst off r c k (by omega) hc hoff
      (loop k (reorderRow w n dst off r c false) st)
    have e : (k + 1) * B = k * B + B := by ring
    refine ⟨by rw [← i1]; exact r1, by rw [← i2]; exact r2, fun x y hx hy => ?_, fun a ha => ?_⟩
    · show (reorderRow w n dst off r c false k _).S _ = _
      rcases Nat.lt_succ_iff_lt_or_eq.mp hx with h | h
      · rw [r4 _ (Or.inl (by simp only [B] at *; omega))]
        exact i3 x y h hy
      · rw [h, r3 y hy, i1]
    · show (reorderRow w n dst off r c false k _).S _ = _
      rw [r4 a (by omega)]
      exact i4 a (by omega)

/-- Reverse `reorder`, one row of one block. -/
theorem reorderRow_rev (w n dst off r c i : Nat) (hc : c * B < n)
    (hoff : off = r * B * n + c * B) (st : RState) :
    (reorderRow w n dst off r c true i st).S = st.S ∧
    (reorderRow w n dst off r c true i st).BP = st.BP ∧
    (∀ y, y < B → r * B + i < n → c * B + y < n →
      (reorderRow w n dst off r c true i st).M ((r * B + i) * n + (c * B + y)) =
        wrapT w (-(st.S (dst + (i * B + y))))) ∧
    (∀ a, (∀ y, y < B → r * B + i < n → c * B + y < n → a ≠ (r * B + i) * n + (c * B + y)) →
      (reorderRow w n dst off r c true i st).M a = st.M a) := by
  unfold reorderRow
  by_cases hrow : r * B + i < n
  · simp only [hrow, if_true, Bool.not_true, Bool.false_eq_true, if_false]
    have eaddr : ∀ j, off + (i * n + j) = (r * B + i) * n + (c * B + j) := by
      intro j; rw [hoff]; ring
    obtain ⟨a1, a2⟩ := loop_store (min B (n - c * B)) (fun j => off + (i * n + j))
      (fun j => wrapT w (-(st.S (dst + (i * B + j))))) st.M
      (fun j1 j2 _ _ h => by have : off + (i * n + j1) = off + (i * n + j2) := h; omega)
    refine ⟨trivial, trivial, fun y hy _ hcy => ?_, fun a ha => ?_⟩
    · rw [← eaddr y]
      exact a1 y (by omega)
    · exact a2 a (fun j hj he => ha j (by omega) trivial (by omega) (by rw [← eaddr j]; exact he.symm))
  · simp only [hrow, if_false, Bool.not_true, Bool.false_eq_true]
    exact ⟨trivial, trivial, fun y _ h _ => h.elim, fun a _ => trivial⟩

/-- Reverse `reorder`, the rows of one block. -/
theorem reorderBlock_rev (w n dst off r c : Nat) (hc : c * B < n)
    (hoff : off = r * B * n + c * B) (st : RState) :
    ∀ k,
    (loop k (reorderRow w n dst off r c true) st).S = st.S ∧
    (loop k (reorderRow w n dst off r c true) st).BP = st.BP ∧
    (∀ x y, x < k → y < B → r * B + x < n → c * B + y < n →
      (loop k (reorderRow w n dst off r c true) st).M ((r * B + x) * n + (c * B + y)) =
        wrapT w (-(st.S (dst + (x * B + y))))) ∧
    (∀ a, (∀ x y, x < k → y < B → r * B + x < n → c * B + y < n →
        a ≠ (r * B + x) * n + (c * B + y)) →
      (loop k (reorderRow w n dst off r c true) st).M a = st.M a) := by
  intro k
  induction k with
  | zero =>
    exact ⟨rfl, rfl, fun x y hx _ _ _ => absurd hx (Nat.not_lt_zero x), fun a _ => rfl⟩
  | succ k ih =>
    obtain ⟨i1, i2, i3, i4⟩ := ih
    obtain ⟨r1, r2, r3, r4⟩ := reorderRow_rev w n dst off r c k hc hoff
      (loop k (reorderRow w n dst off r c true) st)
    refine ⟨by rw [← i1]; exact r1, by rw [← i2]; exact r2, fun x y hx hy hrx hcy => ?_,
      fun a ha => ?_⟩
    · show (reorderRow w n dst off r c true k _).M _ = _
      rcases Nat.lt_succ_iff_lt_or_eq.mp hx with h | h
      · rw [r4 _ (fun y2 _ _ hcy2 he => by
          have := (idx_inj n _ _ _ _ hcy hcy2 he).1
          omega)]
        exact i3 x y h hy hrx hcy
      · rw [h, r3 y hy (by rw [← h]; exact hrx) hcy, i1]
    · show (reorderRow w n dst off r c true k _).M _ = _
      rw [r4 a (fun y hy hrk hcy => ha k y (Nat.lt_succ_self k) hy hrk hcy)]
      exact i4 a (fun x y hx hy hrx hcy => ha x y (Nat.lt_succ_of_lt hx) hy hrx hcy)

end QFW

namespace QFW

/-! ## Reorder: the traversal -/

theorem cnt_pruned (G : Nat) : ∀ e r0 c0, (r0 ≥ G ∨ c0 ≥ G) → cnt G e r0 c0 = 0 := by
  intro e
  induction e with
  | zero =>
    intro r0 c0 h
    simp only [cnt]
    rw [if_neg (by omega)]
  | succ e ih =>
    intro r0 c0 h
    have hp := Nat.two_pow_pos e
    simp only [cnt]
    rw [ih r0 c0 h, ih r0 (c0 + 2 ^ e) (by omega), ih (r0 + 2 ^ e) c0 (by omega),
      ih (r0 + 2 ^ e) (c0 + 2 ^ e) (by omega)]

theorem InSq_succ (G e r0 c0 r c : Nat) :
    InSq G (e + 1) r0 c0 r c ↔
      (InSq G e r0 c0 r c ∨ InSq G e r0 (c0 + 2 ^ e) r c ∨ InSq G e (r0 + 2 ^ e) c0 r c ∨
        InSq G e (r0 + 2 ^ e) (c0 + 2 ^ e) r c) := by
  simp only [InSq, pow_succ]
  generalize 2 ^ e = h
  omega

theorem rank_lt (G : Nat) : ∀ e r0 c0 r c, InSq G e r0 c0 r c →
    rank G e r0 c0 r c < cnt G e r0 c0 := by
  intro e
  induction e with
  | zero =>
    intro r0 c0 r c h
    simp only [InSq, pow_zero] at h
    simp only [rank, cnt]
    rw [if_pos (by omega)]
    omega
  | succ e ih =>
    intro r0 c0 r c h
    have hs := (InSq_succ G e r0 c0 r c).mp h
    simp only [rank, cnt]
    rcases hs with h1 | h1 | h1 | h1
    · have := ih _ _ _ _ h1
      simp only [InSq] at h1
      rw [if_pos (by omega), if_pos (by omega)]
      omega
    · have := ih _ _ _ _ h1
      simp only [InSq] at h1
      rw [if_pos (by omega), if_neg (by omega)]
      omega
    · have := ih _ _ _ _ h1
      simp only [InSq] at h1
      rw [if_neg (by omega), if_pos (by omega)]
      omega
    · have := ih _ _ _ _ h1
      simp only [InSq] at h1
      rw [if_neg (by omega), if_neg (by omega)]
      omega

theorem rank_succ (G e r0 c0 r c : Nat) (h : InSq G (e + 1) r0 c0 r c) :
    (InSq G e r0 c0 r c ∧ rank G (e + 1) r0 c0 r c = rank G e r0 c0 r c) ∨
    (InSq G e r0 (c0 + 2 ^ e) r c ∧
      rank G (e + 1) r0 c0 r c = cnt G e r0 c0 + rank G e r0 (c0 + 2 ^ e) r c) ∨
    (InSq G e (r0 + 2 ^ e) c0 r c ∧ rank G (e + 1) r0 c0 r c =
      cnt G e r0 c0 + cnt G e r0 (c0 + 2 ^ e) + rank G e (r0 + 2 ^ e) c0 r c) ∨
    (InSq G e (r0 + 2 ^ e) (c0 + 2 ^ e) r c ∧ rank G (e + 1) r0 c0 r c =
      cnt G e r0 c0 + cnt G e r0 (c0 + 2 ^ e) + cnt G e (r0 + 2 ^ e) c0 +
        rank G e (r0 + 2 ^ e) (c0 + 2 ^ e) r c) := by
  have hs := (InSq_succ G e r0 c0 r c).mp h
  simp only [rank]
  rcases hs with h1 | h1 | h1 | h1
  · left; refine ⟨h1, ?_⟩
    simp only [InSq] at h1
    rw [if_pos (by omega), if_pos (by omega)]
  · right; left; refine ⟨h1, ?_⟩
    simp only [InSq] at h1
    rw [if_pos (by omega), if_neg (by omega)]
  · right; right; left; refine ⟨h1, ?_⟩
    simp only [InSq] at h1
    rw [if_neg (by omega), if_pos (by omega)]
  · right; right; right; refine ⟨h1, ?_⟩
    simp only [InSq] at h1
    rw [if_neg (by omega), if_neg (by omega)]

theorem rank_inj (G : Nat) : ∀ e r0 c0 r c r2 c2, InSq G e r0 c0 r c → InSq G e r0 c0 r2 c2 →
    rank G e r0 c0 r c = rank G e r0 c0 r2 c2 → r = r2 ∧ c = c2 := by
  intro e
  induction e with
  | zero =>
    intro r0 c0 r c r2 c2 h1 h2 _
    simp only [InSq, pow_zero] at h1 h2
    omega
  | succ e ih =>
    intro r0 c0 r c r2 c2 h1 h2 he
    have l1 := rank_lt G e
    rcases rank_succ G e r0 c0 r c h1 with ⟨a, ea⟩ | ⟨a, ea⟩ | ⟨a, ea⟩ | ⟨a, ea⟩ <;>
      rcases rank_succ G e r0 c0 r2 c2 h2 with ⟨b, eb⟩ | ⟨b, eb⟩ | ⟨b, eb⟩ | ⟨b, eb⟩ <;>
      rw [ea, eb] at he <;>
      first
        | exact ih _ _ _ _ _ _ a b (by omega)
        | (exfalso
           have := l1 _ _ _ _ a
           have := l1 _ _ _ _ b
           omega)

end QFW

namespace QFW

/-- The `int` expressions of `reorder` stay in range for a source of side `n`. -/
theorem reorder_pruned (w n P dst : Nat) (st : RState) (r0 c0 : Nat) (rev : Bool)
    (h1 : intOK (n + B - 1)) (h : r0 ≥ (n + B - 1) / B ∨ c0 ≥ (n + B - 1) / B) :
    reorder w n P dst st r0 c0 rev = some (dst, st) := by
  rw [reorder]
  simp only [h1, not_true_eq_false, if_false, h, if_true]

theorem reorder_base (w n dst : Nat) (st : RState) (r0 c0 : Nat) (rev : Bool)
    (h1 : intOK (n + B - 1)) (hr : r0 < (n + B - 1) / B) (hc : c0 < (n + B - 1) / B)
    (h2 : reorderIntOK n r0 c0) :
    reorder w n 1 dst st r0 c0 rev = some (dst + B * B,
      { loop B (reorderRow w n dst (r0 * B * n + c0 * B) r0 c0 rev) st with
        BP := fun t => if t = r0 * ((n + B - 1) / B) + c0 then some dst
          else (loop B (reorderRow w n dst (r0 * B * n + c0 * B) r0 c0 rev) st).BP t }) := by
  rw [reorder]
  simp only [h1, not_true_eq_false, if_false, h2]
  rw [if_neg (by omega)]
  simp only [if_true]

theorem reorder_rec (w n P dst : Nat) (st : RState) (r0 c0 : Nat) (rev : Bool)
    (h1 : intOK (n + B - 1)) (hr : r0 < (n + B - 1) / B) (hc : c0 < (n + B - 1) / B)
    (hP : 2 ≤ P) :
    reorder w n P dst st r0 c0 rev =
      (((reorder w n (P / 2) dst st r0 c0 rev).bind
        (fun q => reorder w n (P / 2) q.1 q.2 r0 (c0 + P / 2) rev)).bind
        (fun q => reorder w n (P / 2) q.1 q.2 (r0 + P / 2) c0 rev)).bind
        (fun q => reorder w n (P / 2) q.1 q.2 (r0 + P / 2) (c0 + P / 2) rev) := by
  rw [reorder]
  simp only [h1, not_true_eq_false, if_false]
  rw [if_neg (by omega), if_neg (by omega), if_neg (by omega)]
  simp only [bind, Option.bind_assoc, Nat.zero_mul, Nat.one_mul, Nat.add_zero]

theorem FwdG_refl (w n G dst : Nat) (st : RState) :
    FwdG w n G (fun _ _ => False) (fun _ _ => 0) 0 dst st st :=
  ⟨rfl, fun _ _ h => h.elim, fun _ _ _ _ _ => rfl, fun _ _ h => h.elim, fun _ _ => rfl⟩

/-- Two forward passes one after the other, over disjoint sets of blocks. -/
theorem FwdG_append (w n G : Nat) (S1 S2 : Nat → Nat → Prop) (k1 k2 k : Nat → Nat → Nat)
    (N1 N2 dst : Nat) (st st1 st2 : RState)
    (hin1 : ∀ r c, S1 r c → r < G ∧ c < G) (hlt1 : ∀ r c, S1 r c → k1 r c < N1)
    (hdis : ∀ r c, S1 r c → ¬ S2 r c)
    (hk1 : ∀ r c, S1 r c → k r c = k1 r c) (hk2 : ∀ r c, S2 r c → k r c = N1 + k2 r c)
    (a : FwdG w n G S1 k1 N1 dst st st1)
    (b : FwdG w n G S2 k2 N2 (dst + B * B * N1) st1 st2) :
    FwdG w n G (fun r c => S1 r c ∨ S2 r c) k (N1 + N2) dst st st2 := by
  refine ⟨by rw [b.hM, a.hM], ?_, ?_, ?_, ?_⟩
  · intro r c h
    by_cases h1 : S1 r c
    · rw [hk1 r c h1, b.hBPf r c (hin1 r c h1).1 (hin1 r c h1).2 (hdis r c h1)]
      exact a.hBP r c h1
    · have h2 : S2 r c := h.resolve_left h1
      rw [hk2 r c h2, b.hBP r c h2]
      congr 1
      ring
  · intro r c hr hc h
    rw [b.hBPf r c hr hc (fun h2 => h (Or.inr h2)), a.hBPf r c hr hc (fun h1 => h (Or.inl h1))]
  · intro r c h x y hx hy
    by_cases h1 : S1 r c
    · rw [hk1 r c h1, b.hSf _ (Or.inl (by
        have := hlt1 r c h1
        have e : B * B * (k1 r c + 1) ≤ B * B * N1 := Nat.mul_le_mul_left _ this
        have e2 : B * B * (k1 r c + 1) = B * B * k1 r c + B * B := by ring
        have e3 : x * B + y < B * B := by simp only [B] at *; omega
        omega))]
      exact a.hS r c h1 x y hx hy
    · have h2 : S2 r c := h.resolve_left h1
      rw [hk2 r c h2]
      have e : dst + B * B * (N1 + k2 r c) = dst + B * B * N1 + B * B * k2 r c := by ring
      rw [e, b.hS r c h2 x y hx hy, a.hM]
  · intro addr h
    have e : B * B * (N1 + N2) = B * B * N1 + B * B * N2 := by ring
    rw [b.hSf addr (by omega), a.hSf addr (by omega)]

theorem FwdG_congr (w n G : Nat) (S1 S2 : Nat → Nat → Prop) (k1 k2 : Nat → Nat → Nat)
    (N1 N2 dst : Nat) (st st2 : RState) (a : FwdG w n G S1 k1 N1 dst st st2)
    (hS : ∀ r c, S2 r c ↔ S1 r c) (hk : ∀ r c, S2 r c → k2 r c = k1 r c) (hN : N2 = N1) :
    FwdG w n G S2 k2 N2 dst st st2 := by
  refine ⟨a.hM, ?_, ?_, ?_, ?_⟩
  · intro r c h; rw [hk r c h]; exact a.hBP r c ((hS r c).mp h)
  · intro r c hr hc h; exact a.hBPf r c hr hc (fun h1 => h ((hS r c).mpr h1))
  · intro r c h x y hx hy; rw [hk r c h]; exact a.hS r c ((hS r c).mp h) x y hx hy
  · intro addr h; rw [hN] at h; exact a.hSf addr h

end QFW

namespace QFW

theorem rank_q00 (G e r0 c0 r c : Nat) (h : InSq G e r0 c0 r c) :
    rank G (e + 1) r0 c0 r c = rank G e r0 c0 r c := by
  simp only [InSq] at h
  simp only [rank]
  rw [if_pos (by omega), if_pos (by omega)]

theorem rank_q01 (G e r0 c0 r c : Nat) (h : InSq G e r0 (c0 + 2 ^ e) r c) :
    rank G (e + 1) r0 c0 r c = cnt G e r0 c0 + rank G e r0 (c0 + 2 ^ e) r c := by
  simp only [InSq] at h
  simp only [rank]
  rw [if_pos (by omega), if_neg (by omega)]

theorem rank_q10 (G e r0 c0 r c : Nat) (h : InSq G e (r0 + 2 ^ e) c0 r c) :
    rank G (e + 1) r0 c0 r c =
      cnt G e r0 c0 + cnt G e r0 (c0 + 2 ^ e) + rank G e (r0 + 2 ^ e) c0 r c := by
  simp only [InSq] at h
  simp only [rank]
  rw [if_neg (by omega), if_pos (by omega)]

theorem rank_q11 (G e r0 c0 r c : Nat) (h : InSq G e (r0 + 2 ^ e) (c0 + 2 ^ e) r c) :
    rank G (e + 1) r0 c0 r c =
      cnt G e r0 c0 + cnt G e r0 (c0 + 2 ^ e) + cnt G e (r0 + 2 ^ e) c0 +
        rank G e (r0 + 2 ^ e) (c0 + 2 ^ e) r c := by
  simp only [InSq] at h
  simp only [rank]
  rw [if_neg (by omega), if_neg (by omega)]

theorem InSq_lt (G e r0 c0 r c : Nat) (h : InSq G e r0 c0 r c) : r < G ∧ c < G := by
  simp only [InSq] at h; omega

theorem half_pow (e : Nat) : 2 ^ (e + 1) / 2 = 2 ^ e := by rw [pow_succ]; omega

theorem two_le_pow (e : Nat) : 2 ≤ 2 ^ (e + 1) := by
  have := Nat.two_pow_pos e
  rw [pow_succ]; omega

/-- The forward `reorder` of a square returns, advances `dst_head` by one block per block
of the grid in the square, and lays the blocks out in the order `rank`. -/
theorem reorder_fwd (w n : Nat) (h1 : intOK (n + B - 1))
    (hint : ∀ r c, r < (n + B - 1) / B → c < (n + B - 1) / B → reorderIntOK n r c) :
    ∀ e dst st r0 c0, ∃ st2,
      reorder w n (2 ^ e) dst st r0 c0 false =
        some (dst + B * B * cnt ((n + B - 1) / B) e r0 c0, st2) ∧
      FwdG w n ((n + B - 1) / B) (InSq ((n + B - 1) / B) e r0 c0)
        (rank ((n + B - 1) / B) e r0 c0) (cnt ((n + B - 1) / B) e r0 c0) dst st st2 := by
  intro e
  induction e with
  | zero =>
    intro dst st r0 c0
    by_cases hpr : r0 ≥ (n + B - 1) / B ∨ c0 ≥ (n + B - 1) / B
    · refine ⟨st, ?_, ?_⟩
      · rw [cnt_pruned _ _ _ _ hpr, pow_zero, reorder_pruned w n 1 dst st r0 c0 false h1 hpr]
        rfl
      · rw [cnt_pruned _ _ _ _ hpr]
        refine ⟨rfl, ?_, fun _ _ _ _ _ => rfl, ?_, fun _ _ => rfl⟩
        · intro r c h; simp only [InSq, pow_zero] at h; omega
        · intro r c h; simp only [InSq, pow_zero] at h; omega
    · have hr : r0 < (n + B - 1) / B := by omega
      have hc : c0 < (n + B - 1) / B := by omega
      have hcn : c0 * B < n := by simp only [B] at *; omega
      obtain ⟨b1, b2, b3, b4⟩ := reorderBlock_fwd w n dst (r0 * B * n + c0 * B) r0 c0 hcn rfl st
        B (le_refl _)
      have hcnt : cnt ((n + B - 1) / B) 0 r0 c0 = 1 := by
        simp only [cnt]; rw [if_pos ⟨hr, hc⟩]
      refine ⟨{ loop B (reorderRow w n dst (r0 * B * n + c0 * B) r0 c0 false) st with
        BP := fun t => if t = r0 * ((n + B - 1) / B) + c0 then some dst
          else (loop B (reorderRow w n dst (r0 * B * n + c0 * B) r0 c0 false) st).BP t }, ?_, ?_⟩
      · rw [pow_zero, reorder_base w n dst st r0 c0 false h1 hr hc (hint r0 c0 hr hc), hcnt,
          Nat.mul_one]
      · rw [hcnt]
        refine ⟨b1, ?_, ?_, ?_, ?_⟩
        · intro r c h
          simp only [InSq, pow_zero] at h
          have er : r = r0 := by omega
          have ec : c = c0 := by omega
          subst er; subst ec
          simp only [rank, Nat.mul_zero, Nat.add_zero, if_true]
        · intro r c hr2 hc2 h
          have hne : r * ((n + B - 1) / B) + c ≠ r0 * ((n + B - 1) / B) + c0 := by
            intro he
            obtain ⟨e1, e2⟩ := idx_inj _ _ _ _ _ hc2 hc he
            apply h
            simp only [InSq, pow_zero]
            omega
          simp only [if_neg hne, b2]
        · intro r c h x y hx hy
          simp only [InSq, pow_zero] at h
          have er : r = r0 := by omega
          have ec : c = c0 := by omega
          subst er; subst ec
          simp only [rank, Nat.mul_zero, Nat.add_zero]
          exact b3 x y hx hy
        · intro a ha
          simp only [Nat.mul_one] at ha
          exact b4 a ha
  | succ e ih =>
    intro dst st r0 c0
    by_cases hpr : r0 ≥ (n + B - 1) / B ∨ c0 ≥ (n + B - 1) / B
    · refine ⟨st, ?_, ?_⟩
      · rw [cnt_pruned _ _ _ _ hpr, reorder_pruned w n _ dst st r0 c0 false h1 hpr]
        rfl
      · rw [cnt_pruned _ _ _ _ hpr]
        refine ⟨rfl, ?_, fun _ _ _ _ _ => rfl, ?_, fun _ _ => rfl⟩
        · intro r c h; simp only [InSq] at h; omega
        · intro r c h; simp only [InSq] at h; omega
    · have hr : r0 < (n + B - 1) / B := by omega
      have hc : c0 < (n + B - 1) / B := by omega
      obtain ⟨s1, e1, f1⟩ := ih dst st r0 c0
      obtain ⟨s2, e2, f2⟩ := ih (dst + B * B * cnt ((n + B - 1) / B) e r0 c0) s1 r0 (c0 + 2 ^ e)
      have g2 := FwdG_append w n _ _ _ _ _ (rank ((n + B - 1) / B) (e + 1) r0 c0) _ _ dst st s1 s2
        (InSq_lt _ _ _ _) (rank_lt _ _ _ _) (fun r c a b => by simp only [InSq] at a b; omega)
        (rank_q00 _ _ _ _) (rank_q01 _ _ _ _) f1 f2
      obtain ⟨s3, e3, f3⟩ := ih (dst + B * B * (cnt ((n + B - 1) / B) e r0 c0 +
        cnt ((n + B - 1) / B) e r0 (c0 + 2 ^ e))) s2 (r0 + 2 ^ e) c0
      have g3 := FwdG_append w n _ _ _ _ _ (rank ((n + B - 1) / B) (e + 1) r0 c0) _ _ dst st s2 s3
        (fun r c h => h.elim (InSq_lt _ _ _ _ r c) (InSq_lt _ _ _ _ r c))
        (fun r c h => by
          rcases h with h | h
          · rw [rank_q00 _ _ _ _ _ _ h]; have := rank_lt _ _ _ _ _ _ h; omega
          · rw [rank_q01 _ _ _ _ _ _ h]; have := rank_lt _ _ _ _ _ _ h; omega)
        (fun r c a b => by simp only [InSq] at a b; omega)
        (fun _ _ _ => rfl) (rank_q10 _ _ _ _) g2 f3
      obtain ⟨s4, e4, f4⟩ := ih (dst + B * B * (cnt ((n + B - 1) / B) e r0 c0 +
        cnt ((n + B - 1) / B) e r0 (c0 + 2 ^ e) + cnt ((n + B - 1) / B) e (r0 + 2 ^ e) c0)) s3
        (r0 + 2 ^ e) (c0 + 2 ^ e)
      have g4 := FwdG_append w n _ _ _ _ _ (rank ((n + B - 1) / B) (e + 1) r0 c0) _ _ dst st s3 s4
        (fun r c h => h.elim (fun h => h.elim (InSq_lt _ _ _ _ r c) (InSq_lt _ _ _ _ r c))
          (InSq_lt _ _ _ _ r c))
        (fun r c h => by
          rcases h with (h | h) | h
          · rw [rank_q00 _ _ _ _ _ _ h]; have := rank_lt _ _ _ _ _ _ h; omega
          · rw [rank_q01 _ _ _ _ _ _ h]; have := rank_lt _ _ _ _ _ _ h; omega
          · rw [rank_q10 _ _ _ _ _ _ h]; have := rank_lt _ _ _ _ _ _ h; omega)
        (fun r c a b => by simp only [InSq] at a b; omega)
        (fun _ _ _ => rfl) (rank_q11 _ _ _ _) g3 f4
      refine ⟨s4, ?_, ?_⟩
      · rw [reorder_rec w n _ dst st r0 c0 false h1 hr hc (two_le_pow e), half_pow, e1]
        simp only [Option.some_bind]
        rw [e2]
        simp only [Option.some_bind]
        rw [Nat.add_assoc, ← Nat.mul_add, e3]
        simp only [Option.some_bind]
        rw [Nat.add_assoc, ← Nat.mul_add, e4]
        simp only [cnt, Nat.mul_add, Nat.add_assoc]
      · apply FwdG_congr w n _ _ _ _ _ _ _ dst st s4 g4
        · intro r c
          rw [InSq_succ]
          tauto
        · intro _ _ _; rfl
        · simp only [cnt]

end QFW

namespace QFW

theorem block_idx_inj (n r x c y r2 x2 c2 y2 : Nat) (hx : x < B) (hy : y < B) (hx2 : x2 < B)
    (hy2 : y2 < B) (hcy : c * B + y < n) (hcy2 : c2 * B + y2 < n)
    (h : (r * B + x) * n + (c * B + y) = (r2 * B + x2) * n + (c2 * B + y2)) :
    r = r2 ∧ c = c2 ∧ x = x2 ∧ y = y2 := by
  obtain ⟨e1, e2⟩ := idx_inj n _ _ _ _ hcy hcy2 h
  simp only [B] at *
  omega

/-- Two reverse passes one after the other, over disjoint sets of blocks. -/
theorem RevG_append (w n : Nat) (S1 S2 : Nat → Nat → Prop) (k1 k2 k : Nat → Nat → Nat)
    (N1 dst : Nat) (st st1 st2 : RState)
    (hdis : ∀ r c, S1 r c → ¬ S2 r c)
    (hk1 : ∀ r c, S1 r c → k r c = k1 r c) (hk2 : ∀ r c, S2 r c → k r c = N1 + k2 r c)
    (a : RevG w n S1 k1 dst st st1)
    (b : RevG w n S2 k2 (dst + B * B * N1) st1 st2) :
    RevG w n (fun r c => S1 r c ∨ S2 r c) k dst st st2 := by
  refine ⟨by rw [b.hS, a.hS], ?_, ?_⟩
  · intro r c h x y hx hy hrx hcy
    by_cases h1 : S1 r c
    · rw [hk1 r c h1, b.hMf _ (fun r2 c2 x2 y2 h2 hx2 hy2 _ hcy2 he => by
        obtain ⟨e1, e2, _, _⟩ := block_idx_inj n _ _ _ _ _ _ _ _ hx hy hx2 hy2 hcy hcy2 he
        rw [← e1, ← e2] at h2
        exact hdis r c h1 h2)]
      exact a.hM r c h1 x y hx hy hrx hcy
    · have h2 : S2 r c := h.resolve_left h1
      rw [hk2 r c h2, b.hM r c h2 x y hx hy hrx hcy, a.hS]
      have e : dst + B * B * (N1 + k2 r c) = dst + B * B * N1 + B * B * k2 r c := by ring
      rw [e]
  · intro addr h
    rw [b.hMf addr (fun r c x y h2 => h r c x y (Or.inr h2)),
      a.hMf addr (fun r c x y h1 => h r c x y (Or.inl h1))]

theorem RevG_congr (w n : Nat) (S1 S2 : Nat → Nat → Prop) (k1 k2 : Nat → Nat → Nat)
    (dst : Nat) (st st2 : RState) (a : RevG w n S1 k1 dst st st2)
    (hS : ∀ r c, S2 r c ↔ S1 r c) (hk : ∀ r c, S2 r c → k2 r c = k1 r c) :
    RevG w n S2 k2 dst st st2 := by
  refine ⟨a.hS, ?_, ?_⟩
  · intro r c h x y hx hy hrx hcy
    rw [hk r c h]; exact a.hM r c ((hS r c).mp h) x y hx hy hrx hcy
  · intro addr h
    exact a.hMf addr (fun r c x y h1 => h r c x y ((hS r c).mpr h1))

/-- The reverse `reorder` of a square returns, advances `dst_head` like the forward pass
and writes back the negated elements of the blocks it visits. -/
theorem reorder_rev (w n : Nat) (h1 : intOK (n + B - 1))
    (hint : ∀ r c, r < (n + B - 1) / B → c < (n + B - 1) / B → reorderIntOK n r c) :
    ∀ e dst st r0 c0, ∃ st2,
      reorder w n (2 ^ e) dst st r0 c0 true =
        some (dst + B * B * cnt ((n + B - 1) / B) e r0 c0, st2) ∧
      RevG w n (InSq ((n + B - 1) / B) e r0 c0) (rank ((n + B - 1) / B) e r0 c0) dst st st2 := by
  intro e
  induction e with
  | zero =>
    intro dst st r0 c0
    by_cases hpr : r0 ≥ (n + B - 1) / B ∨ c0 ≥ (n + B - 1) / B
    · refine ⟨st, ?_, ?_⟩
      · rw [cnt_pruned _ _ _ _ hpr, pow_zero, reorder_pruned w n 1 dst st r0 c0 true h1 hpr]
        rfl
      · refine ⟨rfl, ?_, fun _ _ => rfl⟩
        intro r c h; simp only [InSq, pow_zero] at h; omega
    · have hr : r0 < (n + B - 1) / B := by omega
      have hc : c0 < (n + B - 1) / B := by omega
      have hcn : c0 * B < n := by simp only [B] at *; omega
      obtain ⟨b1, _, b3, b4⟩ := reorderBlock_rev w n dst (r0 * B * n + c0 * B) r0 c0 hcn rfl st B
      have hcnt : cnt ((n + B - 1) / B) 0 r0 c0 = 1 := by
        simp only [cnt]; rw [if_pos ⟨hr, hc⟩]
      refine ⟨{ loop B (reorderRow w n dst (r0 * B * n + c0 * B) r0 c0 true) st with
        BP := fun t => if t = r0 * ((n + B - 1) / B) + c0 then some dst
          else (loop B (reorderRow w n dst (r0 * B * n + c0 * B) r0 c0 true) st).BP t }, ?_, ?_⟩
      · rw [pow_zero, reorder_base w n dst st r0 c0 true h1 hr hc (hint r0 c0 hr hc), hcnt,
          Nat.mul_one]
      · refine ⟨b1, ?_, ?_⟩
        · intro r c h x y hx hy hrx hcy
          simp only [InSq, pow_zero] at h
          have er : r = r0 := by omega
          have ec : c = c0 := by omega
          subst er; subst ec
          simp only [rank, Nat.mul_zero, Nat.add_zero]
          exact b3 x y hx hy hrx hcy
        · intro a ha
          exact b4 a (fun x y hx hy hrx hcy => ha r0 c0 x y
            (by simp only [InSq, pow_zero]; omega) hx hy hrx hcy)
  | succ e ih =>
    intro dst st r0 c0
    by_cases hpr : r0 ≥ (n + B - 1) / B ∨ c0 ≥ (n + B - 1) / B
    · refine ⟨st, ?_, ?_⟩
      · rw [cnt_pruned _ _ _ _ hpr, reorder_pruned w n _ dst st r0 c0 true h1 hpr]
        rfl
      · refine ⟨rfl, ?_, fun _ _ => rfl⟩
        intro r c h; simp only [InSq] at h; omega
    · have hr : r0 < (n + B - 1) / B := by omega
      have hc : c0 < (n + B - 1) / B := by omega
      obtain ⟨s1, e1, f1⟩ := ih dst st r0 c0
      obtain ⟨s2, e2, f2⟩ := ih (dst + B * B * cnt ((n + B - 1) / B) e r0 c0) s1 r0 (c0 + 2 ^ e)
      have g2 := RevG_append w n _ _ _ _ (rank ((n + B - 1) / B) (e + 1) r0 c0) _ dst st s1 s2
        (fun r c a b => by simp only [InSq] at a b; omega)
        (rank_q00 _ _ _ _) (rank_q01 _ _ _ _) f1 f2
      obtain ⟨s3, e3, f3⟩ := ih (dst + B * B * (cnt ((n + B - 1) / B) e r0 c0 +
        cnt ((n + B - 1) / B) e r0 (c0 + 2 ^ e))) s2 (r0 + 2 ^ e) c0
      have g3 := RevG_append w n _ _ _ _ (rank ((n + B - 1) / B) (e + 1) r0 c0) _ dst st s2 s3
        (fun r c a b => by simp only [InSq] at a b; omega)
        (fun _ _ _ => rfl) (rank_q10 _ _ _ _) g2 f3
      obtain ⟨s4, e4, f4⟩ := ih (dst + B * B * (cnt ((n + B - 1) / B) e r0 c0 +
        cnt ((n + B - 1) / B) e r0 (c0 + 2 ^ e) + cnt ((n + B - 1) / B) e (r0 + 2 ^ e) c0)) s3
        (r0 + 2 ^ e) (c0 + 2 ^ e)
      have g4 := RevG_append w n _ _ _ _ (rank ((n + B - 1) / B) (e + 1) r0 c0) _ dst st s3 s4
        (fun r c a b => by simp only [InSq] at a b; omega)
        (fun _ _ _ => rfl) (rank_q11 _ _ _ _) g3 f4
      refine ⟨s4, ?_, ?_⟩
      · rw [reorder_rec w n _ dst st r0 c0 true h1 hr hc (two_le_pow e), half_pow, e1]
        simp only [Option.some_bind]
        rw [e2]
        simp only [Option.some_bind]
        rw [Nat.add_assoc, ← Nat.mul_add, e3]
        simp only [Option.some_bind]
        rw [Nat.add_assoc, ← Nat.mul_add, e4]
        simp only [cnt, Nat.mul_add, Nat.add_assoc]
      · apply RevG_congr w n _ _ _ _ dst st s4 g4
        · intro r c
          rw [InSq_succ]
          tauto
        · intro _ _ _; rfl

end QFW

namespace QFW

/-! ## The entry point: sizes -/

theorem n_blocks_power2_loop_pow (n : Nat) : ∀ fuel a,
    ∃ e, n_blocks_power2_loop n fuel (2 ^ a) = 2 ^ e := by
  intro fuel
  induction fuel with
  | zero => exact fun a => ⟨a, rfl⟩
  | succ f ih =>
    intro a
    simp only [n_blocks_power2_loop]
    by_cases h : 2 ^ a * B < n
    · rw [if_pos h, ← pow_succ]; exact ih (a + 1)
    · rw [if_neg h]; exact ⟨a, rfl⟩

theorem n_blocks_power2_loop_exit (n : Nat) : ∀ fuel p, 1 ≤ p → n < fuel + p →
    ¬ (n_blocks_power2_loop n fuel p * B < n) := by
  intro fuel
  induction fuel with
  | zero =>
    intro p _ h
    simp only [n_blocks_power2_loop, B]
    omega
  | succ f ih =>
    intro p hp h
    simp only [n_blocks_power2_loop]
    by_cases h2 : p * B < n
    · rw [if_pos h2]; exact ih (p * 2) (by omega) (by omega)
    · rw [if_neg h2]; exact h2

/-- The doubling loop of `run` ends at a power of two that covers the grid. -/
theorem n_blocks_power2_spec (n : Nat) :
    ∃ e, n_blocks_power2_loop n n 1 = 2 ^ e ∧ (n + B - 1) / B ≤ 2 ^ e := by
  obtain ⟨e, he⟩ := n_blocks_power2_loop_pow n n 0
  rw [pow_zero] at he
  refine ⟨e, he, ?_⟩
  have := n_blocks_power2_loop_exit n n 1 (le_refl _) (by omega)
  rw [he] at this
  simp only [B] at *
  omega

theorem InSq_top (G e r c : Nat) (hG : G ≤ 2 ^ e) : InSq G e 0 0 r c ↔ (r < G ∧ c < G) := by
  simp only [InSq]
  omega

/-- Inside the supported sizes no `int` expression of `reorder` overflows. -/
theorem reorderIntOK_of_small (n r c : Nat) (hn : n ≤ 46336) (hr : r < (n + B - 1) / B)
    (hc : c < (n + B - 1) / B) : reorderIntOK n r c := by
  have hr2 : r * B + 1 ≤ n := by simp only [B] at *; omega
  have hc2 : c * B + 1 ≤ n := by simp only [B] at *; omega
  have hnn : n * n ≤ 46336 * 46336 := Nat.mul_le_mul hn hn
  constructor
  · unfold intOK INT_MAX
    have h1 : r * B * n ≤ (n - 1) * n := Nat.mul_le_mul_right n (by omega)
    have h2 : (n - 1) * n + n = n * n := by
      obtain ⟨k, rfl⟩ : ∃ k, n = k + 1 := ⟨n - 1, by omega⟩
      simp only [Nat.add_sub_cancel]; ring
    omega
  · intro i hi _ j hj
    unfold intOK INT_MAX
    have h1 : i * n ≤ 63 * n := Nat.mul_le_mul_right n (by simp only [B] at hi; omega)
    simp only [B] at hj
    omega

theorem sizeOK_of_small (n : Nat) (hn : n ≤ 46336) :
    intOK ((B * ((n + B - 1) / B)) * (B * ((n + B - 1) / B))) := by
  unfold intOK INT_MAX
  have h : B * ((n + B - 1) / B) ≤ 46336 := by simp only [B]; omega
  have := Nat.mul_le_mul h h
  omega

theorem small_of_sizeOK (n : Nat)
    (h : intOK ((B * ((n + B - 1) / B)) * (B * ((n + B - 1) / B)))) : n ≤ 46336 := by
  unfold intOK INT_MAX at h
  by_contra hn
  have h2 : 46400 ≤ B * ((n + B - 1) / B) := by simp only [B]; omega
  have := Nat.mul_le_mul h2 h2
  omega

end QFW

namespace QFW

/-! ## The invariant of the solver -/

theorem BlocksHyp_of (w G : Nat) (blk : Nat → Nat → Nat) (Gd : Nat → Nat → Int → Prop)
    (hinj : ∀ r c x y r2 c2 x2 y2, r < G → c < G → r2 < G → c2 < G → x < B → y < B → x2 < B →
      y2 < B → blk r c + (x * B + y) = blk r2 c2 + (x2 * B + y2) →
      r = r2 ∧ c = c2 ∧ x = x2 ∧ y = y2)
    (hrange : ∀ i j v, Gd i j v → -(INF w) ≤ v ∧ v ≤ 0)
    (hclos : ∀ i k j x y z, Gd i k x → Gd k j y → Gd i j z → z < x + y → Gd i j (x + y)) :
    BlocksHyp w (OkAt G blk Gd) blk G := by
  intro r1 r2 r3 h1 h2 h3
  refine ⟨?_, ?_, ?_⟩
  · intro t ht v hv
    have hx : t / B < B := by simp only [B] at *; omega
    have hy : t % B < B := by simp only [B] at *; omega
    have e : t = (t / B) * B + t % B := by simp only [B]; omega
    exact hrange _ _ _ (hv r1 r2 (t / B) (t % B) h1 h2 hx hy (by rw [← e]))
  · intro t ht v hv
    have hx : t / B < B := by simp only [B] at *; omega
    have hy : t % B < B := by simp only [B] at *; omega
    have e : t = (t / B) * B + t % B := by simp only [B]; omega
    exact hrange _ _ _ (hv r2 r3 (t / B) (t % B) h2 h3 hx hy (by rw [← e]))
  · intro i k j hi hk hj x y z ox oy oz hlt r c x2 y2 hr hc hx2 hy2 he
    obtain ⟨e1, e2, e3, e4⟩ := hinj r1 r3 i j r c x2 y2 h1 h3 hr hc hi hj hx2 hy2 he
    subst e1; subst e2; subst e3; subst e4
    exact hclos _ (r2 * B + k) _ x y z (ox r1 r2 i k h1 h2 hi hk rfl)
      (oy r2 r3 k j h2 h3 hk hj rfl) (oz r1 r3 i j h1 h3 hi hj rfl) hlt

theorem view_of_MemOk (G : Nat) (blk : Nat → Nat → Nat) (Gd : Nat → Nat → Int → Prop)
    (m : Mem) (hm : MemOk (OkAt G blk Gd) m) (i j : Nat) (hi : i < G * B) (hj : j < G * B) :
    Gd i j (view blk m i j) := by
  have h := hm (cell blk i j) (i / B) (j / B) (i % B) (j % B)
    (by simp only [B] at *; omega) (by simp only [B] at *; omega)
    (by simp only [B]; omega) (by simp only [B]; omega) rfl
  have e1 : i / B * B + i % B = i := by simp only [B]; omega
  have e2 : j / B * B + j % B = j := by simp only [B]; omega
  rw [e1, e2] at h
  exact h

/-- Blocks laid out by `rank` do not overlap. -/
theorem layout_inj (G e : Nat) (hG : G ≤ 2 ^ e) (r c x y r2 c2 x2 y2 : Nat)
    (hr : r < G) (hc : c < G) (hr2 : r2 < G) (hc2 : c2 < G) (hx : x < B) (hy : y < B)
    (hx2 : x2 < B) (hy2 : y2 < B)
    (h : B * B * rank G e 0 0 r c + (x * B + y) = B * B * rank G e 0 0 r2 c2 + (x2 * B + y2)) :
    r = r2 ∧ c = c2 ∧ x = x2 ∧ y = y2 := by
  have hk : rank G e 0 0 r c = rank G e 0 0 r2 c2 := by simp only [B] at *; omega
  obtain ⟨e1, e2⟩ := rank_inj G e 0 0 r c r2 c2 ((InSq_top G e r c hG).mpr ⟨hr, hc⟩)
    ((InSq_top G e r2 c2 hG).mpr ⟨hr2, hc2⟩) hk
  simp only [B] at *
  omega

theorem Good_range (w n : Nat) (W : Mem) (i j : Nat) (v : Int) (h : Good w n W i j v) :
    -(INF w) ≤ v ∧ v ≤ 0 := ⟨h.1, h.2.1⟩

theorem Good_clos (w n : Nat) (W : Mem) (i k j : Nat) (x y z : Int)
    (hx : Good w n W i k x) (hy : Good w n W k j y) (hz : Good w n W i j z) (hlt : z < x + y) :
    Good w n W i j (x + y) := by
  have hI := INF_nonneg w
  obtain ⟨x1, x2, x3, x4⟩ := hx
  obtain ⟨y1, y2, y3, y4⟩ := hy
  obtain ⟨z1, z2, z3, z4⟩ := hz
  by_cases hij : i < n ∧ j < n
  · by_cases hk : k < n
    · obtain ⟨p1, a1, b1⟩ := x3 ⟨hij.1, hk⟩
      obtain ⟨p2, a2, b2⟩ := y3 ⟨hk, hij.2⟩
      refine ⟨by linarith, by linarith, fun _ => ⟨p1 ++ k :: p2, ?_, ?_⟩, fun h => absurd hij h⟩
      · intro u hu
        rcases List.mem_append.mp hu with h | h
        · exact a1 u h
        · rcases List.mem_cons.mp h with h2 | h2
          · rw [h2]; exact hk
          · exact a2 u h2
      · rw [walkW_append, b1, b2]; ring
    · have := x4 (fun h => hk h.2)
      have := y4 (fun h => hk h.1)
      exfalso; linarith
  · have hz := z4 hij
    have : x = -(INF w) ∨ y = -(INF w) := by
      by_cases hi : i < n
      · right; exact y4 (fun h => hij ⟨hi, h.2⟩)
      · left; exact x4 (fun h => hi h.1)
    exfalso
    rcases this with h | h <;> linarith

end QFW

namespace QFW

/-! ## The entry point -/

theorem idx_lt (n i j : Nat) (hi : i < n) (hj : j < n) : i * n + j < n * n := by
  have h1 : (i + 1) * n ≤ n * n := Nat.mul_le_mul_right n hi
  have h2 : (i + 1) * n = i * n + n := by ring
  omega

theorem block_split (i : Nat) : i / B * B + i % B = i ∧ i % B < B := by
  simp only [B]; omega

/-- Layout of the scratch after the forward reorder of `run`, and the output of `run` in
terms of what `FWR` leaves in the scratch; `2 ^ e` is the scale that `run` computes. -/
theorem run_via_FWR_e (w n : Nat) (input heap : Mem) (hn1 : 1 ≤ n) (hn : n ≤ 46336) :
    ∃ e st1, n_blocks_power2_loop n n 1 = 2 ^ e ∧
      reorder w n (2 ^ e) 0 ⟨heap, input, fun _ => none⟩ 0 0 false =
        some (0 + B * B * cnt ((n + B - 1) / B) e 0 0, st1) ∧
      (n + B - 1) / B ≤ 2 ^ e ∧
      FwdG w n ((n + B - 1) / B) (InSq ((n + B - 1) / B) e 0 0) (rank ((n + B - 1) / B) e 0 0)
        (cnt ((n + B - 1) / B) e 0 0) 0 ⟨heap, input, fun _ => none⟩ st1 ∧
      ∀ L u sym output,
        run w L u n input output sym heap =
          (FWR w L u (2 ^ e) ((n + B - 1) / B) 0 0 0 st1.BP sym st1.S).bind (fun S =>
            (reorder w n (2 ^ e) 0 ⟨S, output, st1.BP⟩ 0 0 true).bind (fun r => some r.2.M)) ∧
        ∀ S2, FWR w L u (2 ^ e) ((n + B - 1) / B) 0 0 0 st1.BP sym st1.S = some S2 →
          ∃ out, run w L u n input output sym heap = some out ∧
            (∀ i j, i < n → j < n → out (i * n + j) = wrapT w
              (-(view (fun r c => B * B * rank ((n + B - 1) / B) e 0 0 r c) S2 i j))) ∧
            (∀ t, n * n ≤ t → out t = output t) := by
  obtain ⟨e, he, hG⟩ := n_blocks_power2_spec n
  have h1 : intOK (n + B - 1) := by unfold intOK INT_MAX; simp only [B]; omega
  have hint := fun r c hr hc => reorderIntOK_of_small n r c hn hr hc
  obtain ⟨st1, e1, f1⟩ := reorder_fwd w n h1 hint e 0 ⟨heap, input, fun _ => none⟩ 0 0
  refine ⟨e, st1, he, e1, hG, f1, fun L u sym output => ?_⟩
  have hrun : run w L u n input output sym heap =
      (FWR w L u (2 ^ e) ((n + B - 1) / B) 0 0 0 st1.BP sym st1.S).bind (fun S =>
        (reorder w n (2 ^ e) 0 ⟨S, output, st1.BP⟩ 0 0 true).bind (fun r => some r.2.M)) := by
    unfold run
    rw [if_neg (by omega), if_neg (by omega)]
    simp only [he]
    rw [if_neg (not_not.mpr (sizeOK_of_small n hn)), e1]
    rfl
  refine ⟨hrun, ?_⟩
  · intro S2 h
    obtain ⟨st3, e3, f3⟩ := reorder_rev w n h1 hint e 0 ⟨S2, output, st1.BP⟩ 0 0
    refine ⟨st3.M, ?_, ?_, ?_⟩
    · rw [hrun, h]
      simp only [Option.some_bind, e3]
    · intro i j hi hj
      obtain ⟨ei, hi2⟩ := block_split i
      obtain ⟨ej, hj2⟩ := block_split j
      have hr : i / B < (n + B - 1) / B := by simp only [B] at *; omega
      have hc : j / B < (n + B - 1) / B := by simp only [B] at *; omega
      have := f3.hM (i / B) (j / B) ((InSq_top _ _ _ _ hG).mpr ⟨hr, hc⟩) (i % B) (j % B) hi2 hj2
        (by rw [ei]; exact hi) (by rw [ej]; exact hj)
      rw [ei, ej] at this
      rw [this]
      simp only [view, cell, Nat.zero_add]
    · intro t ht
      rw [f3.hMf t]
      intro r c x y _ _ _ hrx hcy he2
      have := idx_lt n _ _ hrx hcy
      omega

/-- Layout of the scratch after the forward reorder of `run`, and the output of `run` in
terms of what `FWR` leaves in the scratch. -/
theorem run_via_FWR (w n : Nat) (input heap : Mem) (hn1 : 1 ≤ n) (hn : n ≤ 46336) :
    ∃ e st1, (n + B - 1) / B ≤ 2 ^ e ∧
      FwdG w n ((n + B - 1) / B) (InSq ((n + B - 1) / B) e 0 0) (rank ((n + B - 1) / B) e 0 0)
        (cnt ((n + B - 1) / B) e 0 0) 0 ⟨heap, input, fun _ => none⟩ st1 ∧
      ∀ L u sym output,
        run w L u n input output sym heap =
          (FWR w L u (2 ^ e) ((n + B - 1) / B) 0 0 0 st1.BP sym st1.S).bind (fun S =>
            (reorder w n (2 ^ e) 0 ⟨S, output, st1.BP⟩ 0 0 true).bind (fun r => some r.2.M)) ∧
        ∀ S2, FWR w L u (2 ^ e) ((n + B - 1) / B) 0 0 0 st1.BP sym st1.S = some S2 →
          ∃ out, run w L u n input output sym heap = some out ∧
            (∀ i j, i < n → j < n → out (i * n + j) = wrapT w
              (-(view (fun r c => B * B * rank ((n + B - 1) / B) e 0 0 r c) S2 i j))) ∧
            (∀ t, n * n ≤ t → out t = output t) := by
  obtain ⟨e, st1, _, _, hG, f1, h⟩ := run_via_FWR_e w n input heap hn1 hn
  exact ⟨e, st1, hG, f1, h⟩

end QFW

namespace QFW

theorem walkW_neg (X Y : Nat → Nat → Int) (V : Nat → Prop)
    (h : ∀ u v, V u → V v → X u v = -(Y u v)) (p : List Nat) (i j : Nat) (hi : V i) (hj : V j)
    (hp : ∀ v, v ∈ p → V v) : walkW X i p j = -(walkW Y i p j) := by
  induction p generalizing i with
  | nil => exact h i j hi hj
  | cons v p ih =>
    have hv := hp v (List.mem_cons_self _ _)
    simp only [walkW]
    rw [h i v hi hv, ih v hv (fun u hu => hp u (List.mem_cons_of_mem _ hu))]
    ring

theorem padded_Good (w n : Nat) (hw : 1 ≤ w) (W : Mem) (hW : ValidInput w n W)
    (r c x y : Nat) : Good w n W (r * B + x) (c * B + y) (padded w n W r c x y) := by
  have hI := INF_nonneg w
  unfold padded
  by_cases h : r * B + x < n ∧ c * B + y < n
  · rw [if_pos h]
    obtain ⟨a1, a2⟩ := hW _ (idx_lt n _ _ h.1 h.2)
    rw [wrapT_neg w hw _ (by linarith) a2]
    exact ⟨by linarith, by linarith, fun _ => ⟨[], fun u hu => absurd hu (List.not_mem_nil u), rfl⟩,
      fun h2 => absurd h h2⟩
  · rw [if_neg h, wrapT_neg w hw _ (by linarith) (le_refl _)]
    exact ⟨le_refl _, by linarith, fun h2 => absurd h2 h, fun _ => rfl⟩

/-- After the forward reorder every element of the scratch is admissible. -/
theorem fwd_MemOk (w n G : Nat) (hw : 1 ≤ w) (W : Mem) (hW : ValidInput w n W) (e : Nat)
    (hG : G ≤ 2 ^ e) (heap : Mem) (st1 : RState)
    (f1 : FwdG w n G (InSq G e 0 0) (rank G e 0 0) (cnt G e 0 0) 0 ⟨heap, W, fun _ => none⟩ st1) :
    MemOk (OkAt G (fun r c => B * B * rank G e 0 0 r c) (Good w n W)) st1.S := by
  intro addr r c x y hr hc hx hy he
  have := f1.hS r c ((InSq_top G e r c hG).mpr ⟨hr, hc⟩) x y hx hy
  rw [Nat.zero_add] at this
  rw [he, this]
  exact padded_Good w n hw W hW r c x y

theorem fwd_view (w n G : Nat) (hw : 1 ≤ w) (W : Mem) (hW : ValidInput w n W) (e : Nat)
    (hG : G ≤ 2 ^ e) (heap : Mem) (st1 : RState)
    (f1 : FwdG w n G (InSq G e 0 0) (rank G e 0 0) (cnt G e 0 0) 0 ⟨heap, W, fun _ => none⟩ st1)
    (hn : n ≤ G * B) (i j : Nat) (hi : i < n) (hj : j < n) :
    view (fun r c => B * B * rank G e 0 0 r c) st1.S i j = -(Wf n W i j) := by
  obtain ⟨ei, hi2⟩ := block_split i
  obtain ⟨ej, hj2⟩ := block_split j
  have hr : i / B < G := by simp only [B] at *; omega
  have hc : j / B < G := by simp only [B] at *; omega
  have := f1.hS (i / B) (j / B) ((InSq_top G e _ _ hG).mpr ⟨hr, hc⟩) (i % B) (j % B) hi2 hj2
  rw [Nat.zero_add] at this
  simp only [view, cell]
  rw [this]
  unfold padded
  rw [ei, ej, if_pos ⟨hi, hj⟩]
  obtain ⟨a1, a2⟩ := hW _ (idx_lt n _ _ hi hj)
  have hI := INF_nonneg w
  rw [wrapT_neg w hw _ (by linarith) a2]
  rfl

theorem Rows_top (G e v : Nat) (hG : G ≤ 2 ^ e) : Rows G 0 (2 ^ e) v ↔ v < G * B := by
  simp only [Rows, Nat.zero_mul, Nat.zero_add, Nat.zero_le, true_and]
  constructor
  · exact fun h => h.2
  · intro h
    refine ⟨?_, h⟩
    have := Nat.mul_le_mul_right B hG
    omega

end QFW

namespace QFW

/-- What the reverse reorder writes is the least walk weight, as soon as the scratch is
admissible and above every walk of the padded matrix. -/
theorem shortest_of_scratch (w n G : Nat) (hw : 1 ≤ w) (W : Mem) (hW : ValidInput w n W)
    (e : Nat) (hG : G ≤ 2 ^ e) (hn : n ≤ G * B) (heap : Mem) (st1 : RState)
    (f1 : FwdG w n G (InSq G e 0 0) (rank G e 0 0) (cnt G e 0 0) 0 ⟨heap, W, fun _ => none⟩ st1)
    (S2 : Mem) (hS2 : MemOk (OkAt G (fun r c => B * B * rank G e 0 0 r c) (Good w n W)) S2)
    (hA : Above (view (fun r c => B * B * rank G e 0 0 r c) S2)
      (view (fun r c => B * B * rank G e 0 0 r c) st1.S) (Rows G 0 (2 ^ e)) (Rows G 0 (2 ^ e))
      (Rows G 0 (2 ^ e))) (i j : Nat) (hi : i < n) (hj : j < n) :
    IsShortest n W i j (wrapT w (-(view (fun r c => B * B * rank G e 0 0 r c) S2 i j))) := by
  have hI := INF_nonneg w
  obtain ⟨g1, g2, g3, _⟩ := view_of_MemOk G _ _ S2 hS2 i j (by omega) (by omega)
  rw [wrapT_neg w hw _ g1 (by linarith)]
  constructor
  · obtain ⟨p, a1, a2⟩ := g3 ⟨hi, hj⟩
    exact ⟨p, a1, by rw [a2]; ring⟩
  · intro p hp
    have h1 := hA i j ((Rows_top G e i hG).mpr (by omega)) ((Rows_top G e j hG).mpr (by omega)) p
      (fun v hv => (Rows_top G e v hG).mpr (by have := hp v hv; omega))
    rw [walkW_neg _ (Wf n W) (fun v => v < n)
      (fun u v hu hv => fwd_view w n G hw W hW e hG heap st1 f1 hn u v hu hv) p i j hi hj hp] at h1
    linarith

theorem TableOk_of_fwd (w n G e : Nat) (hG : G ≤ 2 ^ e) (st st1 : RState)
    (f1 : FwdG w n G (InSq G e 0 0) (rank G e 0 0) (cnt G e 0 0) 0 st st1) :
    TableOk st1.BP G (fun r c => B * B * rank G e 0 0 r c) := by
  intro r c hr hc
  rw [f1.hBP r c ((InSq_top G e r c hG).mpr ⟨hr, hc⟩), Nat.zero_add]

theorem grid_covers (n : Nat) : n ≤ (n + B - 1) / B * B := by
  simp only [B]; omega

/-- Without the symmetric flag `run` returns the least walk weights, for every supported
size. -/
theorem run_shortest_false (w L u n : Nat) (hw : 1 ≤ w) (hL : 0 < L) (hLB : L ∣ B) (hu : u ≤ 3)
    (input output heap : Mem) (hn1 : 1 ≤ n) (hn : n ≤ 46336) (hW : ValidInput w n input) :
    ∃ out, run w L u n input output false heap = some out ∧
      (∀ i j, i < n → j < n → IsShortest n input i j (out (i * n + j))) ∧
      (∀ t, n * n ≤ t → out t = output t) := by
  obtain ⟨e, st1, hG, f1, hrun⟩ := run_via_FWR w n input heap hn1 hn
  have hBP := TableOk_of_fwd w n _ e hG _ st1 f1
  have hH := BlocksHyp_of w ((n + B - 1) / B) (fun r c => B * B * rank ((n + B - 1) / B) e 0 0 r c)
    (Good w n input) (layout_inj _ e hG) (Good_range w n input) (Good_clos w n input)
  have hm := fwd_MemOk w n _ hw input hW e hG heap st1 f1
  obtain ⟨S2, e2, ok2, _, A2⟩ := FWR_closure w L u hw hL hLB hu _ _ _ st1.BP hBP hH e 0 st1.S hm
  obtain ⟨out, o1, o2, o3⟩ := (hrun L u false output).2 S2 e2
  refine ⟨out, o1, fun i j hi hj => ?_, o3⟩
  rw [o2 i j hi hj]
  exact shortest_of_scratch w n _ hw input hW e hG (grid_covers n) heap st1 f1 S2 ok2 A2 i j hi hj

end QFW

namespace QFW

/-! ## The naive reference -/

/-- One relaxation of the naive loop. -/
theorem naive_step (w n : Nat) (hw : 1 ≤ w) (W : Mem) (buf : Mem)
    (hP : ∀ i j, i < n → j < n → 0 ≤ buf (i * n + j) ∧ buf (i * n + j) ≤ INF w ∧
      ∃ p : List Nat, (∀ u, u ∈ p → u < n) ∧ buf (i * n + j) = walkW (Wf n W) i p j)
    (k i j : Nat) (hk : k < n) (hi : i < n) (hj : j < n) :
    (∀ i2 j2, i2 < n → j2 < n →
      0 ≤ store buf (i * n + j) (min (buf (i * n + j))
          (wrapT w (buf (i * n + k) + buf (k * n + j)))) (i2 * n + j2) ∧
      store buf (i * n + j) (min (buf (i * n + j))
          (wrapT w (buf (i * n + k) + buf (k * n + j)))) (i2 * n + j2) ≤ INF w ∧
      ∃ p : List Nat, (∀ u, u ∈ p → u < n) ∧
        store buf (i * n + j) (min (buf (i * n + j))
          (wrapT w (buf (i * n + k) + buf (k * n + j)))) (i2 * n + j2) = walkW (Wf n W) i2 p j2) ∧
    (∀ t, store buf (i * n + j) (min (buf (i * n + j))
          (wrapT w (buf (i * n + k) + buf (k * n + j)))) t ≤ buf t) ∧
    store buf (i * n + j) (min (buf (i * n + j))
          (wrapT w (buf (i * n + k) + buf (k * n + j)))) (i * n + j) ≤
      buf (i * n + k) + buf (k * n + j) := by
  obtain ⟨a1, a2, pa, ha1, ha2⟩ := hP i k hi hk
  obtain ⟨b1, b2, pb, hb1, hb2⟩ := hP k j hk hj
  obtain ⟨c1, c2, pc, hc1, hc2⟩ := hP i j hi hj
  have hwrap := wrapT_add_nonneg w hw _ _ a1 a2 b1 b2
  rw [hwrap]
  refine ⟨fun i2 j2 hi2 hj2 => ?_, fun t => ?_, ?_⟩
  · by_cases he : i2 * n + j2 = i * n + j
    · obtain ⟨e1, e2⟩ := idx_inj n _ _ _ _ hj2 hj he
      subst e1; subst e2
      rw [store_same]
      rcases le_total (buf (i2 * n + j2)) (buf (i2 * n + k) + buf (k * n + j2)) with h | h
      · rw [min_eq_left h]; exact ⟨c1, c2, pc, hc1, hc2⟩
      · rw [min_eq_right h]
        refine ⟨by linarith, by linarith, pa ++ k :: pb, ?_, ?_⟩
        · intro u hu
          rcases List.mem_append.mp hu with h2 | h2
          · exact ha1 u h2
          · rcases List.mem_cons.mp h2 with h3 | h3
            · rw [h3]; exact hk
            · exact hb1 u h3
        · rw [walkW_append, ← ha2, ← hb2]
    · rw [store_other _ _ _ _ he]; exact hP i2 j2 hi2 hj2
  · by_cases he : t = i * n + j
    · rw [he, store_same]; exact min_le_left _ _
    · rw [store_other _ _ _ _ he]
  · rw [store_same]; exact min_le_right _ _

/-- One sweep of the naive loop relaxes every pair through the pivot `k`. -/
theorem naiveSweep_spec (w n : Nat) (hw : 1 ≤ w) (W : Mem) (k : Nat) (hk : k < n) (buf : Mem)
    (hP : NInv w n W buf) :
    NInv w n W (naiveSweep w n k buf) ∧ (∀ t, naiveSweep w n k buf t ≤ buf t) ∧
    ∀ i j, i < n → j < n →
      naiveSweep w n k buf (i * n + j) ≤ buf (i * n + k) + buf (k * n + j) := by
  unfold naiveSweep
  have key := loop_coverR (fun b1 b2 : Mem => ∀ t, b2 t ≤ b1 t) (fun _ _ => le_refl _)
    (fun _ _ _ h1 h2 t => le_trans (h2 t) (h1 t))
    (fun b => NInv w n W b ∧ ∀ t, b t ≤ buf t)
    (fun i b => ∀ j, j < n → b (i * n + j) ≤ buf (i * n + k) + buf (k * n + j))
    n (fun i => loop n (fun j buf =>
      store buf (i * n + j) (min (buf (i * n + j)) (wrapT w (buf (i * n + k) + buf (k * n + j))))))
    (by
      intro i hi b hb
      have inner := loop_coverR (fun b1 b2 : Mem => ∀ t, b2 t ≤ b1 t) (fun _ _ => le_refl _)
        (fun _ _ _ h1 h2 t => le_trans (h2 t) (h1 t))
        (fun b2 => NInv w n W b2 ∧ ∀ t, b2 t ≤ buf t)
        (fun j b2 => b2 (i * n + j) ≤ buf (i * n + k) + buf (k * n + j))
        n (fun j buf =>
          store buf (i * n + j) (min (buf (i * n + j)) (wrapT w (buf (i * n + k) + buf (k * n + j)))))
        (by
          intro j hj b2 hb2
          obtain ⟨s1, s2, s3⟩ := naive_step w n hw W b2 hb2.1 k i j hk hi hj
          refine ⟨⟨s1, fun t => le_trans (s2 t) (hb2.2 t)⟩, s2, ?_⟩
          have := hb2.2 (i * n + k)
          have := hb2.2 (k * n + j)
          linarith)
        (fun j _ b1 b2 hR hQ => le_trans (hR _) hQ)
        b hb
      exact ⟨inner.1, inner.2.1, inner.2.2⟩)
    (fun i _ b1 b2 hR hQ j hj => le_trans (hR _) (hQ j hj))
    buf ⟨hP, fun _ => le_refl _⟩
  exact ⟨key.1.1, key.2.1, fun i j hi hj => key.2.2 i hi j hj⟩

end QFW

namespace QFW

theorem IsShortest_unique (n : Nat) (W : Mem) (i j : Nat) (d d2 : Int)
    (h1 : IsShortest n W i j d) (h2 : IsShortest n W i j d2) : d = d2 := by
  obtain ⟨⟨p, a1, a2⟩, a3⟩ := h1
  obtain ⟨⟨q, b1, b2⟩, b3⟩ := h2
  have := a3 q b1
  have := b3 p a1
  linarith

theorem naive_sweeps (w n : Nat) (hw : 1 ≤ w) (W : Mem) (hW : ValidInput w n W) :
    ∀ k, k ≤ n → NInv w n W (loop k (fun k => naiveSweep w n k) W) := by
  intro k
  induction k with
  | zero =>
    intro _ i j hi hj
    obtain ⟨a1, a2⟩ := hW _ (idx_lt n i j hi hj)
    exact ⟨a1, a2, [], fun u hu => absurd hu (List.not_mem_nil u), rfl⟩
  | succ k ih =>
    intro hk
    exact (naiveSweep_spec w n hw W k (by omega) _ (ih (by omega))).1

/-- The naive reference returns the least walk weights. -/
theorem naive_shortest (w n : Nat) (hw : 1 ≤ w) (input output : Mem)
    (hW : ValidInput w n input) (hnn : intOK (n * n)) :
    ∃ out, floyd_warshall_naive.run w n input output = some out ∧
      (∀ i j, i < n → j < n → IsShortest n input i j (out (i * n + j))) ∧
      (∀ t, n * n ≤ t → out t = output t) := by
  have hrun : floyd_warshall_naive.run w n input output =
      some (fun t => if t < n * n then loop n (fun k => naiveSweep w n k) input t
        else output t) := by
    unfold floyd_warshall_naive.run
    rw [if_neg (not_not.mpr hnn)]
    rfl
  refine ⟨_, hrun, fun i j hi hj => ?_, fun t ht => ?_⟩
  · simp only [if_pos (idx_lt n i j hi hj)]
    have hInv := naive_sweeps w n hw input hW
    obtain ⟨_, _, p, hp1, hp2⟩ := hInv n (le_refl _) i j hi hj
    refine ⟨⟨p, hp1, hp2⟩, fun q hq => ?_⟩
    have key := fw_closure n
      (fun k u v => -(loop k (fun k => naiveSweep w n k) input (u * n + v)))
      (fun u v hu hv => by
        have := (hW _ (idx_lt n u v hu hv)).1
        show -(input (u * n + v)) ≤ 0
        linarith)
      (fun k hk u v _ _ => by
        have := (naiveSweep_spec w n hw input k hk _ (hInv k (by omega))).2.1 (u * n + v)
        show -(loop k (fun k => naiveSweep w n k) input (u * n + v)) ≤
          -(naiveSweep w n k (loop k (fun k => naiveSweep w n k) input) (u * n + v))
        linarith)
      (fun k hk u v hu hv => by
        have := (naiveSweep_spec w n hw input k hk _ (hInv k (by omega))).2.2 u v hu hv
        show -(loop k (fun k => naiveSweep w n k) input (u * n + k)) +
          -(loop k (fun k => naiveSweep w n k) input (k * n + v)) ≤
          -(naiveSweep w n k (loop k (fun k => naiveSweep w n k) input) (u * n + v))
        linarith)
      n (le_refl _) i j hi hj q hq
    have e := walkW_neg (fun u v => -(input (u * n + v))) (Wf n input) (fun _ => True)
      (fun _ _ _ _ => rfl) q i j trivial trivial (fun _ _ => trivial)
    have e2 : (fun u v => -(loop 0 (fun k => naiveSweep w n k) input (u * n + v))) =
        (fun u v => -(input (u * n + v))) := rfl
    simp only [e2, e] at key
    linarith
  · simp only [if_neg (by omega : ¬ t < n * n)]

/-- Below the supported size limit `run` and the naive reference agree. -/
theorem run_eq_naive (w L u n : Nat) (hw : 1 ≤ w) (hL : 0 < L) (hLB : L ∣ B) (hu : u ≤ 3)
    (input output heap : Mem) (hn1 : 1 ≤ n) (hn : n ≤ 46336) (hW : ValidInput w n input) :
    run w L u n input output false heap = floyd_warshall_naive.run w n input output ∧
      ∃ out, run w L u n input output false heap = some out := by
  obtain ⟨o1, r1, s1, f1⟩ := run_shortest_false w L u n hw hL hLB hu input output heap hn1 hn hW
  have hnn : intOK (n * n) := by
    unfold intOK INT_MAX
    have := Nat.mul_le_mul hn hn
    omega
  obtain ⟨o2, r2, s2, f2⟩ := naive_shortest w n hw input output hW hnn
  refine ⟨?_, o1, r1⟩
  rw [r1, r2]
  congr 1
  funext t
  by_cases ht : t < n * n
  · have hnpos : 0 < n := hn1
    have hj : t % n < n := Nat.mod_lt _ hnpos
    have hi : t / n < n := by
      rw [Nat.div_lt_iff_lt_mul hnpos]; exact ht
    have e : t / n * n + t % n = t := by rw [Nat.mul_comm]; exact Nat.div_add_mod t n
    have := IsShortest_unique n input _ _ _ _ (s1 _ _ hi hj) (s2 _ _ hi hj)
    rw [e] at this
    exact this
  · rw [f1 t (by omega), f2 t (by omega)]

end QFW

namespace QFW

/-- `run` returns only inside the supported sizes. -/
theorem run_some_small (w L u n : Nat) (input output heap : Mem) (sym : Bool) (out : Mem)
    (hn1 : 1 ≤ n) (h : run w L u n input output sym heap = some out) : n ≤ 46336 := by
  unfold run at h
  by_cases h1 : n < 65536
  · rw [if_neg (not_not.mpr h1), if_neg (by omega)] at h
    by_cases h2 : intOK ((B * ((n + B - 1) / B)) * (B * ((n + B - 1) / B)))
    · exact small_of_sizeOK n h2
    · simp only [h2, not_false_eq_true, if_true] at h
      exact absurd h (by simp)
  · rw [if_pos h1] at h
    exact absurd h (by simp)

end QFW

namespace QFW

/-! ## Transpose-copy -/

theorem transpose_step (m : Mem) (src dst : Nat)
    (hdis : ∀ x y x2 y2, x < B → y < B → x2 < B → y2 < B →
      src + (y * B + x) ≠ dst + (x2 * B + y2))
    (s : Mem) (x2 y2 : Nat) (hx2 : x2 < B) (hy2 : y2 < B)
    (hP : ∀ a, (∀ x y, x < B → y < B → a ≠ dst + (x * B + y)) → s a = m a) :
    (∀ a, (∀ x y, x < B → y < B → a ≠ dst + (x * B + y)) →
      store s (dst + (x2 * B + y2)) (s (src + (y2 * B + x2))) a = m a) ∧
    (∀ x y, x < B → y < B → s (dst + (x * B + y)) = m (src + (y * B + x)) →
      store s (dst + (x2 * B + y2)) (s (src + (y2 * B + x2))) (dst + (x * B + y)) =
        m (src + (y * B + x))) ∧
    store s (dst + (x2 * B + y2)) (s (src + (y2 * B + x2))) (dst + (x2 * B + y2)) =
      m (src + (y2 * B + x2)) := by
  have hsrc : s (src + (y2 * B + x2)) = m (src + (y2 * B + x2)) :=
    hP _ (fun x y hx hy => hdis x2 y2 x y hx2 hy2 hx hy)
  refine ⟨fun a ha => ?_, fun x y hx hy hq => ?_, ?_⟩
  · rw [store_other _ _ _ _ (ha x2 y2 hx2 hy2)]; exact hP a ha
  · by_cases he : dst + (x * B + y) = dst + (x2 * B + y2)
    · have e1 : x = x2 ∧ y = y2 := by simp only [B] at *; omega
      rw [e1.1, e1.2, store_same, hsrc]
    · rw [store_other _ _ _ _ he]; exact hq
  · rw [store_same, hsrc]

/-- The element loop of `transpose_copy`: the block at `dst` becomes the transpose of the
block at `src`, nothing else changes. -/
theorem transposeBlock_spec (m : Mem) (src dst : Nat)
    (hdis : ∀ x y x2 y2, x < B → y < B → x2 < B → y2 < B →
      src + (y * B + x) ≠ dst + (x2 * B + y2)) :
    (∀ a, (∀ x y, x < B → y < B → a ≠ dst + (x * B + y)) → transposeBlock m src dst a = m a) ∧
    ∀ x y, x < B → y < B → transposeBlock m src dst (dst + (x * B + y)) = m (src + (y * B + x)) := by
  unfold transposeBlock
  have inner : ∀ y2, y2 < B → ∀ s : Mem,
      (∀ a, (∀ x y, x < B → y < B → a ≠ dst + (x * B + y)) → s a = m a) →
      (∀ a, (∀ x y, x < B → y < B → a ≠ dst + (x * B + y)) →
        loop B (fun x m => store m (dst + (x * B + y2)) (m (src + (y2 * B + x)))) s a = m a) ∧
      (∀ x y, x < B → y < B → s (dst + (x * B + y)) = m (src + (y * B + x)) →
        loop B (fun x m => store m (dst + (x * B + y2)) (m (src + (y2 * B + x)))) s
          (dst + (x * B + y)) = m (src + (y * B + x))) ∧
      (∀ x, x < B →
        loop B (fun x m => store m (dst + (x * B + y2)) (m (src + (y2 * B + x)))) s
          (dst + (x * B + y2)) = m (src + (y2 * B + x))) := by
    intro y2 hy2 s hs
    have c := loop_cover
      (fun s2 : Mem => (∀ a, (∀ x y, x < B → y < B → a ≠ dst + (x * B + y)) → s2 a = m a) ∧
        ∀ x y, x < B → y < B → s (dst + (x * B + y)) = m (src + (y * B + x)) →
          s2 (dst + (x * B + y)) = m (src + (y * B + x)))
      (fun x s2 => s2 (dst + (x * B + y2)) = m (src + (y2 * B + x)))
      B (fun x m => store m (dst + (x * B + y2)) (m (src + (y2 * B + x))))
      (by
        intro x hx s2 hs2
        obtain ⟨t1, t2, t3⟩ := transpose_step m src dst hdis s2 x y2 hx hy2 hs2.1
        exact ⟨⟨t1, fun x3 y3 hx3 hy3 hq => t2 x3 y3 hx3 hy3 (hs2.2 x3 y3 hx3 hy3 hq)⟩, t3⟩)
      (by
        intro x x3 hx hx3 s2 hs2 hq
        exact (transpose_step m src dst hdis s2 x3 y2 hx3 hy2 hs2.1).2.1 x y2 hx hy2 hq)
      s ⟨hs, fun _ _ _ _ hq => hq⟩
    exact ⟨c.1.1, c.1.2, c.2⟩
  have c := loop_cover
    (fun s2 : Mem => ∀ a, (∀ x y, x < B → y < B → a ≠ dst + (x * B + y)) → s2 a = m a)
    (fun y s2 => ∀ x, x < B → s2 (dst + (x * B + y)) = m (src + (y * B + x)))
    B (fun y => loop B (fun x m => store m (dst + (x * B + y)) (m (src + (y * B + x)))))
    (by
      intro y hy s2 hs2
      obtain ⟨t1, _, t3⟩ := inner y hy s2 hs2
      exact ⟨t1, t3⟩)
    (by
      intro y y3 hy hy3 s2 hs2 hq x hx
      exact (inner y3 hy3 s2 hs2).2.1 x y hx hy (hq x hx))
    m (fun _ _ => rfl)
  exact ⟨c.1, fun x y hx hy => c.2 y hy x hx⟩

theorem loopM_some {σ : Type} (n : Nat) (f : Nat → σ → Option σ) (g : Nat → σ → σ)
    (h : ∀ t, t < n → ∀ s, f t s = some (g t s)) (s : σ) :
    loopM n f s = some (loop n g s) := by
  induction n with
  | zero => rfl
  | succ k ih =>
    simp only [loopM, loop]
    rw [ih (fun t ht => h t (Nat.lt_succ_of_lt ht)), Option.some_bind, h k (Nat.lt_succ_self k)]

theorem loopRangeM_some {σ : Type} (lo hi : Nat) (f : Nat → σ → Option σ) (g : Nat → σ → σ)
    (h : ∀ t, lo ≤ t → t < hi → ∀ s, f t s = some (g t s)) (s : σ) :
    loopRangeM lo hi f s = some (loopRange lo hi g s) := by
  unfold loopRangeM loopRange
  exact loopM_some _ _ _ (fun t ht s => h (lo + t) (by omega) (by omega) s) s

theorem transpose_copy_eq (G : Nat) (blk : Nat → Nat → Nat) (BP : Table)
    (hBP : TableOk BP G blk) (h r0 c0 : Nat) (m : Mem) :
    transpose_copy h G r0 c0 BP m = some (transposeAll G blk h r0 c0 m) := by
  unfold transpose_copy transposeAll
  apply loopRangeM_some
  intro i _ hi s
  apply loopRangeM_some
  intro j _ hj s2
  rw [hBP i j (by omega) (by omega), hBP j i (by omega) (by omega)]

theorem loopRange_cover {σ : Type} (P : σ → Prop) (Q : Nat → σ → Prop) (lo hi : Nat)
    (f : Nat → σ → σ)
    (hf : ∀ t, lo ≤ t → t < hi → ∀ s, P s → P (f t s) ∧ Q t (f t s))
    (hstab : ∀ t t2, lo ≤ t → t < hi → lo ≤ t2 → t2 < hi → ∀ s, P s → Q t s → Q t (f t2 s))
    (s : σ) (hs : P s) :
    P (loopRange lo hi f s) ∧ ∀ t, lo ≤ t → t < hi → Q t (loopRange lo hi f s) := by
  unfold loopRange
  obtain ⟨a1, a2⟩ := loop_cover P (fun t s => Q (lo + t) s) (hi - lo) (fun t => f (lo + t))
    (fun t ht s hs => hf (lo + t) (by omega) (by omega) s hs)
    (fun t t2 ht ht2 s hs hq => hstab (lo + t) (lo + t2) (by omega) (by omega) (by omega)
      (by omega) s hs hq) s hs
  refine ⟨a1, fun t h1 h2 => ?_⟩
  have := a2 (t - lo) (by omega)
  simp only [show lo + (t - lo) = t by omega] at this
  exact this

end QFW

namespace QFW

theorem src_not_dst (G : Nat) (blk : Nat → Nat → Nat) (hinj : LayoutInj G blk) (h r0 c0 : Nat)
    (hdisj : r0 + h ≤ c0 ∨ c0 + h ≤ r0) (i j x y : Nat) (hi1 : r0 ≤ i)
    (hi2 : i < min (r0 + h) G) (hj1 : c0 ≤ j) (hj2 : j < min (c0 + h) G) (hx : x < B)
    (hy : y < B) : ¬ DstAddr G blk h r0 c0 (blk i j + (x * B + y)) := by
  rintro ⟨i2, j2, x2, y2, a1, a2, a3, a4, a5, a6, a7⟩
  obtain ⟨e1, e2, _, _⟩ := hinj i j x y j2 i2 x2 y2 (by omega) (by omega) (by omega) (by omega)
    hx hy a5 a6 a7
  omega

theorem transpose_block_step (G : Nat) (blk : Nat → Nat → Nat) (hinj : LayoutInj G blk)
    (h r0 c0 : Nat) (hdisj : r0 + h ≤ c0 ∨ c0 + h ≤ r0) (m s : Mem) (i j : Nat) (hi1 : r0 ≤ i)
    (hi2 : i < min (r0 + h) G) (hj1 : c0 ≤ j) (hj2 : j < min (c0 + h) G)
    (hP : ∀ a, ¬ DstAddr G blk h r0 c0 a → s a = m a) :
    (∀ a, ¬ DstAddr G blk h r0 c0 a → transposeBlock s (blk i j) (blk j i) a = m a) ∧
    (∀ i2 j2, r0 ≤ i2 → i2 < min (r0 + h) G → c0 ≤ j2 → j2 < min (c0 + h) G →
      (∀ x y, x < B → y < B → s (blk j2 i2 + (x * B + y)) = m (blk i2 j2 + (y * B + x))) →
      ∀ x y, x < B → y < B →
        transposeBlock s (blk i j) (blk j i) (blk j2 i2 + (x * B + y)) =
          m (blk i2 j2 + (y * B + x))) ∧
    (∀ x y, x < B → y < B →
      transposeBlock s (blk i j) (blk j i) (blk j i + (x * B + y)) = m (blk i j + (y * B + x))) := by
  have hdis : ∀ x y x2 y2, x < B → y < B → x2 < B → y2 < B →
      blk i j + (y * B + x) ≠ blk j i + (x2 * B + y2) := by
    intro x y x2 y2 hx hy hx2 hy2 he
    obtain ⟨e1, _, _, _⟩ := hinj i j y x j i x2 y2 (by omega) (by omega) (by omega) (by omega)
      hy hx hx2 hy2 he
    omega
  obtain ⟨t1, t2⟩ := transposeBlock_spec s (blk i j) (blk j i) hdis
  have hsrc : ∀ x y, x < B → y < B → s (blk i j + (y * B + x)) = m (blk i j + (y * B + x)) :=
    fun x y hx hy => hP _ (src_not_dst G blk hinj h r0 c0 hdisj i j y x hi1 hi2 hj1 hj2 hy hx)
  refine ⟨fun a ha => ?_, fun i2 j2 b1 b2 b3 b4 hq x y hx hy => ?_, fun x y hx hy => ?_⟩
  · rw [t1 a (fun x y hx hy he => ha ⟨i, j, x, y, hi1, hi2, hj1, hj2, hx, hy, he⟩)]
    exact hP a ha
  · by_cases he : i2 = i ∧ j2 = j
    · rw [he.1, he.2, t2 x y hx hy, hsrc x y hx hy]
    · rw [t1 _ (fun x3 y3 hx3 hy3 he2 => by
        obtain ⟨e1, e2, _, _⟩ := hinj j2 i2 x y j i x3 y3 (by omega) (by omega) (by omega)
          (by omega) hx hy hx3 hy3 he2
        exact he ⟨e2, e1⟩)]
      exact hq x y hx hy
  · rw [t2 x y hx hy, hsrc x y hx hy]

/-- All destination blocks of `transpose_copy` become the transposes of their source
blocks; nothing else changes. -/
theorem transposeAll_spec (G : Nat) (blk : Nat → Nat → Nat) (hinj : LayoutInj G blk)
    (h r0 c0 : Nat) (hdisj : r0 + h ≤ c0 ∨ c0 + h ≤ r0) (m : Mem) :
    (∀ a, ¬ DstAddr G blk h r0 c0 a → transposeAll G blk h r0 c0 m a = m a) ∧
    ∀ i j x y, r0 ≤ i → i < min (r0 + h) G → c0 ≤ j → j < min (c0 + h) G → x < B → y < B →
      transposeAll G blk h r0 c0 m (blk j i + (x * B + y)) = m (blk i j + (y * B + x)) := by
  unfold transposeAll
  have inner : ∀ i, r0 ≤ i → i < min (r0 + h) G → ∀ s : Mem,
      (∀ a, ¬ DstAddr G blk h r0 c0 a → s a = m a) →
      (∀ a, ¬ DstAddr G blk h r0 c0 a →
        loopRange c0 (min (c0 + h) G) (fun j m => transposeBlock m (blk i j) (blk j i)) s a =
          m a) ∧
      (∀ i2 j2, r0 ≤ i2 → i2 < min (r0 + h) G → c0 ≤ j2 → j2 < min (c0 + h) G →
        (∀ x y, x < B → y < B → s (blk j2 i2 + (x * B + y)) = m (blk i2 j2 + (y * B + x))) →
        ∀ x y, x < B → y < B →
          loopRange c0 (min (c0 + h) G) (fun j m => transposeBlock m (blk i j) (blk j i)) s
            (blk j2 i2 + (x * B + y)) = m (blk i2 j2 + (y * B + x))) ∧
      (∀ j, c0 ≤ j → j < min (c0 + h) G → ∀ x y, x < B → y < B →
        loopRange c0 (min (c0 + h) G) (fun j m => transposeBlock m (blk i j) (blk j i)) s
          (blk j i + (x * B + y)) = m (blk i j + (y * B + x))) := by
    intro i hi1 hi2 s hs
    have c := loopRange_cover
      (fun s2 : Mem => (∀ a, ¬ DstAddr G blk h r0 c0 a → s2 a = m a) ∧
        ∀ i2 j2, r0 ≤ i2 → i2 < min (r0 + h) G → c0 ≤ j2 → j2 < min (c0 + h) G →
          (∀ x y, x < B → y < B → s (blk j2 i2 + (x * B + y)) = m (blk i2 j2 + (y * B + x))) →
          ∀ x y, x < B → y < B → s2 (blk j2 i2 + (x * B + y)) = m (blk i2 j2 + (y * B + x)))
      (fun j s2 => ∀ x y, x < B → y < B → s2 (blk j i + (x * B + y)) = m (blk i j + (y * B + x)))
      c0 (min (c0 + h) G) (fun j m => transposeBlock m (blk i j) (blk j i))
      (by
        intro j hj1 hj2 s2 hs2
        obtain ⟨t1, t2, t3⟩ := transpose_block_step G blk hinj h r0 c0 hdisj m s2 i j hi1 hi2
          hj1 hj2 hs2.1
        exact ⟨⟨t1, fun i2 j2 b1 b2 b3 b4 hq => t2 i2 j2 b1 b2 b3 b4 (hs2.2 i2 j2 b1 b2 b3 b4 hq)⟩,
          t3⟩)
      (by
        intro j j3 hj1 hj2 hj31 hj32 s2 hs2 hq
        exact (transpose_block_step G blk hinj h r0 c0 hdisj m s2 i j3 hi1 hi2 hj31 hj32
          hs2.1).2.1 i j hi1 hi2 hj1 hj2 hq)
      s ⟨hs, fun _ _ _ _ _ _ hq => hq⟩
    exact ⟨c.1.1, c.1.2, c.2⟩
  have c := loopRange_cover
    (fun s2 : Mem => ∀ a, ¬ DstAddr G blk h r0 c0 a → s2 a = m a)
    (fun i s2 => ∀ j, c0 ≤ j → j < min (c0 + h) G → ∀ x y, x < B → y < B →
      s2 (blk j i + (x * B + y)) = m (blk i j + (y * B + x)))
    r0 (min (r0 + h) G)
    (fun i => loopRange c0 (min (c0 + h) G) (fun j m => transposeBlock m (blk i j) (blk j i)))
    (by
      intro i hi1 hi2 s2 hs2
      obtain ⟨t1, _, t3⟩ := inner i hi1 hi2 s2 hs2
      exact ⟨t1, t3⟩)
    (by
      intro i i3 hi1 hi2 hi31 hi32 s2 hs2 hq j hj1 hj2
      exact (inner i3 hi31 hi32 s2 hs2).2.1 i j hi1 hi2 hj1 hj2 (hq j hj1 hj2))
    m (fun _ _ => rfl)
  exact ⟨c.1, fun i j x y a1 a2 a3 a4 hx hy => c.2 i a1 a2 j a3 a4 x y hx hy⟩

end QFW

namespace QFW

theorem Rows_iff_div (G i0 h u : Nat) : Rows G i0 h u ↔ (i0 ≤ u / B ∧ u / B < min (i0 + h) G) := by
  simp only [Rows, B]
  have e : (i0 + h) * 64 = i0 * 64 + h * 64 := by ring
  constructor
  · intro ⟨a, b, c⟩
    refine ⟨by omega, ?_⟩
    rw [Nat.lt_min]
    omega
  · intro ⟨a, b⟩
    rw [Nat.lt_min] at b
    omega

/-- `transpose_copy` on the padded matrix: the block range `C × R` receives the transpose
of the block range `R × C`. -/
theorem transposeAll_view (G : Nat) (blk : Nat → Nat → Nat) (hinj : LayoutInj G blk)
    (h r0 c0 : Nat) (hdisj : r0 + h ≤ c0 ∨ c0 + h ≤ r0) (m : Mem) (u v : Nat)
    (hu : u < G * B) (hv : v < G * B) :
    (Rows G c0 h u ∧ Rows G r0 h v →
      view blk (transposeAll G blk h r0 c0 m) u v = view blk m v u) ∧
    (¬ (Rows G c0 h u ∧ Rows G r0 h v) →
      view blk (transposeAll G blk h r0 c0 m) u v = view blk m u v) := by
  obtain ⟨t1, t2⟩ := transposeAll_spec G blk hinj h r0 c0 hdisj m
  obtain ⟨eu, hu2⟩ := block_split u
  obtain ⟨ev, hv2⟩ := block_split v
  have hub : u / B < G := by simp only [B] at *; omega
  have hvb : v / B < G := by simp only [B] at *; omega
  constructor
  · intro ⟨a, b⟩
    obtain ⟨a1, a2⟩ := (Rows_iff_div G c0 h u).mp a
    obtain ⟨b1, b2⟩ := (Rows_iff_div G r0 h v).mp b
    simp only [view, cell]
    exact t2 (v / B) (u / B) (u % B) (v % B) b1 b2 a1 a2 hu2 hv2
  · intro hno
    simp only [view, cell]
    apply t1
    rintro ⟨i, j, x, y, a1, a2, a3, a4, a5, a6, a7⟩
    obtain ⟨e1, e2, _, _⟩ := hinj (u / B) (v / B) (u % B) (v % B) j i x y hub hvb
      (by rw [Nat.lt_min] at a4; omega) (by rw [Nat.lt_min] at a2; omega) hu2 hv2 a5 a6 a7
    apply hno
    exact ⟨(Rows_iff_div G c0 h u).mpr ⟨by omega, by omega⟩,
      (Rows_iff_div G r0 h v).mpr ⟨by omega, by omega⟩⟩

/-- `transpose_copy` keeps an invariant that does not tell `(i, j)` from `(j, i)`. -/
theorem transposeAll_MemOk (G : Nat) (blk : Nat → Nat → Nat) (hinj : LayoutInj G blk)
    (Gd : Nat → Nat → Int → Prop) (hsym : ∀ i j v, Gd i j v → Gd j i v)
    (h r0 c0 : Nat) (hdisj : r0 + h ≤ c0 ∨ c0 + h ≤ r0) (m : Mem)
    (hm : MemOk (OkAt G blk Gd) m) : MemOk (OkAt G blk Gd) (transposeAll G blk h r0 c0 m) := by
  obtain ⟨t1, t2⟩ := transposeAll_spec G blk hinj h r0 c0 hdisj m
  intro addr r c x y hr hc hx hy he
  by_cases hd : DstAddr G blk h r0 c0 addr
  · obtain ⟨i, j, x2, y2, a1, a2, a3, a4, a5, a6, a7⟩ := hd
    rw [he] at a7
    obtain ⟨e1, e2, e3, e4⟩ := hinj r c x y j i x2 y2 hr hc
      (by rw [Nat.lt_min] at a4; omega) (by rw [Nat.lt_min] at a2; omega) hx hy a5 a6 a7
    rw [he, e1, e2, e3, e4, t2 i j x2 y2 a1 a2 a3 a4 a5 a6]
    exact hsym _ _ _ (hm _ i j y2 x2 (by rw [Nat.lt_min] at a2; omega)
      (by rw [Nat.lt_min] at a4; omega) a6 a5 rfl)
  · rw [t1 addr hd]
    exact hm addr r c x y hr hc hx hy he

end QFW

namespace QFW

theorem FWR_rec_true (w L u P G i0 i1 i2 : Nat) (BP : Table) (m : Mem)
    (h0 : i0 < G) (h1 : i1 < G) (h2 : i2 < G) (hP : 2 ≤ P) :
    FWR w L u P G i0 i1 i2 BP true m =
      ((((((((FWR w L u (P / 2) G i0 i1 i2 BP true m).bind
        (FWR w L u (P / 2) G i0 i1 (i2 + P / 2) BP false)).bind
        (transpose_copy (P / 2) G i0 (i0 + P / 2) BP)).bind
        (FWR w L u (P / 2) G (i0 + P / 2) i1 (i2 + P / 2) BP false)).bind
        (FWR w L u (P / 2) G (i0 + P / 2) (i1 + P / 2) (i2 + P / 2) BP true)).bind
        (FWR w L u (P / 2) G (i0 + P / 2) (i1 + P / 2) i2 BP false)).bind
        (transpose_copy (P / 2) G (i0 + P / 2) i0 BP)).bind
        (FWR w L u (P / 2) G i0 (i1 + P / 2) i2 BP false)) := by
  rw [FWR, if_neg (by omega), if_neg (by omega), if_neg (by omega)]
  simp only [Bool.not_true, Bool.false_eq_true, if_false, bind, Option.bind_assoc]

theorem some_chain {α : Type} (P : α → Prop) (x : Option α) (f : α → Option α)
    (h1 : ∃ a, x = some a ∧ P a) (h2 : ∀ a, P a → ∃ b, f a = some b ∧ P b) :
    ∃ b, x.bind f = some b ∧ P b := by
  obtain ⟨a, e1, p1⟩ := h1
  obtain ⟨b, e2, p2⟩ := h2 a p1
  exact ⟨b, by rw [e1]; exact e2, p2⟩

/-- Every call of `FWR`, with or without the symmetric flag, returns and keeps an
invariant that is admissible and does not tell `(i, j)` from `(j, i)`. -/
theorem FWR_safe (w L u : Nat) (hw : 1 ≤ w) (hL : 0 < L) (hLB : L ∣ B) (hu : u ≤ 3)
    (Gd : Nat → Nat → Int → Prop) (blk : Nat → Nat → Nat) (G : Nat) (BP : Table)
    (hBP : TableOk BP G blk) (hinj : LayoutInj G blk)
    (hH : BlocksHyp w (OkAt G blk Gd) blk G) (hsym : ∀ i j v, Gd i j v → Gd j i v) :
    ∀ e i0 i1 i2 sym m, MemOk (OkAt G blk Gd) m →
      ∃ m2, FWR w L u (2 ^ e) G i0 i1 i2 BP sym m = some m2 ∧ MemOk (OkAt G blk Gd) m2 := by
  intro e
  induction e with
  | zero =>
    intro i0 i1 i2 sym m hm
    by_cases hpr : i0 ≥ G ∨ i1 ≥ G ∨ i2 ≥ G
    · exact ⟨m, FWR_pruned _ _ _ _ _ _ _ _ _ _ _ hpr, hm⟩
    · have h0 : i0 < G := by omega
      have h1 : i1 < G := by omega
      have h2 : i2 < G := by omega
      rw [pow_zero, FWR_base w L u G i0 i1 i2 BP sym m blk hBP h0 h1 h2]
      exact ⟨_, rfl, (FWI_spec w L u hw hL hLB hu _ _ _ _ (hH i0 i1 i2 h0 h1 h2) m hm).1⟩
  | succ e ih =>
    intro i0 i1 i2 sym m hm
    by_cases hpr : i0 ≥ G ∨ i1 ≥ G ∨ i2 ≥ G
    · exact ⟨m, FWR_pruned _ _ _ _ _ _ _ _ _ _ _ hpr, hm⟩
    · have h0 : i0 < G := by omega
      have h1 : i1 < G := by omega
      have h2 : i2 < G := by omega
      cases sym with
      | false =>
        obtain ⟨m2, e2, r2⟩ := FWR_relaxed w L u hw hL hLB hu _ blk G BP hBP hH (e + 1)
          i0 i1 i2 m hm
        exact ⟨m2, e2, r2.1⟩
      | true =>
        rw [FWR_rec_true w L u _ G i0 i1 i2 BP m h0 h1 h2 (two_le_pow e), half_pow]
        have tr : ∀ r0 c0, (r0 + 2 ^ e ≤ c0 ∨ c0 + 2 ^ e ≤ r0) → ∀ a, MemOk (OkAt G blk Gd) a →
            ∃ b, transpose_copy (2 ^ e) G r0 c0 BP a = some b ∧ MemOk (OkAt G blk Gd) b :=
          fun r0 c0 hd a ha => ⟨_, transpose_copy_eq G blk BP hBP _ _ _ a,
            transposeAll_MemOk G blk hinj Gd hsym _ _ _ hd a ha⟩
        have c1 := ih i0 i1 i2 true m hm
        have c2 := some_chain _ _ _ c1 (ih i0 i1 (i2 + 2 ^ e) false)
        have c3 := some_chain _ _ _ c2 (tr i0 (i0 + 2 ^ e) (Or.inl (le_refl _)))
        have c4 := some_chain _ _ _ c3 (ih (i0 + 2 ^ e) i1 (i2 + 2 ^ e) false)
        have c5 := some_chain _ _ _ c4 (ih (i0 + 2 ^ e) (i1 + 2 ^ e) (i2 + 2 ^ e) true)
        have c6 := some_chain _ _ _ c5 (ih (i0 + 2 ^ e) (i1 + 2 ^ e) i2 false)
        have c7 := some_chain _ _ _ c6 (tr (i0 + 2 ^ e) i0 (Or.inr (le_refl _)))
        exact some_chain _ _ _ c7 (ih i0 (i1 + 2 ^ e) i2 false)

end QFW

namespace QFW

/-! ## The kernels compute one function -/

theorem block_decomp (a addr : Nat) (h1 : a ≤ addr) (h2 : addr < a + B * B) :
    ∃ i j, i < B ∧ j < B ∧ addr = a + (i * B + j) := by
  refine ⟨(addr - a) / B, (addr - a) % B, ?_, ?_, ?_⟩ <;> simp only [B] at * <;> omega

/-- With the block `a` apart from the blocks `b` and `c`, `FWI` stores the max-plus
product: `a[i, j] = max(a[i, j], max_k (b[i, k] + c[k, j]))`, for every lane count and
every `unroll_type`. -/
theorem FWI_exact (w L u : Nat) (hw : 1 ≤ w) (hL : 0 < L) (hLB : L ∣ B) (hu : u ≤ 3) (m : Mem)
    (a b c : Nat) (hab : a + B * B ≤ b ∨ b + B * B ≤ a) (hac : a + B * B ≤ c ∨ c + B * B ≤ a)
    (hrb : ∀ t, t < B * B → -(INF w) ≤ m (b + t) ∧ m (b + t) ≤ 0)
    (hrc : ∀ t, t < B * B → -(INF w) ≤ m (c + t) ∧ m (c + t) ≤ 0) :
    (∀ i j, i < B → j < B → FWI w L u m a b c (a + (i * B + j)) =
      max (m (a + (i * B + j)))
        (maxUpTo (B - 1) (fun k => m (b + (i * B + k)) + m (c + (k * B + j))))) ∧
    ∀ addr, (addr < a ∨ a + B * B ≤ addr) → FWI w L u m a b c addr = m addr := by
  have H : KernelHyp w (fun addr v =>
      (∀ i j, i < B → j < B → addr = a + (i * B + j) → v ≤ max (m (a + (i * B + j)))
        (maxUpTo (B - 1) (fun k => m (b + (i * B + k)) + m (c + (k * B + j))))) ∧
      ((addr < a ∨ a + B * B ≤ addr) → v = m addr)) a b c := by
    refine ⟨?_, ?_, ?_⟩
    · intro t ht v hv
      rw [hv.2 (by omega)]; exact hrb t ht
    · intro t ht v hv
      rw [hv.2 (by omega)]; exact hrc t ht
    · intro i k j hi hk hj x y z hx hy _ _
      have e1 : x = m (b + (i * B + k)) := hx.2 (by simp only [B] at *; omega)
      have e2 : y = m (c + (k * B + j)) := hy.2 (by simp only [B] at *; omega)
      refine ⟨fun i2 j2 hi2 hj2 he => ?_, fun h => ?_⟩
      · have e3 : i = i2 ∧ j = j2 := by simp only [B] at *; omega
        rw [← e3.1, ← e3.2, e1, e2]
        exact le_trans (le_maxUpTo (B - 1)
          (fun k => m (b + (i * B + k)) + m (c + (k * B + j))) k (by omega)) (le_max_right _ _)
      · exfalso; simp only [B] at *; omega
  have hm : MemOk (fun addr v =>
      (∀ i j, i < B → j < B → addr = a + (i * B + j) → v ≤ max (m (a + (i * B + j)))
        (maxUpTo (B - 1) (fun k => m (b + (i * B + k)) + m (c + (k * B + j))))) ∧
      ((addr < a ∨ a + B * B ≤ addr) → v = m addr)) m :=
    fun addr => ⟨fun i j _ _ he => by rw [he]; exact le_max_left _ _, fun _ => rfl⟩
  obtain ⟨k1, k2, k3, k4⟩ := FWI_spec w L u hw hL hLB hu _ a b c H m hm
  refine ⟨fun i j hi hj => ?_, k4⟩
  apply le_antisymm
  · exact (k1 (a + (i * B + j))).1 i j hi hj rfl
  · apply max_le (k2 _)
    obtain ⟨k, hk, he⟩ := maxUpTo_mem (B - 1) (fun k => m (b + (i * B + k)) + m (c + (k * B + j)))
    rw [he]
    exact k3 i hi k (by simp only [B] at *; omega) j hj

/-- Apart from `b` and `c`, the result of `FWI` does not depend on the lane count or on
the `unroll_type`. -/
theorem FWI_variant_apart (w L u L2 u2 : Nat) (hw : 1 ≤ w) (hL : 0 < L) (hLB : L ∣ B)
    (hu : u ≤ 3) (hL2 : 0 < L2) (hLB2 : L2 ∣ B) (hu2 : u2 ≤ 3) (m : Mem)
    (a b c : Nat) (hab : a + B * B ≤ b ∨ b + B * B ≤ a) (hac : a + B * B ≤ c ∨ c + B * B ≤ a)
    (hrb : ∀ t, t < B * B → -(INF w) ≤ m (b + t) ∧ m (b + t) ≤ 0)
    (hrc : ∀ t, t < B * B → -(INF w) ≤ m (c + t) ∧ m (c + t) ≤ 0) :
    FWI w L u m a b c = FWI w L2 u2 m a b c := by
  obtain ⟨p1, p2⟩ := FWI_exact w L u hw hL hLB hu m a b c hab hac hrb hrc
  obtain ⟨q1, q2⟩ := FWI_exact w L2 u2 hw hL2 hLB2 hu2 m a b c hab hac hrb hrc
  funext addr
  by_cases h : a ≤ addr ∧ addr < a + B * B
  · obtain ⟨i, j, hi, hj, he⟩ := block_decomp a addr h.1 h.2
    rw [he, p1 i j hi hj, q1 i j hi hj]
  · rw [p2 addr (by omega), q2 addr (by omega)]

end QFW

namespace QFW

/-! ## The serial loop of `FWI` does not depend on the lane count -/

theorem loop_congr_lt {σ : Type} (n : Nat) (f g : Nat → σ → σ)
    (h : ∀ t, t < n → ∀ s, f t s = g t s) (s : σ) : loop n f s = loop n g s := by
  induction n with
  | zero => rfl
  | succ c ih =>
    simp only [loop]
    rw [ih (fun t ht s => h t (by omega) s), h c (by omega)]

theorem row_loop (w L : Nat) (a c i k : Nat) (hi : i < B) (hk : k < B)
    (hac : a = c ∨ a + B * B ≤ c ∨ c + B * B ≤ a) (coef : Nat → Nat → Int) (m : Mem) (t : Nat)
    (ht : t * L ≤ B) (addr : Nat) :
    loop t (fun t => genJ w L 1 1 a c i k coef (t * L)) m addr =
      if a + i * B ≤ addr ∧ addr < a + i * B + t * L then
        max (m addr) (wrapT w (m (c + (k * B + (addr - (a + i * B)))) + coef 0 0))
      else m addr := by
  induction t generalizing addr with
  | zero => simp only [loop, Nat.zero_mul, Nat.add_zero]; rw [if_neg (by omega)]
  | succ t ih =>
    have ht2 : t * L ≤ B := le_trans (Nat.mul_le_mul_right L (Nat.le_succ t)) ht
    have hs : (t + 1) * L = t * L + L := by ring
    have hiB : i * B + B ≤ B * B := by simp only [B] at *; omega
    have hkB : k * B + B ≤ B * B := by simp only [B] at *; omega
    simp only [loop, genJ, maxUpTo, Nat.sub_self, Nat.add_zero]
    rw [chmax_store_eq]
    by_cases h : a + (i * B + t * L) ≤ addr ∧ addr < a + (i * B + t * L) + L
    · rw [if_pos h, if_pos (by omega), ih ht2 addr, if_neg (by omega), ih ht2, if_neg]
      · have e : c + (k * B + t * L) + (addr - (a + (i * B + t * L)))
            = c + (k * B + (addr - (a + i * B))) := by omega
        rw [e]
      · rintro ⟨h1, h2⟩
        rcases hac with rfl | h3 | h3
        · have : k = i := by simp only [B] at *; omega
          subst this; omega
        · omega
        · omega
    · rw [if_neg h, ih ht2 addr, hs]
      by_cases h2 : a + i * B ≤ addr ∧ addr < a + i * B + t * L
      · rw [if_pos h2, if_pos (by omega)]
      · rw [if_neg h2, if_neg (by omega)]

theorem genI_row (w L : Nat) (hL : 0 < L) (hLB : L ∣ B) (a b c k i : Nat) (hi : i < B)
    (hk : k < B) (hac : a = c ∨ a + B * B ≤ c ∨ c + B * B ≤ a) (m : Mem) (addr : Nat) :
    genI w L 1 1 a b c k i m addr =
      if a + i * B ≤ addr ∧ addr < a + i * B + B then
        max (m addr) (wrapT w (m (c + (k * B + (addr - (a + i * B)))) + m (b + (i * B + k))))
      else m addr := by
  obtain ⟨q, hq⟩ := hLB
  have e1 : (B + L - 1) / L = q := by
    rw [hq]
    have : L * q + L - 1 = L - 1 + q * L := by
      have := Nat.mul_comm L q; omega
    rw [this, Nat.add_mul_div_right _ _ hL, Nat.div_eq_of_lt (by omega), Nat.zero_add]
  have e2 : q * L = B := by rw [hq, Nat.mul_comm]
  unfold genI forStep
  rw [e1, row_loop w L a c i k hi hk hac _ m q (le_of_eq e2) addr, e2]
  simp only [Nat.add_zero]

theorem genKernel_serial_lanes (w L L2 : Nat) (hL : 0 < L) (hLB : L ∣ B) (hL2 : 0 < L2)
    (hLB2 : L2 ∣ B) (a b c : Nat) (hac : a = c ∨ a + B * B ≤ c ∨ c + B * B ≤ a) (m : Mem) :
    genKernel w L 1 1 m a b c = genKernel w L2 1 1 m a b c := by
  unfold genKernel genK
  rw [forStep_one, forStep_one]
  apply loop_congr_lt; intro k hk m2
  rw [forStep_one, forStep_one]
  apply loop_congr_lt; intro i hi m3
  funext addr
  rw [genI_row w L hL hLB a b c k i hi hk hac, genI_row w L2 hL2 hLB2 a b c k i hi hk hac]

theorem FWI_serial (w L u : Nat) (m : Mem) (a b c : Nat) (h : ¬ (a ≠ b ∧ a ≠ c ∧ b ≠ c)) :
    FWI w L u m a b c = genKernel w L 1 1 m a b c := by
  rw [← serial_eq]
  simp only [FWI, if_neg h]

end QFW

namespace QFW

/-! ## Every variant of `FWR` computes the same scratch -/

theorem layout_sep (G : Nat) (blk : Nat → Nat → Nat) (hinj : LayoutInj G blk)
    (r c r2 c2 : Nat) (hr : r < G) (hc : c < G) (hr2 : r2 < G) (hc2 : c2 < G) :
    blk r c = blk r2 c2 ∨ blk r c + B * B ≤ blk r2 c2 ∨ blk r2 c2 + B * B ≤ blk r c := by
  have hB : 0 < B := by simp only [B]; omega
  rcases Nat.lt_or_ge (blk r2 c2) (blk r c) with h | h
  · rcases Nat.lt_or_ge (blk r c) (blk r2 c2 + B * B) with h2 | h2
    · obtain ⟨i, j, hi, hj, he⟩ := block_decomp (blk r2 c2) (blk r c) (le_of_lt h) h2
      have := hinj r c 0 0 r2 c2 i j hr hc hr2 hc2 hB hB hi hj
        (by rw [← he]; simp only [Nat.zero_mul, Nat.add_zero])
      obtain ⟨_, _, rfl, rfl⟩ := this
      simp only [Nat.zero_mul, Nat.add_zero] at he
      exact Or.inl he
    · exact Or.inr (Or.inr h2)
  · rcases Nat.lt_or_ge (blk r2 c2) (blk r c + B * B) with h2 | h2
    · obtain ⟨i, j, hi, hj, he⟩ := block_decomp (blk r c) (blk r2 c2) h h2
      have := hinj r2 c2 0 0 r c i j hr2 hc2 hr hc hB hB hi hj
        (by rw [← he]; simp only [Nat.zero_mul, Nat.add_zero])
      obtain ⟨_, _, rfl, rfl⟩ := this
      simp only [Nat.zero_mul, Nat.add_zero] at he
      exact Or.inl he.symm
    · exact Or.inr (Or.inl h2)

/-- The invariant "every element of the padded matrix lies in `[-INF, 0]`". -/
theorem range_BlocksHyp (w G : Nat) (blk : Nat → Nat → Nat) (hinj : LayoutInj G blk) :
    BlocksHyp w (OkAt G blk (fun _ _ v => -(INF w) ≤ v ∧ v ≤ 0)) blk G :=
  BlocksHyp_of w G blk _ hinj (fun _ _ _ h => h)
    (fun _ _ _ x y z hx hy hz hlt => ⟨by linarith [hz.1], by linarith [hx.2, hy.2]⟩)

theorem range_block (w G : Nat) (blk : Nat → Nat → Nat) (m : Mem)
    (hm : MemOk (OkAt G blk (fun _ _ v => -(INF w) ≤ v ∧ v ≤ 0)) m) (r c : Nat) (hr : r < G)
    (hc : c < G) (t : Nat) (ht : t < B * B) : -(INF w) ≤ m (blk r c + t) ∧ m (blk r c + t) ≤ 0 := by
  have hx : t / B < B := by simp only [B] at *; omega
  have hy : t % B < B := by simp only [B] at *; omega
  have e : t = (t / B) * B + t % B := by simp only [B]; omega
  exact hm (blk r c + t) r c (t / B) (t % B) hr hc hx hy (by rw [← e])

theorem FWI_variant_layout (w L u L2 u2 : Nat) (hw : 1 ≤ w) (hL : 0 < L) (hLB : L ∣ B)
    (hu : u ≤ 3) (hL2 : 0 < L2) (hLB2 : L2 ∣ B) (hu2 : u2 ≤ 3) (G : Nat)
    (blk : Nat → Nat → Nat) (hinj : LayoutInj G blk) (m : Mem)
    (hm : MemOk (OkAt G blk (fun _ _ v => -(INF w) ≤ v ∧ v ≤ 0)) m)
    (i0 i1 i2 : Nat) (h0 : i0 < G) (h1 : i1 < G) (h2 : i2 < G) :
    FWI w L u m (blk i0 i2) (blk i0 i1) (blk i1 i2) =
      FWI w L2 u2 m (blk i0 i2) (blk i0 i1) (blk i1 i2) := by
  by_cases h : blk i0 i2 ≠ blk i0 i1 ∧ blk i0 i2 ≠ blk i1 i2 ∧ blk i0 i1 ≠ blk i1 i2
  · have hab := (layout_sep G blk hinj i0 i2 i0 i1 h0 h2 h0 h1).resolve_left h.1
    have hac := (layout_sep G blk hinj i0 i2 i1 i2 h0 h2 h1 h2).resolve_left h.2.1
    exact FWI_variant_apart w L u L2 u2 hw hL hLB hu hL2 hLB2 hu2 m _ _ _ hab hac
      (range_block w G blk m hm i0 i1 h0 h1) (range_block w G blk m hm i1 i2 h1 h2)
  · rw [FWI_serial w L u m _ _ _ h, FWI_serial w L2 u2 m _ _ _ h]
    exact genKernel_serial_lanes w L L2 hL hLB hL2 hLB2 _ _ _
      (layout_sep G blk hinj i0 i2 i1 i2 h0 h2 h1 h2) m

theorem bind_congr_ok {α : Type} (P : α → Prop) (x y : Option α) (f g : α → Option α)
    (h1 : x = y ∧ ∀ a, x = some a → P a)
    (h2 : ∀ a, P a → f a = g a ∧ ∀ b, f a = some b → P b) :
    x.bind f = y.bind g ∧ ∀ b, x.bind f = some b → P b := by
  obtain ⟨e, p⟩ := h1
  subst e
  cases x with
  | none => exact ⟨rfl, fun b hb => by simp at hb⟩
  | some a => exact h2 a (p a rfl)

/-- The scratch that `FWR` returns does not depend on the lane count nor on the
`unroll_type`. -/
theorem FWR_variant_eq (w L u L2 u2 : Nat) (hw : 1 ≤ w) (hL : 0 < L) (hLB : L ∣ B)
    (hu : u ≤ 3) (hL2 : 0 < L2) (hLB2 : L2 ∣ B) (hu2 : u2 ≤ 3) (G : Nat)
    (blk : Nat → Nat → Nat) (BP : Table) (hBP : TableOk BP G blk) (hinj : LayoutInj G blk) :
    ∀ e i0 i1 i2 sym m, MemOk (OkAt G blk (fun _ _ v => -(INF w) ≤ v ∧ v ≤ 0)) m →
      FWR w L u (2 ^ e) G i0 i1 i2 BP sym m = FWR w L2 u2 (2 ^ e) G i0 i1 i2 BP sym m := by
  have hH := range_BlocksHyp w G blk hinj
  have safe := FWR_safe w L u hw hL hLB hu _ blk G BP hBP hinj hH (fun _ _ _ h => h)
  intro e
  induction e with
  | zero =>
    intro i0 i1 i2 sym m hm
    by_cases hpr : i0 ≥ G ∨ i1 ≥ G ∨ i2 ≥ G
    · rw [FWR_pruned _ _ _ _ _ _ _ _ _ _ _ hpr, FWR_pruned _ _ _ _ _ _ _ _ _ _ _ hpr]
    · have h0 : i0 < G := by omega
      have h1 : i1 < G := by omega
      have h2 : i2 < G := by omega
      rw [pow_zero, FWR_base w L u G i0 i1 i2 BP sym m blk hBP h0 h1 h2,
        FWR_base w L2 u2 G i0 i1 i2 BP sym m blk hBP h0 h1 h2,
        FWI_variant_layout w L u L2 u2 hw hL hLB hu hL2 hLB2 hu2 G blk hinj m hm i0 i1 i2 h0 h1 h2]
  | succ e ih =>
    intro i0 i1 i2 sym m hm
    by_cases hpr : i0 ≥ G ∨ i1 ≥ G ∨ i2 ≥ G
    · rw [FWR_pruned _ _ _ _ _ _ _ _ _ _ _ hpr, FWR_pruned _ _ _ _ _ _ _ _ _ _ _ hpr]
    · have h0 : i0 < G := by omega
      have h1 : i1 < G := by omega
      have h2 : i2 < G := by omega
      have st : ∀ j0 j1 j2 s a, MemOk (OkAt G blk (fun _ _ v => -(INF w) ≤ v ∧ v ≤ 0)) a →
          FWR w L u (2 ^ e) G j0 j1 j2 BP s a = FWR w L2 u2 (2 ^ e) G j0 j1 j2 BP s a ∧
          ∀ b, FWR w L u (2 ^ e) G j0 j1 j2 BP s a = some b →
            MemOk (OkAt G blk (fun _ _ v => -(INF w) ≤ v ∧ v ≤ 0)) b := by
        intro j0 j1 j2 s a ha
        refine ⟨ih j0 j1 j2 s a ha, fun b hb => ?_⟩
        obtain ⟨m2, e2, r2⟩ := safe e j0 j1 j2 s a ha
        rw [e2] at hb
        cases hb
        exact r2
      have tr : ∀ r0 c0, (r0 + 2 ^ e ≤ c0 ∨ c0 + 2 ^ e ≤ r0) → ∀ a,
          MemOk (OkAt G blk (fun _ _ v => -(INF w) ≤ v ∧ v ≤ 0)) a →
          transpose_copy (2 ^ e) G r0 c0 BP a = transpose_copy (2 ^ e) G r0 c0 BP a ∧
          ∀ b, transpose_copy (2 ^ e) G r0 c0 BP a = some b →
            MemOk (OkAt G blk (fun _ _ v => -(INF w) ≤ v ∧ v ≤ 0)) b := by
        intro r0 c0 hd a ha
        refine ⟨rfl, fun b hb => ?_⟩
        rw [transpose_copy_eq G blk BP hBP _ _ _ a] at hb
        cases hb
        exact transposeAll_MemOk G blk hinj _ (fun _ _ _ h => h) _ _ _ hd a ha
      cases sym with
      | false =>
        rw [FWR_rec_false w L u _ G i0 i1 i2 BP m h0 h1 h2 (two_le_pow e),
          FWR_rec_false w L2 u2 _ G i0 i1 i2 BP m h0 h1 h2 (two_le_pow e), half_pow]
        have c1 := st i0 i1 i2 false m hm
        have c2 := bind_congr_ok _ _ _ _ _ c1 (st i0 i1 (i2 + 2 ^ e) false)
        have c3 := bind_congr_ok _ _ _ _ _ c2 (st (i0 + 2 ^ e) i1 i2 false)
        have c4 := bind_congr_ok _ _ _ _ _ c3 (st (i0 + 2 ^ e) i1 (i2 + 2 ^ e) false)
        have c5 := bind_congr_ok _ _ _ _ _ c4 (st (i0 + 2 ^ e) (i1 + 2 ^ e) (i2 + 2 ^ e) false)
        have c6 := bind_congr_ok _ _ _ _ _ c5 (st (i0 + 2 ^ e) (i1 + 2 ^ e) i2 false)
        have c7 := bind_congr_ok _ _ _ _ _ c6 (st i0 (i1 + 2 ^ e) (i2 + 2 ^ e) false)
        exact (bind_congr_ok _ _ _ _ _ c7 (st i0 (i1 + 2 ^ e) i2 false)).1
      | true =>
        rw [FWR_rec_true w L u _ G i0 i1 i2 BP m h0 h1 h2 (two_le_pow e),
          FWR_rec_true w L2 u2 _ G i0 i1 i2 BP m h0 h1 h2 (two_le_pow e), half_pow]
        have c1 := st i0 i1 i2 true m hm
        have c2 := bind_congr_ok _ _ _ _ _ c1 (st i0 i1 (i2 + 2 ^ e) false)
        have c3 := bind_congr_ok _ _ _ _ _ c2 (tr i0 (i0 + 2 ^ e) (Or.inl (le_refl _)))
        have c4 := bind_congr_ok _ _ _ _ _ c3 (st (i0 + 2 ^ e) i1 (i2 + 2 ^ e) false)
        have c5 := bind_congr_ok _ _ _ _ _ c4 (st (i0 + 2 ^ e) (i1 + 2 ^ e) (i2 + 2 ^ e) true)
        have c6 := bind_congr_ok _ _ _ _ _ c5 (st (i0 + 2 ^ e) (i1 + 2 ^ e) i2 false)
        have c7 := bind_congr_ok _ _ _ _ _ c6 (tr (i0 + 2 ^ e) i0 (Or.inr (le_refl _)))
        exact (bind_congr_ok _ _ _ _ _ c7 (st i0 (i1 + 2 ^ e) i2 false)).1

end QFW

namespace QFW

/-! ## `run`: independence of the variant, range of the output -/

theorem run_none_large (w L u n : Nat) (input output heap : Mem) (sym : Bool) (hn1 : 1 ≤ n)
    (hn : ¬ n ≤ 46336) : run w L u n input output sym heap = none := by
  cases h : run w L u n input output sym heap with
  | none => rfl
  | some out => exact absurd (run_some_small w L u n input output heap sym out hn1 h) hn

theorem fwd_MemOk_range (w n G : Nat) (hw : 1 ≤ w) (W : Mem) (hW : ValidInput w n W) (e : Nat)
    (hG : G ≤ 2 ^ e) (heap : Mem) (st1 : RState)
    (f1 : FwdG w n G (InSq G e 0 0) (rank G e 0 0) (cnt G e 0 0) 0 ⟨heap, W, fun _ => none⟩ st1) :
    MemOk (OkAt G (fun r c => B * B * rank G e 0 0 r c) (fun _ _ v => -(INF w) ≤ v ∧ v ≤ 0))
      st1.S := by
  intro addr r c x y hr hc hx hy he
  have h := fwd_MemOk w n G hw W hW e hG heap st1 f1 addr r c x y hr hc hx hy he
  exact ⟨h.1, h.2.1⟩

theorem elem_split (n t : Nat) (ht : t < n * n) :
    t / n < n ∧ t % n < n ∧ t = (t / n) * n + t % n := by
  have hn : 0 < n := by
    rcases Nat.eq_zero_or_pos n with h | h
    · subst h; simp at ht
    · exact h
  refine ⟨Nat.div_lt_of_lt_mul ht, Nat.mod_lt _ hn, ?_⟩
  have := Nat.div_add_mod t n
  rw [Nat.mul_comm] at this
  exact this.symm

/-- The output of `run` does not depend on the lane count nor on the `unroll_type`. -/
theorem run_variant_eq (w L u L2 u2 n : Nat) (hw : 1 ≤ w) (hL : 0 < L) (hLB : L ∣ B)
    (hu : u ≤ 3) (hL2 : 0 < L2) (hLB2 : L2 ∣ B) (hu2 : u2 ≤ 3) (input output heap : Mem)
    (sym : Bool) (hn1 : 1 ≤ n) (hW : ValidInput w n input) :
    run w L u n input output sym heap = run w L2 u2 n input output sym heap := by
  by_cases hn : n ≤ 46336
  · obtain ⟨e, st1, hG, f1, hrun⟩ := run_via_FWR w n input heap hn1 hn
    have hBP := TableOk_of_fwd w n _ e hG _ st1 f1
    have hm := fwd_MemOk_range w n _ hw input hW e hG heap st1 f1
    rw [(hrun L u sym output).1, (hrun L2 u2 sym output).1,
      FWR_variant_eq w L u L2 u2 hw hL hLB hu hL2 hLB2 hu2 _ _ st1.BP hBP (layout_inj _ e hG)
        e 0 0 0 sym st1.S hm]
  · rw [run_none_large w L u n input output heap sym hn1 hn,
      run_none_large w L2 u2 n input output heap sym hn1 hn]

/-- With either flag `run` returns for every supported size, and every element of the
returned matrix lies in `[0, INF]`. -/
theorem run_range (w L u n : Nat) (hw : 1 ≤ w) (hL : 0 < L) (hLB : L ∣ B) (hu : u ≤ 3)
    (input output heap : Mem) (sym : Bool) (hn1 : 1 ≤ n) (hn : n ≤ 46336)
    (hW : ValidInput w n input) :
    ∃ out, run w L u n input output sym heap = some out ∧
      (∀ t, t < n * n → 0 ≤ out t ∧ out t ≤ INF w) ∧ (∀ t, n * n ≤ t → out t = output t) := by
  obtain ⟨e, st1, hG, f1, hrun⟩ := run_via_FWR w n input heap hn1 hn
  have hBP := TableOk_of_fwd w n _ e hG _ st1 f1
  have hm := fwd_MemOk_range w n _ hw input hW e hG heap st1 f1
  obtain ⟨S2, e2, ok2⟩ := FWR_safe w L u hw hL hLB hu _ _ _ st1.BP hBP (layout_inj _ e hG)
    (range_BlocksHyp w _ _ (layout_inj _ e hG)) (fun _ _ _ h => h) e 0 0 0 sym st1.S hm
  obtain ⟨out, o1, o2, o3⟩ := (hrun L u sym output).2 S2 e2
  refine ⟨out, o1, fun t ht => ?_, o3⟩
  obtain ⟨hi, hj, he⟩ := elem_split n t ht
  have hc := grid_covers n
  obtain ⟨g1, g2⟩ := view_of_MemOk _ _ _ S2 ok2 (t / n) (t % n) (by omega) (by omega)
  rw [he, o2 _ _ hi hj, wrapT_neg w hw _ g1 (by linarith [INF_nonneg w])]
  constructor <;> linarith

end QFW

namespace QFW

/-! ## What a call of `FWR` without the symmetric flag writes -/

theorem cell_eq (blk : Nat → Nat → Nat) (r c x y : Nat) (hx : x < B) (hy : y < B) :
    cell blk (r * B + x) (c * B + y) = blk r c + (x * B + y) := by
  have e1 : (r * B + x) / B = r := by simp only [B] at *; omega
  have e2 : (c * B + y) / B = c := by simp only [B] at *; omega
  have e3 : (r * B + x) % B = x := by simp only [B] at *; omega
  have e4 : (c * B + y) % B = y := by simp only [B] at *; omega
  simp only [cell, e1, e2, e3, e4]

theorem KernelHyp_of (w G : Nat) (blk : Nat → Nat → Nat) (Gd : Nat → Nat → Int → Prop)
    (hinj : LayoutInj G blk) (hrange : ∀ i j v, Gd i j v → -(INF w) ≤ v ∧ v ≤ 0)
    (r1 r2 r3 : Nat) (h1 : r1 < G) (h2 : r2 < G) (h3 : r3 < G)
    (hclos : ∀ i k j, i < B → k < B → j < B → ∀ x y z, Gd (r1 * B + i) (r2 * B + k) x →
      Gd (r2 * B + k) (r3 * B + j) y → Gd (r1 * B + i) (r3 * B + j) z → z < x + y →
      Gd (r1 * B + i) (r3 * B + j) (x + y)) :
    KernelHyp w (OkAt G blk Gd) (blk r1 r3) (blk r1 r2) (blk r2 r3) := by
  refine ⟨?_, ?_, ?_⟩
  · intro t ht v hv
    have hx : t / B < B := by simp only [B] at *; omega
    have hy : t % B < B := by simp only [B] at *; omega
    have e : t = (t / B) * B + t % B := by simp only [B]; omega
    exact hrange _ _ _ (hv r1 r2 (t / B) (t % B) h1 h2 hx hy (by rw [← e]))
  · intro t ht v hv
    have hx : t / B < B := by simp only [B] at *; omega
    have hy : t % B < B := by simp only [B] at *; omega
    have e : t = (t / B) * B + t % B := by simp only [B]; omega
    exact hrange _ _ _ (hv r2 r3 (t / B) (t % B) h2 h3 hx hy (by rw [← e]))
  · intro i k j hi hk hj x y z ox oy oz hlt r c x2 y2 hr hc hx2 hy2 he
    obtain ⟨e1, e2, e3, e4⟩ := hinj r1 r3 i j r c x2 y2 h1 h3 hr hc hi hj hx2 hy2 he
    subst e1; subst e2; subst e3; subst e4
    exact hclos i k j hi hk hj x y z (ox r1 r2 i k h1 h2 hi hk rfl)
      (oy r2 r3 k j h2 h3 hk hj rfl) (oz r1 r3 i j h1 h3 hi hj rfl) hlt

theorem Rows_block (G i0 P r x : Nat) (hr : r < G) (h1 : i0 ≤ r) (h2 : r < i0 + P) (hx : x < B) :
    Rows G i0 P (r * B + x) := by
  have e : (i0 + P) * B = i0 * B + P * B := by ring
  have a1 : i0 * B ≤ r * B := Nat.mul_le_mul_right B h1
  have a2 : (r + 1) * B ≤ (i0 + P) * B := Nat.mul_le_mul_right B h2
  have a3 : (r + 1) * B ≤ G * B := Nat.mul_le_mul_right B hr
  have e2 : (r + 1) * B = r * B + B := by ring
  simp only [Rows]
  omega

/-- A call of `FWR` without the symmetric flag returns, keeps the invariant, only grows
elements, relaxes every triple of its ranges, writes nothing outside the block range
`I × J`, and, when the pivot range is apart from `I` and `J`, stores only old elements or
sums of two old elements. -/
theorem FWR_false_full (w L u : Nat) (hw : 1 ≤ w) (hL : 0 < L) (hLB : L ∣ B) (hu : u ≤ 3)
    (Gd : Nat → Nat → Int → Prop) (blk : Nat → Nat → Nat) (G : Nat) (BP : Table)
    (hBP : TableOk BP G blk) (hinj : LayoutInj G blk)
    (hrange : ∀ i j v, Gd i j v → -(INF w) ≤ v ∧ v ≤ 0)
    (hclos : ∀ i k j x y z, Gd i k x → Gd k j y → Gd i j z → z < x + y → Gd i j (x + y))
    (e i0 i1 i2 : Nat) (m : Mem) (hm : MemOk (OkAt G blk Gd) m) :
    ∃ m2, FWR w L u (2 ^ e) G i0 i1 i2 BP false m = some m2 ∧ MemOk (OkAt G blk Gd) m2 ∧
      (∀ addr, m addr ≤ m2 addr) ∧
      (∀ i k j, Rows G i0 (2 ^ e) i → Rows G i1 (2 ^ e) k → Rows G i2 (2 ^ e) j →
        view blk m i k + view blk m k j ≤ view blk m2 i j) ∧
      (∀ i j, i < G * B → j < G * B → ¬ (Rows G i0 (2 ^ e) i ∧ Rows G i2 (2 ^ e) j) →
        view blk m2 i j = view blk m i j) ∧
      ((∀ k, Rows G i1 (2 ^ e) k → ¬ Rows G i0 (2 ^ e) k ∧ ¬ Rows G i2 (2 ^ e) k) →
        ∀ i j, Rows G i0 (2 ^ e) i → Rows G i2 (2 ^ e) j →
          view blk m2 i j = view blk m i j ∨
            ∃ k, Rows G i1 (2 ^ e) k ∧ view blk m2 i j = view blk m i k + view blk m k j) := by
  have hK : ∀ r1 r2 r3, r1 < G → r2 < G → r3 < G → (i0 ≤ r1 ∧ r1 < i0 + 2 ^ e) →
      (i1 ≤ r2 ∧ r2 < i1 + 2 ^ e) → (i2 ≤ r3 ∧ r3 < i2 + 2 ^ e) →
      KernelHyp w (OkAt G blk (fun i j v => Gd i j v ∧
        (¬ (Rows G i0 (2 ^ e) i ∧ Rows G i2 (2 ^ e) j) → v = view blk m i j) ∧
        ((∀ k, Rows G i1 (2 ^ e) k → ¬ Rows G i0 (2 ^ e) k ∧ ¬ Rows G i2 (2 ^ e) k) →
          Rows G i0 (2 ^ e) i → Rows G i2 (2 ^ e) j →
          (v = view blk m i j ∨
            ∃ k, Rows G i1 (2 ^ e) k ∧ v = view blk m i k + view blk m k j))))
        (blk r1 r3) (blk r1 r2) (blk r2 r3) := by
    intro r1 r2 r3 h1 h2 h3 b1 b2 b3
    apply KernelHyp_of w G blk _ hinj (fun i j v h => hrange i j v h.1) r1 r2 r3 h1 h2 h3
    intro i k j hi hk hj x y z ox oy oz hlt
    have RI := Rows_block G i0 (2 ^ e) r1 i h1 b1.1 b1.2 hi
    have RK := Rows_block G i1 (2 ^ e) r2 k h2 b2.1 b2.2 hk
    have RJ := Rows_block G i2 (2 ^ e) r3 j h3 b3.1 b3.2 hj
    refine ⟨hclos _ _ _ x y z ox.1 oy.1 oz.1 hlt, fun h => absurd ⟨RI, RJ⟩ h, fun hd _ _ => ?_⟩
    refine Or.inr ⟨r2 * B + k, RK, ?_⟩
    rw [ox.2.1 (fun h => (hd _ RK).2 h.2), oy.2.1 (fun h => (hd _ RK).1 h.1)]
  have hm2 : MemOk (OkAt G blk (fun i j v => Gd i j v ∧
        (¬ (Rows G i0 (2 ^ e) i ∧ Rows G i2 (2 ^ e) j) → v = view blk m i j) ∧
        ((∀ k, Rows G i1 (2 ^ e) k → ¬ Rows G i0 (2 ^ e) k ∧ ¬ Rows G i2 (2 ^ e) k) →
          Rows G i0 (2 ^ e) i → Rows G i2 (2 ^ e) j →
          (v = view blk m i j ∨
            ∃ k, Rows G i1 (2 ^ e) k ∧ v = view blk m i k + view blk m k j)))) m := by
    intro addr r c x y hr hc hx hy he
    have ev : m addr = view blk m (r * B + x) (c * B + y) := by
      simp only [view]; rw [cell_eq blk r c x y hx hy, he]
    exact ⟨hm addr r c x y hr hc hx hy he, fun _ => ev, fun _ _ _ => Or.inl ev⟩
  obtain ⟨m2, e2, ok2, le2, s2⟩ := FWR_relaxed_on w L u hw hL hLB hu _ blk G BP hBP e i0 i1 i2 m
    hK hm2
  refine ⟨m2, e2, ?_, le2, fun i k j hi hk hj => s2 i k j ⟨hi, hk, hj⟩, ?_, ?_⟩
  · intro addr r c x y hr hc hx hy he
    exact (ok2 addr r c x y hr hc hx hy he).1
  · intro i j hi hj hn
    exact (view_of_MemOk G blk _ m2 ok2 i j hi hj).2.1 hn
  · intro hd i j hi hj
    exact (view_of_MemOk G blk _ m2 ok2 i j hi.2.2 hj.2.2).2.2 hd hi hj

end QFW

namespace QFW

/-! ## The symmetric recursion -/

theorem walkW_reverse (X : Nat → Nat → Int) (V : Nat → Prop)
    (hX : ∀ u v, V u → V v → X u v = X v u) (p : List Nat) (i j : Nat) (hi : V i) (hj : V j)
    (hp : ∀ v, v ∈ p → V v) : walkW X i p j = walkW X j p.reverse i := by
  induction p generalizing i with
  | nil => exact hX i j hi hj
  | cons v p ih =>
    have hv := hp v (List.mem_cons_self _ _)
    rw [List.reverse_cons, walkW_snoc, ← ih v hv (fun u hu => hp u (List.mem_cons_of_mem _ hu)),
      hX v i hv hi]
    simp only [walkW]
    ring

theorem Above_transpose (X D D2 : Nat → Nat → Int) (V S I J : Nat → Prop)
    (hX : ∀ u v, V u → V v → X u v = X v u) (hS : ∀ v, S v → V v) (hI : ∀ v, I v → V v)
    (hJ : ∀ v, J v → V v) (h : Above D X S J I) (hD : ∀ i j, I i → J j → D2 i j = D j i) :
    Above D2 X S I J := by
  intro i j hi hj p hp
  rw [hD i j hi hj, walkW_reverse X V hX p i j (hI i hi) (hJ j hj) (fun v hv => hS v (hp v hv))]
  exact h j i hj hi p.reverse (fun v hv => hp v (List.mem_reverse.mp hv))

theorem FWR_one_flag (w L u G i0 i1 i2 : Nat) (BP : Table) (m : Mem) (blk : Nat → Nat → Nat)
    (hBP : TableOk BP G blk) :
    FWR w L u (2 ^ 0) G i0 i1 i2 BP true m = FWR w L u (2 ^ 0) G i0 i1 i2 BP false m := by
  by_cases hpr : i0 ≥ G ∨ i1 ≥ G ∨ i2 ≥ G
  · rw [FWR_pruned _ _ _ _ _ _ _ _ _ _ _ hpr, FWR_pruned _ _ _ _ _ _ _ _ _ _ _ hpr]
  · rw [pow_zero, FWR_base w L u G i0 i1 i2 BP true m blk hBP (by omega) (by omega) (by omega),
      FWR_base w L u G i0 i1 i2 BP false m blk hBP (by omega) (by omega) (by omega)]

theorem Rows_sub_left (G i0 e v : Nat) (h : Rows G i0 (2 ^ e) v) : Rows G i0 (2 ^ (e + 1)) v := by
  rw [pow_succ, Nat.mul_comm]
  exact Rows_or G i0 (2 ^ e) v (Or.inl h)

theorem Rows_sub_right (G i0 e v : Nat) (h : Rows G (i0 + 2 ^ e) (2 ^ e) v) :
    Rows G i0 (2 ^ (e + 1)) v := by
  rw [pow_succ, Nat.mul_comm]
  exact Rows_or G i0 (2 ^ e) v (Or.inr h)

theorem Rows_disjoint2 (G i0 h : Nat) (v : Nat) (h1 : Rows G (i0 + h) h v) :
    ¬ Rows G i0 h v := fun h0 => Rows_disjoint G i0 h v h0 h1

end QFW

namespace QFW

/-- A pivot-aligned call of `FWR` with the symmetric flag, on a scratch that is symmetric
on its range: it returns, keeps the invariant, only grows the elements of the padded
matrix, writes nothing outside its range, and leaves every pair of its range above every
walk through the range. -/
theorem FWR_closure_sym (w L u : Nat) (hw : 1 ≤ w) (hL : 0 < L) (hLB : L ∣ B) (hu : u ≤ 3)
    (Gd : Nat → Nat → Int → Prop) (blk : Nat → Nat → Nat) (G : Nat) (BP : Table)
    (hBP : TableOk BP G blk) (hinj : LayoutInj G blk)
    (hrange : ∀ i j v, Gd i j v → -(INF w) ≤ v ∧ v ≤ 0)
    (hclos : ∀ i k j x y z, Gd i k x → Gd k j y → Gd i j z → z < x + y → Gd i j (x + y))
    (hsym : ∀ i j v, Gd i j v → Gd j i v) :
    ∀ e i0 m, MemOk (OkAt G blk Gd) m →
      (∀ a b, Rows G i0 (2 ^ e) a → Rows G i0 (2 ^ e) b → view blk m a b = view blk m b a) →
      ∃ m2, FWR w L u (2 ^ e) G i0 i0 i0 BP true m = some m2 ∧ MemOk (OkAt G blk Gd) m2 ∧
        (∀ a b, a < G * B → b < G * B → view blk m a b ≤ view blk m2 a b) ∧
        (∀ a b, a < G * B → b < G * B → ¬ (Rows G i0 (2 ^ e) a ∧ Rows G i0 (2 ^ e) b) →
          view blk m2 a b = view blk m a b) ∧
        Above (view blk m2) (view blk m) (Rows G i0 (2 ^ e)) (Rows G i0 (2 ^ e))
          (Rows G i0 (2 ^ e)) := by
  have hH := BlocksHyp_of w G blk Gd hinj hrange hclos
  have full := FWR_false_full w L u hw hL hLB hu Gd blk G BP hBP hinj hrange hclos
  intro e
  induction e with
  | zero =>
    intro i0 m hm _
    obtain ⟨m2, e2, ok2, le2, A2⟩ := FWR_closure w L u hw hL hLB hu _ blk G BP hBP hH 0 i0 m hm
    obtain ⟨m3, e3, _, _, _, fr3, _⟩ := full 0 i0 i0 i0 m hm
    have e23 : m3 = m2 := Option.some.inj (e3.symm.trans e2)
    subst e23
    exact ⟨m3, by rw [FWR_one_flag w L u G i0 i0 i0 BP m blk hBP]; exact e2, ok2,
      fun a b _ _ => le2 _, fr3, A2⟩
  | succ e ih =>
    intro i0 m hm hs
    by_cases hpr : i0 ≥ G
    · refine ⟨m, FWR_pruned _ _ _ _ _ _ _ _ _ _ _ (Or.inl hpr), hm, fun _ _ _ _ => le_refl _,
        fun _ _ _ _ _ => rfl, ?_⟩
      intro i j hi _ _ _
      have := Rows_lt _ _ _ _ hi
      omega
    · have h0 : i0 < G := by omega
      have l0 := Rows_sub_left G i0 e
      have l1 := Rows_sub_right G i0 e
      have d01 : ∀ v, Rows G i0 (2 ^ e) v → ¬ Rows G (i0 + 2 ^ e) (2 ^ e) v :=
        Rows_disjoint G i0 (2 ^ e)
      have d10 : ∀ v, Rows G (i0 + 2 ^ e) (2 ^ e) v → ¬ Rows G i0 (2 ^ e) v :=
        Rows_disjoint2 G i0 (2 ^ e)
      -- the eight steps
      obtain ⟨m1, e1, ok1, le1, fr1, A1⟩ := ih i0 m hm
        (fun a b ha hb => hs a b (l0 a ha) (l0 b hb))
      obtain ⟨m2, e2, ok2, le2, s2, fr2, _⟩ := full e i0 i0 (i0 + 2 ^ e) m1 ok1
      have e3 := transpose_copy_eq G blk BP hBP (2 ^ e) i0 (i0 + 2 ^ e) m2
      have ok3 := transposeAll_MemOk G blk hinj Gd hsym (2 ^ e) i0 (i0 + 2 ^ e)
        (Or.inl (le_refl _)) m2 ok2
      have tv3 := transposeAll_view G blk hinj (2 ^ e) i0 (i0 + 2 ^ e) (Or.inl (le_refl _)) m2
      obtain ⟨m4, e4, ok4, le4, s4, fr4, at4⟩ :=
        full e (i0 + 2 ^ e) i0 (i0 + 2 ^ e) (transposeAll G blk (2 ^ e) i0 (i0 + 2 ^ e) m2) ok3
      -- the scratch before step 5 is symmetric on the second half
      have eq31 : ∀ a b, Rows G (i0 + 2 ^ e) (2 ^ e) a → Rows G (i0 + 2 ^ e) (2 ^ e) b →
          view blk (transposeAll G blk (2 ^ e) i0 (i0 + 2 ^ e) m2) a b = view blk m a b := by
        intro a b ha hb
        rw [(tv3 a b ha.2.2 hb.2.2).2 (fun h => d10 b hb h.2),
          fr2 a b ha.2.2 hb.2.2 (fun h => d10 a ha h.1),
          fr1 a b ha.2.2 hb.2.2 (fun h => d10 a ha h.1)]
      have cross : ∀ a k, Rows G (i0 + 2 ^ e) (2 ^ e) a → Rows G i0 (2 ^ e) k →
          view blk (transposeAll G blk (2 ^ e) i0 (i0 + 2 ^ e) m2) a k =
            view blk (transposeAll G blk (2 ^ e) i0 (i0 + 2 ^ e) m2) k a := by
        intro a k ha hk
        rw [(tv3 a k ha.2.2 hk.2.2).1 ⟨ha, hk⟩, (tv3 k a hk.2.2 ha.2.2).2 (fun h => d01 k hk h.1)]
      have half4 : ∀ a b, Rows G (i0 + 2 ^ e) (2 ^ e) a → Rows G (i0 + 2 ^ e) (2 ^ e) b →
          view blk m4 a b ≤ view blk m4 b a := by
        intro a b ha hb
        rcases at4 (fun k hk => ⟨d01 k hk, d01 k hk⟩) a b ha hb with h | ⟨k, hk, h⟩
        · rw [h, eq31 a b ha hb, hs a b (l1 a ha) (l1 b hb), ← eq31 b a hb ha]
          exact le4 _
        · rw [h, cross a k ha hk, ← cross b k hb hk, add_comm]
          exact s4 b k a hb hk ha
      obtain ⟨m5, e5, ok5, le5, fr5, A5⟩ := ih (i0 + 2 ^ e) m4 ok4
        (fun a b ha hb => le_antisymm (half4 a b ha hb) (half4 b a hb ha))
      obtain ⟨m6, e6, ok6, le6, s6, fr6, _⟩ := full e (i0 + 2 ^ e) (i0 + 2 ^ e) i0 m5 ok5
      have e7 := transpose_copy_eq G blk BP hBP (2 ^ e) (i0 + 2 ^ e) i0 m6
      have ok7 := transposeAll_MemOk G blk hinj Gd hsym (2 ^ e) (i0 + 2 ^ e) i0
        (Or.inr (le_refl _)) m6 ok6
      have tv7 := transposeAll_view G blk hinj (2 ^ e) (i0 + 2 ^ e) i0 (Or.inr (le_refl _)) m6
      obtain ⟨m8, e8, ok8, le8, s8, fr8, _⟩ :=
        full e i0 (i0 + 2 ^ e) i0 (transposeAll G blk (2 ^ e) (i0 + 2 ^ e) i0 m6) ok7
      -- elements only grow
      have v2 : ∀ a b, view blk m1 a b ≤ view blk m2 a b := fun a b => le2 _
      have v3 : ∀ a b, a < G * B → b < G * B →
          view blk m2 a b ≤ view blk (transposeAll G blk (2 ^ e) i0 (i0 + 2 ^ e) m2) a b := by
        intro a b ha hb
        by_cases h : Rows G (i0 + 2 ^ e) (2 ^ e) a ∧ Rows G i0 (2 ^ e) b
        · rw [(tv3 a b ha hb).1 h, fr2 a b ha hb (fun h2 => d10 a h.1 h2.1),
            fr1 a b ha hb (fun h2 => d10 a h.1 h2.1), hs a b (l1 a h.1) (l0 b h.2)]
          exact le_trans (le1 b a hb ha) (v2 b a)
        · rw [(tv3 a b ha hb).2 h]
      have v4 : ∀ a b, view blk (transposeAll G blk (2 ^ e) i0 (i0 + 2 ^ e) m2) a b ≤
          view blk m4 a b := fun a b => le4 _
      have v6 : ∀ a b, view blk m5 a b ≤ view blk m6 a b := fun a b => le6 _
      have v7 : ∀ a b, a < G * B → b < G * B →
          view blk m6 a b ≤ view blk (transposeAll G blk (2 ^ e) (i0 + 2 ^ e) i0 m6) a b := by
        intro a b ha hb
        by_cases h : Rows G i0 (2 ^ e) a ∧ Rows G (i0 + 2 ^ e) (2 ^ e) b
        · rw [(tv7 a b ha hb).1 h, fr6 a b ha hb (fun h2 => d01 a h.1 h2.1),
            fr5 a b ha hb (fun h2 => d01 a h.1 h2.1), fr4 a b ha hb (fun h2 => d01 a h.1 h2.1),
            (tv3 a b ha hb).2 (fun h2 => d01 a h.1 h2.1), ← (tv3 b a hb ha).1 ⟨h.2, h.1⟩]
          exact le_trans (v4 b a) (le_trans (le5 b a hb ha) (v6 b a))
        · rw [(tv7 a b ha hb).2 h]
      have v8 : ∀ a b, view blk (transposeAll G blk (2 ^ e) (i0 + 2 ^ e) i0 m6) a b ≤
          view blk m8 a b := fun a b => le8 _
      have hIlt : ∀ v, (Rows G i0 (2 ^ e) v ∨ Rows G (i0 + 2 ^ e) (2 ^ e) v) → v < G * B :=
        fun v h => h.elim (fun h => h.2.2) (fun h => h.2.2)
      have hIV : ∀ v, (Rows G i0 (2 ^ e) v ∨ Rows G (i0 + 2 ^ e) (2 ^ e) v) →
          Rows G i0 (2 ^ (e + 1)) v := fun v h => h.elim (l0 v) (l1 v)
      refine ⟨m8, ?_, ok8, fun a b ha hb => ?_, fun a b ha hb hn => ?_, ?_⟩
      · rw [FWR_rec_true w L u _ G i0 i0 i0 BP m h0 h0 h0 (two_le_pow e), half_pow]
        simp only [e1, e2, e3, e4, e5, e6, e7, e8, Option.some_bind]
      · exact le_trans (le1 a b ha hb) (le_trans (v2 a b) (le_trans (v3 a b ha hb)
          (le_trans (v4 a b) (le_trans (le5 a b ha hb) (le_trans (v6 a b)
          (le_trans (v7 a b ha hb) (v8 a b)))))))
      · rw [fr8 a b ha hb (fun h => hn ⟨l0 a h.1, l0 b h.2⟩),
          (tv7 a b ha hb).2 (fun h => hn ⟨l0 a h.1, l1 b h.2⟩),
          fr6 a b ha hb (fun h => hn ⟨l1 a h.1, l0 b h.2⟩),
          fr5 a b ha hb (fun h => hn ⟨l1 a h.1, l1 b h.2⟩),
          fr4 a b ha hb (fun h => hn ⟨l1 a h.1, l1 b h.2⟩),
          (tv3 a b ha hb).2 (fun h => hn ⟨l1 a h.1, l0 b h.2⟩),
          fr2 a b ha hb (fun h => hn ⟨l0 a h.1, l1 b h.2⟩),
          fr1 a b ha hb (fun h => hn ⟨l0 a h.1, l0 b h.2⟩)]
      · have A2 : Above (view blk m2) (view blk m) (Rows G i0 (2 ^ e)) (Rows G i0 (2 ^ e))
            (Rows G (i0 + 2 ^ e) (2 ^ e)) :=
          Above_last_hop _ (view blk m1) _ _ _ _ A1
            (fun i j hi hj => le_trans (le1 i j hi.2.2 hj.2.2) (v2 i j))
            (fun k j hk hj => le1 k j hk.2.2 hj.2.2)
            (fun i k j hi hk hj => s2 i k j hi hk hj)
        have A3 : Above (view blk (transposeAll G blk (2 ^ e) i0 (i0 + 2 ^ e) m2)) (view blk m)
            (Rows G i0 (2 ^ e)) (Rows G (i0 + 2 ^ e) (2 ^ e)) (Rows G i0 (2 ^ e)) :=
          Above_transpose (view blk m) (view blk m2) _ (Rows G i0 (2 ^ (e + 1))) _ _ _ hs l0 l1 l0
            A2 (fun i j hi hj => (tv3 i j hi.2.2 hj.2.2).1 ⟨hi, hj⟩)
        have key := closure_of_steps (view blk m) (view blk m1) (view blk m2)
          (view blk (transposeAll G blk (2 ^ e) i0 (i0 + 2 ^ e) m2))
          (view blk m4) (view blk m5) (view blk m6)
          (view blk (transposeAll G blk (2 ^ e) (i0 + 2 ^ e) i0 m6)) (view blk m8)
          (Rows G i0 (2 ^ e)) (Rows G (i0 + 2 ^ e) (2 ^ e))
          (fun i j hi hj => le1 i j (hIlt i hi) (hIlt j hj)) (fun i j _ _ => v2 i j)
          (fun i j hi hj => v3 i j (hIlt i hi) (hIlt j hj))
          (fun i j _ _ => v4 i j) (fun i j hi hj => le5 i j (hIlt i hi) (hIlt j hj))
          (fun i j _ _ => v6 i j) (fun i j hi hj => v7 i j (hIlt i hi) (hIlt j hj))
          (fun i j _ _ => v8 i j) A1 A2 A3
          (fun i k j hi hk hj => s4 i k j hi hk hj) A5
          (fun i k j hi hk hj => s6 i k j hi hk hj)
          (fun _ B6 => Above_transpose (view blk m) (view blk m6) _ (Rows G i0 (2 ^ (e + 1)))
            _ _ _ hs hIV l0 l1 B6 (fun i j hi hj => (tv7 i j hi.2.2 hj.2.2).1 ⟨hi, hj⟩))
          (fun i k j hi hk hj => s8 i k j hi hk hj)
        have hsplit : ∀ v, Rows G i0 (2 ^ (e + 1)) v →
            Rows G i0 (2 ^ e) v ∨ Rows G (i0 + 2 ^ e) (2 ^ e) v := by
          intro v hv
          rw [pow_succ, Nat.mul_comm] at hv
          exact Rows_half _ _ _ _ hv
        exact Above_weaken _ _ _ _ _ _ _ _ key hsplit hsplit hsplit

end QFW

namespace QFW

/-! ## `run` with the symmetric flag -/

theorem Wf_symm (n : Nat) (W : Mem) (hS : SymmetricInput n W) (u v : Nat) (hu : u < n)
    (hv : v < n) : Wf n W u v = Wf n W v u := hS u v hu hv

theorem Good_symm (w n : Nat) (W : Mem) (hS : SymmetricInput n W) (i j : Nat) (v : Int)
    (h : Good w n W i j v) : Good w n W j i v := by
  obtain ⟨h1, h2, h3, h4⟩ := h
  refine ⟨h1, h2, fun hji => ?_, fun hji => h4 (fun hij => hji ⟨hij.2, hij.1⟩)⟩
  obtain ⟨p, a1, a2⟩ := h3 ⟨hji.2, hji.1⟩
  refine ⟨p.reverse, fun u hu => a1 u (List.mem_reverse.mp hu), ?_⟩
  rw [a2, walkW_reverse (Wf n W) (fun v => v < n) (Wf_symm n W hS) p i j hji.2 hji.1 a1]

theorem padded_symm (w n : Nat) (W : Mem) (hS : SymmetricInput n W) (r c x y : Nat) :
    padded w n W r c x y = padded w n W c r y x := by
  unfold padded
  by_cases h : r * B + x < n ∧ c * B + y < n
  · rw [if_pos h, if_pos ⟨h.2, h.1⟩, hS _ _ h.1 h.2]
  · rw [if_neg h, if_neg (fun h2 => h ⟨h2.2, h2.1⟩)]

theorem fwd_view_symm (w n G : Nat) (W : Mem) (hS : SymmetricInput n W) (e : Nat)
    (hG : G ≤ 2 ^ e) (heap : Mem) (st1 : RState)
    (f1 : FwdG w n G (InSq G e 0 0) (rank G e 0 0) (cnt G e 0 0) 0 ⟨heap, W, fun _ => none⟩ st1)
    (a b : Nat) (ha : a < G * B) (hb : b < G * B) :
    view (fun r c => B * B * rank G e 0 0 r c) st1.S a b =
      view (fun r c => B * B * rank G e 0 0 r c) st1.S b a := by
  obtain ⟨_, ha2⟩ := block_split a
  obtain ⟨_, hb2⟩ := block_split b
  have hr : a / B < G := by simp only [B] at *; omega
  have hc : b / B < G := by simp only [B] at *; omega
  have h1 := f1.hS (a / B) (b / B) ((InSq_top G e _ _ hG).mpr ⟨hr, hc⟩) (a % B) (b % B) ha2 hb2
  have h2 := f1.hS (b / B) (a / B) ((InSq_top G e _ _ hG).mpr ⟨hc, hr⟩) (b % B) (a % B) hb2 ha2
  rw [Nat.zero_add] at h1 h2
  simp only [view, cell]
  rw [h1, h2]
  exact padded_symm w n W hS _ _ _ _

/-- With the symmetric flag and a symmetric input `run` returns the least walk weights,
for every supported size. -/
theorem run_shortest_true (w L u n : Nat) (hw : 1 ≤ w) (hL : 0 < L) (hLB : L ∣ B) (hu : u ≤ 3)
    (input output heap : Mem) (hn1 : 1 ≤ n) (hn : n ≤ 46336) (hW : ValidInput w n input)
    (hS : SymmetricInput n input) :
    ∃ out, run w L u n input output true heap = some out ∧
      (∀ i j, i < n → j < n → IsShortest n input i j (out (i * n + j))) ∧
      (∀ t, n * n ≤ t → out t = output t) := by
  obtain ⟨e, st1, hG, f1, hrun⟩ := run_via_FWR w n input heap hn1 hn
  have hBP := TableOk_of_fwd w n _ e hG _ st1 f1
  have hm := fwd_MemOk w n _ hw input hW e hG heap st1 f1
  obtain ⟨S2, e2, ok2, _, _, A2⟩ := FWR_closure_sym w L u hw hL hLB hu (Good w n input) _ _
    st1.BP hBP (layout_inj _ e hG) (Good_range w n input) (Good_clos w n input)
    (Good_symm w n input hS) e 0 st1.S hm
    (fun a b ha hb => fwd_view_symm w n _ input hS e hG heap st1 f1 a b ha.2.2 hb.2.2)
  obtain ⟨out, o1, o2, o3⟩ := (hrun L u true output).2 S2 e2
  refine ⟨out, o1, fun i j hi hj => ?_, o3⟩
  rw [o2 i j hi hj]
  exact shortest_of_scratch w n _ hw input hW e hG (grid_covers n) heap st1 f1 S2 ok2 A2 i j hi hj

/-- With either flag (the symmetric flag only on symmetric inputs) `run` returns the least
walk weights, for every supported size. -/
theorem run_shortest (w L u n : Nat) (hw : 1 ≤ w) (hL : 0 < L) (hLB : L ∣ B) (hu : u ≤ 3)
    (input output heap : Mem) (sym : Bool) (hn1 : 1 ≤ n) (hn : n ≤ 46336)
    (hW : ValidInput w n input) (hS : sym = true → SymmetricInput n input) :
    ∃ out, run w L u n input output sym heap = some out ∧
      (∀ i j, i < n → j < n → IsShortest n input i j (out (i * n + j))) ∧
      (∀ t, n * n ≤ t → out t = output t) := by
  cases sym with
  | false => exact run_shortest_false w L u n hw hL hLB hu input output heap hn1 hn hW
  | true => exact run_shortest_true w L u n hw hL hLB hu input output heap hn1 hn hW (hS rfl)

/-- Two outputs of `run` that hold the least walk weights are the same memory. -/
theorem out_unique (n : Nat) (W output : Mem) (o1 o2 : Mem)
    (h1 : ∀ i j, i < n → j < n → IsShortest n W i j (o1 (i * n + j)))
    (h2 : ∀ i j, i < n → j < n → IsShortest n W i j (o2 (i * n + j)))
    (f1 : ∀ t, n * n ≤ t → o1 t = output t) (f2 : ∀ t, n * n ≤ t → o2 t = output t) :
    o1 = o2 := by
  funext t
  by_cases ht : t < n * n
  · obtain ⟨hi, hj, he⟩ := elem_split n t ht
    rw [he]
    exact IsShortest_unique n W _ _ _ _ (h1 _ _ hi hj) (h2 _ _ hi hj)
  · rw [f1 t (by omega), f2 t (by omega)]

end QFW

namespace QFW

/-! ## Consequences of the output contract -/

theorem IsShortest_symm (n : Nat) (W : Mem) (hS : SymmetricInput n W) (i j : Nat) (d : Int)
    (hi : i < n) (hj : j < n) (h : IsShortest n W i j d) : IsShortest n W j i d := by
  obtain ⟨⟨p, a1, a2⟩, a3⟩ := h
  refine ⟨⟨p.reverse, fun u hu => a1 u (List.mem_reverse.mp hu), ?_⟩, fun q hq => ?_⟩
  · rw [a2, walkW_reverse (Wf n W) (fun v => v < n) (Wf_symm n W hS) p i j hi hj a1]
  · rw [walkW_reverse (Wf n W) (fun v => v < n) (Wf_symm n W hS) q j i hj hi hq]
    exact a3 q.reverse (fun u hu => hq u (List.mem_reverse.mp hu))

/-- In a matrix that satisfies the triangle inequality every element is the least walk
weight of its pair. -/
theorem closed_shortest (n : Nat) (W : Mem)
    (hT : ∀ i k j, i < n → k < n → j < n → W (i * n + j) ≤ W (i * n + k) + W (k * n + j))
    (i j : Nat) (hi : i < n) (hj : j < n) : IsShortest n W i j (W (i * n + j)) := by
  refine ⟨⟨[], fun u hu => absurd hu (List.not_mem_nil u), rfl⟩, fun p => ?_⟩
  induction p generalizing i with
  | nil => exact fun _ => le_refl _
  | cons v p ih =>
    intro hp
    have hv := hp v (List.mem_cons_self _ _)
    have h1 := ih v hv (fun u hu => hp u (List.mem_cons_of_mem _ hu))
    have h2 := hT i v j hi hv hj
    simp only [walkW, Wf]
    linarith

theorem shortest_triangle (n : Nat) (W o : Mem)
    (h : ∀ i j, i < n → j < n → IsShortest n W i j (o (i * n + j)))
    (i k j : Nat) (hi : i < n) (hk : k < n) (hj : j < n) :
    o (i * n + j) ≤ o (i * n + k) + o (k * n + j) := by
  obtain ⟨⟨p1, a1, a2⟩, _⟩ := h i k hi hk
  obtain ⟨⟨p2, b1, b2⟩, _⟩ := h k j hk hj
  have := (h i j hi hj).2 (p1 ++ k :: p2) (by
    intro u hu
    rcases List.mem_append.mp hu with h1 | h1
    · exact a1 u h1
    · rcases List.mem_cons.mp h1 with h2 | h2
      · rw [h2]; exact hk
      · exact b1 u h2)
  rw [walkW_append] at this
  rw [a2, b2]
  exact this

theorem walkW_nonneg (w n : Nat) (W : Mem) (hW : ValidInput w n W) (p : List Nat) (i j : Nat)
    (hi : i < n) (hj : j < n) (hp : ∀ v, v ∈ p → v < n) : 0 ≤ walkW (Wf n W) i p j := by
  induction p generalizing i with
  | nil => exact (hW _ (idx_lt n i j hi hj)).1
  | cons v p ih =>
    have hv := hp v (List.mem_cons_self _ _)
    have h1 := ih v hv (fun u hu => hp u (List.mem_cons_of_mem _ hu))
    have h2 := (hW _ (idx_lt n i v hi hv)).1
    simp only [walkW, Wf] at *
    linarith

/-- A walk with an edge of weight `INF` weighs at least `INF`. -/
theorem walk_ge_INF (w n : Nat) (W : Mem) (hW : ValidInput w n W) (p : List Nat) (i j : Nat)
    (hi : i < n) (hj : j < n) (hp : ∀ v, v ∈ p → v < n) (hf : ¬ finiteWalk w n W i p j) :
    INF w ≤ walkW (Wf n W) i p j := by
  induction p generalizing i with
  | nil => exact not_lt.mp hf
  | cons v p ih =>
    have hv := hp v (List.mem_cons_self _ _)
    have hp2 : ∀ u, u ∈ p → u < n := fun u hu => hp u (List.mem_cons_of_mem _ hu)
    have h0 := walkW_nonneg w n W hW p v j hv hj hp2
    have h1 := (hW _ (idx_lt n i v hi hv)).1
    simp only [finiteWalk, not_and_or] at hf
    simp only [walkW]
    rcases hf with h | h
    · have : INF w ≤ Wf n W i v := not_lt.mp h
      linarith
    · have := ih v hv hp2 h
      have h1b : 0 ≤ Wf n W i v := h1
      linarith

theorem shortest_sentinel (w n : Nat) (W : Mem) (hW : ValidInput w n W) (i j : Nat) (d : Int)
    (hi : i < n) (hj : j < n) (h : IsShortest n W i j d)
    (hno : ¬ ∃ p : List Nat, (∀ v, v ∈ p → v < n) ∧ finiteWalk w n W i p j) : d = INF w := by
  obtain ⟨⟨p, a1, a2⟩, a3⟩ := h
  apply le_antisymm
  · exact le_trans (a3 [] (fun u hu => absurd hu (List.not_mem_nil u)))
      (hW _ (idx_lt n i j hi hj)).2
  · rw [a2]
    exact walk_ge_INF w n W hW p i j hi hj a1 (fun hf => hno ⟨p, a1, hf⟩)

theorem oneEdge_valid (w : Nat) (h1 : 1 ≤ INF w) : ValidInput w 3 (oneEdge w) := by
  intro t _
  unfold oneEdge
  split
  · exact ⟨le_refl _, by linarith⟩
  · split
    · exact ⟨by decide, h1⟩
    · exact ⟨by linarith, le_refl _⟩

theorem oneEdge_triangle (w : Nat) (h1 : 1 ≤ INF w) (i k j : Nat) (hi : i < 3) (hk : k < 3)
    (hj : j < 3) : oneEdge w (i * 3 + j) ≤ oneEdge w (i * 3 + k) + oneEdge w (k * 3 + j) := by
  interval_cases i <;> interval_cases k <;> interval_cases j <;>
    simp [oneEdge] <;> linarith

end QFW

namespace QFW

/-! ## The asymmetric `65 × 65` input -/

theorem asymInput_at (w i j : Nat) (hj : j < 65) :
    asymInput w (i * 65 + j) =
      if i = j then 0 else if i = 0 ∧ j = 64 then 1 else if i = 64 ∧ j = 0 then 5
      else INF w := by
  have e1 : (i * 65 + j) / 65 = i := by omega
  have e2 : (i * 65 + j) % 65 = j := by omega
  unfold asymInput
  rw [e1, e2]
  by_cases h1 : i = j
  · rw [if_pos h1, if_pos h1]
  · rw [if_neg h1, if_neg h1]
    by_cases h2 : i = 0 ∧ j = 64
    · rw [if_pos h2, if_pos (by omega)]
    · rw [if_neg h2, if_neg (by omega)]
      by_cases h3 : i = 64 ∧ j = 0
      · rw [if_pos h3, if_pos (by omega)]
      · rw [if_neg h3, if_neg (by omega)]

theorem symInput_at (w i j : Nat) (hj : j < 65) :
    symInput w (i * 65 + j) =
      if i = j then 0 else if (i = 0 ∧ j = 64) ∨ (i = 64 ∧ j = 0) then 1 else INF w := by
  have e1 : (i * 65 + j) / 65 = i := by omega
  have e2 : (i * 65 + j) % 65 = j := by omega
  unfold symInput
  rw [e1, e2]
  by_cases h1 : i = j
  · rw [if_pos h1, if_pos h1]
  · rw [if_neg h1, if_neg h1]
    by_cases h2 : (i = 0 ∧ j = 64) ∨ (i = 64 ∧ j = 0)
    · rw [if_pos h2, if_pos (by omega)]
    · rw [if_neg h2, if_neg (by omega)]

theorem asymInput_valid (w : Nat) (h : 5 ≤ INF w) : ValidInput w 65 (asymInput w) := by
  intro t ht
  obtain ⟨hi, hj, he⟩ := elem_split 65 t ht
  rw [he, asymInput_at w _ _ hj]
  split_ifs <;> omega

theorem symInput_valid (w : Nat) (h : 1 ≤ INF w) : ValidInput w 65 (symInput w) := by
  intro t ht
  obtain ⟨hi, hj, he⟩ := elem_split 65 t ht
  rw [he, symInput_at w _ _ hj]
  split_ifs <;> omega

theorem asymInput_triangle (w : Nat) (h : 5 ≤ INF w) (i k j : Nat) (hi : i < 65) (hk : k < 65)
    (hj : j < 65) :
    asymInput w (i * 65 + j) ≤ asymInput w (i * 65 + k) + asymInput w (k * 65 + j) := by
  rw [asymInput_at w i j hj, asymInput_at w i k hk, asymInput_at w k j hj]
  split_ifs <;> omega

theorem symInput_triangle (w : Nat) (h : 1 ≤ INF w) (i k j : Nat) (hi : i < 65) (hk : k < 65)
    (hj : j < 65) :
    symInput w (i * 65 + j) ≤ symInput w (i * 65 + k) + symInput w (k * 65 + j) := by
  rw [symInput_at w i j hj, symInput_at w i k hk, symInput_at w k j hj]
  split_ifs <;> omega

theorem symInput_symm (w : Nat) : SymmetricInput 65 (symInput w) := by
  intro i j hi hj
  rw [symInput_at w i j hj, symInput_at w j i hi]
  split_ifs <;> omega

theorem asymInput_not_symm (w : Nat) : ¬ SymmetricInput 65 (asymInput w) := by
  intro h
  have h2 := h 0 64 (by decide) (by decide)
  rw [asymInput_at w 0 64 (by decide), asymInput_at w 64 0 (by decide)] at h2
  simp at h2

/-- Off the element `(64, 0)` the two inputs agree. -/
theorem asym_eq_sym (w i j : Nat) (hj : j < 65) (h : ¬ (i = 64 ∧ j = 0)) :
    asymInput w (i * 65 + j) = symInput w (i * 65 + j) := by
  rw [asymInput_at w i j hj, symInput_at w i j hj]
  split_ifs <;> first | rfl | omega

/-- The walk `64 → 0 → 64 → 0 → 64 → 0` of the symmetric input weighs `5`. -/
theorem sym_walk_five (w : Nat) :
    walkW (Wf 65 (symInput w)) 64 [0, 64, 0, 64] 0 = 5 := by
  simp only [walkW, Wf]
  rw [symInput_at w 64 0 (by decide), symInput_at w 0 64 (by decide)]
  simp

end QFW

namespace QFW

/-! ## Certificates for least walk weights -/

/-- A matrix `E` below `W` that satisfies the triangle inequality and whose elements are
weights of walks of `W` holds the least walk weights of `W`. -/
theorem shortest_of_certificate (n : Nat) (W E : Mem) (path : Nat → Nat → List Nat)
    (hle : ∀ i j, i < n → j < n → E (i * n + j) ≤ W (i * n + j))
    (htri : ∀ i k j, i < n → k < n → j < n → E (i * n + j) ≤ E (i * n + k) + E (k * n + j))
    (hpath : ∀ i j, i < n → j < n → (∀ v, v ∈ path i j → v < n) ∧
      E (i * n + j) = walkW (Wf n W) i (path i j) j)
    (i j : Nat) (hi : i < n) (hj : j < n) : IsShortest n W i j (E (i * n + j)) := by
  refine ⟨⟨path i j, (hpath i j hi hj).1, (hpath i j hi hj).2⟩, fun p hp => ?_⟩
  exact le_trans ((closed_shortest n E htri i j hi hj).2 p hp)
    (walkW_mono (Wf n E) (Wf n W) (fun v => v < n) (fun u v hu hv => hle u v hu hv) p i j hi hj hp)

theorem INF_32 : INF 32 = 1073741823 := by decide

theorem INF_16 : INF 16 = 16383 := by decide

theorem scenarioA_solution (i j : Nat) (hi : i < 3) (hj : j < 3) :
    IsShortest 3 (scenarioA_in 32) i j (scenarioA_out (i * 3 + j)) := by
  apply shortest_of_certificate 3 (scenarioA_in 32) scenarioA_out
    (fun i j => if i = 0 ∧ j = 2 then [1] else if i = 1 ∧ j = 0 then [2]
      else if i = 2 ∧ j = 1 then [0] else []) _ _ _ i j hi hj
  · intro i j hi hj
    interval_cases i <;> interval_cases j <;> decide
  · intro i k j hi hk hj
    interval_cases i <;> interval_cases k <;> interval_cases j <;> decide
  · intro i j hi hj
    interval_cases i <;> interval_cases j <;> decide

end QFW

namespace QFW

/-! ## Scenarios B and D -/

theorem scenarioD_valid (d0 d1 d2 d3 : Int) (h0 : 0 ≤ d0 ∧ d0 ≤ INF 16)
    (h1 : 0 ≤ d1 ∧ d1 ≤ INF 16) (h2 : 0 ≤ d2 ∧ d2 ≤ INF 16) (h3 : 0 ≤ d3 ∧ d3 ≤ INF 16) :
    ValidInput 16 4 (scenarioD_in 16 d0 d1 d2 d3) := by
  intro t ht
  rw [INF_16] at *
  have e : (4 : Nat) * 4 = 16 := rfl
  rw [e] at ht
  interval_cases t <;> simp [scenarioD_in, ofList, INF_16] <;> omega

theorem scenarioD_symm (d0 d1 d2 d3 : Int) :
    SymmetricInput 4 (scenarioD_in 16 d0 d1 d2 d3) := by
  intro i j hi hj
  interval_cases i <;> interval_cases j <;> rfl

theorem scenarioD_solution (d0 d1 d2 d3 : Int) (h0 : 0 ≤ d0) (h1 : 0 ≤ d1) (h2 : 0 ≤ d2)
    (h3 : 0 ≤ d3) (i j : Nat) (hi : i < 4) (hj : j < 4) :
    IsShortest 4 (scenarioD_in 16 d0 d1 d2 d3) i j (scenarioD_out d0 d1 d2 d3 (i * 4 + j)) := by
  apply shortest_of_certificate 4 (scenarioD_in 16 d0 d1 d2 d3) (scenarioD_out d0 d1 d2 d3)
    (fun i j =>
      if i = 0 ∧ j = 0 then (if d0 ≤ 2 then [] else [1])
      else if i = 1 ∧ j = 1 then (if d1 ≤ 2 then [] else [0])
      else if i = 2 ∧ j = 2 then (if d2 ≤ 4 then [] else [1])
      else if i = 3 ∧ j = 3 then (if d3 ≤ 8 then [] else [2])
      else if i = 0 ∧ j = 2 then [1] else if i = 0 ∧ j = 3 then [1, 2]
      else if i = 1 ∧ j = 3 then [2] else if i = 2 ∧ j = 0 then [1]
      else if i = 3 ∧ j = 0 then [2, 1] else if i = 3 ∧ j = 1 then [2] else []) _ _ _ i j hi hj
  · intro i j hi hj
    interval_cases i <;> interval_cases j <;>
      simp [scenarioD_in, scenarioD_out, ofList, INF_16]
  · intro i k j hi hk hj
    interval_cases i <;> interval_cases k <;> interval_cases j <;>
      simp [scenarioD_out, ofList] <;> omega
  · intro i j hi hj
    interval_cases i <;> interval_cases j <;>
      simp [scenarioD_in, scenarioD_out, ofList, INF_16, walkW, Wf] <;>
      first
        | omega
        | (split_ifs <;> simp [walkW, Wf, scenarioD_in, ofList] <;> omega)

end QFW

namespace QFW

/-! ## The path matrix -/

theorem pathInput_edge (w n : Nat) (perm : Nat → Nat) (hp : ∀ t, t < n → perm t < n)
    (hinj : ∀ s t, s < n → t < n → perm s = perm t → s = t) :
    (∀ s, s + 1 < n → pathInput w n perm (perm s * n + perm (s + 1)) = 1) ∧
    (∀ u v, u < n → v < n → (¬ ∃ s, s + 1 < n ∧ u = perm s ∧ v = perm (s + 1)) →
      pathInput w n perm (u * n + v) = INF w) := by
  obtain ⟨a1, a2⟩ := loop_store (n - 1) (fun i => perm i * n + perm (i + 1)) (fun _ => 1)
    (fun _ => INF w) (by
      intro j1 j2 h1 h2 he
      have := idx_inj n _ _ _ _ (hp (j1 + 1) (by omega)) (hp (j2 + 1) (by omega)) he
      exact hinj j1 j2 (by omega) (by omega) this.1)
  constructor
  · intro s hs
    exact a1 s (by omega)
  · intro u v hu hv hno
    apply a2
    intro j hj he
    have := idx_inj n _ _ _ _ (hp (j + 1) (by omega)) hv he
    exact hno ⟨j, by omega, this.1.symm, this.2.symm⟩

theorem pathInput_valid (w n : Nat) (perm : Nat → Nat) (hp : ∀ t, t < n → perm t < n)
    (hinj : ∀ s t, s < n → t < n → perm s = perm t → s = t) (h1 : 1 ≤ INF w) :
    ValidInput w n (pathInput w n perm) := by
  intro t ht
  obtain ⟨hi, hj, he⟩ := elem_split n t ht
  obtain ⟨a1, a2⟩ := pathInput_edge w n perm hp hinj
  by_cases h : ∃ s, s + 1 < n ∧ t / n = perm s ∧ t % n = perm (s + 1)
  · obtain ⟨s, hs, e1, e2⟩ := h
    rw [he, e1, e2, a1 s hs]
    exact ⟨by decide, h1⟩
  · rw [he, a2 _ _ hi hj h]
    exact ⟨by linarith, le_refl _⟩

theorem pathInput_step (w n : Nat) (perm : Nat → Nat) (hp : ∀ t, t < n → perm t < n)
    (hinj : ∀ s t, s < n → t < n → perm s = perm t → s = t) (s v : Nat) (hs : s < n)
    (hv : v < n) (h : pathInput w n perm (perm s * n + v) < INF w) :
    s + 1 < n ∧ v = perm (s + 1) ∧ pathInput w n perm (perm s * n + v) = 1 := by
  obtain ⟨a1, a2⟩ := pathInput_edge w n perm hp hinj
  by_cases hex : ∃ s2, s2 + 1 < n ∧ perm s = perm s2 ∧ v = perm (s2 + 1)
  · obtain ⟨s2, h2, e1, e2⟩ := hex
    have := hinj s s2 hs (by omega) e1
    subst this
    exact ⟨h2, e2, by rw [e2]; exact a1 s h2⟩
  · rw [a2 _ _ (hp s hs) hv hex] at h
    exact absurd h (lt_irrefl _)

/-- A walk over edges below `INF` follows the path. -/
theorem walk_on_path (w n : Nat) (perm : Nat → Nat) (hp : ∀ t, t < n → perm t < n)
    (hinj : ∀ s t, s < n → t < n → perm s = perm t → s = t) (p : List Nat) :
    ∀ s j, s < n → j < n → (∀ v, v ∈ p → v < n) →
      finiteWalk w n (pathInput w n perm) (perm s) p j →
      s + p.length + 1 < n ∧ j = perm (s + p.length + 1) ∧
        walkW (Wf n (pathInput w n perm)) (perm s) p j = ((p.length + 1 : Nat) : Int) := by
  induction p with
  | nil =>
    intro s j hs hj _ hf
    obtain ⟨b1, b2, b3⟩ := pathInput_step w n perm hp hinj s j hs hj hf
    exact ⟨b1, b2, by simp only [walkW, Wf, b3, List.length_nil, Nat.zero_add, Nat.cast_one]⟩
  | cons v p ih =>
    intro s j hs hj hv hf
    obtain ⟨f1, f2⟩ := hf
    have hvn := hv v (List.mem_cons_self _ _)
    obtain ⟨b1, b2, b3⟩ := pathInput_step w n perm hp hinj s v hs hvn f1
    rw [b2] at f2
    obtain ⟨c1, c2, c3⟩ := ih (s + 1) j b1 hj (fun u hu => hv u (List.mem_cons_of_mem _ hu)) f2
    have e : s + (v :: p).length + 1 = s + 1 + p.length + 1 := by
      simp only [List.length_cons]; omega
    refine ⟨by omega, by rw [e]; exact c2, ?_⟩
    simp only [walkW, Wf, b3]
    rw [b2]
    have c3b : walkW (Wf n (pathInput w n perm)) (perm (s + 1)) p j =
        ((p.length + 1 : Nat) : Int) := c3
    rw [c3b]
    simp only [List.length_cons]
    push_cast
    ring

theorem pathList_walk (w n : Nat) (perm : Nat → Nat) (hp : ∀ t, t < n → perm t < n)
    (hinj : ∀ s t, s < n → t < n → perm s = perm t → s = t) (m : Nat) :
    ∀ s, s + m + 1 < n → (∀ v, v ∈ pathList perm s m → v < n) ∧
      walkW (Wf n (pathInput w n perm)) (perm s) (pathList perm s m) (perm (s + m + 1)) =
        ((m + 1 : Nat) : Int) := by
  obtain ⟨a1, _⟩ := pathInput_edge w n perm hp hinj
  induction m with
  | zero =>
    intro s hs
    refine ⟨fun v hv => absurd hv (List.not_mem_nil v), ?_⟩
    simp only [pathList, walkW, Wf, Nat.add_zero, a1 s (by omega), Nat.zero_add, Nat.cast_one]
  | succ m ih =>
    intro s hs
    obtain ⟨c1, c2⟩ := ih (s + 1) (by omega)
    have e : s + (m + 1) + 1 = s + 1 + m + 1 := by omega
    constructor
    · intro v hv
      simp only [pathList, List.mem_cons] at hv
      rcases hv with h | h
      · rw [h]; exact hp _ (by omega)
      · exact c1 v h
    · simp only [pathList, walkW, Wf, a1 s (by omega)]
      rw [e]
      have c2b : walkW (Wf n (pathInput w n perm)) (perm (s + 1)) (pathList perm (s + 1) m)
          (perm (s + 1 + m + 1)) = ((m + 1 : Nat) : Int) := c2
      rw [c2b]
      push_cast
      ring

/-- Along the path the least walk weight is the number of edges. -/
theorem path_forward (w n : Nat) (perm : Nat → Nat) (hp : ∀ t, t < n → perm t < n)
    (hinj : ∀ s t, s < n → t < n → perm s = perm t → s = t) (hI : ((n - 1 : Nat) : Int) < INF w)
    (k : Nat) (hk1 : 1 ≤ k) (hk : k < n) (d : Int)
    (h : IsShortest n (pathInput w n perm) (perm 0) (perm k) d) : d = (k : Int) := by
  have hV := pathInput_valid w n perm hp hinj (by
    have : (0 : Int) ≤ ((n - 1 : Nat) : Int) := Int.natCast_nonneg _
    omega)
  obtain ⟨⟨p, a1, a2⟩, a3⟩ := h
  obtain ⟨c1, c2⟩ := pathList_walk w n perm hp hinj (k - 1) 0 (by omega)
  have e : 0 + (k - 1) + 1 = k := by omega
  rw [e] at c2
  have hle := a3 _ c1
  rw [c2] at hle
  have ek : ((k - 1 + 1 : Nat) : Int) = (k : Int) := by rw [Nat.sub_add_cancel hk1]
  rw [ek] at hle
  by_cases hf : finiteWalk w n (pathInput w n perm) (perm 0) p (perm k)
  · obtain ⟨b1, b2, b3⟩ := walk_on_path w n perm hp hinj p 0 (perm k) (by omega) (hp k hk) a1 hf
    have := hinj k (0 + p.length + 1) hk b1 b2
    rw [a2, b3, this]
    simp only [Nat.zero_add]
  · have := walk_ge_INF w n _ hV p (perm 0) (perm k) (hp 0 (by omega)) (hp k hk) a1 hf
    rw [← a2] at this
    have hkn : (k : Int) ≤ ((n - 1 : Nat) : Int) := by
      have : k ≤ n - 1 := by omega
      exact_mod_cast this
    omega

/-- Against the path there is no walk: the least walk weight is `INF`. -/
theorem path_backward (w n : Nat) (perm : Nat → Nat) (hp : ∀ t, t < n → perm t < n)
    (hinj : ∀ s t, s < n → t < n → perm s = perm t → s = t) (h1 : 1 ≤ INF w)
    (k : Nat) (hk : k < n) (d : Int)
    (h : IsShortest n (pathInput w n perm) (perm k) (perm 0) d) : d = INF w := by
  have hV := pathInput_valid w n perm hp hinj h1
  apply shortest_sentinel w n _ hV (perm k) (perm 0) d (hp k hk) (hp 0 (by omega)) h
  rintro ⟨p, a1, hf⟩
  obtain ⟨b1, b2, _⟩ := walk_on_path w n perm hp hinj p k (perm 0) hk (hp 0 (by omega)) a1 hf
  have := hinj 0 (k + p.length + 1) (by omega) b1 b2
  omega

end QFW

namespace QFW

/-! ## Exact result of a block update -/

theorem prodT_ge_sum (m : Mem) (a b c i k j : Nat) (hk : k < B) :
    m (b + (i * B + k)) + m (c + (k * B + j)) ≤ prodT m a b c i j :=
  le_trans (le_maxUpTo (B - 1) (fun k => m (b + (i * B + k)) + m (c + (k * B + j))) k (by omega))
    (le_max_right _ _)

/-- A sandwich: when the invariant `TargetOk` is admissible, the kernel shape stores
exactly the product `max(A, B ⊗ C)` of the values before the call. -/
theorem genKernel_exact (w L ti tk : Nat) (hw : 1 ≤ w) (hL : 0 < L) (hLB : L ∣ B) (hti : 0 < ti)
    (htiB : ti ∣ B) (htk : 0 < tk) (htkB : tk ∣ B) (m : Mem) (a b c : Nat) (P : Int → Prop)
    (H : KernelHyp w (TargetOk m a b c P) a b c)
    (hP : ∀ i j, i < B → j < B → P (m (a + (i * B + j)))) :
    (∀ i j, i < B → j < B → genKernel w L ti tk m a b c (a + (i * B + j)) = prodT m a b c i j) ∧
    ∀ addr, (addr < a ∨ a + B * B ≤ addr) → genKernel w L ti tk m a b c addr = m addr := by
  have hm : MemOk (TargetOk m a b c P) m := by
    intro addr
    refine ⟨fun i j hi hj he => ⟨?_, ?_⟩, fun _ => rfl⟩
    · rw [he]; exact hP i j hi hj
    · rw [he]; exact le_max_left _ _
  obtain ⟨k1, k2, k3⟩ := genKernel_spec w L ti tk hw hL hLB hti htiB htk htkB _ a b c H m hm
  refine ⟨fun i j hi hj => ?_, fun addr h => genKernel_frame w L ti tk hL hLB hti htiB htk htkB
    m a b c addr h⟩
  apply le_antisymm
  · exact ((k1 (a + (i * B + j))).1 i j hi hj rfl).2
  · apply max_le (k2 _)
    obtain ⟨k, hk, he⟩ := maxUpTo_mem (B - 1) (fun k => m (b + (i * B + k)) + m (c + (k * B + j)))
    rw [he]
    exact k3 i hi k (by simp only [B] at *; omega) j hj

theorem idxB_inj (i j i2 j2 : Nat) (hj : j < B) (hj2 : j2 < B) (a : Nat)
    (h : a + (i * B + j) = a + (i2 * B + j2)) : i = i2 ∧ j = j2 := by
  simp only [B] at *; omega

/-- The invariant is admissible when the block `a` is apart from `b` and `c`. -/
theorem KernelHyp_apart (w : Nat) (m : Mem) (a b c : Nat)
    (hab : a + B * B ≤ b ∨ b + B * B ≤ a) (hac : a + B * B ≤ c ∨ c + B * B ≤ a)
    (hrb : ∀ t, t < B * B → -(INF w) ≤ m (b + t) ∧ m (b + t) ≤ 0)
    (hrc : ∀ t, t < B * B → -(INF w) ≤ m (c + t) ∧ m (c + t) ≤ 0) :
    KernelHyp w (TargetOk m a b c (fun _ => True)) a b c := by
  refine ⟨?_, ?_, ?_⟩
  · intro t ht v hv
    rw [hv.2 (by omega)]; exact hrb t ht
  · intro t ht v hv
    rw [hv.2 (by omega)]; exact hrc t ht
  · intro i k j hi hk hj x y z hx hy _ _
    have e1 : x = m (b + (i * B + k)) := hx.2 (by simp only [B] at *; omega)
    have e2 : y = m (c + (k * B + j)) := hy.2 (by simp only [B] at *; omega)
    refine ⟨fun i2 j2 hi2 hj2 he => ⟨trivial, ?_⟩, fun h => ?_⟩
    · obtain ⟨e3, e4⟩ := idxB_inj i j i2 j2 hj hj2 a he
      rw [← e3, ← e4, e1, e2]
      exact prodT_ge_sum m a b c i k j hk
    · exfalso; simp only [B] at *; omega

/-- The block at `a + .` of `m` has its elements in `[-INF, 0]`; then so has the
product. -/
theorem prodT_nonpos (w : Nat) (m : Mem) (a b c i j : Nat) (hi : i < B) (hj : j < B)
    (hra : ∀ t, t < B * B → -(INF w) ≤ m (a + t) ∧ m (a + t) ≤ 0)
    (hrb : ∀ t, t < B * B → -(INF w) ≤ m (b + t) ∧ m (b + t) ≤ 0)
    (hrc : ∀ t, t < B * B → -(INF w) ≤ m (c + t) ∧ m (c + t) ≤ 0) :
    prodT m a b c i j ≤ 0 := by
  apply max_le (hra _ (by simp only [B] at *; omega)).2
  obtain ⟨k, hk, he⟩ := maxUpTo_mem (B - 1) (fun k => m (b + (i * B + k)) + m (c + (k * B + j)))
  rw [he]
  have h1 := (hrb (i * B + k) (by simp only [B] at *; omega)).2
  have h2 := (hrc (k * B + j) (by simp only [B] at *; omega)).2
  show m (b + (i * B + k)) + m (c + (k * B + j)) ≤ 0
  linarith

end QFW

namespace QFW

/-! ## The serial loop on an aliased accumulator -/

theorem prod_left_closed (m : Mem) (pA pX : Nat)
    (hcl : ∀ i k j, i < B → k < B → j < B →
      m (pX + (i * B + k)) + m (pX + (k * B + j)) ≤ m (pX + (i * B + j)))
    (i k j : Nat) (hi : i < B) (hk : k < B) (hj : j < B) :
    m (pX + (i * B + k)) + prodT m pA pX pA k j ≤ prodT m pA pX pA i j := by
  have h : prodT m pA pX pA k j ≤ prodT m pA pX pA i j - m (pX + (i * B + k)) := by
    apply max_le
    · have := prodT_ge_sum m pA pX pA i k j hk
      linarith
    · obtain ⟨k2, hk2, he⟩ := maxUpTo_mem (B - 1)
        (fun k2 => m (pX + (k * B + k2)) + m (pA + (k2 * B + j)))
      rw [he]
      have hk2B : k2 < B := by simp only [B] at *; omega
      have h1 := hcl i k k2 hi hk hk2B
      have h2 := prodT_ge_sum m pA pX pA i k2 j hk2B
      show m (pX + (k * B + k2)) + m (pA + (k2 * B + j)) ≤ _
      linarith
  linarith

theorem prod_right_closed (m : Mem) (pA pX : Nat)
    (hcl : ∀ i k j, i < B → k < B → j < B →
      m (pX + (i * B + k)) + m (pX + (k * B + j)) ≤ m (pX + (i * B + j)))
    (i k j : Nat) (hi : i < B) (hk : k < B) (hj : j < B) :
    prodT m pA pA pX i k + m (pX + (k * B + j)) ≤ prodT m pA pA pX i j := by
  have h : prodT m pA pA pX i k ≤ prodT m pA pA pX i j - m (pX + (k * B + j)) := by
    apply max_le
    · have := prodT_ge_sum m pA pA pX i k j hk
      linarith
    · obtain ⟨k2, hk2, he⟩ := maxUpTo_mem (B - 1)
        (fun k2 => m (pA + (i * B + k2)) + m (pX + (k2 * B + k)))
      rw [he]
      have hk2B : k2 < B := by simp only [B] at *; omega
      have h1 := hcl k2 k j hk2B hk hj
      have h2 := prodT_ge_sum m pA pA pX i k2 j hk2B
      show m (pA + (i * B + k2)) + m (pX + (k2 * B + k)) ≤ _
      linarith
  linarith

theorem block_elem (w : Nat) (m : Mem) (a : Nat) (P : Int → Prop) (b c : Nat) (t : Nat)
    (ht : t < B * B) (v : Int) (hv : TargetOk m a b c P (a + t) v) :
    P v ∧ v ≤ prodT m a b c (t / B) (t % B) := by
  have hx : t / B < B := by simp only [B] at *; omega
  have hy : t % B < B := by simp only [B] at *; omega
  have e : t = (t / B) * B + t % B := by simp only [B]; omega
  exact hv.1 (t / B) (t % B) hx hy (by rw [← e])

/-- The invariant is admissible for `FWI(A, X, A)` when `X` is max-plus closed. -/
theorem KernelHyp_alias_c (w : Nat) (m : Mem) (pA pX : Nat)
    (hd : pA + B * B ≤ pX ∨ pX + B * B ≤ pA)
    (hrA : ∀ t, t < B * B → -(INF w) ≤ m (pA + t) ∧ m (pA + t) ≤ 0)
    (hrX : ∀ t, t < B * B → -(INF w) ≤ m (pX + t) ∧ m (pX + t) ≤ 0)
    (hcl : ∀ i k j, i < B → k < B → j < B →
      m (pX + (i * B + k)) + m (pX + (k * B + j)) ≤ m (pX + (i * B + j))) :
    KernelHyp w (TargetOk m pA pX pA (fun v => -(INF w) ≤ v)) pA pX pA := by
  refine ⟨?_, ?_, ?_⟩
  · intro t ht v hv
    rw [hv.2 (by omega)]; exact hrX t ht
  · intro t ht v hv
    obtain ⟨h1, h2⟩ := block_elem w m pA _ pX pA t ht v hv
    exact ⟨h1, le_trans h2 (prodT_nonpos w m pA pX pA _ _ (by simp only [B] at *; omega)
      (by simp only [B] at *; omega) hrA hrX hrA)⟩
  · intro i k j hi hk hj x y z hx hy hz hlt
    have e1 : x = m (pX + (i * B + k)) := hx.2 (by simp only [B] at *; omega)
    obtain ⟨_, y2⟩ := hy.1 k j hk hj rfl
    obtain ⟨z1, _⟩ := hz.1 i j hi hj rfl
    refine ⟨fun i2 j2 hi2 hj2 he => ⟨by linarith, ?_⟩, fun h => ?_⟩
    · obtain ⟨e3, e4⟩ := idxB_inj i j i2 j2 hj hj2 pA he
      rw [← e3, ← e4, e1]
      exact le_trans (by linarith) (prod_left_closed m pA pX hcl i k j hi hk hj)
    · exfalso; simp only [B] at *; omega

/-- The invariant is admissible for `FWI(A, A, X)` when `X` is max-plus closed. -/
theorem KernelHyp_alias_b (w : Nat) (m : Mem) (pA pX : Nat)
    (hd : pA + B * B ≤ pX ∨ pX + B * B ≤ pA)
    (hrA : ∀ t, t < B * B → -(INF w) ≤ m (pA + t) ∧ m (pA + t) ≤ 0)
    (hrX : ∀ t, t < B * B → -(INF w) ≤ m (pX + t) ∧ m (pX + t) ≤ 0)
    (hcl : ∀ i k j, i < B → k < B → j < B →
      m (pX + (i * B + k)) + m (pX + (k * B + j)) ≤ m (pX + (i * B + j))) :
    KernelHyp w (TargetOk m pA pA pX (fun v => -(INF w) ≤ v)) pA pA pX := by
  refine ⟨?_, ?_, ?_⟩
  · intro t ht v hv
    obtain ⟨h1, h2⟩ := block_elem w m pA _ pA pX t ht v hv
    exact ⟨h1, le_trans h2 (prodT_nonpos w m pA pA pX _ _ (by simp only [B] at *; omega)
      (by simp only [B] at *; omega) hrA hrA hrX)⟩
  · intro t ht v hv
    rw [hv.2 (by omega)]; exact hrX t ht
  · intro i k j hi hk hj x y z hx hy hz hlt
    have e2 : y = m (pX + (k * B + j)) := hy.2 (by simp only [B] at *; omega)
    obtain ⟨_, x2⟩ := hx.1 i k hi hk rfl
    obtain ⟨z1, _⟩ := hz.1 i j hi hj rfl
    refine ⟨fun i2 j2 hi2 hj2 he => ⟨by linarith, ?_⟩, fun h => ?_⟩
    · obtain ⟨e3, e4⟩ := idxB_inj i j i2 j2 hj hj2 pA he
      rw [← e3, ← e4, e2]
      exact le_trans (by linarith) (prod_right_closed m pA pX hcl i k j hi hk hj)
    · exfalso; simp only [B] at *; omega

end QFW

namespace QFW

/-! ## `reorder`: what a returning call has checked, and the size of the layout -/

theorem bind_some_inv {α β : Type} (x : Option α) (f : α → Option β) (q : β)
    (h : x.bind f = some q) : ∃ a, x = some a ∧ f a = some q := by
  cases x with
  | none => simp at h
  | some a => exact ⟨a, rfl, h⟩

theorem reorder_some_h1 (w n P dst : Nat) (st : RState) (r0 c0 : Nat) (rev : Bool)
    (q : Nat × RState) (h : reorder w n P dst st r0 c0 rev = some q) : intOK (n + B - 1) := by
  rw [reorder] at h
  by_contra h1
  simp only [h1, not_false_eq_true, if_true] at h
  exact absurd h (by simp)

/-- A call of `reorder` that returns has evaluated no overflowing `int` expression in
any block of its square. -/
theorem reorder_some_intOK (w n : Nat) (rev : Bool) :
    ∀ e dst st r0 c0 q, reorder w n (2 ^ e) dst st r0 c0 rev = some q →
      ∀ r c, InSq ((n + B - 1) / B) e r0 c0 r c → reorderIntOK n r c := by
  intro e
  induction e with
  | zero =>
    intro dst st r0 c0 q h r c hin
    have h1 := reorder_some_h1 w n _ dst st r0 c0 rev q h
    simp only [InSq, pow_zero] at hin
    have hr : r = r0 := by omega
    have hc : c = c0 := by omega
    subst hr; subst hc
    by_contra h2
    rw [pow_zero, reorder] at h
    simp only [h1, not_true_eq_false, if_false] at h
    rw [if_neg (by omega)] at h
    simp only [if_true, h2, not_false_eq_true] at h
    exact absurd h (by simp)
  | succ e ih =>
    intro dst st r0 c0 q h r c hin
    have h1 := reorder_some_h1 w n _ dst st r0 c0 rev q h
    have hr0 : r0 < (n + B - 1) / B := by simp only [InSq] at hin; omega
    have hc0 : c0 < (n + B - 1) / B := by simp only [InSq] at hin; omega
    rw [reorder_rec w n _ dst st r0 c0 rev h1 hr0 hc0 (two_le_pow e), half_pow] at h
    obtain ⟨q3, h3, h4⟩ := bind_some_inv _ _ _ h
    obtain ⟨q2, h2, h3b⟩ := bind_some_inv _ _ _ h3
    obtain ⟨q1, h1b, h2b⟩ := bind_some_inv _ _ _ h2
    rcases (InSq_succ _ e r0 c0 r c).mp hin with a | a | a | a
    · exact ih dst st r0 c0 q1 h1b r c a
    · exact ih _ _ _ _ q2 h2b r c a
    · exact ih _ _ _ _ q3 h3b r c a
    · exact ih _ _ _ _ q h4 r c a

/-- Number of blocks of the grid in a square: rows times columns. -/
theorem cnt_eq (G : Nat) : ∀ e r0 c0,
    cnt G e r0 c0 = (min (r0 + 2 ^ e) G - r0) * (min (c0 + 2 ^ e) G - c0) := by
  intro e
  induction e with
  | zero =>
    intro r0 c0
    simp only [cnt, pow_zero]
    by_cases h : r0 < G ∧ c0 < G
    · rw [if_pos h]
      have e1 : min (r0 + 1) G - r0 = 1 := by rw [Nat.min_def]; split <;> omega
      have e2 : min (c0 + 1) G - c0 = 1 := by rw [Nat.min_def]; split <;> omega
      rw [e1, e2]
    · rw [if_neg h]
      rcases Nat.lt_or_ge r0 G with h1 | h1
      · have e2 : min (c0 + 1) G - c0 = 0 := by rw [Nat.min_def]; split <;> omega
        rw [e2, Nat.mul_zero]
      · have e1 : min (r0 + 1) G - r0 = 0 := by rw [Nat.min_def]; split <;> omega
        rw [e1, Nat.zero_mul]
  | succ e ih =>
    intro r0 c0
    simp only [cnt]
    rw [ih r0 c0, ih r0 (c0 + 2 ^ e), ih (r0 + 2 ^ e) c0, ih (r0 + 2 ^ e) (c0 + 2 ^ e)]
    have er : min (r0 + 2 ^ (e + 1)) G - r0 =
        (min (r0 + 2 ^ e) G - r0) + (min (r0 + 2 ^ e + 2 ^ e) G - (r0 + 2 ^ e)) := by
      rw [pow_succ]
      simp only [Nat.min_def]
      split <;> split <;> split <;> omega
    have ec : min (c0 + 2 ^ (e + 1)) G - c0 =
        (min (c0 + 2 ^ e) G - c0) + (min (c0 + 2 ^ e + 2 ^ e) G - (c0 + 2 ^ e)) := by
      rw [pow_succ]
      simp only [Nat.min_def]
      split <;> split <;> split <;> omega
    rw [er, ec]
    ring

theorem cnt_top (G e : Nat) (hG : G ≤ 2 ^ e) : cnt G e 0 0 = G * G := by
  rw [cnt_eq]
  simp only [Nat.zero_add, Nat.sub_zero, Nat.min_eq_right hG]

theorem cnt_full (G e r0 c0 : Nat) (hr : r0 + 2 ^ e ≤ G) (hc : c0 + 2 ^ e ≤ G) :
    cnt G e r0 c0 = 4 ^ e := by
  rw [cnt_eq, Nat.min_eq_left hr, Nat.min_eq_left hc, Nat.add_sub_cancel_left,
    Nat.add_sub_cancel_left, ← Nat.mul_pow]

end QFW

namespace QFW

/-! ## The layout of `reorder` is the Z-order -/

theorem bit_low (p x : Nat) (hx : x < p) : x / p % 2 = 0 := by
  rw [Nat.div_eq_of_lt hx]

theorem bit_high (p x : Nat) (h1 : p ≤ x) (h2 : x < 2 * p) : x / p % 2 = 1 := by
  have : x / p = 1 := Nat.div_eq_of_lt_le (by omega) (by omega)
  rw [this]

theorem zcode_shift_r : ∀ e r c q, zcode e (r + 2 ^ e * q) c = zcode e r c := by
  intro e
  induction e with
  | zero => intro r c q; rfl
  | succ e ih =>
    intro r c q
    have hp := Nat.two_pow_pos e
    have e1 : r + 2 ^ (e + 1) * q = r + 2 ^ e * (2 * q) := by rw [pow_succ]; ring
    simp only [zcode]
    rw [e1, ih r c (2 * q), Nat.add_mul_div_left _ _ hp]
    have : (r / 2 ^ e + 2 * q) % 2 = r / 2 ^ e % 2 := by omega
    rw [this]

theorem zcode_shift_c : ∀ e r c q, zcode e r (c + 2 ^ e * q) = zcode e r c := by
  intro e
  induction e with
  | zero => intro r c q; rfl
  | succ e ih =>
    intro r c q
    have hp := Nat.two_pow_pos e
    have e1 : c + 2 ^ (e + 1) * q = c + 2 ^ e * (2 * q) := by rw [pow_succ]; ring
    simp only [zcode]
    rw [e1, ih r c (2 * q), Nat.add_mul_div_left _ _ hp]
    have : (c / 2 ^ e + 2 * q) % 2 = c / 2 ^ e % 2 := by omega
    rw [this]

theorem zcode_lt : ∀ e r c, zcode e r c < 4 ^ e := by
  intro e
  induction e with
  | zero => intro r c; simp [zcode]
  | succ e ih =>
    intro r c
    have h := ih r c
    have h1 : 2 * (r / 2 ^ e % 2) + c / 2 ^ e % 2 ≤ 3 := by omega
    have h2 := Nat.mul_le_mul_left (4 ^ e) h1
    simp only [zcode, pow_succ]
    omega

/-- The code of a block of the square of side `2 ^ (e + 1)`: the quadrant, then the code
inside the quadrant. -/
theorem zcode_quad (e x y : Nat) (hx : x < 2 * 2 ^ e) (hy : y < 2 * 2 ^ e) :
    (x < 2 ^ e ∧ y < 2 ^ e ∧ zcode (e + 1) x y = zcode e x y) ∨
    (x < 2 ^ e ∧ 2 ^ e ≤ y ∧ zcode (e + 1) x y = 4 ^ e + zcode e x (y - 2 ^ e)) ∨
    (2 ^ e ≤ x ∧ y < 2 ^ e ∧ zcode (e + 1) x y = 2 * 4 ^ e + zcode e (x - 2 ^ e) y) ∨
    (2 ^ e ≤ x ∧ 2 ^ e ≤ y ∧ zcode (e + 1) x y = 3 * 4 ^ e + zcode e (x - 2 ^ e) (y - 2 ^ e)) := by
  have sx : 2 ^ e ≤ x → zcode e x y = zcode e (x - 2 ^ e) y := by
    intro h
    have := zcode_shift_r e (x - 2 ^ e) y 1
    rw [Nat.mul_one, Nat.sub_add_cancel h] at this
    exact this
  have sy : ∀ x2, 2 ^ e ≤ y → zcode e x2 y = zcode e x2 (y - 2 ^ e) := by
    intro x2 h
    have := zcode_shift_c e x2 (y - 2 ^ e) 1
    rw [Nat.mul_one, Nat.sub_add_cancel h] at this
    exact this
  simp only [zcode]
  rcases Nat.lt_or_ge x (2 ^ e) with h1 | h1 <;> rcases Nat.lt_or_ge y (2 ^ e) with h2 | h2
  · left
    rw [bit_low _ _ h1, bit_low _ _ h2]
    exact ⟨h1, h2, by simp⟩
  · right; left
    rw [bit_low _ _ h1, bit_high _ _ h2 hy, sy x h2]
    exact ⟨h1, h2, by ring⟩
  · right; right; left
    rw [bit_high _ _ h1 hx, bit_low _ _ h2, sx h1]
    exact ⟨h1, h2, by ring⟩
  · right; right; right
    rw [bit_high _ _ h1 hx, bit_high _ _ h2 hy, sx h1, sy _ h2]
    exact ⟨h1, h2, by ring⟩

end QFW

namespace QFW

/-- A block of a square of side `2 ^ (e + 1)`: its quadrant, its position and its code. -/
theorem quad4 (G e r0 c0 r c : Nat) (h : InSq G (e + 1) r0 c0 r c) :
    (InSq G e r0 c0 r c ∧ rank G (e + 1) r0 c0 r c = rank G e r0 c0 r c ∧
      zcode (e + 1) (r - r0) (c - c0) = zcode e (r - r0) (c - c0)) ∨
    (InSq G e r0 (c0 + 2 ^ e) r c ∧
      rank G (e + 1) r0 c0 r c = cnt G e r0 c0 + rank G e r0 (c0 + 2 ^ e) r c ∧
      zcode (e + 1) (r - r0) (c - c0) = 4 ^ e + zcode e (r - r0) (c - (c0 + 2 ^ e))) ∨
    (InSq G e (r0 + 2 ^ e) c0 r c ∧ rank G (e + 1) r0 c0 r c =
      cnt G e r0 c0 + cnt G e r0 (c0 + 2 ^ e) + rank G e (r0 + 2 ^ e) c0 r c ∧
      zcode (e + 1) (r - r0) (c - c0) = 2 * 4 ^ e + zcode e (r - (r0 + 2 ^ e)) (c - c0)) ∨
    (InSq G e (r0 + 2 ^ e) (c0 + 2 ^ e) r c ∧ rank G (e + 1) r0 c0 r c =
      cnt G e r0 c0 + cnt G e r0 (c0 + 2 ^ e) + cnt G e (r0 + 2 ^ e) c0 +
        rank G e (r0 + 2 ^ e) (c0 + 2 ^ e) r c ∧
      zcode (e + 1) (r - r0) (c - c0) =
        3 * 4 ^ e + zcode e (r - (r0 + 2 ^ e)) (c - (c0 + 2 ^ e))) := by
  have hp := Nat.two_pow_pos e
  have b1 : r - r0 < 2 * 2 ^ e ∧ c - c0 < 2 * 2 ^ e := by
    simp only [InSq, pow_succ] at h; omega
  have s1 : r - (r0 + 2 ^ e) = r - r0 - 2 ^ e := by omega
  have s2 : c - (c0 + 2 ^ e) = c - c0 - 2 ^ e := by omega
  rw [s1, s2]
  rcases rank_succ G e r0 c0 r c h with ⟨a, ea⟩ | ⟨a, ea⟩ | ⟨a, ea⟩ | ⟨a, ea⟩
  · rcases zcode_quad e (r - r0) (c - c0) b1.1 b1.2 with
      ⟨x1, y1, z1⟩ | ⟨x1, y1, z1⟩ | ⟨x1, y1, z1⟩ | ⟨x1, y1, z1⟩
    · exact Or.inl ⟨a, ea, z1⟩
    all_goals (exfalso; simp only [InSq] at a; omega)
  · rcases zcode_quad e (r - r0) (c - c0) b1.1 b1.2 with
      ⟨x1, y1, z1⟩ | ⟨x1, y1, z1⟩ | ⟨x1, y1, z1⟩ | ⟨x1, y1, z1⟩
    · exfalso; simp only [InSq] at a; omega
    · exact Or.inr (Or.inl ⟨a, ea, z1⟩)
    all_goals (exfalso; simp only [InSq] at a; omega)
  · rcases zcode_quad e (r - r0) (c - c0) b1.1 b1.2 with
      ⟨x1, y1, z1⟩ | ⟨x1, y1, z1⟩ | ⟨x1, y1, z1⟩ | ⟨x1, y1, z1⟩
    · exfalso; simp only [InSq] at a; omega
    · exfalso; simp only [InSq] at a; omega
    · exact Or.inr (Or.inr (Or.inl ⟨a, ea, z1⟩))
    · exfalso; simp only [InSq] at a; omega
  · rcases zcode_quad e (r - r0) (c - c0) b1.1 b1.2 with
      ⟨x1, y1, z1⟩ | ⟨x1, y1, z1⟩ | ⟨x1, y1, z1⟩ | ⟨x1, y1, z1⟩
    · exfalso; simp only [InSq] at a; omega
    · exfalso; simp only [InSq] at a; omega
    · exfalso; simp only [InSq] at a; omega
    · exact Or.inr (Or.inr (Or.inr ⟨a, ea, z1⟩))

/-- In the order of `reorder` a block with the smaller Z-order code comes first. -/
theorem rank_mono_z (G : Nat) : ∀ e r0 c0 r c r2 c2, InSq G e r0 c0 r c → InSq G e r0 c0 r2 c2 →
    zcode e (r - r0) (c - c0) < zcode e (r2 - r0) (c2 - c0) →
    rank G e r0 c0 r c < rank G e r0 c0 r2 c2 := by
  intro e
  induction e with
  | zero =>
    intro r0 c0 r c r2 c2 _ _ h
    simp [zcode] at h
  | succ e ih =>
    intro r0 c0 r c r2 c2 h1 h2 hz
    have l1 := rank_lt G e
    have zl := zcode_lt e
    rcases quad4 G e r0 c0 r c h1 with ⟨a, ea, z1⟩ | ⟨a, ea, z1⟩ | ⟨a, ea, z1⟩ | ⟨a, ea, z1⟩ <;>
      rcases quad4 G e r0 c0 r2 c2 h2 with
        ⟨b, eb, z2⟩ | ⟨b, eb, z2⟩ | ⟨b, eb, z2⟩ | ⟨b, eb, z2⟩ <;>
      rw [ea, eb] <;> rw [z1, z2] at hz <;>
      first
        | (have q1 := ih _ _ _ _ _ _ a b (by omega); omega)
        | (have q1 := l1 _ _ _ _ a; have q2 := l1 _ _ _ _ b; have q3 := zl (r - r0) (c - c0)
           have q4 := zl (r2 - r0) (c2 - c0)
           have q5 := zl (r - r0) (c - (c0 + 2 ^ e))
           have q6 := zl (r2 - r0) (c2 - (c0 + 2 ^ e))
           have q7 := zl (r - (r0 + 2 ^ e)) (c - c0)
           have q8 := zl (r2 - (r0 + 2 ^ e)) (c2 - c0)
           have q9 := zl (r - (r0 + 2 ^ e)) (c - (c0 + 2 ^ e))
           have q10 := zl (r2 - (r0 + 2 ^ e)) (c2 - (c0 + 2 ^ e)); omega)

/-- In a square that lies inside the grid the position of a block is its Z-order code. -/
theorem rank_full (G : Nat) : ∀ e r0 c0 r c, r0 + 2 ^ e ≤ G → c0 + 2 ^ e ≤ G →
    InSq G e r0 c0 r c → rank G e r0 c0 r c = zcode e (r - r0) (c - c0) := by
  intro e
  induction e with
  | zero => intro r0 c0 r c _ _ _; rfl
  | succ e ih =>
    intro r0 c0 r c hr hc h
    have hp := Nat.two_pow_pos e
    have e2 : 2 ^ (e + 1) = 2 * 2 ^ e := by rw [pow_succ]; ring
    rw [e2] at hr hc
    have c00 := cnt_full G e r0 c0 (by omega) (by omega)
    have c01 := cnt_full G e r0 (c0 + 2 ^ e) (by omega) (by omega)
    have c10 := cnt_full G e (r0 + 2 ^ e) c0 (by omega) (by omega)
    rcases quad4 G e r0 c0 r c h with ⟨a, ea, z1⟩ | ⟨a, ea, z1⟩ | ⟨a, ea, z1⟩ | ⟨a, ea, z1⟩ <;>
      rw [ea, z1]
    · exact ih r0 c0 r c (by omega) (by omega) a
    · rw [ih r0 (c0 + 2 ^ e) r c (by omega) (by omega) a, c00]
    · rw [ih (r0 + 2 ^ e) c0 r c (by omega) (by omega) a, c00, c01]; ring
    · rw [ih (r0 + 2 ^ e) (c0 + 2 ^ e) r c (by omega) (by omega) a, c00, c01, c10]; ring

theorem zorder4_rank : ∀ t, t < 16 →
    rank 4 2 0 0 (zorder4.getD t (0, 0)).1 (zorder4.getD t (0, 0)).2 = t ∧
    zcode 2 (zorder4.getD t (0, 0)).1 (zorder4.getD t (0, 0)).2 = t := by
  intro t ht
  interval_cases t <;> decide

end QFW

namespace QFW

/-! ## The doubling loop of `run` -/

theorem n_blocks_power2_loop_fix (n p : Nat) (h : ¬ (p * B < n)) :
    ∀ fuel, n_blocks_power2_loop n fuel p = p := by
  intro fuel
  cases fuel with
  | zero => rfl
  | succ f => simp only [n_blocks_power2_loop, if_neg h]

/-- Once the loop has left by its condition, more iterations change nothing. -/
theorem n_blocks_power2_loop_stable (n : Nat) : ∀ fuel p,
    ¬ (n_blocks_power2_loop n fuel p * B < n) →
    ∀ k, n_blocks_power2_loop n (fuel + k) p = n_blocks_power2_loop n fuel p := by
  intro fuel
  induction fuel with
  | zero =>
    intro p h k
    simp only [n_blocks_power2_loop] at h
    rw [Nat.zero_add, n_blocks_power2_loop_fix n p h k]
    rfl
  | succ f ih =>
    intro p h k
    have e : f + 1 + k = (f + k) + 1 := by omega
    rw [e]
    simp only [n_blocks_power2_loop] at *
    by_cases h2 : p * B < n
    · simp only [if_pos h2] at h ⊢
      exact ih (p * 2) h k
    · simp only [if_neg h2]

/-- The loop keeps "the scale is `1` or half of it is too small". -/
theorem n_blocks_power2_loop_min (n : Nat) : ∀ fuel p, (p = 1 ∨ (p / 2) * B < n) →
    (n_blocks_power2_loop n fuel p = 1 ∨ (n_blocks_power2_loop n fuel p / 2) * B < n) := by
  intro fuel
  induction fuel with
  | zero => intro p h; exact h
  | succ f ih =>
    intro p h
    simp only [n_blocks_power2_loop]
    by_cases h2 : p * B < n
    · rw [if_pos h2]
      exact ih (p * 2) (Or.inr (by rw [Nat.mul_div_cancel _ (by decide : 0 < 2)]; exact h2))
    · rw [if_neg h2]; exact h

/-- The grid scale that `run` computes. -/
theorem grid_scale (n : Nat) (hn1 : 1 ≤ n) (hn : n ≤ 65535) :
    ∃ e, n_blocks_power2_loop n n 1 = 2 ^ e ∧
      (∀ k, n_blocks_power2_loop n (n + k) 1 = 2 ^ e) ∧
      n ≤ 2 ^ e * B ∧ (2 ^ e = 1 ∨ (2 ^ e / 2) * B < n) ∧
      (n + 63) / 64 ≤ 2 ^ e ∧ 2 ^ e ≤ 1024 := by
  obtain ⟨e, he, hG⟩ := n_blocks_power2_spec n
  have hex := n_blocks_power2_loop_exit n n 1 (le_refl _) (by omega)
  have hst := n_blocks_power2_loop_stable n n 1 hex
  have hmin := n_blocks_power2_loop_min n n 1 (Or.inl rfl)
  rw [he] at hex hmin
  have he10 : e ≤ 10 := by
    by_contra hc
    have h11 : 11 ≤ e := by omega
    have h2 : 2 ^ 11 ≤ 2 ^ e := Nat.pow_le_pow_right (by decide) h11
    have h3 : (2 : Nat) ^ 11 = 2048 := by decide
    rcases hmin with h | h
    · omega
    · simp only [B] at h; omega
  have hP : 2 ^ e ≤ 2 ^ 10 := Nat.pow_le_pow_right (by decide) he10
  refine ⟨e, he, fun k => by rw [hst k, he], by omega, hmin, ?_, by
    have : (2 : Nat) ^ 10 = 1024 := by decide
    omega⟩
  simp only [B] at hG
  omega

end QFW

namespace QFW

/-! ## The checked kernels never fail -/

theorem loopM_inv {σ : Type} (P : σ → Prop) (n : Nat) (f : Nat → σ → Option σ)
    (g : Nat → σ → σ) (h : ∀ t, t < n → ∀ s, P s → f t s = some (g t s) ∧ P (g t s))
    (s : σ) (hs : P s) : loopM n f s = some (loop n g s) ∧ P (loop n g s) := by
  induction n with
  | zero => exact ⟨rfl, hs⟩
  | succ k ih =>
    obtain ⟨e1, p1⟩ := ih (fun t ht => h t (Nat.lt_succ_of_lt ht))
    obtain ⟨e2, p2⟩ := h k (Nat.lt_succ_self k) _ p1
    simp only [loopM, loop]
    rw [e1, Option.some_bind]
    exact ⟨e2, p2⟩

theorem forStepM_inv {σ : Type} (P : σ → Prop) (n step : Nat) (f : Nat → σ → Option σ)
    (g : Nat → σ → σ) (hstep : 0 < step) (hdvd : step ∣ n)
    (h : ∀ t, t * step < n → ∀ s, P s →
      f (t * step) s = some (g (t * step) s) ∧ P (g (t * step) s))
    (s : σ) (hs : P s) :
    forStepM n step f s = some (forStep n step g s) ∧ P (forStep n step g s) := by
  unfold forStepM forStep
  apply loopM_inv P _ _ _ _ s hs
  intro t ht s2 hs2
  apply h t _ s2 hs2
  rw [forStep_count n step hstep hdvd] at ht
  obtain ⟨q, rfl⟩ := hdvd
  rw [Nat.mul_div_cancel_left _ hstep] at ht
  calc t * step < q * step := Nat.mul_lt_mul_of_pos_right ht hstep
    _ = step * q := Nat.mul_comm _ _

theorem tile_le (n step t : Nat) (hstep : 0 < step) (hdvd : step ∣ n) (ht : t * step < n) :
    t * step + step ≤ n := by
  have := tile_bound n step t (step - 1) hdvd ht (by omega)
  omega

theorem genJC_some (w L ti tk : Nat) (Ok : Nat → Int → Prop) (a b c : Nat)
    (H : KernelHyp w Ok a b c) (i k j : Nat) (hi : i + ti ≤ B) (hk : k + tk ≤ B)
    (hj : j + L ≤ B) (coef : Nat → Nat → Int) (m : Mem) (hm : MemOk Ok m)
    (hcoef : ∀ r, r < ti → ∀ s, s < tk → Ok (b + ((i + r) * B + (k + s))) (coef r s)) :
    genJC w L ti tk a c i k coef j m = some (genJ w L ti tk a c i k coef j m) := by
  unfold genJC
  rw [if_pos]
  intro r hr s hs
  constructor
  · exact H.rb ((i + r) * B + (k + s)) (by simp only [B] at *; omega) _ (hcoef r hr s hs)
  · intro l hl
    have e : c + ((k + s) * B + j) + l = c + ((k + s) * B + j + l) := by omega
    rw [e]
    exact H.rc ((k + s) * B + j + l) (by simp only [B] at *; omega) _ (hm _)

theorem genIC_some (w L ti tk : Nat) (hw : 1 ≤ w) (hL : 0 < L) (hLB : L ∣ B) (htk : 0 < tk)
    (Ok : Nat → Int → Prop) (a b c : Nat) (H : KernelHyp w Ok a b c) (i k : Nat)
    (hi : i + ti ≤ B) (hk : k + tk ≤ B) (m : Mem) (hm : MemOk Ok m) :
    genIC w L ti tk a b c k i m = some (genI w L ti tk a b c k i m) := by
  unfold genIC genI
  refine (forStepM_inv (MemOk Ok) B L _ _ hL hLB ?_ m hm).1
  intro t ht m2 hm2
  have hjL := tile_le B L t hL hLB ht
  exact ⟨genJC_some w L ti tk Ok a b c H i k (t * L) hi hk hjL _ m2 hm2 (fun r _ s _ => hm _),
    (genJ_spec w L ti tk hw htk Ok a b c H i k (t * L) hi hk hjL _ m2 hm2
      (fun r _ s _ => hm _)).1⟩

theorem genKC_some (w L ti tk : Nat) (hw : 1 ≤ w) (hL : 0 < L) (hLB : L ∣ B) (hti : 0 < ti)
    (htiB : ti ∣ B) (htk : 0 < tk) (Ok : Nat → Int → Prop) (a b c : Nat)
    (H : KernelHyp w Ok a b c) (k : Nat) (hk : k + tk ≤ B) (m : Mem) (hm : MemOk Ok m) :
    genKC w L ti tk a b c k m = some (genK w L ti tk a b c k m) := by
  unfold genKC genK
  refine (forStepM_inv (MemOk Ok) B ti _ _ hti htiB ?_ m hm).1
  intro t ht m2 hm2
  have hiB := tile_le B ti t hti htiB ht
  exact ⟨genIC_some w L ti tk hw hL hLB htk Ok a b c H (t * ti) k hiB hk m2 hm2,
    (genI_spec w L ti tk hw hL hLB htk Ok a b c H (t * ti) k hiB hk m2 hm2).1⟩

/-- Under an admissible invariant the checked kernel shape returns what the kernel
shape computes: no operand of a sum is outside `[-INF, 0]`. -/
theorem genKernelC_some (w L ti tk : Nat) (hw : 1 ≤ w) (hL : 0 < L) (hLB : L ∣ B)
    (hti : 0 < ti) (htiB : ti ∣ B) (htk : 0 < tk) (htkB : tk ∣ B) (Ok : Nat → Int → Prop)
    (a b c : Nat) (H : KernelHyp w Ok a b c) (m : Mem) (hm : MemOk Ok m) :
    genKernelC w L ti tk m a b c = some (genKernel w L ti tk m a b c) := by
  unfold genKernelC genKernel
  refine (forStepM_inv (MemOk Ok) B tk _ _ htk htkB ?_ m hm).1
  intro t ht m2 hm2
  have hkB := tile_le B tk t htk htkB ht
  exact ⟨genKC_some w L ti tk hw hL hLB hti htiB htk Ok a b c H (t * tk) hkB m2 hm2,
    (genK_spec w L ti tk hw hL hLB hti htiB htk Ok a b c H (t * tk) hkB m2 hm2).1⟩

theorem FWIC_some (w L u : Nat) (hw : 1 ≤ w) (hL : 0 < L) (hLB : L ∣ B) (hu : u ≤ 3)
    (Ok : Nat → Int → Prop) (a b c : Nat) (H : KernelHyp w Ok a b c) (m : Mem)
    (hm : MemOk Ok m) : FWIC w L u m a b c = some (FWI w L u m a b c) := by
  have d2 : 2 ∣ B := ⟨32, rfl⟩
  have d4 : 4 ∣ B := ⟨16, rfl⟩
  by_cases h : a ≠ b ∧ a ≠ c ∧ b ≠ c
  · have hu4 : u = 0 ∨ u = 1 ∨ u = 2 ∨ u = 3 := by omega
    rcases hu4 with rfl | rfl | rfl | rfl
    · have e : FWI w L 0 m a b c = genKernel w L 2 2 m a b c := by
        simp [FWI, h, MaxPlusMul0_eq]
      rw [e]
      simp only [FWIC, if_pos h, if_true]
      exact genKernelC_some w L 2 2 hw hL hLB (by decide) d2 (by decide) d2 Ok a b c H m hm
    · have e : FWI w L 1 m a b c = genKernel w L 2 4 m a b c := by
        simp [FWI, h, MaxPlusMul1_eq]
      rw [e]
      simp only [FWIC, if_pos h, Nat.one_ne_zero, if_false, if_true]
      exact genKernelC_some w L 2 4 hw hL hLB (by decide) d2 (by decide) d4 Ok a b c H m hm
    · have e : FWI w L 2 m a b c = genKernel w L 4 2 m a b c := by
        simp [FWI, h, MaxPlusMul2_eq]
      rw [e]
      simp only [FWIC, if_pos h]
      rw [if_neg (by decide), if_neg (by decide)]
      simp only [if_true]
      exact genKernelC_some w L 4 2 hw hL hLB (by decide) d4 (by decide) d2 Ok a b c H m hm
    · have e : FWI w L 3 m a b c = genKernel w L 4 4 m a b c := by
        simp [FWI, h, MaxPlusMul3_eq]
      rw [e]
      simp only [FWIC, if_pos h]
      rw [if_neg (by decide), if_neg (by decide), if_neg (by decide)]
      simp only [if_true]
      exact genKernelC_some w L 4 4 hw hL hLB (by decide) d4 (by decide) d4 Ok a b c H m hm
  · rw [FWI_serial w L u m a b c h]
    simp only [FWIC, if_neg h]
    exact genKernelC_some w L 1 1 hw hL hLB (by decide) (one_dvd _) (by decide) (one_dvd _)
      Ok a b c H m hm

end QFW

namespace QFW

/-! ## The checked driver returns what the driver returns -/

theorem blocksInRange_of (w G : Nat) (BP : Table) (blk : Nat → Nat → Nat) (m : Mem)
    (hBP : TableOk BP G blk)
    (hm : MemOk (OkAt G blk (fun _ _ v => -(INF w) ≤ v ∧ v ≤ 0)) m) :
    blocksInRange w G BP m := by
  intro t ht
  obtain ⟨h1, h2, he⟩ := elem_split G t ht
  have hb := hBP (t / G) (t % G) h1 h2
  rw [← he] at hb
  rw [hb]
  intro x hx
  exact range_block w G blk m hm (t / G) (t % G) h1 h2 x hx

theorem FWRC_pruned (w L u P G i0 i1 i2 : Nat) (BP : Table) (sym : Bool) (m : Mem)
    (hb : blocksInRange w G BP m) (h : i0 ≥ G ∨ i1 ≥ G ∨ i2 ≥ G) :
    FWRC w L u P G i0 i1 i2 BP sym m = some m := by
  rw [FWRC, if_neg (not_not.mpr hb), if_pos h]

theorem FWRC_base (w L u G i0 i1 i2 : Nat) (BP : Table) (sym : Bool) (m : Mem)
    (blk : Nat → Nat → Nat) (hb : blocksInRange w G BP m) (hBP : TableOk BP G blk)
    (h0 : i0 < G) (h1 : i1 < G) (h2 : i2 < G) :
    FWRC w L u 1 G i0 i1 i2 BP sym m = FWIC w L u m (blk i0 i2) (blk i0 i1) (blk i1 i2) := by
  rw [FWRC, if_neg (not_not.mpr hb), if_neg (by omega), if_pos rfl, hBP i0 i2 h0 h2,
    hBP i0 i1 h0 h1, hBP i1 i2 h1 h2]

theorem FWRC_rec_false (w L u P G i0 i1 i2 : Nat) (BP : Table) (m : Mem)
    (hb : blocksInRange w G BP m) (h0 : i0 < G) (h1 : i1 < G) (h2 : i2 < G) (hP : 2 ≤ P) :
    FWRC w L u P G i0 i1 i2 BP false m =
      ((((((((FWRC w L u (P / 2) G i0 i1 i2 BP false m).bind
        (FWRC w L u (P / 2) G i0 i1 (i2 + P / 2) BP false)).bind
        (FWRC w L u (P / 2) G (i0 + P / 2) i1 i2 BP false)).bind
        (FWRC w L u (P / 2) G (i0 + P / 2) i1 (i2 + P / 2) BP false)).bind
        (FWRC w L u (P / 2) G (i0 + P / 2) (i1 + P / 2) (i2 + P / 2) BP false)).bind
        (FWRC w L u (P / 2) G (i0 + P / 2) (i1 + P / 2) i2 BP false)).bind
        (FWRC w L u (P / 2) G i0 (i1 + P / 2) (i2 + P / 2) BP false)).bind
        (FWRC w L u (P / 2) G i0 (i1 + P / 2) i2 BP false)) := by
  rw [FWRC, if_neg (not_not.mpr hb), if_neg (by omega), if_neg (by omega), if_neg (by omega)]
  simp only [Bool.not_false, if_true, bind, Option.bind_assoc]

theorem FWRC_rec_true (w L u P G i0 i1 i2 : Nat) (BP : Table) (m : Mem)
    (hb : blocksInRange w G BP m) (h0 : i0 < G) (h1 : i1 < G) (h2 : i2 < G) (hP : 2 ≤ P) :
    FWRC w L u P G i0 i1 i2 BP true m =
      ((((((((FWRC w L u (P / 2) G i0 i1 i2 BP true m).bind
        (FWRC w L u (P / 2) G i0 i1 (i2 + P / 2) BP false)).bind
        (transpose_copy (P / 2) G i0 (i0 + P / 2) BP)).bind
        (FWRC w L u (P / 2) G (i0 + P / 2) i1 (i2 + P / 2) BP false)).bind
        (FWRC w L u (P / 2) G (i0 + P / 2) (i1 + P / 2) (i2 + P / 2) BP true)).bind
        (FWRC w L u (P / 2) G (i0 + P / 2) (i1 + P / 2) i2 BP false)).bind
        (transpose_copy (P / 2) G (i0 + P / 2) i0 BP)).bind
        (FWRC w L u (P / 2) G i0 (i1 + P / 2) i2 BP false)) := by
  rw [FWRC, if_neg (not_not.mpr hb), if_neg (by omega), if_neg (by omega), if_neg (by omega)]
  simp only [Bool.not_true, Bool.false_eq_true, if_false, bind, Option.bind_assoc]

/-- On a scratch state in `[-INF, 0]` the checked driver returns what `FWR` returns: no
check fails. -/
theorem FWRC_eq (w L u : Nat) (hw : 1 ≤ w) (hL : 0 < L) (hLB : L ∣ B) (hu : u ≤ 3)
    (blk : Nat → Nat → Nat) (G : Nat) (BP : Table) (hBP : TableOk BP G blk)
    (hinj : LayoutInj G blk) :
    ∀ e i0 i1 i2 sym m, MemOk (OkAt G blk (fun _ _ v => -(INF w) ≤ v ∧ v ≤ 0)) m →
      FWRC w L u (2 ^ e) G i0 i1 i2 BP sym m = FWR w L u (2 ^ e) G i0 i1 i2 BP sym m := by
  have hH := range_BlocksHyp w G blk hinj
  have safe := FWR_safe w L u hw hL hLB hu _ blk G BP hBP hinj hH (fun _ _ _ h => h)
  intro e
  induction e with
  | zero =>
    intro i0 i1 i2 sym m hm
    have hb := blocksInRange_of w G BP blk m hBP hm
    by_cases hpr : i0 ≥ G ∨ i1 ≥ G ∨ i2 ≥ G
    · rw [FWRC_pruned _ _ _ _ _ _ _ _ _ _ _ hb hpr, FWR_pruned _ _ _ _ _ _ _ _ _ _ _ hpr]
    · have h0 : i0 < G := by omega
      have h1 : i1 < G := by omega
      have h2 : i2 < G := by omega
      rw [pow_zero, FWR_base w L u G i0 i1 i2 BP sym m blk hBP h0 h1 h2,
        FWRC_base w L u G i0 i1 i2 BP sym m blk hb hBP h0 h1 h2]
      exact FWIC_some w L u hw hL hLB hu _ _ _ _ (hH i0 i1 i2 h0 h1 h2) m hm
  | succ e ih =>
    intro i0 i1 i2 sym m hm
    have hb := blocksInRange_of w G BP blk m hBP hm
    by_cases hpr : i0 ≥ G ∨ i1 ≥ G ∨ i2 ≥ G
    · rw [FWRC_pruned _ _ _ _ _ _ _ _ _ _ _ hb hpr, FWR_pruned _ _ _ _ _ _ _ _ _ _ _ hpr]
    · have h0 : i0 < G := by omega
      have h1 : i1 < G := by omega
      have h2 : i2 < G := by omega
      have st : ∀ j0 j1 j2 s a, MemOk (OkAt G blk (fun _ _ v => -(INF w) ≤ v ∧ v ≤ 0)) a →
          FWRC w L u (2 ^ e) G j0 j1 j2 BP s a = FWR w L u (2 ^ e) G j0 j1 j2 BP s a ∧
          ∀ b, FWRC w L u (2 ^ e) G j0 j1 j2 BP s a = some b →
            MemOk (OkAt G blk (fun _ _ v => -(INF w) ≤ v ∧ v ≤ 0)) b := by
        intro j0 j1 j2 s a ha
        refine ⟨ih j0 j1 j2 s a ha, fun b hb2 => ?_⟩
        obtain ⟨m2, e2, ok2⟩ := safe e j0 j1 j2 s a ha
        rw [ih j0 j1 j2 s a ha, e2] at hb2
        cases hb2
        exact ok2
      have tr : ∀ r0 c0, (r0 + 2 ^ e ≤ c0 ∨ c0 + 2 ^ e ≤ r0) → ∀ a,
          MemOk (OkAt G blk (fun _ _ v => -(INF w) ≤ v ∧ v ≤ 0)) a →
          transpose_copy (2 ^ e) G r0 c0 BP a = transpose_copy (2 ^ e) G r0 c0 BP a ∧
          ∀ b, transpose_copy (2 ^ e) G r0 c0 BP a = some b →
            MemOk (OkAt G blk (fun _ _ v => -(INF w) ≤ v ∧ v ≤ 0)) b := by
        intro r0 c0 hd a ha
        refine ⟨rfl, fun b hb2 => ?_⟩
        rw [transpose_copy_eq G blk BP hBP _ _ _ a] at hb2
        cases hb2
        exact transposeAll_MemOk G blk hinj _ (fun _ _ _ h => h) _ _ _ hd a ha
      cases sym with
      | false =>
        rw [FWRC_rec_false w L u _ G i0 i1 i2 BP m hb h0 h1 h2 (two_le_pow e),
          FWR_rec_false w L u _ G i0 i1 i2 BP m h0 h1 h2 (two_le_pow e), half_pow]
        have c1 := st i0 i1 i2 false m hm
        have c2 := bind_congr_ok _ _ _ _ _ c1 (st i0 i1 (i2 + 2 ^ e) false)
        have c3 := bind_congr_ok _ _ _ _ _ c2 (st (i0 + 2 ^ e) i1 i2 false)
        have c4 := bind_congr_ok _ _ _ _ _ c3 (st (i0 + 2 ^ e) i1 (i2 + 2 ^ e) false)
        have c5 := bind_congr_ok _ _ _ _ _ c4 (st (i0 + 2 ^ e) (i1 + 2 ^ e) (i2 + 2 ^ e) false)
        have c6 := bind_congr_ok _ _ _ _ _ c5 (st (i0 + 2 ^ e) (i1 + 2 ^ e) i2 false)
        have c7 := bind_congr_ok _ _ _ _ _ c6 (st i0 (i1 + 2 ^ e) (i2 + 2 ^ e) false)
        exact (bind_congr_ok _ _ _ _ _ c7 (st i0 (i1 + 2 ^ e) i2 false)).1
      | true =>
        rw [FWRC_rec_true w L u _ G i0 i1 i2 BP m hb h0 h1 h2 (two_le_pow e),
          FWR_rec_true w L u _ G i0 i1 i2 BP m h0 h1 h2 (two_le_pow e), half_pow]
        have c1 := st i0 i1 i2 true m hm
        have c2 := bind_congr_ok _ _ _ _ _ c1 (st i0 i1 (i2 + 2 ^ e) false)
        have c3 := bind_congr_ok _ _ _ _ _ c2 (tr i0 (i0 + 2 ^ e) (Or.inl (le_refl _)))
        have c4 := bind_congr_ok _ _ _ _ _ c3 (st (i0 + 2 ^ e) i1 (i2 + 2 ^ e) false)
        have c5 := bind_congr_ok _ _ _ _ _ c4 (st (i0 + 2 ^ e) (i1 + 2 ^ e) (i2 + 2 ^ e) true)
        have c6 := bind_congr_ok _ _ _ _ _ c5 (st (i0 + 2 ^ e) (i1 + 2 ^ e) i2 false)
        have c7 := bind_congr_ok _ _ _ _ _ c6 (tr (i0 + 2 ^ e) i0 (Or.inr (le_refl _)))
        exact (bind_congr_ok _ _ _ _ _ c7 (st i0 (i1 + 2 ^ e) i2 false)).1

/-- The checked `run` returns what `run` returns on an input in `[0, INF]`. -/
theorem runC_eq (w L u n : Nat) (hw : 1 ≤ w) (hL : 0 < L) (hLB : L ∣ B) (hu : u ≤ 3)
    (input output heap : Mem) (sym : Bool) (hn1 : 1 ≤ n) (hW : ValidInput w n input) :
    runC w L u n input output sym heap = run w L u n input output sym heap := by
  by_cases hn : n ≤ 46336
  · obtain ⟨e, st1, he, hre, hG, f1, _⟩ := run_via_FWR_e w n input heap hn1 hn
    have hBP := TableOk_of_fwd w n _ e hG _ st1 f1
    have hm := fwd_MemOk_range w n _ hw input hW e hG heap st1 f1
    have hinj : LayoutInj ((n + B - 1) / B) (fun r c => B * B * rank ((n + B - 1) / B) e 0 0 r c) :=
      layout_inj _ e hG
    obtain ⟨S2, e2, ok2⟩ := FWR_safe w L u hw hL hLB hu _ _ _ st1.BP hBP hinj
      (range_BlocksHyp w _ _ hinj) (fun _ _ _ h => h) e 0 0 0 sym st1.S hm
    have eC := FWRC_eq w L u hw hL hLB hu _ _ st1.BP hBP hinj e 0 0 0 sym st1.S hm
    have hb := blocksInRange_of w _ st1.BP _ S2 hBP ok2
    have h1 : n < 65536 := by omega
    have h0 : ¬ n = 0 := by omega
    have hs := sizeOK_of_small n hn
    simp only [runC, run, h1, h0, hs, not_true_eq_false, if_false, he, hre, bind, Option.bind,
      eC, e2, hb]
  · have hC : runC w L u n input output sym heap = none := by
      unfold runC
      by_cases h1 : n < 65536
      · rw [if_neg (not_not.mpr h1), if_neg (by omega)]
        have hs : ¬ intOK (B * ((n + B - 1) / B) * (B * ((n + B - 1) / B))) :=
          fun h => hn (small_of_sizeOK n h)
        simp only [hs, not_false_eq_true, if_true]
      · rw [if_pos h1]
    rw [hC, run_none_large w L u n input output heap sym hn1 hn]

/-- A sum of two values of `[-INF, 0]` lies in `[-2·INF, 0]` and is not changed by the
wraparound of `T`. -/
theorem sum_no_wrap (w : Nat) (hw : 1 ≤ w) (x y : Int) (hx : inRange w x) (hy : inRange w y) :
    -(2 * INF w) ≤ x + y ∧ x + y ≤ 0 ∧ wrapT w (x + y) = x + y := by
  obtain ⟨x1, x2⟩ := hx
  obtain ⟨y1, y2⟩ := hy
  refine ⟨by linarith, by linarith, ?_⟩
  have h2 := two_INF_lt w
  exact wrapT_eq_self w hw _ (by linarith) (by linarith)

end QFW

namespace QFW

/-! ## One block, a chain of three edges -/

theorem layout_one : LayoutInj 1 (fun _ _ => 0) := by
  intro r c x y r2 c2 x2 y2 hr hc hr2 hc2 hx hy hx2 hy2 h
  simp only [B] at *
  omega

theorem MemOk_of_blocks (w G : Nat) (blk : Nat → Nat → Nat) (m : Mem)
    (hm : ∀ r c, r < G → c < G → ∀ t, t < B * B →
      -(INF w) ≤ m (blk r c + t) ∧ m (blk r c + t) ≤ 0) :
    MemOk (OkAt G blk (fun _ _ v => -(INF w) ≤ v ∧ v ≤ 0)) m := by
  intro addr r c x y hr hc hx hy he
  rw [he]
  exact hm r c hr hc (x * B + y) (by simp only [B] at *; omega)

theorem chainScratch_range (w : Nat) (h : 1 ≤ INF w) (t : Nat) :
    -(INF w) ≤ chainScratch w t ∧ chainScratch w t ≤ 0 := by
  unfold chainScratch
  split_ifs <;> omega

theorem chainScratch_neg (w : Nat) (h : 1 ≤ INF w) (t : Nat) : chainScratch w t ≤ -1 := by
  unfold chainScratch
  split_ifs <;> omega

theorem chainScratch_step (w : Nat) (h : 4 ≤ INF w) (k : Nat) (hk : k < B) :
    chainScratch w (0 * B + k) + chainScratch w (k * B + 3) < -3 := by
  have hI := INF_nonneg w
  by_cases h1 : k = 1
  · subst h1
    simp only [chainScratch, B]
    norm_num
    omega
  · have e : chainScratch w (0 * B + k) = -(INF w) := by
      simp only [chainScratch, B] at hk ⊢
      rw [if_neg (by omega)]
    have r := chainScratch_neg w (by omega) (k * B + 3)
    rw [e]
    omega

/-- The call `FWR(1, 1, 0, 0, 0)` on the chain block returns and leaves `-3` or more at
`(0, 3)`: the walk `0 → 1 → 2 → 3`. -/
theorem chain_call (w L u : Nat) (hw : 1 ≤ w) (hL : 0 < L) (hLB : L ∣ B) (hu : u ≤ 3)
    (h : 1 ≤ INF w) :
    ∃ m2, FWR w L u 1 1 0 0 0 (fun _ => some 0) false (chainScratch w) = some m2 ∧
      -3 ≤ m2 (0 * B + 3) := by
  have hm : MemOk (OkAt 1 (fun _ _ => 0) (fun _ _ v => -(INF w) ≤ v ∧ v ≤ 0)) (chainScratch w) :=
    MemOk_of_blocks w 1 _ _ (fun _ _ _ _ t _ => chainScratch_range w h _)
  obtain ⟨m2, e2, _, _, A⟩ := FWR_closure w L u hw hL hLB hu _ (fun _ _ => 0) 1
    (fun _ => some 0) (fun _ _ _ _ => rfl) (range_BlocksHyp w 1 _ layout_one) 0 0
    (chainScratch w) hm
  rw [pow_zero] at e2
  refine ⟨m2, e2, ?_⟩
  have R : ∀ v, v < 4 → Rows 1 0 (2 ^ 0) v := by
    intro v hv
    simp only [Rows, B]
    omega
  have a := A 0 3 (R 0 (by decide)) (R 3 (by decide)) [1, 2] (by
    intro v hv
    simp only [List.mem_cons, List.mem_singleton, List.not_mem_nil, or_false] at hv
    rcases hv with rfl | rfl
    · exact R 1 (by decide)
    · exact R 2 (by decide))
  have e1 : walkW (view (fun _ _ => 0) (chainScratch w)) 0 [1, 2] 3 = -3 := by
    simp [walkW, view, cell, chainScratch, B]
  have e3 : view (fun _ _ => 0) m2 0 3 = m2 (0 * B + 3) := by
    simp [view, cell, B]
  rw [e1, e3] at a
  exact a

theorem chain_prodT (w : Nat) (h : 4 ≤ INF w) : prodT (chainScratch w) 0 0 0 0 3 < -3 := by
  unfold prodT
  obtain ⟨s, hs, es⟩ := maxUpTo_mem (B - 1)
    (fun k => chainScratch w (0 + (0 * B + k)) + chainScratch w (0 + (k * B + 3)))
  rw [es]
  have a := chainScratch_step w h s (by simp only [B] at *; omega)
  have b : chainScratch w (0 + (0 * B + 3)) = -(INF w) := by
    simp only [chainScratch, B]
    rw [if_neg (by omega)]
  rw [b]
  simp only [Nat.zero_add] at a ⊢
  exact max_lt (by omega) a

end QFW

namespace QFW

/-! ## The two calls of `reorder` at the scale of `run` -/

/-- A top-level call of `reorder` that returns has met no overflowing `int` expression. -/
theorem reorder_top (w n : Nat) (st : RState) (rev : Bool) (q : Nat × RState)
    (h : reorder w n (n_blocks_power2_loop n n 1) 0 st 0 0 rev = some q) :
    ∃ e, n_blocks_power2_loop n n 1 = 2 ^ e ∧ (n + B - 1) / B ≤ 2 ^ e ∧ intOK (n + B - 1) ∧
      ∀ r c, r < (n + B - 1) / B → c < (n + B - 1) / B → reorderIntOK n r c := by
  obtain ⟨e, he, hG⟩ := n_blocks_power2_spec n
  rw [he] at h
  exact ⟨e, he, hG, reorder_some_h1 w n _ 0 st 0 0 rev q h, fun r c hr hc =>
    reorder_some_intOK w n rev e 0 st 0 0 q h r c ((InSq_top _ e r c hG).mpr ⟨hr, hc⟩)⟩

/-- The forward call of `run`, when it returns: pointer returned and layout. -/
theorem reorder_top_fwd (w n : Nat) (st : RState) (q : Nat × RState)
    (h : reorder w n (n_blocks_power2_loop n n 1) 0 st 0 0 false = some q) :
    ∃ e, n_blocks_power2_loop n n 1 = 2 ^ e ∧ (n + B - 1) / B ≤ 2 ^ e ∧
      q.1 = B * B * ((n + B - 1) / B * ((n + B - 1) / B)) ∧
      FwdG w n ((n + B - 1) / B) (InSq ((n + B - 1) / B) e 0 0) (rank ((n + B - 1) / B) e 0 0)
        (cnt ((n + B - 1) / B) e 0 0) 0 st q.2 := by
  obtain ⟨e, he, hG, h1, hint⟩ := reorder_top w n st false q h
  obtain ⟨st2, e2, f2⟩ := reorder_fwd w n h1 hint e 0 st 0 0
  rw [he, e2] at h
  cases h
  exact ⟨e, he, hG, by simp only [Nat.zero_add, cnt_top _ e hG], f2⟩

/-- The reverse call of `run`, when it returns. -/
theorem reorder_top_rev (w n : Nat) (st : RState) (q : Nat × RState)
    (h : reorder w n (n_blocks_power2_loop n n 1) 0 st 0 0 true = some q) :
    ∃ e, n_blocks_power2_loop n n 1 = 2 ^ e ∧ (n + B - 1) / B ≤ 2 ^ e ∧
      RevG w n (InSq ((n + B - 1) / B) e 0 0) (rank ((n + B - 1) / B) e 0 0) 0 st q.2 := by
  obtain ⟨e, he, hG, h1, hint⟩ := reorder_top w n st true q h
  obtain ⟨st2, e2, f2⟩ := reorder_rev w n h1 hint e 0 st 0 0
  rw [he, e2] at h
  cases h
  exact ⟨e, he, hG, f2⟩

/-- A top-level call of `reorder` returns exactly when no `int` expression overflows. -/
theorem reorder_top_iff (w n : Nat) (st : RState) (rev : Bool) :
    (∃ q, reorder w n (n_blocks_power2_loop n n 1) 0 st 0 0 rev = some q) ↔
      (intOK (n + B - 1) ∧
        ∀ r c, r < (n + B - 1) / B → c < (n + B - 1) / B → reorderIntOK n r c) := by
  constructor
  · rintro ⟨q, h⟩
    obtain ⟨e, _, _, h1, hint⟩ := reorder_top w n st rev q h
    exact ⟨h1, hint⟩
  · rintro ⟨h1, hint⟩
    obtain ⟨e, he, _⟩ := n_blocks_power2_spec n
    rw [he]
    cases rev with
    | false =>
      obtain ⟨st2, e2, _⟩ := reorder_fwd w n h1 hint e 0 st 0 0
      exact ⟨_, e2⟩
    | true =>
      obtain ⟨st2, e2, _⟩ := reorder_rev w n h1 hint e 0 st 0 0
      exact ⟨_, e2⟩

theorem reorder_top_some (w n : Nat) (st : RState) (rev : Bool) (hn : n ≤ 46336) :
    ∃ q, reorder w n (n_blocks_power2_loop n n 1) 0 st 0 0 rev = some q :=
  (reorder_top_iff w n st rev).mpr
    ⟨by unfold intOK INT_MAX; simp only [B]; omega,
      fun r c hr hc => reorderIntOK_of_small n r c hn hr hc⟩

/-- With every in-grid table entry set, `FWR` returns on every scratch content: it reads
table entries of in-grid blocks only. -/
theorem FWR_total (w L u G : Nat) (BP : Table) (blk : Nat → Nat → Nat)
    (hBP : TableOk BP G blk) :
    ∀ e i0 i1 i2 sym m, ∃ m2, FWR w L u (2 ^ e) G i0 i1 i2 BP sym m = some m2 := by
  intro e
  induction e with
  | zero =>
    intro i0 i1 i2 sym m
    by_cases hpr : i0 ≥ G ∨ i1 ≥ G ∨ i2 ≥ G
    · exact ⟨m, FWR_pruned _ _ _ _ _ _ _ _ _ _ _ hpr⟩
    · rw [pow_zero, FWR_base w L u G i0 i1 i2 BP sym m blk hBP (by omega) (by omega) (by omega)]
      exact ⟨_, rfl⟩
  | succ e ih =>
    intro i0 i1 i2 sym m
    by_cases hpr : i0 ≥ G ∨ i1 ≥ G ∨ i2 ≥ G
    · exact ⟨m, FWR_pruned _ _ _ _ _ _ _ _ _ _ _ hpr⟩
    · have h0 : i0 < G := by omega
      have h1 : i1 < G := by omega
      have h2 : i2 < G := by omega
      have st : ∀ j0 j1 j2 s (a : Mem), True →
          ∃ b, FWR w L u (2 ^ e) G j0 j1 j2 BP s a = some b ∧ True :=
        fun j0 j1 j2 s a _ => (ih j0 j1 j2 s a).imp (fun _ h => ⟨h, trivial⟩)
      have tr : ∀ r0 c0 (a : Mem), True →
          ∃ b, transpose_copy (2 ^ e) G r0 c0 BP a = some b ∧ True :=
        fun r0 c0 a _ => ⟨_, transpose_copy_eq G blk BP hBP _ _ _ a, trivial⟩
      cases sym with
      | false =>
        rw [FWR_rec_false w L u _ G i0 i1 i2 BP m h0 h1 h2 (two_le_pow e), half_pow]
        have c1 := st i0 i1 i2 false m trivial
        have c2 := some_chain _ _ _ c1 (st i0 i1 (i2 + 2 ^ e) false)
        have c3 := some_chain _ _ _ c2 (st (i0 + 2 ^ e) i1 i2 false)
        have c4 := some_chain _ _ _ c3 (st (i0 + 2 ^ e) i1 (i2 + 2 ^ e) false)
        have c5 := some_chain _ _ _ c4 (st (i0 + 2 ^ e) (i1 + 2 ^ e) (i2 + 2 ^ e) false)
        have c6 := some_chain _ _ _ c5 (st (i0 + 2 ^ e) (i1 + 2 ^ e) i2 false)
        have c7 := some_chain _ _ _ c6 (st i0 (i1 + 2 ^ e) (i2 + 2 ^ e) false)
        exact (some_chain _ _ _ c7 (st i0 (i1 + 2 ^ e) i2 false)).imp (fun _ h => h.1)
      | true =>
        rw [FWR_rec_true w L u _ G i0 i1 i2 BP m h0 h1 h2 (two_le_pow e), half_pow]
        have c1 := st i0 i1 i2 true m trivial
        have c2 := some_chain _ _ _ c1 (st i0 i1 (i2 + 2 ^ e) false)
        have c3 := some_chain _ _ _ c2 (tr i0 (i0 + 2 ^ e))
        have c4 := some_chain _ _ _ c3 (st (i0 + 2 ^ e) i1 (i2 + 2 ^ e) false)
        have c5 := some_chain _ _ _ c4 (st (i0 + 2 ^ e) (i1 + 2 ^ e) (i2 + 2 ^ e) true)
        have c6 := some_chain _ _ _ c5 (st (i0 + 2 ^ e) (i1 + 2 ^ e) i2 false)
        have c7 := some_chain _ _ _ c6 (tr (i0 + 2 ^ e) i0)
        exact (some_chain _ _ _ c7 (st i0 (i1 + 2 ^ e) i2 false)).imp (fun _ h => h.1)

theorem wrapT_neg_max (w : Nat) (hw : 1 ≤ w) (x : Int) (h1 : -(maxT w) ≤ x)
    (h2 : x ≤ maxT w) : wrapT w (-x) = -x := by
  unfold maxT at h1 h2
  exact wrapT_eq_self w hw _ (by linarith) (by linarith)

theorem wrapT_neg_INF (w : Nat) (hw : 1 ≤ w) : wrapT w (-(INF w)) = -(INF w) :=
  wrapT_neg w hw _ (by linarith [INF_nonneg w]) (le_refl _)

/-- Forward and then reverse `reorder` over the unmodified scratch writes the source
matrix, negated twice in `T`, into the output buffer and nothing beyond `n * n`. -/
theorem reorder_round_trip (w n : Nat) (M heap out0 : Mem) (BP0 : Table) (q1 : Nat × RState)
    (h : reorder w n (n_blocks_power2_loop n n 1) 0 ⟨heap, M, BP0⟩ 0 0 false = some q1) :
    ∃ q2, reorder w n (n_blocks_power2_loop n n 1) 0 ⟨q1.2.S, out0, q1.2.BP⟩ 0 0 true =
        some q2 ∧
      (∀ i j, i < n → j < n →
        q2.2.M (i * n + j) = wrapT w (-(wrapT w (-(M (i * n + j)))))) ∧
      (∀ t, n * n ≤ t → q2.2.M t = out0 t) ∧ q2.2.S = q1.2.S := by
  obtain ⟨e, he, hG, h1, hint⟩ := reorder_top w n _ false q1 h
  obtain ⟨st2, e2, f2⟩ := reorder_fwd w n h1 hint e 0 ⟨heap, M, BP0⟩ 0 0
  rw [he, e2] at h
  cases h
  obtain ⟨st3, e3, f3⟩ := reorder_rev w n h1 hint e 0 ⟨st2.S, out0, st2.BP⟩ 0 0
  refine ⟨_, by rw [he]; exact e3, fun i j hi hj => ?_, fun t ht => ?_, f3.hS⟩
  · obtain ⟨ei, hi2⟩ := block_split i
    obtain ⟨ej, hj2⟩ := block_split j
    have hr : i / B < (n + B - 1) / B := by simp only [B] at *; omega
    have hc : j / B < (n + B - 1) / B := by simp only [B] at *; omega
    have hin := (InSq_top _ e (i / B) (j / B) hG).mpr ⟨hr, hc⟩
    have a := f3.hM (i / B) (j / B) hin (i % B) (j % B) hi2 hj2
      (by rw [ei]; exact hi) (by rw [ej]; exact hj)
    have b := f2.hS (i / B) (j / B) hin (i % B) (j % B) hi2 hj2
    rw [ei, ej] at a
    simp only at a b
    rw [a, b]
    unfold padded
    rw [ei, ej, if_pos ⟨hi, hj⟩]
  · rw [f3.hMf t]
    intro r c x y _ _ _ hrx hcy he2
    have := idx_lt n _ _ hrx hcy
    omega

end QFW

namespace QFW

/-! ## The order of the blocks is contiguous and does not depend on the bit count -/

/-- Every position below the block count of a square is the rank of a block of the
square. -/
theorem rank_surj (G : Nat) : ∀ e r0 c0 t, t < cnt G e r0 c0 →
    ∃ r c, InSq G e r0 c0 r c ∧ rank G e r0 c0 r c = t := by
  intro e
  induction e with
  | zero =>
    intro r0 c0 t ht
    simp only [cnt] at ht
    by_cases h : r0 < G ∧ c0 < G
    · rw [if_pos h] at ht
      refine ⟨r0, c0, ?_, ?_⟩
      · simp only [InSq, pow_zero]; omega
      · simp only [rank]; omega
    · rw [if_neg h] at ht
      omega
  | succ e ih =>
    intro r0 c0 t ht
    simp only [cnt] at ht
    by_cases h1 : t < cnt G e r0 c0
    · obtain ⟨r, c, hin, hr⟩ := ih r0 c0 t h1
      exact ⟨r, c, (InSq_succ G e r0 c0 r c).mpr (Or.inl hin), by rw [rank_q00 G e r0 c0 r c hin, hr]⟩
    · by_cases h2 : t < cnt G e r0 c0 + cnt G e r0 (c0 + 2 ^ e)
      · obtain ⟨r, c, hin, hr⟩ := ih r0 (c0 + 2 ^ e) (t - cnt G e r0 c0) (by omega)
        exact ⟨r, c, (InSq_succ G e r0 c0 r c).mpr (Or.inr (Or.inl hin)),
          by rw [rank_q01 G e r0 c0 r c hin, hr]; omega⟩
      · by_cases h3 : t < cnt G e r0 c0 + cnt G e r0 (c0 + 2 ^ e) + cnt G e (r0 + 2 ^ e) c0
        · obtain ⟨r, c, hin, hr⟩ := ih (r0 + 2 ^ e) c0
            (t - (cnt G e r0 c0 + cnt G e r0 (c0 + 2 ^ e))) (by omega)
          exact ⟨r, c, (InSq_succ G e r0 c0 r c).mpr (Or.inr (Or.inr (Or.inl hin))),
            by rw [rank_q10 G e r0 c0 r c hin, hr]; omega⟩
        · obtain ⟨r, c, hin, hr⟩ := ih (r0 + 2 ^ e) (c0 + 2 ^ e)
            (t - (cnt G e r0 c0 + cnt G e r0 (c0 + 2 ^ e) + cnt G e (r0 + 2 ^ e) c0)) (by omega)
          exact ⟨r, c, (InSq_succ G e r0 c0 r c).mpr (Or.inr (Or.inr (Or.inr hin))),
            by rw [rank_q11 G e r0 c0 r c hin, hr]; omega⟩

/-- Bits above the coordinates add nothing to the Z-order code. -/
theorem zcode_stable (e : Nat) (r c : Nat) (hr : r < 2 ^ e) (hc : c < 2 ^ e) :
    ∀ k, zcode (e + k) r c = zcode e r c := by
  intro k
  induction k with
  | zero => rfl
  | succ k ih =>
    have hp : 2 ^ e ≤ 2 ^ (e + k) := Nat.pow_le_pow_right (by decide) (by omega)
    have e1 : r / 2 ^ (e + k) = 0 := Nat.div_eq_of_lt (by omega)
    have e2 : c / 2 ^ (e + k) = 0 := Nat.div_eq_of_lt (by omega)
    show zcode (e + k) r c + 4 ^ (e + k) * (2 * (r / 2 ^ (e + k) % 2) + c / 2 ^ (e + k) % 2) = _
    rw [e1, e2, ih]
    simp

/-- The layout of the forward call of `run`, when it returns, in terms of `rank`. -/
theorem reorder_layout (w n : Nat) (st : RState) (q : Nat × RState)
    (h : reorder w n (n_blocks_power2_loop n n 1) 0 st 0 0 false = some q) :
    ∃ e, n_blocks_power2_loop n n 1 = 2 ^ e ∧ (n + B - 1) / B ≤ 2 ^ e ∧
      q.1 = B * B * ((n + B - 1) / B * ((n + B - 1) / B)) ∧ q.2.M = st.M ∧
      ∀ r c, r < (n + B - 1) / B → c < (n + B - 1) / B →
        q.2.BP (r * ((n + B - 1) / B) + c) = some (B * B * rank ((n + B - 1) / B) e 0 0 r c) ∧
        rank ((n + B - 1) / B) e 0 0 r c < (n + B - 1) / B * ((n + B - 1) / B) ∧
        ∀ x y, x < B → y < B →
          q.2.S (B * B * rank ((n + B - 1) / B) e 0 0 r c + (x * B + y)) =
            padded w n st.M r c x y := by
  obtain ⟨e, he, hG, hq, f⟩ := reorder_top_fwd w n st q h
  refine ⟨e, he, hG, hq, f.hM, fun r c hr hc => ?_⟩
  have hin := (InSq_top _ e r c hG).mpr ⟨hr, hc⟩
  have a := f.hBP r c hin
  have b := rank_lt _ e 0 0 r c hin
  rw [cnt_top _ e hG] at b
  rw [Nat.zero_add] at a
  refine ⟨a, b, fun x y hx hy => ?_⟩
  have c1 := f.hS r c hin x y hx hy
  rw [Nat.zero_add] at c1
  exact c1

end QFW

namespace QFW

/-! ## Small facts for the layout and grid claims -/

theorem pow_two_le_of_half_lt (e e2 : Nat) (h : 2 ^ e = 1 ∨ 2 ^ e / 2 < 2 ^ e2) :
    2 ^ e ≤ 2 ^ e2 := by
  rcases h with h | h
  · rw [h]; exact Nat.one_le_two_pow
  · cases e with
    | zero => rw [pow_zero]; exact Nat.one_le_two_pow
    | succ k =>
      rw [half_pow] at h
      have : k < e2 := (Nat.pow_lt_pow_iff_right (by decide)).mp h
      exact Nat.pow_le_pow_right (by decide) this

/-- Two blocks per row, one after the other, do not overlap. -/
theorem layout_two : LayoutInj 2 (fun r c => B * B * (r * 2 + c)) := by
  intro r c x y r2 c2 x2 y2 hr hc hr2 hc2 hx hy hx2 hy2 h
  simp only [B] at *
  omega

theorem scale_256 : n_blocks_power2_loop 256 256 1 = 2 ^ 2 := by decide

theorem scale_65 : n_blocks_power2_loop 65 65 1 = 2 ^ 1 := by decide

end QFW

namespace QFW

/-! ## The symmetric recursion at scale two -/

theorem some_chain2 {α : Type} (P Q : α → Prop) (x : Option α) (f : α → Option α)
    (h1 : ∃ a, x = some a ∧ P a) (h2 : ∀ a, P a → ∃ b, f a = some b ∧ Q b) :
    ∃ b, x.bind f = some b ∧ Q b := by
  obtain ⟨a, e1, p1⟩ := h1
  obtain ⟨b, e2, p2⟩ := h2 a p1
  exact ⟨b, by rw [e1]; exact e2, p2⟩

/-- The symmetric recursion at scale `2`: it returns, keeps the invariant, and leaves in the
lower-left block at least the transpose of what the upper-right block held at entry. -/
theorem FWR_sym_two (w L u : Nat) (hw : 1 ≤ w) (hL : 0 < L) (hLB : L ∣ B) (hu : u ≤ 3)
    (Gd : Nat → Nat → Int → Prop) (blk : Nat → Nat → Nat) (G : Nat) (BP : Table)
    (hBP : TableOk BP G blk) (hinj : LayoutInj G blk)
    (hrange : ∀ i j v, Gd i j v → -(INF w) ≤ v ∧ v ≤ 0)
    (hclos : ∀ i k j x y z, Gd i k x → Gd k j y → Gd i j z → z < x + y → Gd i j (x + y))
    (hsym : ∀ i j v, Gd i j v → Gd j i v) (hG : 0 < G) (m : Mem)
    (hm : MemOk (OkAt G blk Gd) m) :
    ∃ S2, FWR w L u (2 ^ (0 + 1)) G 0 0 0 BP true m = some S2 ∧ MemOk (OkAt G blk Gd) S2 ∧
      ∀ a b, Rows G (0 + 2 ^ 0) (2 ^ 0) a → Rows G 0 (2 ^ 0) b →
        view blk m b a ≤ view blk S2 a b := by
  have full := FWR_false_full w L u hw hL hLB hu Gd blk G BP hBP hinj hrange hclos
  have sub : ∀ j0 j1 j2 s a, MemOk (OkAt G blk Gd) a →
      ∃ b, FWR w L u (2 ^ 0) G j0 j1 j2 BP s a = some b ∧ MemOk (OkAt G blk Gd) b ∧
        ∀ addr, a addr ≤ b addr := by
    intro j0 j1 j2 s a ha
    obtain ⟨b, e1, ok, le, _⟩ := full 0 j0 j1 j2 a ha
    cases s with
    | false => exact ⟨b, e1, ok, le⟩
    | true => exact ⟨b, by rw [FWR_one_flag w L u G j0 j1 j2 BP a blk hBP]; exact e1, ok, le⟩
  have s12 : ∀ j0 j1 j2 s a, (MemOk (OkAt G blk Gd) a ∧ ∀ addr, m addr ≤ a addr) →
      ∃ b, FWR w L u (2 ^ 0) G j0 j1 j2 BP s a = some b ∧
        (MemOk (OkAt G blk Gd) b ∧ ∀ addr, m addr ≤ b addr) := by
    intro j0 j1 j2 s a ⟨ha, hle⟩
    obtain ⟨b, e1, ok, le⟩ := sub j0 j1 j2 s a ha
    exact ⟨b, e1, ok, fun addr => le_trans (hle addr) (le addr)⟩
  have s48 : ∀ j0 j1 j2 s a, (MemOk (OkAt G blk Gd) a ∧
        ∀ x y, Rows G (0 + 2 ^ 0) (2 ^ 0) x → Rows G 0 (2 ^ 0) y →
          view blk m y x ≤ view blk a x y) →
      ∃ b, FWR w L u (2 ^ 0) G j0 j1 j2 BP s a = some b ∧
        (MemOk (OkAt G blk Gd) b ∧
          ∀ x y, Rows G (0 + 2 ^ 0) (2 ^ 0) x → Rows G 0 (2 ^ 0) y →
            view blk m y x ≤ view blk b x y) := by
    intro j0 j1 j2 s a ⟨ha, hle⟩
    obtain ⟨b, e1, ok, le⟩ := sub j0 j1 j2 s a ha
    exact ⟨b, e1, ok, fun x y hx hy => le_trans (hle x y hx hy) (le _)⟩
  have s3 : ∀ a, (MemOk (OkAt G blk Gd) a ∧ ∀ addr, m addr ≤ a addr) →
      ∃ b, transpose_copy (2 ^ 0) G 0 (0 + 2 ^ 0) BP a = some b ∧
        (MemOk (OkAt G blk Gd) b ∧
          ∀ x y, Rows G (0 + 2 ^ 0) (2 ^ 0) x → Rows G 0 (2 ^ 0) y →
            view blk m y x ≤ view blk b x y) := by
    intro a ⟨ha, hle⟩
    refine ⟨_, transpose_copy_eq G blk BP hBP _ _ _ a,
      transposeAll_MemOk G blk hinj Gd hsym _ _ _ (Or.inl (le_refl _)) a ha, fun x y hx hy => ?_⟩
    rw [(transposeAll_view G blk hinj _ 0 (0 + 2 ^ 0) (Or.inl (le_refl _)) a x y hx.2.2
      hy.2.2).1 ⟨hx, hy⟩]
    exact hle _
  have s7 : ∀ a, (MemOk (OkAt G blk Gd) a ∧
        ∀ x y, Rows G (0 + 2 ^ 0) (2 ^ 0) x → Rows G 0 (2 ^ 0) y →
          view blk m y x ≤ view blk a x y) →
      ∃ b, transpose_copy (2 ^ 0) G (0 + 2 ^ 0) 0 BP a = some b ∧
        (MemOk (OkAt G blk Gd) b ∧
          ∀ x y, Rows G (0 + 2 ^ 0) (2 ^ 0) x → Rows G 0 (2 ^ 0) y →
            view blk m y x ≤ view blk b x y) := by
    intro a ⟨ha, hle⟩
    refine ⟨_, transpose_copy_eq G blk BP hBP _ _ _ a,
      transposeAll_MemOk G blk hinj Gd hsym _ _ _ (Or.inr (le_refl _)) a ha, fun x y hx hy => ?_⟩
    rw [(transposeAll_view G blk hinj _ (0 + 2 ^ 0) 0 (Or.inr (le_refl _)) a x y hx.2.2
      hy.2.2).2 (fun h => Rows_disjoint G 0 (2 ^ 0) x h.1 hx)]
    exact hle x y hx hy
  rw [FWR_rec_true w L u _ G 0 0 0 BP m hG hG hG (two_le_pow 0), half_pow]
  have c1 := s12 0 0 0 true m ⟨hm, fun _ => le_refl _⟩
  have c2 := some_chain _ _ _ c1 (s12 0 0 (0 + 2 ^ 0) false)
  have c3 := some_chain2 _ _ _ _ c2 s3
  have c4 := some_chain _ _ _ c3 (s48 (0 + 2 ^ 0) 0 (0 + 2 ^ 0) false)
  have c5 := some_chain _ _ _ c4 (s48 (0 + 2 ^ 0) (0 + 2 ^ 0) (0 + 2 ^ 0) true)
  have c6 := some_chain _ _ _ c5 (s48 (0 + 2 ^ 0) (0 + 2 ^ 0) 0 false)
  have c7 := some_chain _ _ _ c6 s7
  obtain ⟨S2, e2, ok, le⟩ := some_chain _ _ _ c7 (s48 0 (0 + 2 ^ 0) 0 false)
  exact ⟨S2, e2, ok, le⟩

end QFW

namespace QFW

/-! ## The symmetric flag on the asymmetric input -/

/-- The scratch that the forward `reorder` fills from the asymmetric input holds negated
walk weights of the symmetric input: the `5` at `(64, 0)` is the weight of a walk of five
edges of weight `1`. -/
theorem asym_init (w : Nat) (hw : 1 ≤ w) (h5 : 5 ≤ INF w) (e : Nat)
    (hG : (65 + B - 1) / B ≤ 2 ^ e) (heap : Mem) (st1 : RState)
    (f1 : FwdG w 65 ((65 + B - 1) / B) (InSq ((65 + B - 1) / B) e 0 0)
      (rank ((65 + B - 1) / B) e 0 0) (cnt ((65 + B - 1) / B) e 0 0) 0
      ⟨heap, asymInput w, fun _ => none⟩ st1) :
    MemOk (OkAt ((65 + B - 1) / B) (fun r c => B * B * rank ((65 + B - 1) / B) e 0 0 r c)
      (Good w 65 (symInput w))) st1.S := by
  intro addr r c x y hr hc hx hy he
  have h := f1.hS r c ((InSq_top _ e r c hG).mpr ⟨hr, hc⟩) x y hx hy
  rw [Nat.zero_add] at h
  rw [he, h]
  by_cases hq : r * B + x = 64 ∧ c * B + y = 0
  · have hp : padded w 65 (asymInput w) r c x y = -5 := by
      unfold padded
      rw [hq.1, hq.2, if_pos (by decide), asymInput_at w 64 0 (by decide)]
      simp only [show ¬ (64 = 0) by decide, false_and, and_false, if_false, and_self, if_true]
      exact wrapT_neg w hw 5 (by omega) h5
    rw [hp, hq.1, hq.2]
    refine ⟨by omega, by omega, fun _ => ⟨[0, 64, 0, 64], fun v hv => ?_, ?_⟩,
      fun h2 => absurd ⟨by decide, by decide⟩ h2⟩
    · simp only [List.mem_cons, List.mem_singleton, List.not_mem_nil, or_false] at hv
      omega
    · rw [sym_walk_five]
  · have hp : padded w 65 (asymInput w) r c x y = padded w 65 (symInput w) r c x y := by
      unfold padded
      by_cases hin : r * B + x < 65 ∧ c * B + y < 65
      · rw [if_pos hin, if_pos hin, asym_eq_sym w _ _ hin.2 hq]
      · rw [if_neg hin, if_neg hin]
    rw [hp]
    exact padded_Good w 65 hw (symInput w) (symInput_valid w (by omega)) r c x y

/-- With the symmetric flag `run` returns `1` at `(64, 0)` of the asymmetric input. -/
theorem run_asym_true (w L u : Nat) (hw : 1 ≤ w) (hL : 0 < L) (hLB : L ∣ B) (hu : u ≤ 3)
    (h5 : 5 ≤ INF w) (output heap : Mem) :
    ∃ out, run w L u 65 (asymInput w) output true heap = some out ∧ out (64 * 65 + 0) = 1 := by
  obtain ⟨e, st1, he, _, hG, f1, hrun⟩ :=
    run_via_FWR_e w 65 (asymInput w) heap (by decide) (by decide)
  have he1 : e = 1 := by
    rw [scale_65] at he
    exact (Nat.pow_right_injective (le_refl 2) he).symm
  subst he1
  have hBP := TableOk_of_fwd w 65 _ 1 hG _ st1 f1
  have hinj : LayoutInj ((65 + B - 1) / B)
      (fun r c => B * B * rank ((65 + B - 1) / B) 1 0 0 r c) := layout_inj _ 1 hG
  have hm := asym_init w hw h5 1 hG heap st1 f1
  obtain ⟨S2, e2, ok2, le2⟩ := FWR_sym_two w L u hw hL hLB hu (Good w 65 (symInput w)) _ _
    st1.BP hBP hinj (Good_range w 65 _) (Good_clos w 65 _)
    (Good_symm w 65 _ (symInput_symm w)) (by decide) st1.S hm
  obtain ⟨out, o1, o2, _⟩ := (hrun L u true output).2 S2 e2
  refine ⟨out, o1, ?_⟩
  rw [o2 64 0 (by decide) (by decide)]
  have lo := le2 64 0 (by unfold Rows; decide) (by unfold Rows; decide)
  have fv := fwd_view w 65 _ hw (asymInput w) (asymInput_valid w h5) 1 hG heap st1 f1
    (grid_covers 65) 0 64 (by decide) (by decide)
  have w1 : Wf 65 (asymInput w) 0 64 = 1 := by
    unfold Wf
    rw [asymInput_at w 0 64 (by decide)]
    simp
  rw [fv, w1] at lo
  have up := view_of_MemOk _ _ _ S2 ok2 64 0 (by decide) (by decide)
  obtain ⟨p, hp, hv⟩ := up.2.2.1 ⟨by decide, by decide⟩
  have sh := (closed_shortest 65 (symInput w) (symInput_triangle w (by omega)) 64 0
    (by decide) (by decide)).2 p hp
  have w2 : symInput w (64 * 65 + 0) = 1 := by
    rw [symInput_at w 64 0 (by decide)]
    simp
  rw [w2] at sh
  have hv1 : view (fun r c => B * B * rank ((65 + B - 1) / B) 1 0 0 r c) S2 64 0 = -1 := by
    omega
  rw [hv1]
  have := wrapT_neg w hw (-1) (by omega) (by omega)
  simpa using this

/-- Without the symmetric flag `run` returns the input entry `5` at `(64, 0)`. -/
theorem run_asym_false (w L u : Nat) (hw : 1 ≤ w) (hL : 0 < L) (hLB : L ∣ B) (hu : u ≤ 3)
    (h5 : 5 ≤ INF w) (output heap : Mem) :
    ∃ out, run w L u 65 (asymInput w) output false heap = some out ∧
      out (64 * 65 + 0) = 5 := by
  obtain ⟨out, o1, o2, _⟩ := run_shortest_false w L u 65 hw hL hLB hu (asymInput w) output heap
    (by decide) (by decide) (asymInput_valid w h5)
  refine ⟨out, o1, ?_⟩
  have a := o2 64 0 (by decide) (by decide)
  have b := closed_shortest 65 (asymInput w) (asymInput_triangle w h5) 64 0
    (by decide) (by decide)
  rw [IsShortest_unique 65 _ 64 0 _ _ a b, asymInput_at w 64 0 (by decide)]
  simp

/-- The naive reference returns the input entry `5` at `(64, 0)`. -/
theorem naive_asym (w : Nat) (hw : 1 ≤ w) (h5 : 5 ≤ INF w) (output : Mem) :
    ∃ out, floyd_warshall_naive.run w 65 (asymInput w) output = some out ∧
      out (64 * 65 + 0) = 5 := by
  obtain ⟨out, o1, o2, _⟩ := naive_shortest w 65 hw (asymInput w) output
    (asymInput_valid w h5) (by decide)
  refine ⟨out, o1, ?_⟩
  have a := o2 64 0 (by decide) (by decide)
  have b := closed_shortest 65 (asymInput w) (asymInput_triangle w h5) 64 0
    (by decide) (by decide)
  rw [IsShortest_unique 65 _ 64 0 _ _ a b, asymInput_at w 64 0 (by decide)]
  simp

end QFW

namespace QFW

/-! ## Every element that `FWR` leaves is the weight of a walk through the pivot range -/

theorem walkW_minform (D : Nat → Nat → Int) (p : List Nat) (i j : Nat) :
    walkW (fun a b => -(D a b)) i p j = -(walkW D i p j) :=
  walkW_neg _ _ (fun _ => True) (fun _ _ _ _ => rfl) p i j trivial trivial (fun _ _ => trivial)

/-- A call of `FWR` without the symmetric flag returns, keeps the range `[-INF, 0]`, and
every element it leaves is the weight of a walk of the scratch at entry whose
intermediate vertices lie in the pivot range. -/
theorem FWR_false_walk (w L u : Nat) (hw : 1 ≤ w) (hL : 0 < L) (hLB : L ∣ B) (hu : u ≤ 3)
    (blk : Nat → Nat → Nat) (G : Nat) (BP : Table) (hBP : TableOk BP G blk)
    (hinj : LayoutInj G blk) (e i0 i1 i2 : Nat) (m : Mem)
    (hm : MemOk (OkAt G blk (fun _ _ v => -(INF w) ≤ v ∧ v ≤ 0)) m) :
    ∃ m2, FWR w L u (2 ^ e) G i0 i1 i2 BP false m = some m2 ∧
      ∀ i j, i < G * B → j < G * B →
        ∃ p : List Nat, (∀ v, v ∈ p → Rows G i1 (2 ^ e) v) ∧
          view blk m2 i j = walkW (view blk m) i p j := by
  have hK : ∀ r1 r2 r3, r1 < G → r2 < G → r3 < G → (i0 ≤ r1 ∧ r1 < i0 + 2 ^ e) →
      (i1 ≤ r2 ∧ r2 < i1 + 2 ^ e) → (i2 ≤ r3 ∧ r3 < i2 + 2 ^ e) →
      KernelHyp w (OkAt G blk (fun i j v => (-(INF w) ≤ v ∧ v ≤ 0) ∧
        ∃ p : List Nat, (∀ t, t ∈ p → Rows G i1 (2 ^ e) t) ∧ v = walkW (view blk m) i p j))
        (blk r1 r3) (blk r1 r2) (blk r2 r3) := by
    intro r1 r2 r3 h1 h2 h3 _ b2 _
    apply KernelHyp_of w G blk _ hinj (fun i j v h => h.1) r1 r2 r3 h1 h2 h3
    intro i k j _ hk _ x y z ox oy oz hlt
    have RK := Rows_block G i1 (2 ^ e) r2 k h2 b2.1 b2.2 hk
    obtain ⟨⟨_, x2⟩, p1, a1, e1⟩ := ox
    obtain ⟨⟨_, y2⟩, p2, a2, e2⟩ := oy
    obtain ⟨⟨z1, _⟩, _⟩ := oz
    refine ⟨⟨by linarith, by linarith⟩, p1 ++ (r2 * B + k) :: p2, fun t ht => ?_, ?_⟩
    · rcases List.mem_append.mp ht with h | h
      · exact a1 t h
      · rcases List.mem_cons.mp h with h | h
        · rw [h]; exact RK
        · exact a2 t h
    · rw [walkW_append, e1, e2]
  have hm2 : MemOk (OkAt G blk (fun i j v => (-(INF w) ≤ v ∧ v ≤ 0) ∧
      ∃ p : List Nat, (∀ t, t ∈ p → Rows G i1 (2 ^ e) t) ∧ v = walkW (view blk m) i p j)) m := by
    intro addr r c x y hr hc hx hy he
    have ev : m addr = view blk m (r * B + x) (c * B + y) := by
      simp only [view]; rw [cell_eq blk r c x y hx hy, he]
    exact ⟨hm addr r c x y hr hc hx hy he, [], fun t ht => absurd ht (List.not_mem_nil t), ev⟩
  obtain ⟨m2, e2, ok2, _, _⟩ := FWR_relaxed_on w L u hw hL hLB hu _ blk G BP hBP e i0 i1 i2 m
    hK hm2
  exact ⟨m2, e2, fun i j hi hj => (view_of_MemOk G blk _ m2 ok2 i j hi hj).2⟩

end QFW

namespace QFW

/-! ## The sizes for which the forward `reorder` returns -/

theorem INF_le_maxT (w : Nat) : INF w ≤ maxT w := by
  have h := INF_nonneg w
  unfold INF at *
  omega

/-- Up to `n = 46344` no `int` expression of `reorder` overflows. -/
theorem reorderIntOK_of_le (n r c : Nat) (hn : n ≤ 46344) (hr : r < (n + B - 1) / B)
    (hc : c < (n + B - 1) / B) : reorderIntOK n r c := by
  have hr2 : r * B ≤ 46336 := by simp only [B] at *; omega
  have hc2 : c * B ≤ 46336 := by simp only [B] at *; omega
  constructor
  · unfold intOK INT_MAX
    have h1 : r * B * n ≤ 46336 * 46344 := Nat.mul_le_mul hr2 hn
    omega
  · intro i hi _ j hj
    unfold intOK INT_MAX
    have h1 : i * n ≤ 63 * n := Nat.mul_le_mul_right n (by simp only [B] at hi; omega)
    simp only [B] at hj
    omega

/-- From `n = 46345` on, the source offset of the last block overflows `int`. -/
theorem reorderIntOK_fails (n : Nat) (hn : 46345 ≤ n) : ¬ reorderIntOK n 724 724 := by
  intro h
  have h1 := h.1
  unfold intOK INT_MAX at h1
  simp only [B] at h1
  omega

/-- The top-level forward `reorder` returns exactly for `n ≤ 46344`. -/
theorem reorder_top_size (w n : Nat) (st : RState) (rev : Bool) :
    (∃ q, reorder w n (n_blocks_power2_loop n n 1) 0 st 0 0 rev = some q) ↔ n ≤ 46344 := by
  rw [reorder_top_iff]
  constructor
  · rintro ⟨_, hint⟩
    by_contra hn
    exact reorderIntOK_fails n (by omega) (hint 724 724 (by simp only [B]; omega)
      (by simp only [B]; omega))
  · intro hn
    exact ⟨by unfold intOK INT_MAX; simp only [B]; omega,
      fun r c hr hc => reorderIntOK_of_le n r c hn hr hc⟩

end QFW

namespace QFW

/-! ## Claims -/

/-- C1 (reference equivalence): for every `n` in `[1, 600]`, every `n × n` input with
entries in `[0, INF]`, every lane count, every `unroll_type` in `{0, 1, 2, 3}` and
`symmetric = false`, `floyd_warshall::run` returns, `floyd_warshall_naive::run` returns,
and the two output matrices are equal entry for entry. -/
theorem C1_reference_equivalence (w L u n : Nat) (input output output2 heap : Mem)
    (hw : 1 ≤ w) (hL : 0 < L) (hLB : L ∣ B) (hu : u ≤ 3) (hn1 : 1 ≤ n) (hn : n ≤ 600)
    (hW : ValidInput w n input) :
    ∃ out ref, run w L u n input output false heap = some out ∧
      floyd_warshall_naive.run w n input output2 = some ref ∧
      ∀ i j, i < n → j < n → out (i * n + j) = ref (i * n + j) := by
  obtain ⟨o1, r1, s1, _⟩ :=
    run_shortest_false w L u n hw hL hLB hu input output heap hn1 (by omega) hW
  have hnn : intOK (n * n) := by
    unfold intOK INT_MAX
    have := Nat.mul_le_mul hn hn
    omega
  obtain ⟨o2, r2, s2, _⟩ := naive_shortest w n hw input output2 hW hnn
  exact ⟨o1, o2, r1, r2, fun i j hi hj =>
    IsShortest_unique n input i j _ _ (s1 i j hi hj) (s2 i j hi hj)⟩

/-- Witness of C1: the one-vertex graph with a zero self-loop, `T = int32_t`, scalar
lanes, `unroll_type = 0`. -/
theorem C1_reference_equivalence_witness :
    ValidInput 32 1 (fun _ => 0) ∧
    ∃ out ref, run 32 1 0 1 (fun _ => 0) (fun _ => 0) false (fun _ => 0) = some out ∧
      floyd_warshall_naive.run 32 1 (fun _ => 0) (fun _ => 0) = some ref ∧
      ∀ i j, i < 1 → j < 1 → out (i * 1 + j) = ref (i * 1 + j) :=
  ⟨fun _ _ => ⟨le_refl _, INF_nonneg 32⟩,
    C1_reference_equivalence 32 1 0 1 (fun _ => 0) (fun _ => 0) (fun _ => 0) (fun _ => 0)
      (by decide) (by decide) (one_dvd _) (by decide) (by decide) (by decide)
      (fun _ _ => ⟨le_refl _, INF_nonneg 32⟩)⟩

/-- C2 (output contract): for every `n ≥ 1`, every `n × n` input with entries in
`[0, INF]` and all `i, j < n`, the entry `output[i * n + j]` that `floyd_warshall::run`
(`symmetric = false`) returns is the minimum over all vertex sequences
`i = v0, ..., vm = j` with `m ≥ 1` of the exact sum of the edges; `run` returns for every
`n ≤ 46336`, the sizes for which its `int` expressions do not overflow. -/
theorem C2_output_contract (w L u n : Nat) (input output heap : Mem)
    (hw : 1 ≤ w) (hL : 0 < L) (hLB : L ∣ B) (hu : u ≤ 3) (hn1 : 1 ≤ n)
    (hW : ValidInput w n input) :
    (∀ out, run w L u n input output false heap = some out →
      ∀ i j, i < n → j < n → IsShortest n input i j (out (i * n + j))) ∧
    (n ≤ 46336 → ∃ out, run w L u n input output false heap = some out) := by
  constructor
  · intro out h i j hi hj
    have hn := run_some_small w L u n input output heap false out hn1 h
    obtain ⟨o1, r1, s1, _⟩ := run_shortest_false w L u n hw hL hLB hu input output heap hn1 hn hW
    rw [r1] at h
    rw [← Option.some.inj h]
    exact s1 i j hi hj
  · intro hn
    obtain ⟨o1, r1, _, _⟩ := run_shortest_false w L u n hw hL hLB hu input output heap hn1 hn hW
    exact ⟨o1, r1⟩

/-- Witness of C2: the one-vertex graph with a zero self-loop. -/
theorem C2_output_contract_witness :
    ValidInput 32 1 (fun _ => 0) ∧
    ((∀ out, run 32 1 0 1 (fun _ => 0) (fun _ => 0) false (fun _ => 0) = some out →
      ∀ i j, i < 1 → j < 1 → IsShortest 1 (fun _ => 0) i j (out (i * 1 + j))) ∧
    (1 ≤ 46336 → ∃ out, run 32 1 0 1 (fun _ => 0) (fun _ => 0) false (fun _ => 0) = some out)) :=
  ⟨fun _ _ => ⟨le_refl _, INF_nonneg 32⟩,
    C2_output_contract 32 1 0 1 (fun _ => 0) (fun _ => 0) (fun _ => 0)
      (by decide) (by decide) (one_dvd _) (by decide) (by decide)
      (fun _ _ => ⟨le_refl _, INF_nonneg 32⟩)⟩

/-- C3 (symmetric-flag invariance): for every `n ≥ 1` and every symmetric `n × n` input
with entries in `[0, INF]`, `floyd_warshall::run` with `symmetric = true` (the recursion
that replaces two of the eight subcalls by `transpose_copy`) has exactly the result of
`run` with `symmetric = false`; both return for every `n ≤ 46336`. -/
theorem C3_symmetric_flag_invariance (w L u n : Nat) (input output heap : Mem)
    (hw : 1 ≤ w) (hL : 0 < L) (hLB : L ∣ B) (hu : u ≤ 3) (hn1 : 1 ≤ n)
    (hW : ValidInput w n input) (hS : SymmetricInput n input) :
    run w L u n input output true heap = run w L u n input output false heap ∧
    (n ≤ 46336 → ∃ out, run w L u n input output true heap = some out ∧
      run w L u n input output false heap = some out) := by
  by_cases hn : n ≤ 46336
  · obtain ⟨o1, r1, s1, f1⟩ :=
      run_shortest_true w L u n hw hL hLB hu input output heap hn1 hn hW hS
    obtain ⟨o2, r2, s2, f2⟩ := run_shortest_false w L u n hw hL hLB hu input output heap hn1 hn hW
    have e := out_unique n input output o1 o2 s1 s2 f1 f2
    subst e
    exact ⟨by rw [r1, r2], fun _ => ⟨o1, r1, r2⟩⟩
  · exact ⟨by rw [run_none_large w L u n input output heap true hn1 hn,
      run_none_large w L u n input output heap false hn1 hn], fun h => absurd h hn⟩

/-- Witness of C3: the symmetric `65 × 65` input `symInput` (two blocks per row, so the
recursion splits and the symmetric branch runs `transpose_copy`), `T = int32_t`, eight
lanes. -/
theorem C3_symmetric_flag_invariance_witness :
    ValidInput 32 65 (symInput 32) ∧ SymmetricInput 65 (symInput 32) ∧
    (run 32 8 0 65 (symInput 32) (fun _ => 0) true (fun _ => 0) =
      run 32 8 0 65 (symInput 32) (fun _ => 0) false (fun _ => 0) ∧
    (65 ≤ 46336 →
      ∃ out, run 32 8 0 65 (symInput 32) (fun _ => 0) true (fun _ => 0) = some out ∧
        run 32 8 0 65 (symInput 32) (fun _ => 0) false (fun _ => 0) = some out)) :=
  ⟨symInput_valid 32 (by decide), symInput_symm 32,
    C3_symmetric_flag_invariance 32 8 0 65 (symInput 32) (fun _ => 0) (fun _ => 0)
      (by decide) (by decide) ⟨8, rfl⟩ (by decide) (by decide)
      (symInput_valid 32 (by decide)) (symInput_symm 32)⟩

/-- C4 (unroll-strategy invariance): for every `n ≥ 1`, every `n × n` input with entries
in `[0, INF]` and either value of the symmetric flag, `floyd_warshall::run` has the same
result for any two `unroll_type`s in `{0, 1, 2, 3}`, and returns for every `n ≤ 46336`;
on blocks apart from each other with operands in `[-INF, 0]` the kernels
`MaxPlusMul0..3`, as `FWI` calls them, store the same block. -/
theorem C4_unroll_invariance (w L u u2 n : Nat) (input output heap : Mem) (sym : Bool)
    (hw : 1 ≤ w) (hL : 0 < L) (hLB : L ∣ B) (hu : u ≤ 3) (hu2 : u2 ≤ 3) (hn1 : 1 ≤ n)
    (hW : ValidInput w n input) :
    run w L u n input output sym heap = run w L u2 n input output sym heap ∧
    (n ≤ 46336 → ∃ out, run w L u n input output sym heap = some out) ∧
    ∀ (m : Mem) (a b c : Nat), (a + B * B ≤ b ∨ b + B * B ≤ a) →
      (a + B * B ≤ c ∨ c + B * B ≤ a) →
      (∀ t, t < B * B → -(INF w) ≤ m (b + t) ∧ m (b + t) ≤ 0) →
      (∀ t, t < B * B → -(INF w) ≤ m (c + t) ∧ m (c + t) ≤ 0) →
      FWI w L u m a b c = FWI w L u2 m a b c := by
  refine ⟨run_variant_eq w L u L u2 n hw hL hLB hu hL hLB hu2 input output heap sym hn1 hW,
    fun hn => ?_, fun m a b c hab hac hrb hrc =>
      FWI_variant_apart w L u L u2 hw hL hLB hu hL hLB hu2 m a b c hab hac hrb hrc⟩
  obtain ⟨out, r, _, _⟩ := run_range w L u n hw hL hLB hu input output heap sym hn1 hn hW
  exact ⟨out, r⟩

/-- Witness of C4: the `65 × 65` input `symInput` (two blocks per row, so `FWI` is called
on three different blocks and runs the kernels), `unroll_type = 0` against
`unroll_type = 3`, `T = int32_t`, eight lanes. -/
theorem C4_unroll_invariance_witness :
    ValidInput 32 65 (symInput 32) ∧
    (run 32 8 0 65 (symInput 32) (fun _ => 0) false (fun _ => 0) =
      run 32 8 3 65 (symInput 32) (fun _ => 0) false (fun _ => 0) ∧
    (65 ≤ 46336 →
      ∃ out, run 32 8 0 65 (symInput 32) (fun _ => 0) false (fun _ => 0) = some out) ∧
    ∀ (m : Mem) (a b c : Nat), (a + B * B ≤ b ∨ b + B * B ≤ a) →
      (a + B * B ≤ c ∨ c + B * B ≤ a) →
      (∀ t, t < B * B → -(INF 32) ≤ m (b + t) ∧ m (b + t) ≤ 0) →
      (∀ t, t < B * B → -(INF 32) ≤ m (c + t) ∧ m (c + t) ≤ 0) →
      FWI 32 8 0 m a b c = FWI 32 8 3 m a b c) :=
  ⟨symInput_valid 32 (by decide),
    C4_unroll_invariance 32 8 0 3 65 (symInput 32) (fun _ => 0) (fun _ => 0) false
      (by decide) (by decide) ⟨8, rfl⟩ (by decide) (by decide) (by decide)
      (symInput_valid 32 (by decide))⟩

/-- C5 (lane-width invariance): with a `vector_t` of `L` lanes, `L` dividing `B = 64`,
for every `n ≥ 1`, every `n × n` input with entries in `[0, INF]` and either flag,
`floyd_warshall::run` has the result of the scalar variant (`L = 1`) and returns for
every `n ≤ 46336`; the aliased loop of `FWI`, where the loaded row of `c` and the stored
row of `a` are the same memory, stores the same block for `L` lanes as for one. -/
theorem C5_lane_invariance (w L u n : Nat) (input output heap : Mem) (sym : Bool)
    (hw : 1 ≤ w) (hL : 0 < L) (hLB : L ∣ B) (hu : u ≤ 3) (hn1 : 1 ≤ n)
    (hW : ValidInput w n input) :
    run w L u n input output sym heap = run w 1 u n input output sym heap ∧
    (n ≤ 46336 → ∃ out, run w L u n input output sym heap = some out) ∧
    ∀ (m : Mem) (a b : Nat), FWI w L u m a b a = FWI w 1 u m a b a := by
  refine ⟨run_variant_eq w L u 1 u n hw hL hLB hu (by decide) (one_dvd _) hu input output heap
    sym hn1 hW, fun hn => ?_, fun m a b => ?_⟩
  · obtain ⟨out, r, _, _⟩ := run_range w L u n hw hL hLB hu input output heap sym hn1 hn hW
    exact ⟨out, r⟩
  · rw [FWI_serial w L u m a b a (fun h => h.2.1 rfl), FWI_serial w 1 u m a b a (fun h => h.2.1 rfl)]
    exact genKernel_serial_lanes w L 1 hL hLB (by decide) (one_dvd _) a b a (Or.inl rfl) m

/-- Witness of C5: the one-vertex graph, eight lanes (`AVX2` on `int32_t`) against the
scalar variant. -/
theorem C5_lane_invariance_witness :
    ValidInput 32 1 (fun _ => 0) ∧
    run 32 8 0 1 (fun _ => 0) (fun _ => 0) false (fun _ => 0) =
      run 32 1 0 1 (fun _ => 0) (fun _ => 0) false (fun _ => 0) :=
  ⟨fun _ _ => ⟨le_refl _, INF_nonneg 32⟩,
    (C5_lane_invariance 32 8 0 1 (fun _ => 0) (fun _ => 0) (fun _ => 0) false
      (by decide) (by decide) ⟨8, rfl⟩ (by decide) (by decide)
      (fun _ _ => ⟨le_refl _, INF_nonneg 32⟩)).1⟩

/-- C6 (supported size limit), at the failing input `src_n = 46337`: the `int` product
`(B * n_blocks) * (B * n_blocks)` is `46400 * 46400 = 2152960000`, above `INT_MAX`; a
wrapping machine gets `-2142007296`, and `run` has no defined result. -/
theorem C6_size_expression_overflows :
    (B * ((46337 + B - 1) / B)) * (B * ((46337 + B - 1) / B)) = 2152960000 ∧
    ¬ intOK ((B * ((46337 + B - 1) / B)) * (B * ((46337 + B - 1) / B))) ∧
    reordered_needed_elems 46337 = -2142007296 ∧
    ∀ (w L u : Nat) (input output heap : Mem) (sym : Bool),
      run w L u 46337 input output sym heap = none := by
  refine ⟨by decide, by decide, by decide, ?_⟩
  intro w L u input output heap sym
  unfold run
  rw [if_neg (by decide), if_neg (by decide), if_pos (by decide)]

end QFW

namespace QFW

/-- C7 (sentinel preservation): for every `n ≥ 1`, every `n × n` input with entries in
`[0, INF]` (symmetric when the symmetric flag is set) and every pair `i, j` without a
sequence `i = v0, ..., vm = j`, `m ≥ 1`, whose edges are all below `INF`, the output of
`floyd_warshall::run` has `output[i * n + j] = INF`; `run` returns for every `n ≤ 46336`;
and the `n = 3` input `0 1 INF / INF 0 INF / INF INF 0` is returned unchanged. -/
theorem C7_sentinel_preservation (w L u n : Nat) (input output heap : Mem) (sym : Bool)
    (hw : 1 ≤ w) (hL : 0 < L) (hLB : L ∣ B) (hu : u ≤ 3) (hn1 : 1 ≤ n)
    (hW : ValidInput w n input) (hS : sym = true → SymmetricInput n input) :
    (∀ out, run w L u n input output sym heap = some out → ∀ i j, i < n → j < n →
      (¬ ∃ p : List Nat, (∀ v, v ∈ p → v < n) ∧ finiteWalk w n input i p j) →
      out (i * n + j) = INF w) ∧
    (n ≤ 46336 → ∃ out, run w L u n input output sym heap = some out) ∧
    (1 ≤ INF w → ∃ out, run w L u 3 (oneEdge w) output false heap = some out ∧
      ∀ t, t < 9 → out t = oneEdge w t) := by
  refine ⟨fun out h i j hi hj hno => ?_, fun hn => ?_, fun h1 => ?_⟩
  · have hn := run_some_small w L u n input output heap sym out hn1 h
    obtain ⟨o1, r1, s1, _⟩ := run_shortest w L u n hw hL hLB hu input output heap sym hn1 hn hW hS
    rw [r1] at h
    rw [← Option.some.inj h]
    exact shortest_sentinel w n input hW i j _ hi hj (s1 i j hi hj) hno
  · obtain ⟨o1, r1, _, _⟩ := run_shortest w L u n hw hL hLB hu input output heap sym hn1 hn hW hS
    exact ⟨o1, r1⟩
  · obtain ⟨o1, r1, s1, _⟩ := run_shortest_false w L u 3 hw hL hLB hu (oneEdge w) output heap
      (by decide) (by decide) (oneEdge_valid w h1)
    refine ⟨o1, r1, fun t ht => ?_⟩
    obtain ⟨hi, hj, he⟩ := elem_split 3 t ht
    rw [he]
    exact IsShortest_unique 3 (oneEdge w) _ _ _ _ (s1 _ _ hi hj)
      (closed_shortest 3 (oneEdge w) (oneEdge_triangle w h1) _ _ hi hj)

/-- Witness of C7: `T = int32_t` and the three-vertex graph whose only edge is `0 → 1`. -/
theorem C7_sentinel_preservation_witness :
    ValidInput 32 3 (oneEdge 32) ∧
    ((∀ out, run 32 1 0 3 (oneEdge 32) (fun _ => 0) false (fun _ => 0) = some out →
      ∀ i j, i < 3 → j < 3 →
      (¬ ∃ p : List Nat, (∀ v, v ∈ p → v < 3) ∧ finiteWalk 32 3 (oneEdge 32) i p j) →
      out (i * 3 + j) = INF 32) ∧
    (3 ≤ 46336 → ∃ out, run 32 1 0 3 (oneEdge 32) (fun _ => 0) false (fun _ => 0) = some out) ∧
    (1 ≤ INF 32 → ∃ out, run 32 1 0 3 (oneEdge 32) (fun _ => 0) false (fun _ => 0) = some out ∧
      ∀ t, t < 9 → out t = oneEdge 32 t)) :=
  ⟨oneEdge_valid 32 (by decide),
    C7_sentinel_preservation 32 1 0 3 (oneEdge 32) (fun _ => 0) (fun _ => 0) false
      (by decide) (by decide) (one_dvd _) (by decide) (by decide)
      (oneEdge_valid 32 (by decide)) (fun h => absurd h (by decide))⟩

/-- C8 (output range): for every `n ≥ 1`, every `n × n` input with entries in `[0, INF]`
and either flag, every entry of the matrix that `floyd_warshall::run` returns lies in
`[0, INF]`: none is negative and none lies in `(INF, max(T)]`; `run` returns for every
`n ≤ 46336`. -/
theorem C8_output_range (w L u n : Nat) (input output heap : Mem) (sym : Bool)
    (hw : 1 ≤ w) (hL : 0 < L) (hLB : L ∣ B) (hu : u ≤ 3) (hn1 : 1 ≤ n)
    (hW : ValidInput w n input) :
    (∀ out, run w L u n input output sym heap = some out →
      ∀ t, t < n * n → 0 ≤ out t ∧ out t ≤ INF w) ∧
    (n ≤ 46336 → ∃ out, run w L u n input output sym heap = some out) := by
  refine ⟨fun out h => ?_, fun hn => ?_⟩
  · have hn := run_some_small w L u n input output heap sym out hn1 h
    obtain ⟨o1, r1, g1, _⟩ := run_range w L u n hw hL hLB hu input output heap sym hn1 hn hW
    rw [r1] at h
    rw [← Option.some.inj h]
    exact g1
  · obtain ⟨o1, r1, _, _⟩ := run_range w L u n hw hL hLB hu input output heap sym hn1 hn hW
    exact ⟨o1, r1⟩

/-- Witness of C8: the three-vertex graph whose only edge is `0 → 1`, with the symmetric
flag set although the input is not symmetric. -/
theorem C8_output_range_witness :
    ValidInput 32 3 (oneEdge 32) ∧
    ((∀ out, run 32 1 0 3 (oneEdge 32) (fun _ => 0) true (fun _ => 0) = some out →
      ∀ t, t < 3 * 3 → 0 ≤ out t ∧ out t ≤ INF 32) ∧
    (3 ≤ 46336 → ∃ out, run 32 1 0 3 (oneEdge 32) (fun _ => 0) true (fun _ => 0) = some out)) :=
  ⟨oneEdge_valid 32 (by decide),
    C8_output_range 32 1 0 3 (oneEdge 32) (fun _ => 0) (fun _ => 0) true
      (by decide) (by decide) (one_dvd _) (by decide) (by decide)
      (oneEdge_valid 32 (by decide))⟩

/-- C9 (idempotence): for every `n ≥ 1` and every `n × n` input `W` with entries in
`[0, INF]` (symmetric when one of the two calls sets the symmetric flag), applying
`floyd_warshall::run` to its own output returns that output unchanged:
`run(n, run(n, W)) = run(n, W)` on the `n × n` matrix; the first call returns for every
`n ≤ 46336`, and the second call returns whenever the first does. -/
theorem C9_idempotence (w L u n : Nat) (input output output2 heap heap2 : Mem)
    (sym sym2 : Bool) (hw : 1 ≤ w) (hL : 0 < L) (hLB : L ∣ B) (hu : u ≤ 3) (hn1 : 1 ≤ n)
    (hW : ValidInput w n input) (hS : (sym = true ∨ sym2 = true) → SymmetricInput n input) :
    (∀ out1, run w L u n input output sym heap = some out1 →
      ∃ out2, run w L u n out1 output2 sym2 heap2 = some out2 ∧
        (∀ t, t < n * n → out2 t = out1 t) ∧ (∀ t, n * n ≤ t → out2 t = output2 t)) ∧
    (n ≤ 46336 → ∃ out1, run w L u n input output sym heap = some out1) := by
  refine ⟨fun out1 h => ?_, fun hn => ?_⟩
  · have hn := run_some_small w L u n input output heap sym out1 hn1 h
    obtain ⟨o1, r1, s1, _⟩ := run_shortest w L u n hw hL hLB hu input output heap sym hn1 hn hW
      (fun hs => hS (Or.inl hs))
    obtain ⟨o1b, r1b, g1, _⟩ := run_range w L u n hw hL hLB hu input output heap sym hn1 hn hW
    have ea : o1 = out1 := Option.some.inj (r1.symm.trans h)
    have eb : o1b = out1 := Option.some.inj (r1b.symm.trans h)
    rw [ea] at s1
    rw [eb] at g1
    have hS2 : sym2 = true → SymmetricInput n out1 := fun hs i j hi hj =>
      IsShortest_unique n input i j _ _ (s1 i j hi hj)
        (IsShortest_symm n input (hS (Or.inr hs)) j i _ hj hi (s1 j i hj hi))
    obtain ⟨o2, r2, s2, f2⟩ := run_shortest w L u n hw hL hLB hu out1 output2 heap2 sym2 hn1 hn
      g1 hS2
    refine ⟨o2, r2, fun t ht => ?_, f2⟩
    obtain ⟨hi, hj, he⟩ := elem_split n t ht
    rw [he]
    exact IsShortest_unique n out1 _ _ _ _ (s2 _ _ hi hj)
      (closed_shortest n out1 (shortest_triangle n input out1 s1) _ _ hi hj)
  · obtain ⟨o1, r1, _, _⟩ := run_range w L u n hw hL hLB hu input output heap sym hn1 hn hW
    exact ⟨o1, r1⟩

/-- Witness of C9: the three-vertex graph whose only edge is `0 → 1`, solved twice
without the symmetric flag. -/
theorem C9_idempotence_witness :
    ValidInput 32 3 (oneEdge 32) ∧
    ((∀ out1, run 32 1 0 3 (oneEdge 32) (fun _ => 0) false (fun _ => 0) = some out1 →
      ∃ out2, run 32 1 0 3 out1 (fun _ => 0) false (fun _ => 0) = some out2 ∧
        (∀ t, t < 3 * 3 → out2 t = out1 t) ∧ (∀ t, 3 * 3 ≤ t → out2 t = (fun _ => 0) t)) ∧
    (3 ≤ 46336 → ∃ out1, run 32 1 0 3 (oneEdge 32) (fun _ => 0) false (fun _ => 0) = some out1)) :=
  ⟨oneEdge_valid 32 (by decide),
    C9_idempotence 32 1 0 3 (oneEdge 32) (fun _ => 0) (fun _ => 0) (fun _ => 0) (fun _ => 0)
      false false (by decide) (by decide) (one_dvd _) (by decide) (by decide)
      (oneEdge_valid 32 (by decide)) (fun h => absurd h (by decide))⟩

/-- C10 (symmetry preservation): for every `n ≥ 1` and every symmetric `n × n` input with
entries in `[0, INF]`, the output of `floyd_warshall::run` has
`output[i * n + j] = output[j * n + i]` for all `i, j`, with `symmetric = true` and with
`symmetric = false`; `run` returns for every `n ≤ 46336`. -/
theorem C10_symmetry_preservation (w L u n : Nat) (input output heap : Mem) (sym : Bool)
    (hw : 1 ≤ w) (hL : 0 < L) (hLB : L ∣ B) (hu : u ≤ 3) (hn1 : 1 ≤ n)
    (hW : ValidInput w n input) (hS : SymmetricInput n input) :
    (∀ out, run w L u n input output sym heap = some out →
      ∀ i j, i < n → j < n → out (i * n + j) = out (j * n + i)) ∧
    (n ≤ 46336 → ∃ out, run w L u n input output sym heap = some out) := by
  refine ⟨fun out h i j hi hj => ?_, fun hn => ?_⟩
  · have hn := run_some_small w L u n input output heap sym out hn1 h
    obtain ⟨o1, r1, s1, _⟩ := run_shortest w L u n hw hL hLB hu input output heap sym hn1 hn hW
      (fun _ => hS)
    rw [r1] at h
    rw [← Option.some.inj h]
    exact IsShortest_unique n input i j _ _ (s1 i j hi hj)
      (IsShortest_symm n input hS j i _ hj hi (s1 j i hj hi))
  · obtain ⟨o1, r1, _, _⟩ := run_shortest w L u n hw hL hLB hu input output heap sym hn1 hn hW
      (fun _ => hS)
    exact ⟨o1, r1⟩

/-- Witness of C10: the symmetric `65 × 65` input `symInput` (two blocks per row), symmetric
flag set, so the symmetric branch of the recursion and `transpose_copy` run. -/
theorem C10_symmetry_preservation_witness :
    ValidInput 32 65 (symInput 32) ∧ SymmetricInput 65 (symInput 32) ∧
    ((∀ out, run 32 8 0 65 (symInput 32) (fun _ => 0) true (fun _ => 0) = some out →
      ∀ i j, i < 65 → j < 65 → out (i * 65 + j) = out (j * 65 + i)) ∧
    (65 ≤ 46336 →
      ∃ out, run 32 8 0 65 (symInput 32) (fun _ => 0) true (fun _ => 0) = some out)) :=
  ⟨symInput_valid 32 (by decide), symInput_symm 32,
    C10_symmetry_preservation 32 8 0 65 (symInput 32) (fun _ => 0) (fun _ => 0) true
      (by decide) (by decide) ⟨8, rfl⟩ (by decide) (by decide)
      (symInput_valid 32 (by decide)) (symInput_symm 32)⟩

end QFW

namespace QFW

/-- C11 (triangle inequality): for every `n ≥ 1`, every `n × n` input with entries in
`[0, INF]` (symmetric when the symmetric flag is set) and all `i, j, k < n`, the output of
`floyd_warshall::run` has `output[i * n + j] ≤ min(INF, output[i * n + k] + output[k * n + j])`,
the sum taken in exact integers; `run` returns for every `n ≤ 46336`. -/
theorem C11_triangle_inequality (w L u n : Nat) (input output heap : Mem) (sym : Bool)
    (hw : 1 ≤ w) (hL : 0 < L) (hLB : L ∣ B) (hu : u ≤ 3) (hn1 : 1 ≤ n)
    (hW : ValidInput w n input) (hS : sym = true → SymmetricInput n input) :
    (∀ out, run w L u n input output sym heap = some out →
      ∀ i j k, i < n → j < n → k < n →
        out (i * n + j) ≤ min (INF w) (out (i * n + k) + out (k * n + j))) ∧
    (n ≤ 46336 → ∃ out, run w L u n input output sym heap = some out) := by
  refine ⟨fun out h i j k hi hj hk => ?_, fun hn => ?_⟩
  · have hn := run_some_small w L u n input output heap sym out hn1 h
    obtain ⟨o1, r1, s1, _⟩ := run_shortest w L u n hw hL hLB hu input output heap sym hn1 hn hW hS
    rw [r1] at h
    rw [← Option.some.inj h]
    apply le_min
    · exact le_trans ((s1 i j hi hj).2 [] (fun v hv => absurd hv (List.not_mem_nil v)))
        (hW _ (idx_lt n i j hi hj)).2
    · exact shortest_triangle n input o1 s1 i k j hi hk hj
  · obtain ⟨o1, r1, _, _⟩ := run_shortest w L u n hw hL hLB hu input output heap sym hn1 hn hW hS
    exact ⟨o1, r1⟩

/-- Witness of C11: scenario A. -/
theorem C11_triangle_inequality_witness :
    ValidInput 32 3 (scenarioA_in 32) ∧
    ((∀ out, run 32 1 0 3 (scenarioA_in 32) (fun _ => 0) false (fun _ => 0) = some out →
      ∀ i j k, i < 3 → j < 3 → k < 3 →
        out (i * 3 + j) ≤ min (INF 32) (out (i * 3 + k) + out (k * 3 + j))) ∧
    (3 ≤ 46336 → ∃ out,
      run 32 1 0 3 (scenarioA_in 32) (fun _ => 0) false (fun _ => 0) = some out)) :=
  ⟨by intro t ht; have e : (3 : Nat) * 3 = 9 := rfl; rw [e] at ht; interval_cases t <;> decide,
    C11_triangle_inequality 32 1 0 3 (scenarioA_in 32) (fun _ => 0) (fun _ => 0) false
      (by decide) (by decide) (one_dvd _) (by decide) (by decide)
      (by intro t ht; have e : (3 : Nat) * 3 = 9 := rfl; rw [e] at ht; interval_cases t <;> decide)
      (fun h => absurd h (by decide))⟩

/-- C12 (diagonal zero): for every `n ≥ 1` and every `n × n` input with entries in
`[0, INF]` (symmetric when the symmetric flag is set) whose diagonal entries
`input[i * n + i]` are all `0`, every diagonal entry `output[i * n + i]` that
`floyd_warshall::run` returns is `0`; `run` returns for every `n ≤ 46336`. -/
theorem C12_diagonal_zero (w L u n : Nat) (input output heap : Mem) (sym : Bool)
    (hw : 1 ≤ w) (hL : 0 < L) (hLB : L ∣ B) (hu : u ≤ 3) (hn1 : 1 ≤ n)
    (hW : ValidInput w n input) (hS : sym = true → SymmetricInput n input)
    (hD : ∀ i, i < n → input (i * n + i) = 0) :
    (∀ out, run w L u n input output sym heap = some out → ∀ i, i < n → out (i * n + i) = 0) ∧
    (n ≤ 46336 → ∃ out, run w L u n input output sym heap = some out) := by
  refine ⟨fun out h i hi => ?_, fun hn => ?_⟩
  · have hn := run_some_small w L u n input output heap sym out hn1 h
    obtain ⟨o1, r1, s1, _⟩ := run_shortest w L u n hw hL hLB hu input output heap sym hn1 hn hW hS
    rw [r1] at h
    rw [← Option.some.inj h]
    obtain ⟨⟨p, a1, a2⟩, a3⟩ := s1 i i hi hi
    apply le_antisymm
    · have := a3 [] (fun v hv => absurd hv (List.not_mem_nil v))
      simp only [walkW, Wf, hD i hi] at this
      exact this
    · rw [a2]
      exact walkW_nonneg w n input hW p i i hi hi a1
  · obtain ⟨o1, r1, _, _⟩ := run_shortest w L u n hw hL hLB hu input output heap sym hn1 hn hW hS
    exact ⟨o1, r1⟩

/-- Witness of C12: scenario B, with the symmetric flag. -/
theorem C12_diagonal_zero_witness :
    ValidInput 16 4 (scenarioB_in 16) ∧ SymmetricInput 4 (scenarioB_in 16) ∧
    (∀ i, i < 4 → scenarioB_in 16 (i * 4 + i) = 0) ∧
    ((∀ out, run 16 1 0 4 (scenarioB_in 16) (fun _ => 0) true (fun _ => 0) = some out →
      ∀ i, i < 4 → out (i * 4 + i) = 0) ∧
    (4 ≤ 46336 → ∃ out,
      run 16 1 0 4 (scenarioB_in 16) (fun _ => 0) true (fun _ => 0) = some out)) :=
  ⟨scenarioD_valid 0 0 0 0 (by decide) (by decide) (by decide) (by decide),
    scenarioD_symm 0 0 0 0, by decide,
    C12_diagonal_zero 16 1 0 4 (scenarioB_in 16) (fun _ => 0) (fun _ => 0) true
      (by decide) (by decide) (one_dvd _) (by decide) (by decide)
      (scenarioD_valid 0 0 0 0 (by decide) (by decide) (by decide) (by decide))
      (fun _ => scenarioD_symm 0 0 0 0) (by decide)⟩

/-- C13, counterexample: with every diagonal entry of scenario B set to `INF = 16383`
(`T = int16_t`), `floyd_warshall::run` returns `output[0] = 2`, the weight of the closed
walk `0 → 1 → 0`, where the expected matrix of scenario B has `0`. -/
theorem C13_diagonal_not_zero :
    ∃ out, run 16 1 0 4 (scenarioD_in 16 16383 16383 16383 16383) (fun _ => 0) false
        (fun _ => 0) = some out ∧
      out 0 = 2 ∧ out 0 ≠ scenarioB_out 0 := by
  obtain ⟨o1, r1, s1, _⟩ := run_shortest_false 16 1 0 4 (by decide) (by decide) (one_dvd _)
    (by decide) (scenarioD_in 16 16383 16383 16383 16383) (fun _ => 0) (fun _ => 0) (by decide)
    (by decide)
    (scenarioD_valid 16383 16383 16383 16383 (by decide) (by decide) (by decide) (by decide))
  have e : o1 0 = 2 := IsShortest_unique 4 _ 0 0 _ _ (s1 0 0 (by decide) (by decide))
    (scenarioD_solution 16383 16383 16383 16383 (by decide) (by decide) (by decide) (by decide)
      0 0 (by decide) (by decide))
  exact ⟨o1, r1, e, by rw [e]; decide⟩

/-- C13 (self-loop irrelevance, scenario D), as amended: for the symmetric `4 × 4` input
of scenario B (`T = int16_t`) with its diagonal replaced by `d0, ..., d3` in `(0, INF]`,
`floyd_warshall::run` (either flag) returns the matrix of scenario B off the diagonal,
and on the diagonal `min(d0, 2)`, `min(d1, 2)`, `min(d2, 4)`, `min(d3, 8)`: the lighter
of the self-loop and the lightest closed walk through a neighbour. -/
theorem C13_self_loops (L u : Nat) (d0 d1 d2 d3 : Int) (output heap : Mem) (sym : Bool)
    (hL : 0 < L) (hLB : L ∣ B) (hu : u ≤ 3)
    (h0 : 0 < d0 ∧ d0 ≤ INF 16) (h1 : 0 < d1 ∧ d1 ≤ INF 16) (h2 : 0 < d2 ∧ d2 ≤ INF 16)
    (h3 : 0 < d3 ∧ d3 ≤ INF 16) :
    ∃ out, run 16 L u 4 (scenarioD_in 16 d0 d1 d2 d3) output sym heap = some out ∧
      (∀ i j, i < 4 → j < 4 → i ≠ j → out (i * 4 + j) = scenarioB_out (i * 4 + j)) ∧
      out 0 = min d0 2 ∧ out 5 = min d1 2 ∧ out 10 = min d2 4 ∧ out 15 = min d3 8 := by
  obtain ⟨o1, r1, s1, _⟩ := run_shortest 16 L u 4 (by decide) hL hLB hu
    (scenarioD_in 16 d0 d1 d2 d3) output heap sym (by decide) (by decide)
    (scenarioD_valid d0 d1 d2 d3 ⟨le_of_lt h0.1, h0.2⟩ ⟨le_of_lt h1.1, h1.2⟩
      ⟨le_of_lt h2.1, h2.2⟩ ⟨le_of_lt h3.1, h3.2⟩)
    (fun _ => scenarioD_symm d0 d1 d2 d3)
  have key : ∀ i j, i < 4 → j < 4 → o1 (i * 4 + j) = scenarioD_out d0 d1 d2 d3 (i * 4 + j) :=
    fun i j hi hj => IsShortest_unique 4 _ i j _ _ (s1 i j hi hj)
      (scenarioD_solution d0 d1 d2 d3 (le_of_lt h0.1) (le_of_lt h1.1) (le_of_lt h2.1)
        (le_of_lt h3.1) i j hi hj)
  refine ⟨o1, r1, fun i j hi hj hne => ?_, key 0 0 (by decide) (by decide),
    key 1 1 (by decide) (by decide), key 2 2 (by decide) (by decide),
    key 3 3 (by decide) (by decide)⟩
  rw [key i j hi hj]
  interval_cases i <;> interval_cases j <;> first | rfl | exact absurd rfl hne

/-- Witness of C13 as amended: the diagonal `5, 1, 9, 3`. -/
theorem C13_self_loops_witness :
    ∃ out, run 16 1 0 4 (scenarioD_in 16 5 1 9 3) (fun _ => 0) true (fun _ => 0) = some out ∧
      (∀ i j, i < 4 → j < 4 → i ≠ j → out (i * 4 + j) = scenarioB_out (i * 4 + j)) ∧
      out 0 = min 5 2 ∧ out 5 = min 1 2 ∧ out 10 = min 9 4 ∧ out 15 = min 3 8 :=
  C13_self_loops 1 0 5 1 9 3 (fun _ => 0) (fun _ => 0) true (by decide) (one_dvd _) (by decide)
    (by decide) (by decide) (by decide) (by decide)

end QFW

namespace QFW

/-- C14 (scenario A): with `T = int32_t` (`INF = 1073741823`), `n = 3` and the row-major
input `[0, 5, INF, INF, 0, 3, 2, INF, 0]`, `floyd_warshall::run` (`symmetric = false`, any
`unroll_type`, any lane count) returns `[0, 5, 8, 5, 0, 3, 2, 7, 0]`. -/
theorem C14_scenario_A (L u : Nat) (output heap : Mem) (hL : 0 < L) (hLB : L ∣ B)
    (hu : u ≤ 3) :
    INF 32 = 1073741823 ∧
    ∃ out, run 32 L u 3 (scenarioA_in 32) output false heap = some out ∧
      ∀ t, t < 9 → out t = scenarioA_out t := by
  refine ⟨INF_32, ?_⟩
  obtain ⟨o1, r1, s1, _⟩ := run_shortest_false 32 L u 3 (by decide) hL hLB hu (scenarioA_in 32)
    output heap (by decide) (by decide)
    (by intro t ht; have e : (3 : Nat) * 3 = 9 := rfl; rw [e] at ht; interval_cases t <;> decide)
  refine ⟨o1, r1, fun t ht => ?_⟩
  obtain ⟨hi, hj, he⟩ := elem_split 3 t ht
  rw [he]
  exact IsShortest_unique 3 _ _ _ _ _ (s1 _ _ hi hj) (scenarioA_solution _ _ hi hj)

/-- Witness of C14: the scalar variant with `unroll_type = 0`. -/
theorem C14_scenario_A_witness :
    INF 32 = 1073741823 ∧
    ∃ out, run 32 1 0 3 (scenarioA_in 32) (fun _ => 0) false (fun _ => 0) = some out ∧
      ∀ t, t < 9 → out t = scenarioA_out t :=
  C14_scenario_A 1 0 (fun _ => 0) (fun _ => 0) (by decide) (one_dvd _) (by decide)

/-- C15 (scenario B): with `T = int16_t` (`INF = 16383`), `n = 4` and the symmetric input
`0 1 INF INF / 1 0 2 INF / INF 2 0 4 / INF INF 4 0`, `floyd_warshall::run` returns
`0 1 3 7 / 1 0 2 6 / 3 2 0 4 / 7 6 4 0`, for `symmetric = true` and for
`symmetric = false`. -/
theorem C15_scenario_B (L u : Nat) (output heap : Mem) (sym : Bool) (hL : 0 < L)
    (hLB : L ∣ B) (hu : u ≤ 3) :
    INF 16 = 16383 ∧ SymmetricInput 4 (scenarioB_in 16) ∧
    ∃ out, run 16 L u 4 (scenarioB_in 16) output sym heap = some out ∧
      ∀ t, t < 16 → out t = scenarioB_out t := by
  refine ⟨INF_16, scenarioD_symm 0 0 0 0, ?_⟩
  obtain ⟨o1, r1, s1, _⟩ := run_shortest 16 L u 4 (by decide) hL hLB hu (scenarioB_in 16)
    output heap sym (by decide) (by decide)
    (scenarioD_valid 0 0 0 0 (by decide) (by decide) (by decide) (by decide))
    (fun _ => scenarioD_symm 0 0 0 0)
  refine ⟨o1, r1, fun t ht => ?_⟩
  obtain ⟨hi, hj, he⟩ := elem_split 4 t ht
  have h := IsShortest_unique 4 _ _ _ _ _ (s1 _ _ hi hj)
    (scenarioD_solution 0 0 0 0 (le_refl _) (le_refl _) (le_refl _) (le_refl _) _ _ hi hj)
  rw [← he] at h
  rw [h]
  interval_cases t <;> rfl

/-- Witness of C15: the scalar variant with the symmetric flag. -/
theorem C15_scenario_B_witness :
    INF 16 = 16383 ∧ SymmetricInput 4 (scenarioB_in 16) ∧
    ∃ out, run 16 1 0 4 (scenarioB_in 16) (fun _ => 0) true (fun _ => 0) = some out ∧
      ∀ t, t < 16 → out t = scenarioB_out t :=
  C15_scenario_B 1 0 (fun _ => 0) (fun _ => 0) true (by decide) (one_dvd _) (by decide)

/-- C16 (random-path sanity, scenario E): for every `n ≥ 2` with `n - 1 < INF`, every
permutation `perm` of `[0, n)` and the `n × n` input whose entries
`perm(t) * n + perm(t + 1)`, `t + 1 < n`, are `1` and whose other entries are `INF`,
`floyd_warshall::run` (`symmetric = false`) returns, for every `k` with
`1 ≤ k ≤ n - 1`, `output[perm(0) * n + perm(k)] = k` and
`output[perm(k) * n + perm(0)] = INF`; `run` returns for every `n ≤ 46336`. -/
theorem C16_random_path (w L u n : Nat) (perm : Nat → Nat) (output heap : Mem)
    (hw : 1 ≤ w) (hL : 0 < L) (hLB : L ∣ B) (hu : u ≤ 3) (hn2 : 2 ≤ n)
    (hI : ((n - 1 : Nat) : Int) < INF w) (hp : ∀ t, t < n → perm t < n)
    (hinj : ∀ s t, s < n → t < n → perm s = perm t → s = t) :
    (∀ out, run w L u n (pathInput w n perm) output false heap = some out →
      ∀ k, 1 ≤ k → k ≤ n - 1 →
        out (perm 0 * n + perm k) = (k : Int) ∧ out (perm k * n + perm 0) = INF w) ∧
    (n ≤ 46336 → ∃ out, run w L u n (pathInput w n perm) output false heap = some out) := by
  have h1 : 1 ≤ INF w := by
    have : (0 : Int) ≤ ((n - 1 : Nat) : Int) := Int.natCast_nonneg _
    omega
  have hV := pathInput_valid w n perm hp hinj h1
  refine ⟨fun out h k hk1 hk => ?_, fun hn => ?_⟩
  · have hn := run_some_small w L u n (pathInput w n perm) output heap false out (by omega) h
    obtain ⟨o1, r1, s1, _⟩ := run_shortest_false w L u n hw hL hLB hu (pathInput w n perm)
      output heap (by omega) hn hV
    rw [r1] at h
    rw [← Option.some.inj h]
    exact ⟨path_forward w n perm hp hinj hI k hk1 (by omega) _
        (s1 _ _ (hp 0 (by omega)) (hp k (by omega))),
      path_backward w n perm hp hinj h1 k (by omega) _
        (s1 _ _ (hp k (by omega)) (hp 0 (by omega)))⟩
  · obtain ⟨o1, r1, _, _⟩ := run_shortest_false w L u n hw hL hLB hu (pathInput w n perm)
      output heap (by omega) hn hV
    exact ⟨o1, r1⟩

/-- Witness of C16: three vertices on the path `2 → 0 → 1`, `T = int32_t`. -/
theorem C16_random_path_witness :
    (∀ out, run 32 1 0 3 (pathInput 32 3 (fun t => (t + 2) % 3)) (fun _ => 0) false
        (fun _ => 0) = some out →
      ∀ k, 1 ≤ k → k ≤ 3 - 1 →
        out ((0 + 2) % 3 * 3 + (k + 2) % 3) = (k : Int) ∧
          out ((k + 2) % 3 * 3 + (0 + 2) % 3) = INF 32) ∧
    (3 ≤ 46336 → ∃ out, run 32 1 0 3 (pathInput 32 3 (fun t => (t + 2) % 3)) (fun _ => 0) false
        (fun _ => 0) = some out) :=
  C16_random_path 32 1 0 3 (fun t => (t + 2) % 3) (fun _ => 0) (fun _ => 0)
    (by decide) (by decide) (one_dvd _) (by decide) (by decide) (by decide)
    (fun t _ => Nat.mod_lt _ (by decide))
    (fun s t hs ht h => by
      have h2 : (s + 2) % 3 = (t + 2) % 3 := h
      omega)

/-- C17 (single vertex): for `n = 1` and every weight in `[0, INF]`,
`floyd_warshall::run` (either flag) on the one-element matrix returns that element, and
writes nothing else. -/
theorem C17_single_vertex (w L u : Nat) (input output heap : Mem) (sym : Bool)
    (hw : 1 ≤ w) (hL : 0 < L) (hLB : L ∣ B) (hu : u ≤ 3)
    (hx : 0 ≤ input 0 ∧ input 0 ≤ INF w) :
    ∃ out, run w L u 1 input output sym heap = some out ∧ out 0 = input 0 ∧
      ∀ t, 1 ≤ t → out t = output t := by
  have hV : ValidInput w 1 input := by
    intro t ht
    have : t = 0 := by omega
    rw [this]; exact hx
  have hS : SymmetricInput 1 input := by
    intro i j hi hj
    have : i = 0 := by omega
    have : j = 0 := by omega
    subst_vars; rfl
  obtain ⟨o1, r1, s1, f1⟩ := run_shortest w L u 1 hw hL hLB hu input output heap sym
    (le_refl _) (by decide) hV (fun _ => hS)
  refine ⟨o1, r1, ?_, fun t ht => f1 t (by omega)⟩
  have h := IsShortest_unique 1 input 0 0 _ _ (s1 0 0 (by decide) (by decide))
    (closed_shortest 1 input (by
      intro i k j hi hk hj
      have : i = 0 := by omega
      have : k = 0 := by omega
      have : j = 0 := by omega
      subst_vars
      simp only [Nat.zero_mul, Nat.add_zero]
      linarith [hx.1]) 0 0 (by decide) (by decide))
  simpa using h

/-- Witness of C17: the weight `7`, `T = int16_t`. -/
theorem C17_single_vertex_witness :
    ∃ out, run 16 1 0 1 (fun _ => 7) (fun _ => 0) false (fun _ => 0) = some out ∧
      out 0 = (fun _ => 7) 0 ∧ ∀ t, 1 ≤ t → out t = (fun _ => 0) t :=
  C17_single_vertex 16 1 0 (fun _ => 7) (fun _ => 0) (fun _ => 0) false
    (by decide) (by decide) (one_dvd _) (by decide) (by decide)

/-- C18 (empty input): `floyd_warshall::run` with `n = 0` returns without a write: the
output buffer is the one it was given, for every variant and either flag. -/
theorem C18_empty_input (w L u : Nat) (input output heap : Mem) (sym : Bool) :
    run w L u 0 input output sym heap = some output := by
  unfold run
  rw [if_neg (by decide), if_pos rfl]

end QFW

namespace QFW

/-- C19 (block kernel reference): for each of `MaxPlusMul0`, `MaxPlusMul1`,
`MaxPlusMul2`, `MaxPlusMul3` (every lane count dividing `64`) and `64 × 64` blocks
`a, b, c` with `a` apart from `b` and from `c` and the entries of `b` and `c` in
`[-INF, 0]`, the kernel leaves everything outside `a`, so `b` and `c`, unchanged and sets
`a[i * 64 + j]` to `max(a_in[i * 64 + j], max over k of b[i * 64 + k] + c[k * 64 + j])`
for all `i, j` in `[0, 64)`. -/
theorem C19_block_kernel_reference (w L : Nat) (m : Mem) (a b c : Nat)
    (hw : 1 ≤ w) (hL : 0 < L) (hLB : L ∣ B)
    (hab : a + B * B ≤ b ∨ b + B * B ≤ a) (hac : a + B * B ≤ c ∨ c + B * B ≤ a)
    (hrb : ∀ t, t < B * B → -(INF w) ≤ m (b + t) ∧ m (b + t) ≤ 0)
    (hrc : ∀ t, t < B * B → -(INF w) ≤ m (c + t) ∧ m (c + t) ≤ 0) :
    B = 64 ∧
    ∀ K, K ∈ [MaxPlusMul0 w L, MaxPlusMul1 w L, MaxPlusMul2 w L, MaxPlusMul3 w L] →
      (∀ i j, i < B → j < B → K m a b c (a + (i * B + j)) = prodT m a b c i j) ∧
      (∀ addr, (addr < a ∨ a + B * B ≤ addr) → K m a b c addr = m addr) := by
  have d2 : 2 ∣ B := ⟨32, rfl⟩
  have d4 : 4 ∣ B := ⟨16, rfl⟩
  have H := KernelHyp_apart w m a b c hab hac hrb hrc
  refine ⟨rfl, fun K hK => ?_⟩
  simp only [List.mem_cons, List.mem_singleton, List.not_mem_nil, or_false] at hK
  rcases hK with rfl | rfl | rfl | rfl
  · rw [MaxPlusMul0_eq]
    exact genKernel_exact w L 2 2 hw hL hLB (by decide) d2 (by decide) d2 m a b c _ H
      (fun _ _ _ _ => trivial)
  · rw [MaxPlusMul1_eq]
    exact genKernel_exact w L 2 4 hw hL hLB (by decide) d2 (by decide) d4 m a b c _ H
      (fun _ _ _ _ => trivial)
  · rw [MaxPlusMul2_eq]
    exact genKernel_exact w L 4 2 hw hL hLB (by decide) d4 (by decide) d2 m a b c _ H
      (fun _ _ _ _ => trivial)
  · rw [MaxPlusMul3_eq]
    exact genKernel_exact w L 4 4 hw hL hLB (by decide) d4 (by decide) d4 m a b c _ H
      (fun _ _ _ _ => trivial)

/-- Witness of C19: three blocks of zeros one after the other, `T = int32_t`, four
lanes. -/
theorem C19_block_kernel_reference_witness :
    B = 64 ∧
    ∀ K, K ∈ [MaxPlusMul0 32 4, MaxPlusMul1 32 4, MaxPlusMul2 32 4, MaxPlusMul3 32 4] →
      (∀ i j, i < B → j < B →
        K (fun _ => 0) 0 4096 8192 (0 + (i * B + j)) = prodT (fun _ => 0) 0 4096 8192 i j) ∧
      (∀ addr, (addr < 0 ∨ 0 + B * B ≤ addr) →
        K (fun _ => 0) 0 4096 8192 addr = (fun _ => 0) addr) :=
  C19_block_kernel_reference 32 4 (fun _ => 0) 0 4096 8192 (by decide) (by decide) ⟨16, rfl⟩
    (Or.inl (by decide)) (Or.inl (by decide))
    (fun _ _ => ⟨neg_nonpos.mpr (INF_nonneg 32), le_refl _⟩)
    (fun _ _ => ⟨neg_nonpos.mpr (INF_nonneg 32), le_refl _⟩)

/-- C20 (alias-safe block update): for `64 × 64` blocks `A` and `X` apart from each other
with entries in `[-INF, 0]` and `X` max-plus closed
(`X[i, j] ≥ X[i, k] + X[k, j]`), the in-place serial loop of `FWI` (every lane count,
every `unroll_type`) stores the product of the entry values and writes nothing outside
`A`: `FWI(A, X, A)` leaves `A = max(A_in, X ⊗ A_in)` and `FWI(A, A, X)` leaves
`A = max(A_in, A_in ⊗ X)`. -/
theorem C20_alias_safe_update (w L u : Nat) (m : Mem) (pA pX : Nat)
    (hw : 1 ≤ w) (hL : 0 < L) (hLB : L ∣ B)
    (hd : pA + B * B ≤ pX ∨ pX + B * B ≤ pA)
    (hrA : ∀ t, t < B * B → -(INF w) ≤ m (pA + t) ∧ m (pA + t) ≤ 0)
    (hrX : ∀ t, t < B * B → -(INF w) ≤ m (pX + t) ∧ m (pX + t) ≤ 0)
    (hcl : ∀ i k j, i < B → k < B → j < B →
      m (pX + (i * B + k)) + m (pX + (k * B + j)) ≤ m (pX + (i * B + j))) :
    ((∀ i j, i < B → j < B →
        FWI w L u m pA pX pA (pA + (i * B + j)) = prodT m pA pX pA i j) ∧
      (∀ addr, (addr < pA ∨ pA + B * B ≤ addr) → FWI w L u m pA pX pA addr = m addr)) ∧
    ((∀ i j, i < B → j < B →
        FWI w L u m pA pA pX (pA + (i * B + j)) = prodT m pA pA pX i j) ∧
      (∀ addr, (addr < pA ∨ pA + B * B ≤ addr) → FWI w L u m pA pA pX addr = m addr)) := by
  constructor
  · rw [FWI_serial w L u m pA pX pA (fun h => h.2.1 rfl)]
    exact genKernel_exact w L 1 1 hw hL hLB (by decide) (one_dvd _) (by decide) (one_dvd _)
      m pA pX pA _ (KernelHyp_alias_c w m pA pX hd hrA hrX hcl)
      (fun i j hi hj => (hrA _ (by simp only [B] at *; omega)).1)
  · rw [FWI_serial w L u m pA pA pX (fun h => h.1 rfl)]
    exact genKernel_exact w L 1 1 hw hL hLB (by decide) (one_dvd _) (by decide) (one_dvd _)
      m pA pA pX _ (KernelHyp_alias_b w m pA pX hd hrA hrX hcl)
      (fun i j hi hj => (hrA _ (by simp only [B] at *; omega)).1)

/-- Witness of C20: two blocks of zeros one after the other, `T = int32_t`, eight
lanes. -/
theorem C20_alias_safe_update_witness :
    ((∀ i j, i < B → j < B →
        FWI 32 8 0 (fun _ => 0) 0 4096 0 (0 + (i * B + j)) = prodT (fun _ => 0) 0 4096 0 i j) ∧
      (∀ addr, (addr < 0 ∨ 0 + B * B ≤ addr) →
        FWI 32 8 0 (fun _ => 0) 0 4096 0 addr = (fun _ => 0) addr)) ∧
    ((∀ i j, i < B → j < B →
        FWI 32 8 0 (fun _ => 0) 0 0 4096 (0 + (i * B + j)) = prodT (fun _ => 0) 0 0 4096 i j) ∧
      (∀ addr, (addr < 0 ∨ 0 + B * B ≤ addr) →
        FWI 32 8 0 (fun _ => 0) 0 0 4096 addr = (fun _ => 0) addr)) :=
  C20_alias_safe_update 32 8 0 (fun _ => 0) 0 4096 (by decide) (by decide) ⟨8, rfl⟩
    (Or.inl (by decide))
    (fun _ _ => ⟨neg_nonpos.mpr (INF_nonneg 32), le_refl _⟩)
    (fun _ _ => ⟨neg_nonpos.mpr (INF_nonneg 32), le_refl _⟩)
    (fun _ _ _ _ _ _ => by simp)

end QFW

namespace QFW

/-- Counterexample to C21 as stated: one block (`G = P = 1`, `i0 = i1 = i2 = 0`,
`T = int32_t`) whose min-form matrix has the edges `0 → 1`, `1 → 2`, `2 → 3` of weight
`1` and `INF` everywhere else.  The call returns with `W_out[0, 3] ≤ 3`, while
`W_in[0, 3] > 3` and `W_in[0, k] + W_in[k, 3] > 3` for every `k` in `[0, 64)`: the
element at return is below `min(W_in[0, 3], min over k of W_in[0, k] + W_in[k, 3])`, so
in max-form it is not the product element `prodT`. -/
theorem C21_chain_not_one_step :
    (∀ t, -(INF 32) ≤ chainScratch 32 t ∧ chainScratch 32 t ≤ 0) ∧
    ∃ m2, FWR 32 8 0 1 1 0 0 0 (fun _ => some 0) false (chainScratch 32) = some m2 ∧
      -(m2 (0 * B + 3)) ≤ 3 ∧
      3 < -(chainScratch 32 (0 * B + 3)) ∧
      (∀ k, k < B → 3 < -(chainScratch 32 (0 * B + k)) + -(chainScratch 32 (k * B + 3))) ∧
      m2 (0 * B + 3) ≠ prodT (chainScratch 32) 0 0 0 0 3 := by
  have hI : (4 : Int) ≤ INF 32 := by rw [INF_32]; decide
  obtain ⟨m2, e2, h2⟩ := chain_call 32 8 0 (by decide) (by decide) ⟨8, rfl⟩ (by decide)
    (by omega)
  have hp := chain_prodT 32 hI
  refine ⟨fun t => chainScratch_range 32 (by omega) t, m2, e2, by omega, ?_, fun k hk => ?_,
    by omega⟩
  · have b : chainScratch 32 (0 * B + 3) = -(INF 32) := by
      simp only [chainScratch, B]
      rw [if_neg (by omega)]
    rw [b]
    omega
  · have := chainScratch_step 32 hI k hk
    omega

/-- C21, amended (FWR end-of-call invariant): every call
`FWR(P, G, i0, i1, i2, BP, false)` with `P = 2 ^ e`, on a scratch state whose blocks hold
elements in `[-INF, 0]` (min-form matrix `W_in = -view m` in `[0, INF]`), returns, and the
state at return (`W_out = -view m2`) satisfies for every in-grid `i` in
`[i0·B, (i0+P)·B)` and `j` in `[i2·B, (i2+P)·B)`, with `k` and the intermediate vertices
of walks ranging over the in-grid part of `[i1·B, (i1+P)·B)`: `W_out[i,j]` is in
`[0, INF]`; `W_out[i,j] ≤ min(W_in[i,j], min over k of W_in[i,k] + W_in[k,j])`;
`W_out[i,j]` is the `W_in`-weight of a walk from `i` to `j` through the pivot range; when
the pivot range is apart from the row range and from the column range, `W_out[i,j]` is
`W_in[i,j]` or one of the sums `W_in[i,k] + W_in[k,j]`, so it is exactly the one-step
minimum; and for a diagonal call (`i0 = i1 = i2`, which includes the top-level call)
`W_out[i,j]` is at most the weight of every walk from `i` to `j` through the range, so it
is exactly the least such weight.  Nothing outside the rows `i` and columns `j` of the call
changes. -/
theorem C21_end_of_call (w L u G : Nat) (blk : Nat → Nat → Nat) (BP : Table)
    (e i0 i1 i2 : Nat) (m : Mem) (hw : 1 ≤ w) (hL : 0 < L) (hLB : L ∣ B) (hu : u ≤ 3)
    (hBP : TableOk BP G blk) (hinj : LayoutInj G blk)
    (hm : ∀ r c, r < G → c < G → ∀ t, t < B * B →
      -(INF w) ≤ m (blk r c + t) ∧ m (blk r c + t) ≤ 0) :
    ∃ m2, FWR w L u (2 ^ e) G i0 i1 i2 BP false m = some m2 ∧
      (∀ i j, Rows G i0 (2 ^ e) i → Rows G i2 (2 ^ e) j →
        (0 ≤ -(view blk m2 i j) ∧ -(view blk m2 i j) ≤ INF w) ∧
        -(view blk m2 i j) ≤ -(view blk m i j) ∧
        (∀ k, Rows G i1 (2 ^ e) k →
          -(view blk m2 i j) ≤ -(view blk m i k) + -(view blk m k j)) ∧
        (∃ p : List Nat, (∀ v, v ∈ p → Rows G i1 (2 ^ e) v) ∧
          -(view blk m2 i j) = walkW (fun a b => -(view blk m a b)) i p j) ∧
        ((∀ k, Rows G i1 (2 ^ e) k → ¬ Rows G i0 (2 ^ e) k ∧ ¬ Rows G i2 (2 ^ e) k) →
          (-(view blk m2 i j) = -(view blk m i j) ∨
            ∃ k, Rows G i1 (2 ^ e) k ∧
              -(view blk m2 i j) = -(view blk m i k) + -(view blk m k j))) ∧
        ((i1 = i0 ∧ i2 = i0) → ∀ p : List Nat, (∀ v, v ∈ p → Rows G i1 (2 ^ e) v) →
          -(view blk m2 i j) ≤ walkW (fun a b => -(view blk m a b)) i p j)) ∧
      (∀ i j, i < G * B → j < G * B → ¬ (Rows G i0 (2 ^ e) i ∧ Rows G i2 (2 ^ e) j) →
        view blk m2 i j = view blk m i j) := by
  have hmem := MemOk_of_blocks w G blk m hm
  obtain ⟨m2, e2, ok2, le2, rel, fr, att⟩ := FWR_false_full w L u hw hL hLB hu
    (fun _ _ v => -(INF w) ≤ v ∧ v ≤ 0) blk G BP hBP hinj (fun _ _ _ h => h)
    (fun _ _ _ x y z hx hy hz hlt => ⟨by linarith [hz.1], by linarith [hx.2, hy.2]⟩)
    e i0 i1 i2 m hmem
  obtain ⟨m3, e3, wk⟩ := FWR_false_walk w L u hw hL hLB hu blk G BP hBP hinj e i0 i1 i2 m hmem
  have e32 : m3 = m2 := Option.some.inj (e3.symm.trans e2)
  subst e32
  refine ⟨m3, e2, fun i j hi hj => ?_, fr⟩
  obtain ⟨g1, g2⟩ := view_of_MemOk G blk _ m3 ok2 i j hi.2.2 hj.2.2
  refine ⟨⟨by linarith, by linarith⟩, ?_, fun k hk => ?_, ?_, fun hd => ?_, fun hdiag p hp => ?_⟩
  · have := le2 (cell blk i j)
    simp only [view]
    linarith
  · have := rel i k j hi hk hj
    linarith
  · obtain ⟨p, hp, ep⟩ := wk i j hi.2.2 hj.2.2
    exact ⟨p, hp, by rw [walkW_minform, ep]⟩
  · rcases att hd i j hi hj with h | ⟨k, hk, h⟩
    · exact Or.inl (by rw [h])
    · exact Or.inr ⟨k, hk, by rw [h]; ring⟩
  · obtain ⟨h1, h2⟩ := hdiag
    rw [h1] at hp
    rw [h2] at hj
    rw [h1, h2] at e2
    obtain ⟨m4, e4, _, _, A⟩ := FWR_closure w L u hw hL hLB hu _ blk G BP hBP
      (range_BlocksHyp w G blk hinj) e i0 m hmem
    have e42 : m4 = m3 := Option.some.inj (e4.symm.trans e2)
    subst e42
    have := A i j hi hj p hp
    rw [walkW_minform]
    linarith

/-- Witness of C21, amended: a diagonal call on the one-block chain of three edges, where
`W_out[0, 3]` is a walk weight and at most `3`, and the call `FWR(1, 2, 0, 1, 0)` on four
blocks with pivot block apart from the target block, where `W_in[0, 0] = 3`,
`W_in[0, k] = W_in[k, 0] = 1` and `W_out[0, 0] = 2`, the one-step minimum. -/
theorem C21_end_of_call_witness :
    (∃ m2, FWR 32 8 0 (2 ^ 0) 1 0 0 0 (fun _ => some 0) false (chainScratch 32) = some m2 ∧
      -(view (fun _ _ => 0) m2 0 3) ≤ 3 ∧
      ∃ p : List Nat, (∀ v, v ∈ p → Rows 1 0 (2 ^ 0) v) ∧
        -(view (fun _ _ => 0) m2 0 3) =
          walkW (fun a b => -(view (fun _ _ => 0) (chainScratch 32) a b)) 0 p 3) ∧
    (∃ m2, FWR 32 8 0 (2 ^ 0) 2 0 1 0 (fun t => some (B * B * t)) false gapScratch = some m2 ∧
      -(view (fun r c => B * B * (r * 2 + c)) gapScratch 0 0) = 3 ∧
      -(view (fun r c => B * B * (r * 2 + c)) m2 0 0) = 2) := by
  constructor
  · obtain ⟨m2, e2, h, _⟩ := C21_end_of_call 32 8 0 1 (fun _ _ => 0) (fun _ => some 0) 0 0 0 0
      (chainScratch 32) (by decide) (by decide) ⟨8, rfl⟩ (by decide) (fun _ _ _ _ => rfl)
      layout_one (fun _ _ _ _ t _ => chainScratch_range 32 (by rw [INF_32]; decide) _)
    have R : ∀ v, v < 4 → Rows 1 0 (2 ^ 0) v := by
      intro v hv
      simp only [Rows, B]
      omega
    obtain ⟨_, _, _, wk, _, cl⟩ := h 0 3 (R 0 (by decide)) (R 3 (by decide))
    refine ⟨m2, e2, ?_, wk⟩
    have c := cl ⟨rfl, rfl⟩ [1, 2] (by
      intro v hv
      simp only [List.mem_cons, List.mem_singleton, List.not_mem_nil, or_false] at hv
      rcases hv with rfl | rfl
      · exact R 1 (by decide)
      · exact R 2 (by decide))
    have e1 : walkW (fun a b => -(view (fun _ _ => 0) (chainScratch 32) a b)) 0 [1, 2] 3 = 3 := by
      simp [walkW, view, cell, chainScratch, B]
    rw [e1] at c
    exact c
  · obtain ⟨m2, e2, h, _⟩ := C21_end_of_call 32 8 0 2 (fun r c => B * B * (r * 2 + c))
      (fun t => some (B * B * t)) 0 0 1 0 gapScratch (by decide) (by decide) ⟨8, rfl⟩
      (by decide) (fun _ _ _ _ => rfl) layout_two
      (fun _ _ _ _ t _ => by
        unfold gapScratch
        rw [INF_32]
        split_ifs <;> decide)
    have R0 : Rows 2 0 (2 ^ 0) 0 := by simp only [Rows, B]; omega
    have R1 : Rows 2 1 (2 ^ 0) 64 := by simp only [Rows, B]; omega
    have v00 : view (fun r c => B * B * (r * 2 + c)) gapScratch 0 0 = -3 := by
      simp [view, cell, gapScratch, B]
    have vK : ∀ k, Rows 2 1 (2 ^ 0) k →
        view (fun r c => B * B * (r * 2 + c)) gapScratch 0 k = -1 ∧
        view (fun r c => B * B * (r * 2 + c)) gapScratch k 0 = -1 := by
      intro k hk
      simp only [Rows, B] at hk
      have hk1 : k / 64 = 1 := by omega
      simp only [view, cell, gapScratch, B, hk1]
      constructor
      · rw [if_neg (by omega)]
      · rw [if_neg (by omega)]
    obtain ⟨_, _, up, _, att, _⟩ := h 0 0 R0 R0
    have u1 := up 64 R1
    rw [(vK 64 R1).1, (vK 64 R1).2] at u1
    refine ⟨m2, e2, by rw [v00]; rfl, ?_⟩
    rcases att (fun k hk => by simp only [Rows, B] at hk ⊢; omega) with h1 | ⟨k, hk, h1⟩
    · rw [v00] at h1
      rw [h1] at u1
      exact absurd u1 (by decide)
    · rw [(vK k hk).1, (vK k hk).2] at h1
      rw [h1]
      rfl

/-- C22 (no wraparound): for every `n ≥ 1` and every `n × n` input with entries in
`[0, INF]`, with either flag, for `T = int16_t`, `int32_t` and `int64_t`: the checked
execution `runC`, which fails as soon as an element of a scratch block at the start of a
call of `FWR` or at its return, or an operand of a sum `b[i,k] + c[k,j]` in `FWI` or a
kernel, is outside `[-INF, 0]`, returns what `run` returns, and it returns for every
`n ≤ 46336`; and a sum of two values of `[-INF, 0]` lies in `[-2·INF, 0]` and is not
changed by the wraparound of `T`. -/
theorem C22_no_wraparound (w L u n : Nat) (input output heap : Mem) (sym : Bool)
    (hw : w = 16 ∨ w = 32 ∨ w = 64) (hL : 0 < L) (hLB : L ∣ B) (hu : u ≤ 3) (hn1 : 1 ≤ n)
    (hW : ValidInput w n input) :
    runC w L u n input output sym heap = run w L u n input output sym heap ∧
    (n ≤ 46336 → ∃ out, runC w L u n input output sym heap = some out) ∧
    (∀ x y, inRange w x → inRange w y →
      -(2 * INF w) ≤ x + y ∧ x + y ≤ 0 ∧ wrapT w (x + y) = x + y) := by
  have hw1 : 1 ≤ w := by omega
  have hC := runC_eq w L u n hw1 hL hLB hu input output heap sym hn1 hW
  refine ⟨hC, fun hn => ?_, fun x y hx hy => sum_no_wrap w hw1 x y hx hy⟩
  obtain ⟨out, o1, _⟩ := run_range w L u n hw1 hL hLB hu input output heap sym hn1 hn hW
  exact ⟨out, by rw [hC]; exact o1⟩

/-- Witness of C22: the three-vertex graph whose only edge is `0 → 1`, `T = int16_t`, with
the symmetric flag set. -/
theorem C22_no_wraparound_witness :
    ValidInput 16 3 (oneEdge 16) ∧
    (runC 16 1 0 3 (oneEdge 16) (fun _ => 0) true (fun _ => 0) =
      run 16 1 0 3 (oneEdge 16) (fun _ => 0) true (fun _ => 0) ∧
    (3 ≤ 46336 → ∃ out, runC 16 1 0 3 (oneEdge 16) (fun _ => 0) true (fun _ => 0) = some out) ∧
    (∀ x y, inRange 16 x → inRange 16 y →
      -(2 * INF 16) ≤ x + y ∧ x + y ≤ 0 ∧ wrapT 16 (x + y) = x + y)) :=
  ⟨oneEdge_valid 16 (by decide),
    C22_no_wraparound 16 1 0 3 (oneEdge 16) (fun _ => 0) (fun _ => 0) true
      (Or.inl rfl) (by decide) (one_dvd _) (by decide) (by decide)
      (oneEdge_valid 16 (by decide))⟩

end QFW

namespace QFW

/-- C23 (reorder contents and padding): after `reorder(n, P, S, src, BP, 0, 0, false)`
with `G = (n + 63) / 64` and `P` the scale that `run` computes, for every block `(r, c)`
with `r, c < G` and all `x, y` in `[0, 64)`, the entry `BP[r·G+c]` is set and the element
`BP[r·G+c][x·64+y]` is the negation in `T` of `src[(r·64+x)·n + (c·64+y)]` when
`r·64+x < n` and `c·64+y < n`, which is `-src[...]` whenever `src[...]` lies in
`[-max(T), max(T)]`, and is `-INF` otherwise; so for every input with entries in
`[0, INF]` the element is `-src[...]` in range and `-INF` in the padding.  The call returns
exactly for `n ≤ 46344`. -/
theorem C23_reorder_contents (w n : Nat) (heap src : Mem) (BP0 : Table) (hw : 1 ≤ w) :
    (∀ q, reorder w n (n_blocks_power2_loop n n 1) 0 ⟨heap, src, BP0⟩ 0 0 false = some q →
      ∀ r c, r < (n + 63) / 64 → c < (n + 63) / 64 → ∀ x y, x < 64 → y < 64 →
        ∃ p, q.2.BP (r * ((n + 63) / 64) + c) = some p ∧
          ((r * 64 + x < n ∧ c * 64 + y < n) →
            q.2.S (p + (x * 64 + y)) = wrapT w (-(src ((r * 64 + x) * n + (c * 64 + y)))) ∧
            (-(maxT w) ≤ src ((r * 64 + x) * n + (c * 64 + y)) →
              src ((r * 64 + x) * n + (c * 64 + y)) ≤ maxT w →
              q.2.S (p + (x * 64 + y)) = -(src ((r * 64 + x) * n + (c * 64 + y))))) ∧
          (¬ (r * 64 + x < n ∧ c * 64 + y < n) → q.2.S (p + (x * 64 + y)) = -(INF w))) ∧
    (ValidInput w n src →
      ∀ q, reorder w n (n_blocks_power2_loop n n 1) 0 ⟨heap, src, BP0⟩ 0 0 false = some q →
        ∀ r c, r < (n + 63) / 64 → c < (n + 63) / 64 → ∀ x y, x < 64 → y < 64 →
          ∃ p, q.2.BP (r * ((n + 63) / 64) + c) = some p ∧
            q.2.S (p + (x * 64 + y)) =
              if r * 64 + x < n ∧ c * 64 + y < n then
                -(src ((r * 64 + x) * n + (c * 64 + y)))
              else -(INF w)) ∧
    ((∃ q, reorder w n (n_blocks_power2_loop n n 1) 0 ⟨heap, src, BP0⟩ 0 0 false = some q) ↔
      n ≤ 46344) := by
  have key : ∀ q,
      reorder w n (n_blocks_power2_loop n n 1) 0 ⟨heap, src, BP0⟩ 0 0 false = some q →
      ∀ r c, r < (n + 63) / 64 → c < (n + 63) / 64 → ∀ x y, x < 64 → y < 64 →
        ∃ p, q.2.BP (r * ((n + 63) / 64) + c) = some p ∧
          q.2.S (p + (x * 64 + y)) =
            if r * 64 + x < n ∧ c * 64 + y < n then
              wrapT w (-(src ((r * 64 + x) * n + (c * 64 + y))))
            else -(INF w) := by
    intro q hq r c hr hc x y hx hy
    obtain ⟨e, _, _, _, _, hl⟩ := reorder_layout w n _ q hq
    have hG : (n + B - 1) / B = (n + 63) / 64 := by simp only [B]; omega
    rw [hG] at hl
    obtain ⟨a, _, c1⟩ := hl r c hr hc
    have c2 := c1 x y hx hy
    simp only [padded, B, wrapT_neg_INF w hw] at c2
    exact ⟨_, a, by simp only [B]; exact c2⟩
  refine ⟨fun q hq r c hr hc x y hx hy => ?_, fun hW q hq r c hr hc x y hx hy => ?_,
    reorder_top_size w n _ false⟩
  · obtain ⟨p, a, b⟩ := key q hq r c hr hc x y hx hy
    refine ⟨p, a, fun hin => ?_, fun hout => ?_⟩
    · rw [if_pos hin] at b
      exact ⟨b, fun h1 h2 => by rw [b, wrapT_neg_max w hw _ h1 h2]⟩
    · rw [if_neg hout] at b
      exact b
  · obtain ⟨p, a, b⟩ := key q hq r c hr hc x y hx hy
    refine ⟨p, a, ?_⟩
    rw [b]
    by_cases hin : r * 64 + x < n ∧ c * 64 + y < n
    · rw [if_pos hin, if_pos hin]
      obtain ⟨v1, v2⟩ := hW _ (idx_lt n _ _ hin.1 hin.2)
      have := INF_le_maxT w
      exact wrapT_neg_max w hw _ (by linarith) (by linarith)
    · rw [if_neg hin, if_neg hin]

/-- Witness of C23: the `65 × 65` input `asymInput` (two blocks per row, `63` rows and
columns of padding), `T = int32_t`. -/
theorem C23_reorder_contents_witness :
    ValidInput 32 65 (asymInput 32) ∧
    (∃ q, reorder 32 65 (n_blocks_power2_loop 65 65 1) 0
      ⟨fun _ => 0, asymInput 32, fun _ => none⟩ 0 0 false = some q) ∧
    (∀ q, reorder 32 65 (n_blocks_power2_loop 65 65 1) 0
        ⟨fun _ => 0, asymInput 32, fun _ => none⟩ 0 0 false = some q →
      ∀ r c, r < (65 + 63) / 64 → c < (65 + 63) / 64 → ∀ x y, x < 64 → y < 64 →
        ∃ p, q.2.BP (r * ((65 + 63) / 64) + c) = some p ∧
          q.2.S (p + (x * 64 + y)) =
            if r * 64 + x < 65 ∧ c * 64 + y < 65 then
              -(asymInput 32 ((r * 64 + x) * 65 + (c * 64 + y)))
            else -(INF 32)) :=
  ⟨asymInput_valid 32 (by decide),
    (C23_reorder_contents 32 65 (fun _ => 0) (asymInput 32) (fun _ => none)
      (by decide)).2.2.mpr (by decide),
    (C23_reorder_contents 32 65 (fun _ => 0) (asymInput 32) (fun _ => none)
      (by decide)).2.1 (asymInput_valid 32 (by decide))⟩

/-- C24 (block table invariant): after `reorder(n, P, S, src, BP, 0, 0, false)` with
`G = (n + 63) / 64` and `P` as computed by `run`, the returned pointer is `S + G²·B²` and
every one of the `G·G` entries `BP[r·G+c]` is set to `S + m·B²` for some `m` in `[0, G²)`,
distinct `(r, c)` get distinct `m`; the blocks are pairwise disjoint, lie inside the
`(G·B)²` elements of the scratch buffer, start at byte offsets that are multiples of `64`
for every element size, and `FWR` on that table returns on every scratch content (it reads
no null entry).  All this holds whenever the call returns, and the call returns exactly
when none of its `int` expressions overflows, which is exactly for `n ≤ 46344`: for every
`n` from `46345` on, among them the sizes up to `65535` that `assert(src_n < 65536)`
admits, the source offset `block_row * B * src_n + block_column * B` of the block
`(724, 724)` exceeds `INT_MAX` and there is no table. -/
theorem C24_block_table (w n : Nat) (st : RState) :
    (∀ q, reorder w n (n_blocks_power2_loop n n 1) 0 st 0 0 false = some q →
      q.1 = B * B * ((n + 63) / 64 * ((n + 63) / 64)) ∧
      ∃ mm : Nat → Nat → Nat,
        (∀ r c, r < (n + 63) / 64 → c < (n + 63) / 64 →
          q.2.BP (r * ((n + 63) / 64) + c) = some (mm r c * (B * B)) ∧
          mm r c < (n + 63) / 64 * ((n + 63) / 64) ∧
          mm r c * (B * B) + B * B ≤ ((n + 63) / 64 * B) * ((n + 63) / 64 * B) ∧
          ∀ size, (mm r c * (B * B) * size) % 64 = 0) ∧
        (∀ r c r2 c2, r < (n + 63) / 64 → c < (n + 63) / 64 → r2 < (n + 63) / 64 →
          c2 < (n + 63) / 64 → mm r c = mm r2 c2 → r = r2 ∧ c = c2) ∧
        (∀ r c r2 c2, r < (n + 63) / 64 → c < (n + 63) / 64 → r2 < (n + 63) / 64 →
          c2 < (n + 63) / 64 → (r ≠ r2 ∨ c ≠ c2) →
          mm r c * (B * B) + B * B ≤ mm r2 c2 * (B * B) ∨
            mm r2 c2 * (B * B) + B * B ≤ mm r c * (B * B)) ∧
        (∀ L u sym m, ∃ m2, FWR w L u (n_blocks_power2_loop n n 1) ((n + 63) / 64) 0 0 0
          q.2.BP sym m = some m2)) ∧
    ((∃ q, reorder w n (n_blocks_power2_loop n n 1) 0 st 0 0 false = some q) ↔
      (intOK (n + B - 1) ∧
        ∀ r c, r < (n + B - 1) / B → c < (n + B - 1) / B → reorderIntOK n r c)) ∧
    ((∃ q, reorder w n (n_blocks_power2_loop n n 1) 0 st 0 0 false = some q) ↔ n ≤ 46344) ∧
    (46345 ≤ n → ¬ intOK (724 * B * n + 724 * B) ∧
      reorder w n (n_blocks_power2_loop n n 1) 0 st 0 0 false = none) := by
  refine ⟨fun q hq => ?_, reorder_top_iff w n st false, reorder_top_size w n st false,
    fun hn => ⟨fun h => by unfold intOK INT_MAX at h; simp only [B] at h; omega, ?_⟩⟩
  swap
  · cases hr : reorder w n (n_blocks_power2_loop n n 1) 0 st 0 0 false with
    | none => rfl
    | some q =>
      have := (reorder_top_size w n st false).mp ⟨q, hr⟩
      omega
  obtain ⟨e, he, hGe, hq1, _, hl⟩ := reorder_layout w n st q hq
  have hG : (n + B - 1) / B = (n + 63) / 64 := by simp only [B]; omega
  rw [hG] at hl hq1 hGe
  have hinj : ∀ r c r2 c2, r < (n + 63) / 64 → c < (n + 63) / 64 → r2 < (n + 63) / 64 →
      c2 < (n + 63) / 64 →
      rank ((n + 63) / 64) e 0 0 r c = rank ((n + 63) / 64) e 0 0 r2 c2 → r = r2 ∧ c = c2 :=
    fun r c r2 c2 hr hc hr2 hc2 h =>
      rank_inj _ e 0 0 r c r2 c2 ((InSq_top _ e r c hGe).mpr ⟨hr, hc⟩)
        ((InSq_top _ e r2 c2 hGe).mpr ⟨hr2, hc2⟩) h
  refine ⟨hq1, rank ((n + 63) / 64) e 0 0, fun r c hr hc => ?_, hinj,
    fun r c r2 c2 hr hc hr2 hc2 hne => ?_, fun L u sym m => ?_⟩
  · obtain ⟨a, b, _⟩ := hl r c hr hc
    refine ⟨by rw [a, Nat.mul_comm], b, ?_, fun size => ?_⟩
    · have h1 : (rank ((n + 63) / 64) e 0 0 r c + 1) * (B * B) ≤
          (n + 63) / 64 * ((n + 63) / 64) * (B * B) := Nat.mul_le_mul_right _ b
      have h2 : (n + 63) / 64 * B * ((n + 63) / 64 * B) =
          (n + 63) / 64 * ((n + 63) / 64) * (B * B) := by ring
      rw [h2]
      linarith
    · have h3 : rank ((n + 63) / 64) e 0 0 r c * (B * B) * size =
          64 * (rank ((n + 63) / 64) e 0 0 r c * 64 * size) := by
        simp only [B]; ring
      rw [h3, Nat.mul_mod_right]
  · have hne2 : rank ((n + 63) / 64) e 0 0 r c ≠ rank ((n + 63) / 64) e 0 0 r2 c2 := by
      intro h
      obtain ⟨h1, h2⟩ := hinj r c r2 c2 hr hc hr2 hc2 h
      rcases hne with h3 | h3
      · exact h3 h1
      · exact h3 h2
    simp only [B]
    omega
  · rw [he]
    exact FWR_total w L u _ q.2.BP (fun r c => B * B * rank ((n + 63) / 64) e 0 0 r c)
      (fun r c hr hc => (hl r c hr hc).1) e 0 0 0 sym m

end QFW

namespace QFW

/-- C25 (Z-order layout): the forward `reorder` of `run`, when it returns, stores the
in-range blocks contiguously in increasing order of their Z-order code: block `(r, c)`
has a position `pos r c`, the positions of the `G·G` blocks are exactly
`0, ..., G·G - 1`, the `B²` scratch elements from `S + pos r c · B²` on hold the elements
of block `(r, c)` of `src` (negated in `T`, `-INF` in the padding), `BP[r·G+c]` points
there, the source is left alone, and `pos` increases with the code `zcode e r c` (bit `b`
of `r` at bit `2b + 1`, bit `b` of `c` at bit `2b`; bits above the coordinates add
nothing); when `G = P`, `pos r c = z(r, c)`, so `BP[r·G+c] = S + z(r, c)·B²` and the block
is stored there; the sequence of the doc comment is the listing by Z-order code for
`P = 4`, and for `n = 256` (`G = P = 4`) the `t`-th block of that sequence is stored at
`S + t·B²`.  The call returns exactly for `n ≤ 46344`. -/
theorem C25_z_order (w n : Nat) (st : RState) :
    (∀ q, reorder w n (n_blocks_power2_loop n n 1) 0 st 0 0 false = some q →
      ∃ (e : Nat) (pos : Nat → Nat → Nat), n_blocks_power2_loop n n 1 = 2 ^ e ∧
        q.2.M = st.M ∧
        (∀ r c, r < (n + 63) / 64 → c < (n + 63) / 64 →
          q.2.BP (r * ((n + 63) / 64) + c) = some (pos r c * (B * B)) ∧
          pos r c < (n + 63) / 64 * ((n + 63) / 64) ∧
          ∀ x y, x < 64 → y < 64 →
            q.2.S (pos r c * (B * B) + (x * 64 + y)) =
              if r * 64 + x < n ∧ c * 64 + y < n then
                wrapT w (-(st.M ((r * 64 + x) * n + (c * 64 + y))))
              else wrapT w (-(INF w))) ∧
        (∀ t, t < (n + 63) / 64 * ((n + 63) / 64) →
          ∃ r c, r < (n + 63) / 64 ∧ c < (n + 63) / 64 ∧ pos r c = t) ∧
        (∀ r c r2 c2, r < (n + 63) / 64 → c < (n + 63) / 64 → r2 < (n + 63) / 64 →
          c2 < (n + 63) / 64 → zcode e r c < zcode e r2 c2 → pos r c < pos r2 c2) ∧
        ((n + 63) / 64 = 2 ^ e → ∀ r c, r < (n + 63) / 64 → c < (n + 63) / 64 →
          pos r c = zcode e r c ∧
          q.2.BP (r * ((n + 63) / 64) + c) = some (zcode e r c * (B * B)) ∧
          ∀ x y, x < 64 → y < 64 →
            q.2.S (zcode e r c * (B * B) + (x * 64 + y)) =
              if r * 64 + x < n ∧ c * 64 + y < n then
                wrapT w (-(st.M ((r * 64 + x) * n + (c * 64 + y))))
              else wrapT w (-(INF w)))) ∧
    (∀ e k r c, r < 2 ^ e → c < 2 ^ e → zcode (e + k) r c = zcode e r c) ∧
    (∀ t, t < 16 → zcode 2 (zorder4.getD t (0, 0)).1 (zorder4.getD t (0, 0)).2 = t) ∧
    (∀ q, reorder w 256 (n_blocks_power2_loop 256 256 1) 0 st 0 0 false = some q →
      ∀ t, t < 16 →
        q.2.BP ((zorder4.getD t (0, 0)).1 * 4 + (zorder4.getD t (0, 0)).2) =
          some (t * (B * B)) ∧
        ∀ x y, x < 64 → y < 64 →
          q.2.S (t * (B * B) + (x * 64 + y)) =
            wrapT w (-(st.M (((zorder4.getD t (0, 0)).1 * 64 + x) * 256 +
              ((zorder4.getD t (0, 0)).2 * 64 + y))))) ∧
    ((∃ q, reorder w n (n_blocks_power2_loop n n 1) 0 st 0 0 false = some q) ↔ n ≤ 46344) := by
  refine ⟨fun q hq => ?_, fun e k r c hr hc => zcode_stable e r c hr hc k,
    fun t ht => (zorder4_rank t ht).2, fun q hq t ht => ?_, reorder_top_size w n st false⟩
  · obtain ⟨e, he, hGe, _, hM, hl⟩ := reorder_layout w n st q hq
    have hG : (n + B - 1) / B = (n + 63) / 64 := by simp only [B]; omega
    rw [hG] at hl hGe
    have cont : ∀ r c, r < (n + 63) / 64 → c < (n + 63) / 64 → ∀ x y, x < 64 → y < 64 →
        q.2.S (rank ((n + 63) / 64) e 0 0 r c * (B * B) + (x * 64 + y)) =
          if r * 64 + x < n ∧ c * 64 + y < n then
            wrapT w (-(st.M ((r * 64 + x) * n + (c * 64 + y))))
          else wrapT w (-(INF w)) := by
      intro r c hr hc x y hx hy
      obtain ⟨_, _, c1⟩ := hl r c hr hc
      have c2 := c1 x y hx hy
      simp only [padded, B] at c2
      rw [Nat.mul_comm]
      simp only [B]
      exact c2
    refine ⟨e, rank ((n + 63) / 64) e 0 0, he, hM, fun r c hr hc => ?_, fun t ht => ?_,
      fun r c r2 c2 hr hc hr2 hc2 hz => ?_, fun hP r c hr hc => ?_⟩
    · obtain ⟨a, b, _⟩ := hl r c hr hc
      exact ⟨by rw [a, Nat.mul_comm], b, cont r c hr hc⟩
    · rw [← cnt_top _ e hGe] at ht
      obtain ⟨r, c, hin, hr⟩ := rank_surj _ e 0 0 t ht
      obtain ⟨h1, h2⟩ := (InSq_top _ e r c hGe).mp hin
      exact ⟨r, c, h1, h2, hr⟩
    · exact rank_mono_z _ e 0 0 r c r2 c2 ((InSq_top _ e r c hGe).mpr ⟨hr, hc⟩)
        ((InSq_top _ e r2 c2 hGe).mpr ⟨hr2, hc2⟩) (by simpa using hz)
    · obtain ⟨a, _, _⟩ := hl r c hr hc
      have hf := rank_full _ e 0 0 r c (by omega) (by omega)
        ((InSq_top _ e r c hGe).mpr ⟨hr, hc⟩)
      simp only [Nat.sub_zero] at hf
      refine ⟨hf, by rw [a, hf, Nat.mul_comm], fun x y hx hy => ?_⟩
      rw [← hf]
      exact cont r c hr hc x y hx hy
  · obtain ⟨e, he, _, _, _, hl⟩ := reorder_layout w 256 st q hq
    have he2 : e = 2 := by
      rw [scale_256] at he
      exact (Nat.pow_right_injective (le_refl 2) he).symm
    subst he2
    have hG : (256 + B - 1) / B = 4 := by decide
    rw [hG] at hl
    have hb : (zorder4.getD t (0, 0)).1 < 4 ∧ (zorder4.getD t (0, 0)).2 < 4 := by
      interval_cases t <;> decide
    obtain ⟨a, _, c1⟩ := hl _ _ hb.1 hb.2
    rw [(zorder4_rank t ht).1] at a c1
    refine ⟨by rw [a, Nat.mul_comm], fun x y hx hy => ?_⟩
    have c2 := c1 x y hx hy
    simp only [padded, B] at c2
    rw [if_pos ⟨by omega, by omega⟩] at c2
    rw [Nat.mul_comm]
    simp only [B]
    exact c2

/-- C26 (reorder round trip): for every `n × n` matrix `M` with entries in
`[-max(T), max(T)]`, when the forward `reorder` from `M` into the scratch returns, the
reverse `reorder` from that unmodified scratch into any output buffer returns, leaves
`output[t] = M[t]` for every `t < n²` whatever the buffer held (so it writes each of the
`n²` elements), writes nothing beyond and leaves the scratch alone; the forward call
returns for every `n ≤ 46336`. -/
theorem C26_round_trip (w n : Nat) (M heap out0 : Mem) (BP0 : Table) (hw : 1 ≤ w)
    (hM : ∀ t, t < n * n → -(maxT w) ≤ M t ∧ M t ≤ maxT w) :
    (∀ q1, reorder w n (n_blocks_power2_loop n n 1) 0 ⟨heap, M, BP0⟩ 0 0 false = some q1 →
      ∃ q2, reorder w n (n_blocks_power2_loop n n 1) 0 ⟨q1.2.S, out0, q1.2.BP⟩ 0 0 true =
          some q2 ∧
        (∀ t, t < n * n → q2.2.M t = M t) ∧ (∀ t, n * n ≤ t → q2.2.M t = out0 t) ∧
        q2.2.S = q1.2.S) ∧
    (n ≤ 46336 →
      ∃ q1, reorder w n (n_blocks_power2_loop n n 1) 0 ⟨heap, M, BP0⟩ 0 0 false = some q1) := by
  refine ⟨fun q1 h => ?_, fun hn => reorder_top_some w n _ false hn⟩
  obtain ⟨q2, e2, a, b, c⟩ := reorder_round_trip w n M heap out0 BP0 q1 h
  refine ⟨q2, e2, fun t ht => ?_, b, c⟩
  obtain ⟨hi, hj, he⟩ := elem_split n t ht
  obtain ⟨m1, m2⟩ := hM t ht
  rw [he] at m1 m2 ⊢
  rw [a _ _ hi hj, wrapT_neg_max w hw _ m1 m2,
    wrapT_neg_max w hw _ (by linarith) (by linarith), neg_neg]

/-- Witness of C26: the `3 × 3` matrix of Scenario A, `T = int32_t`. -/
theorem C26_round_trip_witness :
    (∀ q1, reorder 32 3 (n_blocks_power2_loop 3 3 1) 0
        ⟨fun _ => 0, scenarioA_in 32, fun _ => none⟩ 0 0 false = some q1 →
      ∃ q2, reorder 32 3 (n_blocks_power2_loop 3 3 1) 0 ⟨q1.2.S, fun _ => 7, q1.2.BP⟩
          0 0 true = some q2 ∧
        (∀ t, t < 3 * 3 → q2.2.M t = scenarioA_in 32 t) ∧
        (∀ t, 3 * 3 ≤ t → q2.2.M t = (fun _ => 7) t) ∧ q2.2.S = q1.2.S) ∧
    (3 ≤ 46336 →
      ∃ q1, reorder 32 3 (n_blocks_power2_loop 3 3 1) 0
        ⟨fun _ => 0, scenarioA_in 32, fun _ => none⟩ 0 0 false = some q1) :=
  C26_round_trip 32 3 (scenarioA_in 32) (fun _ => 0) (fun _ => 7) (fun _ => none) (by decide)
    (fun t ht => by interval_cases t <;> decide)

end QFW

namespace QFW

/-- C27 (transpose-copy): for a grid of `G × G` blocks laid out without overlap, every
in-grid table entry set, and block ranges `[r0, r0+h)` and `[c0, c0+h)` apart,
`transpose_copy(h, G, r0, c0, BP)` returns and sets, for every `r` in
`[r0, min(r0+h, G))`, `c` in `[c0, min(c0+h, G))` and all `x, y` in `[0, 64)`,
`BP[c·G+r][x·64+y]` to the prior value of `BP[r·G+c][y·64+x]`; the source blocks, every
block that is not a destination and every address outside the destination blocks are
unchanged; the result is the same for every table that agrees on the in-grid entries
(block coordinates `≥ G` are not accessed). -/
theorem C27_transpose_copy (G : Nat) (blk : Nat → Nat → Nat) (BP : Table) (h r0 c0 : Nat)
    (m : Mem) (hBP : TableOk BP G blk) (hinj : LayoutInj G blk)
    (hdisj : r0 + h ≤ c0 ∨ c0 + h ≤ r0) :
    ∃ m2, transpose_copy h G r0 c0 BP m = some m2 ∧
      (∀ r c x y, r0 ≤ r → r < min (r0 + h) G → c0 ≤ c → c < min (c0 + h) G → x < B → y < B →
        BP (r * G + c) = some (blk r c) ∧ BP (c * G + r) = some (blk c r) ∧
        m2 (blk c r + (x * B + y)) = m (blk r c + (y * B + x)) ∧
        m2 (blk r c + (x * B + y)) = m (blk r c + (x * B + y))) ∧
      (∀ r c, r < G → c < G → ¬ (c0 ≤ r ∧ r < c0 + h ∧ r0 ≤ c ∧ c < r0 + h) →
        ∀ x y, x < B → y < B → m2 (blk r c + (x * B + y)) = m (blk r c + (x * B + y))) ∧
      (∀ a, ¬ DstAddr G blk h r0 c0 a → m2 a = m a) ∧
      (∀ BP2, TableOk BP2 G blk → transpose_copy h G r0 c0 BP2 m = some m2) := by
  obtain ⟨t1, t2⟩ := transposeAll_spec G blk hinj h r0 c0 hdisj m
  refine ⟨_, transpose_copy_eq G blk BP hBP h r0 c0 m, ?_, ?_, t1,
    fun BP2 h2 => transpose_copy_eq G blk BP2 h2 h r0 c0 m⟩
  · intro r c x y hr1 hr2 hc1 hc2 hx hy
    have hr3 : r < G := by rw [Nat.lt_min] at hr2; exact hr2.2
    have hc3 : c < G := by rw [Nat.lt_min] at hc2; exact hc2.2
    exact ⟨hBP r c hr3 hc3, hBP c r hc3 hr3, t2 r c x y hr1 hr2 hc1 hc2 hx hy,
      t1 _ (src_not_dst G blk hinj h r0 c0 hdisj r c x y hr1 hr2 hc1 hc2 hx hy)⟩
  · intro r c hr hc hn x y hx hy
    apply t1
    rintro ⟨i, j, x2, y2, a1, a2, a3, a4, a5, a6, a7⟩
    rw [Nat.lt_min] at a2 a4
    obtain ⟨e1, e2, _, _⟩ := hinj r c x y j i x2 y2 hr hc a4.2 a2.2 hx hy a5 a6 a7
    omega

/-- Witness of C27: a `2 × 2` grid of blocks one after the other, the upper-right block
copied to the lower-left one. -/
theorem C27_transpose_copy_witness :
    ∃ m2, transpose_copy 1 2 0 1 (fun t => some (B * B * t)) (fun t => (t : Int)) = some m2 ∧
      (∀ r c x y, 0 ≤ r → r < min (0 + 1) 2 → 1 ≤ c → c < min (1 + 1) 2 → x < B → y < B →
        (fun t => some (B * B * t) : Table) (r * 2 + c) = some (B * B * (r * 2 + c)) ∧
        (fun t => some (B * B * t) : Table) (c * 2 + r) = some (B * B * (c * 2 + r)) ∧
        m2 (B * B * (c * 2 + r) + (x * B + y)) =
          (fun t => (t : Int)) (B * B * (r * 2 + c) + (y * B + x)) ∧
        m2 (B * B * (r * 2 + c) + (x * B + y)) =
          (fun t => (t : Int)) (B * B * (r * 2 + c) + (x * B + y))) ∧
      (∀ r c, r < 2 → c < 2 → ¬ (1 ≤ r ∧ r < 1 + 1 ∧ 0 ≤ c ∧ c < 0 + 1) →
        ∀ x y, x < B → y < B → m2 (B * B * (r * 2 + c) + (x * B + y)) =
          (fun t => (t : Int)) (B * B * (r * 2 + c) + (x * B + y))) ∧
      (∀ a, ¬ DstAddr 2 (fun r c => B * B * (r * 2 + c)) 1 0 1 a →
        m2 a = (fun t => (t : Int)) a) ∧
      (∀ BP2, TableOk BP2 2 (fun r c => B * B * (r * 2 + c)) →
        transpose_copy 1 2 0 1 BP2 (fun t => (t : Int)) = some m2) :=
  C27_transpose_copy 2 (fun r c => B * B * (r * 2 + c)) (fun t => some (B * B * t)) 1 0 1
    (fun t => (t : Int)) (fun _ _ _ _ => rfl) layout_two (Or.inl (by decide))

/-- C28 (grid scale): for every `n` in `[1, 65535]` the doubling loop of `run` ends (more
iterations change nothing) with `n_blocks_power2 = P = 2 ^ e`, `P·64 ≥ n`, and `P = 1` or
`(P/2)·64 < n`, so `P` is the smallest power of two with `P·64 ≥ n`; no product `P·64`
overflows `int`; and `G = (n + 63) / 64` is `ceil(n / 64)` with `G ≤ P ≤ 1024`. -/
theorem C28_grid_scale (n : Nat) (hn1 : 1 ≤ n) (hn : n ≤ 65535) :
    ∃ e, n_blocks_power2_loop n n 1 = 2 ^ e ∧
      (∀ k, n_blocks_power2_loop n (n + k) 1 = 2 ^ e) ∧
      2 ^ e * 64 ≥ n ∧ (2 ^ e = 1 ∨ (2 ^ e / 2) * 64 < n) ∧
      (∀ e2, 2 ^ e2 * 64 ≥ n → 2 ^ e ≤ 2 ^ e2) ∧
      intOK (2 ^ e * B) ∧
      ((n + 63) / 64 * 64 ≥ n ∧ ((n + 63) / 64 - 1) * 64 < n) ∧
      (n + 63) / 64 ≤ 2 ^ e ∧ 2 ^ e ≤ 1024 := by
  obtain ⟨e, he, hk, h1, h2, h3, h4⟩ := grid_scale n hn1 hn
  simp only [B] at h1 h2
  refine ⟨e, he, hk, h1, h2, fun e2 h5 => ?_, ?_, by omega, h3, h4⟩
  · apply pow_two_le_of_half_lt
    rcases h2 with h2 | h2
    · exact Or.inl h2
    · exact Or.inr (by omega)
  · unfold intOK INT_MAX
    simp only [B]
    omega

/-- Witness of C28: `n = 65`, two blocks per row. -/
theorem C28_grid_scale_witness :
    ∃ e, n_blocks_power2_loop 65 65 1 = 2 ^ e ∧
      (∀ k, n_blocks_power2_loop 65 (65 + k) 1 = 2 ^ e) ∧
      2 ^ e * 64 ≥ 65 ∧ (2 ^ e = 1 ∨ (2 ^ e / 2) * 64 < 65) ∧
      (∀ e2, 2 ^ e2 * 64 ≥ 65 → 2 ^ e ≤ 2 ^ e2) ∧
      intOK (2 ^ e * B) ∧
      ((65 + 63) / 64 * 64 ≥ 65 ∧ ((65 + 63) / 64 - 1) * 64 < 65) ∧
      (65 + 63) / 64 ≤ 2 ^ e ∧ 2 ^ e ≤ 1024 :=
  C28_grid_scale 65 (by decide) (by decide)

end QFW

namespace QFW

/-- C29 (symmetric flag on an asymmetric input is not safe): for `T = int16_t`, `int32_t`
or `int64_t`, every lane count and `unroll_type`, the `65 × 65` input `asymInput` (zero
diagonal, `input[0·65+64] = 1`, `input[64·65+0] = 5`, every other entry `INF`) has its
entries in `[0, INF]` and is not symmetric; `floyd_warshall::run` with `symmetric = true`
returns `output[64·65+0] = 1`, whereas `run` with `symmetric = false` and
`floyd_warshall_naive::run` return `5` there; and on a `2 × 2` grid
`transpose_copy(1, 2, 0, 1, BP)` leaves in the lower-left block the transpose of the
upper-right one. -/
theorem C29_symmetric_flag_unsafe (w L u : Nat) (output heap : Mem)
    (hw : w = 16 ∨ w = 32 ∨ w = 64) (hL : 0 < L) (hLB : L ∣ B) (hu : u ≤ 3) :
    ValidInput w 65 (asymInput w) ∧ ¬ SymmetricInput 65 (asymInput w) ∧
    (∀ i j, i < 65 → j < 65 → asymInput w (i * 65 + j) =
      if i = j then 0 else if i = 0 ∧ j = 64 then 1 else if i = 64 ∧ j = 0 then 5
      else INF w) ∧
    (∃ out, run w L u 65 (asymInput w) output true heap = some out ∧ out (64 * 65 + 0) = 1) ∧
    (∃ out, run w L u 65 (asymInput w) output false heap = some out ∧
      out (64 * 65 + 0) = 5) ∧
    (∃ out, floyd_warshall_naive.run w 65 (asymInput w) output = some out ∧
      out (64 * 65 + 0) = 5) ∧
    (∀ blk BP m, TableOk BP 2 blk → LayoutInj 2 blk →
      ∃ m2, transpose_copy 1 2 0 1 BP m = some m2 ∧
        ∀ a b, 64 ≤ a → a < 128 → b < 64 → view blk m2 a b = view blk m b a) := by
  have hw1 : 1 ≤ w := by omega
  have h5 : 5 ≤ INF w := by
    rcases hw with rfl | rfl | rfl <;> decide
  refine ⟨asymInput_valid w h5, asymInput_not_symm w, fun i j _ hj => asymInput_at w i j hj,
    run_asym_true w L u hw1 hL hLB hu h5 output heap,
    run_asym_false w L u hw1 hL hLB hu h5 output heap, naive_asym w hw1 h5 output,
    fun blk BP m hBP hinj => ?_⟩
  refine ⟨_, transpose_copy_eq 2 blk BP hBP 1 0 1 m, fun a b ha1 ha2 hb => ?_⟩
  exact (transposeAll_view 2 blk hinj 1 0 1 (Or.inl (by decide)) m a b
    (by simp only [B]; omega) (by simp only [B]; omega)).1
    ⟨by simp only [Rows, B]; omega, by simp only [Rows, B]; omega⟩

/-- Witness of C29: `T = int32_t`, eight lanes, `unroll_type = 0`. -/
theorem C29_symmetric_flag_unsafe_witness :
    ValidInput 32 65 (asymInput 32) ∧ ¬ SymmetricInput 65 (asymInput 32) ∧
    (∀ i j, i < 65 → j < 65 → asymInput 32 (i * 65 + j) =
      if i = j then 0 else if i = 0 ∧ j = 64 then 1 else if i = 64 ∧ j = 0 then 5
      else INF 32) ∧
    (∃ out, run 32 8 0 65 (asymInput 32) (fun _ => 0) true (fun _ => 0) = some out ∧
      out (64 * 65 + 0) = 1) ∧
    (∃ out, run 32 8 0 65 (asymInput 32) (fun _ => 0) false (fun _ => 0) = some out ∧
      out (64 * 65 + 0) = 5) ∧
    (∃ out, floyd_warshall_naive.run 32 65 (asymInput 32) (fun _ => 0) = some out ∧
      out (64 * 65 + 0) = 5) ∧
    (∀ blk BP m, TableOk BP 2 blk → LayoutInj 2 blk →
      ∃ m2, transpose_copy 1 2 0 1 BP m = some m2 ∧
        ∀ a b, 64 ≤ a → a < 128 → b < 64 → view blk m2 a b = view blk m b a) :=
  C29_symmetric_flag_unsafe 32 8 0 (fun _ => 0) (fun _ => 0) (Or.inr (Or.inl rfl)) (by decide)
    ⟨8, rfl⟩ (by decide)

end QFW
